import Mathlib

/-!
SpeedyKeyV: a verification development

A shallow embedding of `KeyValue.cpp` / `KeyValue.h`.

Conventions of the embedding.

* A `char` is a byte value in `Nat`.  A `const char*` walking a NUL terminated
  buffer is the list of the bytes from the pointer to the end of the buffer;
  reading at the end of the list reads the terminator (`peek [] = 0`).  Every
  loop of the source tests for the byte 0 itself, so a 0 inside the list stops
  the code exactly as the terminator does.
* A `kvString_t` (pointer, length) is the list of the `length` bytes it views.
* The chain of siblings hanging from `data.node.children` through `next` is
  the list of the nodes of the chain, in order; `childCount` stays a separate
  field because the source maintains it separately.
* Sizes (`size_t`, `unsigned int`, `int`) are unbounded naturals: the counters
  of the source count bytes and nodes of objects that exist in memory.
-/

namespace SpeedyKeyV

/-! ## Constants of `KeyValue.cpp` -/

/-- The byte `{`. -/
abbrev BLOCK_BEGIN : Nat := 123
/-- The byte `}`. -/
abbrev BLOCK_END : Nat := 125
/-- The byte `"`. -/
abbrev STRING_CONTAINER : Nat := 34
/-- The byte `/`, both bytes of `SINGLE_LINE_COMMENT`. -/
abbrev SLASH : Nat := 47
/-- The four spaces of `TAB_STYLE` (without its terminator). -/
abbrev TAB_STYLE : List Nat := [32, 32, 32, 32]
/-- The value of `sizeof(TAB_STYLE)`: four spaces and the terminator. -/
abbrev SIZEOF_TAB_STYLE : Nat := 5

/-- The enum `KeyValueErrorCode` of `KeyValue.h`. -/
inductive KeyValueErrorCode where
  | NONE
  | INCOMPLETE_BLOCK
  | INCOMPLETE_PAIR
  | UNEXPECTED_START_OF_BLOCK
  | UNEXPECTED_END_OF_BLOCK
  | INCOMPLETE_STRING
  | NO_INPUT
  deriving DecidableEq, Repr

/-! ## Lexer -/

/-- The byte under a `const char*`: `*str`, the terminator at the end. -/
def peek (str : List Nat) : Nat := str.headD 0

/-- `IsWhitespace(char c)`: `(c < '!' || c > '~') && (c >= 0 && c <= 127)`.
A byte above 127 fails `c <= 127` when `char` is unsigned and `c >= 0` when it
is signed, so it is no whitespace either way. -/
def IsWhitespace (c : Nat) : Bool := (c < 33 || c > 126) && c ≤ 127

/-- `IsSpecialCharacter(char c, char cc)`. -/
def IsSpecialCharacter (c cc : Nat) : Bool :=
  c == STRING_CONTAINER || c == BLOCK_BEGIN || c == BLOCK_END || (c == SLASH && cc == SLASH)

/-- The first loop of `SkipWhitespace`: `for (; IsWhitespace(*str) && *str; str++);`. -/
def skipSpaces : List Nat → List Nat
  | [] => []
  | c :: rest => if IsWhitespace c && c != 0 then skipSpaces rest else c :: rest

/-- The second loop of `SkipWhitespace`:
`for (char c = *str; c && c != '\r' && c != '\n'; c = *++str);`. -/
def skipLine : List Nat → List Nat
  | [] => []
  | c :: rest => if c != 0 && c != 13 && c != 10 then skipLine rest else c :: rest

/-- The test `strncmp(str, SINGLE_LINE_COMMENT, 2) == 0`. -/
def startsComment (str : List Nat) : Bool := peek str == SLASH && peek str.tail == SLASH

/-- The body of `SkipWhitespace`; one unit of `gotos` is spent on each
`goto startOfSkip`. -/
def SkipWhitespaceAux : (gotos : Nat) → List Nat → List Nat
  | 0, str => skipSpaces str
  | gotos + 1, str =>
    let str := skipSpaces str
    if startsComment str then SkipWhitespaceAux gotos (skipLine str) else str

/-- `SkipWhitespace(const char*& str)`: the new position.  Every `goto` follows
a comment of two bytes at least, so `str.length` of them are never used up. -/
def SkipWhitespace (str : List Nat) : List Nat := SkipWhitespaceAux str.length str

/-- The scan of `ReadQuotedString`:
`for (char c = *str; c && c != STRING_CONTAINER; c = *++str);`,
giving the bytes passed over and the position reached. -/
def scanQuoted : List Nat → List Nat × List Nat
  | [] => ([], [])
  | c :: rest =>
    if c != 0 && c != STRING_CONTAINER then ((scanQuoted rest).1.cons c, (scanQuoted rest).2)
    else ([], c :: rest)

/-- `ReadQuotedString(const char*& str, kvString_t& inset)`: the error code, the
new position and the slice.  On `INCOMPLETE_STRING` the position stays on the
terminator and `inset.length` is never assigned (it keeps the length 0 of the
constructor `kvString_t()`). -/
def ReadQuotedString (str : List Nat) : KeyValueErrorCode × List Nat × List Nat :=
  let str := str.tail
  let scan := scanQuoted str
  if peek scan.2 == 0 then (KeyValueErrorCode.INCOMPLETE_STRING, scan.2, [])
  else (KeyValueErrorCode.NONE, scan.2.tail, scan.1)

/-- `ReadQuotelessString(const char*& str)`: the slice and the new position,
`for (; !IsWhitespace(*str) && !IsSpecialCharacter(str[0], str[1]); str++);`. -/
def ReadQuotelessString : List Nat → List Nat × List Nat
  | [] => ([], [])
  | c :: rest =>
    if !IsWhitespace c && !IsSpecialCharacter c (peek rest) then
      ((ReadQuotelessString rest).1.cons c, (ReadQuotelessString rest).2)
    else ([], c :: rest)

/-! ## Tree model -/

/-- A `KeyValue` object together with what hangs from it: a leaf (`isNode`
false, `data.leaf.value`) or an interior node (`isNode` true, the chain from
`data.node.children`, and `data.node.childCount`). -/
inductive KeyValue where
  | leaf (key : List Nat) (value : List Nat)
  | node (key : List Nat) (children : List KeyValue) (childCount : Nat)
  deriving Repr

/-- What a call of `KeyValue::Parse` leaves behind: the returned code, the
position `str`, the chain and counter of `this`, and `rootNode->bufferSize`. -/
structure ParseResult where
  error : KeyValueErrorCode
  str : List Nat
  children : List KeyValue
  childCount : Nat
  bufferSize : Nat
  deriving Repr

/-- Outcome of the first `switch` of the parser loop (the key). -/
inductive KeyStep where
  /-- A `return` with an error code. -/
  | ret (error : KeyValueErrorCode) (str : List Nat)
  /-- The jump `goto end`. -/
  | done (str : List Nat)
  /-- The key was read (`break`). -/
  | key (str : List Nat) (pairkey : List Nat)
  deriving Repr

/-- The first `switch (c)` of `KeyValue::Parse` (lines 502-547), entered after
`SkipWhitespace(str); c = *str;`. -/
def parseKey (str : List Nat) (isRoot : Bool) : KeyStep :=
  let c := peek str
  if c = STRING_CONTAINER then
    match ReadQuotedString str with
    | (KeyValueErrorCode.NONE, str, pairkey) => KeyStep.key str pairkey
    | (error, str, _) => KeyStep.ret error str
  else if c = BLOCK_END then
    if isRoot then KeyStep.ret KeyValueErrorCode.UNEXPECTED_END_OF_BLOCK str.tail
    else KeyStep.done str.tail
  else if c = 0 then
    if isRoot then KeyStep.done str
    else KeyStep.ret KeyValueErrorCode.INCOMPLETE_BLOCK str
  else if c = BLOCK_BEGIN then
    KeyStep.ret KeyValueErrorCode.UNEXPECTED_START_OF_BLOCK str
  else
    KeyStep.key (ReadQuotelessString str).2 (ReadQuotelessString str).1

/-- Linking a new pair at the end of the chain (lines 619-627): after
`lastKV` when there is one, as `data.node.children` otherwise. -/
def linkPair (children : List KeyValue) (lastKV : Bool) (pair : KeyValue) : List KeyValue :=
  if lastKV then children ++ [pair] else [pair]

/-- `KeyValue::Parse(const char*& str, const bool isRoot)` run on a node whose
chain is `children` and whose counter is `childCount`; `lastKV` tells whether
the local `lastKV` is non-null (then it is the last node of `children`).
One unit of `fuel` is spent per loop iteration and per nested call; `none`
means the fuel ran out. -/
def KeyValue.Parse : (fuel : Nat) → (str : List Nat) → (isRoot : Bool) →
    (children : List KeyValue) → (lastKV : Bool) → (childCount : Nat) → (bufferSize : Nat) →
    Option ParseResult
  | 0, _, _, _, _, _, _ => none
  | fuel + 1, str, isRoot, children, lastKV, childCount, bufferSize =>
    match parseKey (SkipWhitespace str) isRoot with
    | KeyStep.ret error str => some ⟨error, str, children, childCount, bufferSize⟩
    | KeyStep.done str => some ⟨KeyValueErrorCode.NONE, str, children, childCount, bufferSize⟩
    | KeyStep.key str pairkey =>
      let bufferSize := bufferSize + (pairkey.length + 1)
      let str := SkipWhitespace str
      let c := peek str
      if c = STRING_CONTAINER then
        match ReadQuotedString str with
        | (KeyValueErrorCode.NONE, str, stringValue) =>
          KeyValue.Parse fuel str isRoot
            (linkPair children lastKV (KeyValue.leaf pairkey stringValue)) true
            (childCount + 1) (bufferSize + (stringValue.length + 1))
        | (error, str, _) => some ⟨error, str, children, childCount, bufferSize⟩
      else if c = BLOCK_BEGIN then
        match KeyValue.Parse fuel str.tail false [] false 0 bufferSize with
        | none => none
        | some sub =>
          if sub.error = KeyValueErrorCode.NONE then
            KeyValue.Parse fuel sub.str isRoot
              (linkPair children lastKV (KeyValue.node pairkey sub.children sub.childCount)) true
              (childCount + 1) sub.bufferSize
          else some ⟨sub.error, sub.str, children, childCount, sub.bufferSize⟩
      else if c = 0 then
        some ⟨KeyValueErrorCode.INCOMPLETE_PAIR, str, children, childCount, bufferSize⟩
      else if c = BLOCK_END then
        some ⟨KeyValueErrorCode.UNEXPECTED_END_OF_BLOCK, str, children, childCount, bufferSize⟩
      else
        KeyValue.Parse fuel (ReadQuotelessString str).2 isRoot
          (linkPair children lastKV (KeyValue.leaf pairkey (ReadQuotelessString str).1)) true
          (childCount + 1) (bufferSize + ((ReadQuotelessString str).1.length + 1))

/-! ## Buffers -/

/-- `memcpy(buf + dest, src, n)` inside the buffer `buf`; `none` when the `n`
bytes would not fit in the buffer. -/
def memcpy (buf : List Nat) (dest : Nat) (src : List Nat) (n : Nat) : Option (List Nat) :=
  if dest + n ≤ buf.length then some (buf.take dest ++ src.take n ++ buf.drop (dest + n))
  else none

/-- The store `buf[i] = v`; `none` when `i` is outside the buffer. -/
def store (buf : List Nat) (i : Nat) (v : Nat) : Option (List Nat) :=
  if i < buf.length then some (buf.set i v) else none

/-- The `n` bytes of the buffer at offset `at`: what a slice pointing there views. -/
def slice (buf : List Nat) (off : Nat) (n : Nat) : List Nat := (buf.drop off).take n

/-- A NUL terminated string read from a buffer: the bytes before the first 0. -/
def cstr (buf : List Nat) : List Nat := buf.takeWhile (fun c => c != 0)

/-- Freshly allocated memory of `n` bytes, whose content `junk` is arbitrary. -/
def alloc (junk : Nat → Nat) (n : Nat) : List Nat := (List.range n).map junk

/-! ## String consolidation -/

/-- Copying one slice the way `BuildData` does (lines 647-650 and 661-664):
`memcpy`, the terminator, the slice now views the copy, `destBuffer` moves on.
Gives the new slice, the buffer and the new `destBuffer`. -/
def copySlice (s : List Nat) (buf : List Nat) (dest : Nat) : Option (List Nat × List Nat × Nat) :=
  match memcpy buf dest s s.length with
  | none => none
  | some buf1 =>
    match store buf1 (dest + s.length) 0 with
    | none => none
    | some buf2 => some (slice buf2 dest s.length, buf2, dest + (s.length + 1))

mutual
/-- The body of the loop of `KeyValue::BuildData` for the node `current`. -/
def BuildDataNode : KeyValue → List Nat → Nat → Option (KeyValue × List Nat × Nat)
  | KeyValue.leaf key value, buf, dest =>
    match copySlice key buf dest with
    | none => none
    | some (key1, buf1, dest1) =>
      match copySlice value buf1 dest1 with
      | none => none
      | some (value1, buf2, dest2) => some (KeyValue.leaf key1 value1, buf2, dest2)
  | KeyValue.node key children childCount, buf, dest =>
    match copySlice key buf dest with
    | none => none
    | some (key1, buf1, dest1) =>
      if childCount > 0 then
        match BuildData childCount children buf1 dest1 with
        | none => none
        | some (children1, buf2, dest2) => some (KeyValue.node key1 children1 childCount, buf2, dest2)
      else some (KeyValue.node key1 children childCount, buf1, dest1)
/-- `KeyValue::BuildData(char*& destBuffer)` on a node with counter `childCount`
and chain `chain`: `childCount` iterations, each following `current->next`;
`none` when `current` is null in an iteration or a write leaves the buffer. -/
def BuildData : Nat → List KeyValue → List Nat → Nat → Option (List KeyValue × List Nat × Nat)
  | 0, chain, buf, dest => some (chain, buf, dest)
  | _ + 1, [], _, _ => none
  | n + 1, current :: rest, buf, dest =>
    match BuildDataNode current buf dest with
    | none => none
    | some (current1, buf1, dest1) =>
      match BuildData n rest buf1 dest1 with
      | none => none
      | some (rest1, buf2, dest2) => some (current1 :: rest1, buf2, dest2)
end

/-! ## The document -/

/-- The fields of a `KeyValueRoot` the parser and the serializer use: the chain
and counter of the root node, `stringBuffer` (`none` for `nullptr`),
`bufferSize` and `solidified`. -/
structure KeyValueRoot where
  children : List KeyValue
  childCount : Nat
  stringBuffer : Option (List Nat)
  bufferSize : Nat
  solidified : Bool
  deriving Repr

/-- The constructor `KeyValueRoot::KeyValueRoot()`. -/
def KeyValueRoot.new : KeyValueRoot := ⟨[], 0, none, 0, false⟩

/-- `KeyValueRoot::Parse(const char* str)`: `str = none` is the null pointer;
`junk` is the content of the memory `malloc` returns.  The outer `none` means
the model ran out of fuel or `BuildData` left its buffer. -/
def KeyValueRoot.Parse (this : KeyValueRoot) (junk : Nat → Nat) (str : Option (List Nat)) :
    Option (KeyValueErrorCode × KeyValueRoot) :=
  match str with
  | none => some (KeyValueErrorCode.NO_INPUT, this)
  | some str =>
    match KeyValue.Parse (str.length + 1) str true this.children false this.childCount
        this.bufferSize with
    | none => none
    | some res =>
      if res.error = KeyValueErrorCode.NONE then
        if res.bufferSize > 0 then
          match BuildData res.childCount res.children (alloc junk res.bufferSize) 0 with
          | none => none
          | some (children1, buf, _) =>
            some (KeyValueErrorCode.NONE,
              ⟨children1, res.childCount, some buf, res.bufferSize, this.solidified⟩)
        else
          some (KeyValueErrorCode.NONE,
            ⟨res.children, res.childCount, this.stringBuffer, res.bufferSize, this.solidified⟩)
      else
        some (res.error,
          ⟨res.children, res.childCount, this.stringBuffer, res.bufferSize, this.solidified⟩)

/-! ## Serializer -/

/-- The write cursor of the serializer: the buffer, the offset `str` of the
next byte and the remaining capacity `maxLength`. -/
structure Writer where
  buf : List Nat
  str : Nat
  maxLength : Nat
  deriving Repr

/-- `CopyAndShift(char*& dest, char* src, size_t& destLength, size_t srcLength)`. -/
def CopyAndShift (w : Writer) (src : List Nat) (srcLength : Nat) : Option Writer :=
  let minLength := min w.maxLength srcLength
  match memcpy w.buf w.str src minLength with
  | none => none
  | some buf => some ⟨buf, w.str + minLength, w.maxLength - minLength⟩

/-- `TabFill(char*& str, size_t& maxLength, int tabCount)`. -/
def TabFill (w : Writer) : (tabCount : Nat) → Option Writer
  | 0 => some w
  | tabCount + 1 =>
    match CopyAndShift w TAB_STYLE 4 with
    | none => none
    | some w1 => TabFill w1 tabCount

mutual
/-- The body of the loop of `KeyValue::ToString` for the node `current`. -/
def ToStringNode : KeyValue → Writer → Nat → Option Writer
  | KeyValue.leaf key value, w, tabCount =>
    (TabFill w tabCount).bind fun w =>
    (CopyAndShift w [34] 1).bind fun w =>
    (CopyAndShift w key key.length).bind fun w =>
    (CopyAndShift w [34, 32] 2).bind fun w =>
    (CopyAndShift w [34] 1).bind fun w =>
    (CopyAndShift w value value.length).bind fun w =>
    CopyAndShift w [34, 10] 2
  | KeyValue.node key children _, w, tabCount =>
    (TabFill w tabCount).bind fun w =>
    (CopyAndShift w [34] 1).bind fun w =>
    (CopyAndShift w key key.length).bind fun w =>
    (CopyAndShift w [34, 32] 2).bind fun w =>
    (CopyAndShift w [10] 1).bind fun w =>
    (TabFill w tabCount).bind fun w =>
    (CopyAndShift w [123, 10] 2).bind fun w =>
    (ToString children w (tabCount + 1)).bind fun w =>
    (TabFill w tabCount).bind fun w =>
    CopyAndShift w [125, 10] 2
/-- `KeyValue::ToString(char*& str, size_t& maxLength, int tabCount)` on a node
whose chain is the given list: the loop follows `next` to the null pointer. -/
def ToString : List KeyValue → Writer → Nat → Option Writer
  | [], w, _ => some w
  | current :: rest, w, tabCount =>
    (ToStringNode current w tabCount).bind fun w => ToString rest w tabCount
end

mutual
/-- The amount the loop of `KeyValue::ToStringLength` adds for `current`;
`sizeof(STRING_CONTAINER)`, `sizeof(BLOCK_BEGIN)` and `sizeof(BLOCK_END)` are 1
and `sizeof(TAB_STYLE)` is 5. -/
def ToStringLengthNode : KeyValue → Nat → Nat
  | KeyValue.leaf key value, tabCount =>
    tabCount * SIZEOF_TAB_STYLE + (1 + key.length + 1) + (1 + 1 + value.length + 1 + 1)
  | KeyValue.node key children _, tabCount =>
    tabCount * SIZEOF_TAB_STYLE + (1 + key.length + 1)
      + (1 + tabCount * SIZEOF_TAB_STYLE + 1 + 1)
      + ToStringLength children (tabCount + 1)
      + (1 + tabCount * SIZEOF_TAB_STYLE + 1 + 1)
/-- `KeyValue::ToStringLength(int tabCount)` on a node with the given chain. -/
def ToStringLength : List KeyValue → Nat → Nat
  | [], _ => 0
  | current :: rest, tabCount => ToStringLengthNode current tabCount + ToStringLength rest tabCount
end

/-- `KeyValue::ToString(char* str, size_t maxLength)` of the header:
`ToString(str, maxLength, 0); if (maxLength > 0) str[0] = 0;`, where `str` is
the offset `w.str` into the caller's buffer.  Gives the buffer afterwards. -/
def ToStringBuffer (children : List KeyValue) (w : Writer) : Option (List Nat) :=
  match ToString children w 0 with
  | none => none
  | some w1 => if w1.maxLength > 0 then store w1.buf w1.str 0 else some w1.buf

/-- `char* KeyValue::ToString()`: the buffer of `ToStringLength(0) + 1` bytes it
returns; `junk` is the content of the memory `new char[length]` returns. -/
def ToStringOwned (children : List KeyValue) (junk : Nat → Nat) : Option (List Nat) :=
  let length := ToStringLength children 0 + 1
  match ToStringBuffer children ⟨alloc junk length, 0, length⟩ with
  | none => none
  | some buf => store buf (length - 1) 0

/-! ## Concrete syntax (specification level)

The claims about the parser speak of texts made of tokens, gaps and blocks.
The definitions below describe such texts; they follow the wording of the
specification and are not part of the program. -/

/-- A gap between two tokens: whitespace bytes other than NUL (1..32 and 127)
and complete line comments (`//`, any bytes other than CR, LF and NUL, then a
line break). -/
inductive IsGap : List Nat → Prop where
  | nil : IsGap []
  | space (c : Nat) (g : List Nat) : (1 ≤ c ∧ c ≤ 32 ∨ c = 127) → IsGap g → IsGap (c :: g)
  | comment (body : List Nat) (eol : Nat) (g : List Nat) :
      (∀ c ∈ body, c ≠ 0 ∧ c ≠ 13 ∧ c ≠ 10) → (eol = 10 ∨ eol = 13) → IsGap g →
      IsGap (SLASH :: SLASH :: (body ++ eol :: g))

/-- What may stand between the last token and the end of the input: a gap,
possibly followed by a line comment that the end of the input closes. -/
inductive IsEnding : List Nat → Prop where
  | gap (g : List Nat) : IsGap g → IsEnding g
  | comment (g body : List Nat) : IsGap g → (∀ c ∈ body, c ≠ 0 ∧ c ≠ 13 ∧ c ≠ 10) →
      IsEnding (g ++ SLASH :: SLASH :: body)

/-- A key or value token as it is spelled: between quotes or bare. -/
structure Token where
  quoted : Bool
  text : List Nat
  deriving Repr

/-- The bytes of a token in the input. -/
def Token.render (t : Token) : List Nat :=
  if t.quoted then STRING_CONTAINER :: (t.text ++ [STRING_CONTAINER]) else t.text

/-- Does the text contain `//`? -/
def containsComment : List Nat → Bool
  | [] => false
  | c :: rest => (c == SLASH && peek rest == SLASH) || containsComment rest

/-- A byte a bare token may contain: no whitespace (0..32, 127), no quote, no brace. -/
def isBareByte (c : Nat) : Bool :=
  !(c ≤ 32 || c == 127) && c != STRING_CONTAINER && c != BLOCK_BEGIN && c != BLOCK_END

/-- The text after a bare token ends it: the end of the input, a whitespace
byte, a quote, a brace or the start of a line comment. -/
def endsBare (after : List Nat) : Bool :=
  peek after ≤ 32 || peek after == 127 || peek after == STRING_CONTAINER
    || peek after == BLOCK_BEGIN || peek after == BLOCK_END
    || (peek after == SLASH && peek after.tail == SLASH)

/-- A token is well formed in front of the text `after`: a quoted token holds
no quote and no NUL; a bare token is non-empty, made of bare bytes, holds no
`//` (not even together with the byte that follows it) and is ended by `after`. -/
def Token.Valid (t : Token) (after : List Nat) : Prop :=
  if t.quoted then ∀ c ∈ t.text, c ≠ 0 ∧ c ≠ STRING_CONTAINER
  else t.text ≠ [] ∧ (∀ c ∈ t.text, isBareByte c = true)
    ∧ containsComment (t.text ++ [peek after]) = false ∧ endsBare after = true

/-- A pair as it is written: the gap before the key, the key, the gap after the
key, and then a value token, or `{`, the pairs of the block, the gap before
`}` and `}`. -/
inductive Item where
  | leaf (pre : List Nat) (k : Token) (gap : List Nat) (v : Token)
  | node (pre : List Nat) (k : Token) (gap : List Nat) (body : List Item) (close : List Nat)
  deriving Repr

mutual
/-- The bytes of a written pair. -/
def Item.render : Item → List Nat
  | Item.leaf pre k gap v => pre ++ (k.render ++ (gap ++ v.render))
  | Item.node pre k gap body close =>
    pre ++ (k.render ++ (gap ++ BLOCK_BEGIN :: (renderItems body ++ (close ++ [BLOCK_END]))))
/-- The bytes of a sequence of written pairs. -/
def renderItems : List Item → List Nat
  | [] => []
  | it :: rest => it.render ++ renderItems rest
end

mutual
/-- The node a written pair stands for. -/
def Item.tree : Item → KeyValue
  | Item.leaf _ k _ v => KeyValue.leaf k.text v.text
  | Item.node _ k _ body _ => KeyValue.node k.text (treeItems body) body.length
/-- The nodes a sequence of written pairs stands for. -/
def treeItems : List Item → List KeyValue
  | [] => []
  | it :: rest => it.tree :: treeItems rest
end

mutual
/-- A written pair is well formed in front of the text `after`. -/
def Item.Valid : Item → List Nat → Prop
  | Item.leaf pre k gap v, after =>
    IsGap pre ∧ k.Valid (gap ++ (v.render ++ after)) ∧ IsGap gap ∧ v.Valid after
  | Item.node pre k gap body close, after =>
    IsGap pre ∧ k.Valid (gap ++ BLOCK_BEGIN :: (renderItems body ++ (close ++ BLOCK_END :: after)))
      ∧ IsGap gap ∧ ValidItems body (close ++ BLOCK_END :: after) ∧ IsGap close
/-- A sequence of written pairs is well formed in front of the text `after`. -/
def ValidItems : List Item → List Nat → Prop
  | [], _ => True
  | it :: rest, after => it.Valid (renderItems rest ++ after) ∧ ValidItems rest after
end

mutual
/-- The bytes the strings of a node take in the consolidated buffer: its key
and, for a leaf, its value, each with one terminator, and those of its chain. -/
def KeyValue.stringBytes : KeyValue → Nat
  | KeyValue.leaf key value => (key.length + 1) + (value.length + 1)
  | KeyValue.node key children _ => (key.length + 1) + stringBytesList children
/-- The bytes the strings of a chain take in the consolidated buffer. -/
def stringBytesList : List KeyValue → Nat
  | [] => 0
  | kv :: rest => kv.stringBytes + stringBytesList rest
end

/-- The chain of a node after the nodes `ts` were linked to it in turn by the
parser, starting from the chain `children` and the flag `lastKV`. -/
def linkItems (children : List KeyValue) (lastKV : Bool) : List KeyValue → List KeyValue
  | [] => children
  | t :: ts => linkPair children lastKV t ++ ts

/-- A string that can stand between quotes: no NUL and no quote byte. -/
def Quotable (s : List Nat) : Prop := ∀ c ∈ s, c ≠ 0 ∧ c ≠ STRING_CONTAINER

mutual
/-- A tree whose keys and values can stand between quotes and whose counters
are the lengths of the chains. -/
def KeyValue.WellFormed : KeyValue → Prop
  | KeyValue.leaf key value => Quotable key ∧ Quotable value
  | KeyValue.node key children childCount =>
    Quotable key ∧ childCount = children.length ∧ WellFormedList children
/-- A chain of well formed trees. -/
def WellFormedList : List KeyValue → Prop
  | [] => True
  | kv :: rest => kv.WellFormed ∧ WellFormedList rest
end

mutual
/-- The canonical text of a node: `"key" "value"` for a leaf and
`"key" { children }` for an interior node. -/
def KeyValue.canon : KeyValue → List Nat
  | KeyValue.leaf key value =>
    STRING_CONTAINER :: (key ++ STRING_CONTAINER :: 32 :: STRING_CONTAINER ::
      (value ++ [STRING_CONTAINER]))
  | KeyValue.node key children _ =>
    STRING_CONTAINER :: (key ++ STRING_CONTAINER :: 32 :: BLOCK_BEGIN ::
      (canonSpaced children ++ [32, BLOCK_END]))
/-- The canonical texts of the nodes of a chain, a space before each. -/
def canonSpaced : List KeyValue → List Nat
  | [] => []
  | kv :: rest => 32 :: (kv.canon ++ canonSpaced rest)
end

/-- The canonical text of a document: the canonical texts of the children of
the root, separated by single spaces. -/
def canonText : List KeyValue → List Nat
  | [] => []
  | kv :: rest => kv.canon ++ canonSpaced rest

mutual
/-- The canonical way of writing a node, after the gap `pre`. -/
def KeyValue.toItem : KeyValue → List Nat → Item
  | KeyValue.leaf key value, pre => Item.leaf pre ⟨true, key⟩ [32] ⟨true, value⟩
  | KeyValue.node key children _, pre => Item.node pre ⟨true, key⟩ [32] (toItemsSpaced children) [32]
/-- The canonical way of writing a chain, a space before each node. -/
def toItemsSpaced : List KeyValue → List Item
  | [] => []
  | kv :: rest => kv.toItem [32] :: toItemsSpaced rest
end

/-- The buffer `buf` with the bytes `data` written at offset `dest`. -/
def overwrite (buf : List Nat) (dest : Nat) (data : List Nat) : List Nat :=
  buf.take dest ++ data ++ buf.drop (dest + data.length)

mutual
/-- The counters of a tree are the lengths of its chains. -/
def KeyValue.Counted : KeyValue → Prop
  | KeyValue.leaf _ _ => True
  | KeyValue.node _ children childCount => childCount = children.length ∧ CountedList children
/-- The counters of the trees of a chain are the lengths of their chains. -/
def CountedList : List KeyValue → Prop
  | [] => True
  | kv :: rest => kv.Counted ∧ CountedList rest
end

mutual
/-- The strings of a node as the consolidated buffer holds them: the key and a
0 byte, then for a leaf the value and a 0 byte, for an interior node the
strings of its chain. -/
def KeyValue.stringData : KeyValue → List Nat
  | KeyValue.leaf key value => key ++ 0 :: (value ++ [0])
  | KeyValue.node key children _ => key ++ 0 :: stringDataList children
/-- The strings of the nodes of a chain, in order. -/
def stringDataList : List KeyValue → List Nat
  | [] => []
  | kv :: rest => kv.stringData ++ stringDataList rest
end

/-- The document a successful `KeyValueRoot::Parse` leaves, from a fresh root,
when the chain it built is `kvs`: the counter is the length of the chain,
`bufferSize` the tally of the strings, and `stringBuffer` (when the tally is
not 0) a buffer of that size holding the strings. -/
def parsed (kvs : List KeyValue) (junk : Nat → Nat) : KeyValueRoot :=
  ⟨kvs, kvs.length,
    if stringBytesList kvs > 0 then
      some (overwrite (alloc junk (stringBytesList kvs)) 0 (stringDataList kvs))
    else none,
    stringBytesList kvs, false⟩

/-- A block that is open at some position of the input: the complete pairs
written before it at its level, then the gap, the key and the gap that lead to
its `{`. -/
structure Frame where
  items : List Item
  pre : List Nat
  key : Token
  gap : List Nat
  deriving Repr

/-- The text that leads into the open blocks `frames`, outermost first, followed by `inner`. -/
def renderFrames : List Frame → List Nat → List Nat
  | [], inner => inner
  | fr :: rest, inner =>
    renderItems fr.items
      ++ (fr.pre ++ (fr.key.render ++ (fr.gap ++ BLOCK_BEGIN :: renderFrames rest inner)))

/-- The open blocks `frames` are well formed in front of the text `inner`. -/
def ValidFrames : List Frame → List Nat → Prop
  | [], _ => True
  | fr :: rest, inner =>
    ValidItems fr.items
        (fr.pre ++ (fr.key.render ++ (fr.gap ++ BLOCK_BEGIN :: renderFrames rest inner)))
      ∧ IsGap fr.pre ∧ fr.key.Valid (fr.gap ++ BLOCK_BEGIN :: renderFrames rest inner)
      ∧ IsGap fr.gap ∧ ValidFrames rest inner

/-- The code `KeyValueRoot::Parse` returns, from a fresh root, on the input `str`. -/
def parseCode (junk : Nat → Nat) (str : List Nat) : Option KeyValueErrorCode :=
  (KeyValueRoot.new.Parse junk (some str)).map Prod.fst

/-- The text `t` closes a call of the parser and leaves the position `rest`: at
the root it is the ending of the input in front of the terminator, in a block
it is a gap and the `}` of the block. -/
def Closes (isRoot : Bool) (t rest : List Nat) : Prop :=
  if isRoot then ∃ e, t = e ++ rest ∧ IsEnding e ∧ peek rest = 0
  else ∃ close, t = close ++ BLOCK_END :: rest ∧ IsGap close

/-- The indentation of depth `d`: `4 * d` spaces. -/
def tabs (d : Nat) : List Nat := List.replicate (4 * d) 32

mutual
/-- The reference text of one node at depth `d`: the indentation, the quoted
key and a space, then for a leaf the quoted value and a newline, for an
interior node a newline, the indentation, `{`, a newline, the reference text
of its chain at depth `d + 1`, the indentation, `}` and a newline. -/
def KeyValue.referenceText : KeyValue → Nat → List Nat
  | KeyValue.leaf key value, d =>
    tabs d ++ STRING_CONTAINER :: (key ++ STRING_CONTAINER :: 32 :: STRING_CONTAINER ::
      (value ++ [STRING_CONTAINER, 10]))
  | KeyValue.node key children _, d =>
    tabs d ++ STRING_CONTAINER :: (key ++ STRING_CONTAINER :: 32 :: 10 ::
      (tabs d ++ BLOCK_BEGIN :: 10 ::
        (referenceText children (d + 1) ++ (tabs d ++ [BLOCK_END, 10]))))
/-- The reference text of a chain at depth `d`: the reference texts of its nodes in order. -/
def referenceText : List KeyValue → Nat → List Nat
  | [], _ => []
  | kv :: rest, d => kv.referenceText d ++ referenceText rest d
end

/-- The cursor after the bytes `data` were offered to it: as many of them as
the remaining capacity allows are written at the offset, which moves past
them, and the capacity shrinks by their number. -/
def Writer.emit (w : Writer) (data : List Nat) : Writer :=
  ⟨overwrite w.buf w.str (data.take w.maxLength), w.str + min w.maxLength data.length,
    w.maxLength - min w.maxLength data.length⟩

/-- The capacity of a cursor lies inside its buffer. -/
def Writer.InBounds (w : Writer) : Prop := w.str + w.maxLength ≤ w.buf.length

mutual
/-- No key and no value of the tree holds a NUL byte. -/
def KeyValue.NulFree : KeyValue → Prop
  | KeyValue.leaf key value => (∀ c ∈ key, c ≠ 0) ∧ (∀ c ∈ value, c ≠ 0)
  | KeyValue.node key children _ => (∀ c ∈ key, c ≠ 0) ∧ NulFreeList children
/-- No key and no value of the chain holds a NUL byte. -/
def NulFreeList : List KeyValue → Prop
  | [] => True
  | kv :: rest => kv.NulFree ∧ NulFreeList rest
end

/-- The text `a2` ends a bare token wherever the text `a1` does: it ends one
when `a1` does, and it starts with `/` only when `a1` does. -/
def EndsLike (a1 a2 : List Nat) : Prop :=
  (endsBare a1 = true → endsBare a2 = true) ∧ (peek a2 = SLASH → peek a1 = SLASH)

/-- What may be inserted at a token boundary inside the input: a run of
whitespace bytes, or whitespace followed by complete line comments and more
whitespace; that is, a gap that does not start with a comment. -/
def Filler (ins : List Nat) : Prop := IsGap ins ∧ peek ins ≠ SLASH

/-- What may be inserted at the end of the input: as `Filler`, but the last
line comment may be closed by the end of the input. -/
def FillerEnd (ins : List Nat) : Prop := IsEnding ins ∧ peek ins ≠ SLASH

/-- One insertion of a filler into a gap of a written pair: the gap before the
key, the gap after the key, the gap before `}`, or a gap of a pair of the
block.  The insertion point splits the gap in two gaps (it is not inside a
comment). -/
inductive Item.Inserted : Item → Item → Prop where
  | leafPre (ins g1 g2 : List Nat) (k : Token) (gap : List Nat) (v : Token) :
      Filler ins → IsGap g1 → IsGap g2 →
      Item.Inserted (Item.leaf (g1 ++ g2) k gap v) (Item.leaf (g1 ++ (ins ++ g2)) k gap v)
  | leafGap (ins g1 g2 : List Nat) (pre : List Nat) (k v : Token) :
      Filler ins → IsGap g1 → IsGap g2 →
      Item.Inserted (Item.leaf pre k (g1 ++ g2) v) (Item.leaf pre k (g1 ++ (ins ++ g2)) v)
  | nodePre (ins g1 g2 : List Nat) (k : Token) (gap : List Nat) (body : List Item)
      (close : List Nat) :
      Filler ins → IsGap g1 → IsGap g2 →
      Item.Inserted (Item.node (g1 ++ g2) k gap body close)
        (Item.node (g1 ++ (ins ++ g2)) k gap body close)
  | nodeGap (ins g1 g2 : List Nat) (pre : List Nat) (k : Token) (body : List Item)
      (close : List Nat) :
      Filler ins → IsGap g1 → IsGap g2 →
      Item.Inserted (Item.node pre k (g1 ++ g2) body close)
        (Item.node pre k (g1 ++ (ins ++ g2)) body close)
  | nodeClose (ins g1 g2 : List Nat) (pre : List Nat) (k : Token) (gap : List Nat)
      (body : List Item) :
      Filler ins → IsGap g1 → IsGap g2 →
      Item.Inserted (Item.node pre k gap body (g1 ++ g2))
        (Item.node pre k gap body (g1 ++ (ins ++ g2)))
  | nodeBody (pre : List Nat) (k : Token) (gap : List Nat) (l1 : List Item) (it it2 : Item)
      (l2 : List Item) (close : List Nat) :
      Item.Inserted it it2 →
      Item.Inserted (Item.node pre k gap (l1 ++ it :: l2) close)
        (Item.node pre k gap (l1 ++ it2 :: l2) close)

/-- One insertion at a token boundary of a written document (its pairs and its
ending): into a gap of one of the pairs, into the ending at a point that
splits it in a gap and an ending, or at the very end of the input. -/
inductive DocInserted : List Item → List Nat → List Item → List Nat → Prop where
  | item (l1 : List Item) (it it2 : Item) (l2 : List Item) (e : List Nat) :
      Item.Inserted it it2 → DocInserted (l1 ++ it :: l2) e (l1 ++ it2 :: l2) e
  | ending (items : List Item) (ins e1 e2 : List Nat) :
      Filler ins → IsGap e1 → IsEnding e2 →
      DocInserted items (e1 ++ e2) items (e1 ++ (ins ++ e2))
  | atEnd (items : List Item) (e ins : List Nat) :
      FillerEnd ins → DocInserted items e items (e ++ ins)

/-- A string that can be written bare: non-empty, made of bare bytes, without `//`. -/
def Bare (s : List Nat) : Prop :=
  s ≠ [] ∧ (∀ c ∈ s, isBareByte c = true) ∧ containsComment s = false

/-- One quoted token of a written pair is written bare instead.  `start` tells
that the pair is the first of the input; `after` is the text after the pair.
Whitespace keeps the bare token apart from its neighbours: a key is preceded
by a gap unless it starts the input, the gap after it starts with whitespace;
a value is preceded by a gap and followed by whitespace or the end of the
input. -/
inductive Item.Unquoted : Bool → List Nat → Item → Item → Prop where
  | leafKey (start : Bool) (after pre s gap : List Nat) (v : Token) :
      Bare s → (pre ≠ [] ∨ start = true) → gap ≠ [] → peek gap ≠ SLASH →
      Item.Unquoted start after (Item.leaf pre ⟨true, s⟩ gap v) (Item.leaf pre ⟨false, s⟩ gap v)
  | leafValue (start : Bool) (after pre : List Nat) (k : Token) (gap s : List Nat) :
      Bare s → gap ≠ [] → (peek after ≤ 32 ∨ peek after = 127) →
      Item.Unquoted start after (Item.leaf pre k gap ⟨true, s⟩) (Item.leaf pre k gap ⟨false, s⟩)
  | nodeKey (start : Bool) (after pre s gap : List Nat) (body : List Item) (close : List Nat) :
      Bare s → (pre ≠ [] ∨ start = true) → gap ≠ [] → peek gap ≠ SLASH →
      Item.Unquoted start after (Item.node pre ⟨true, s⟩ gap body close)
        (Item.node pre ⟨false, s⟩ gap body close)
  | nodeBody (start : Bool) (after pre : List Nat) (k : Token) (gap : List Nat)
      (l1 : List Item) (it it2 : Item) (l2 : List Item) (close : List Nat) :
      Item.Unquoted false (renderItems l2 ++ (close ++ BLOCK_END :: after)) it it2 →
      Item.Unquoted start after (Item.node pre k gap (l1 ++ it :: l2) close)
        (Item.node pre k gap (l1 ++ it2 :: l2) close)

/-- One quoted token of a written document, in front of the text `after`, is
written bare instead. -/
inductive DocUnquoted : List Nat → List Item → List Item → Prop where
  | item (after : List Nat) (l1 : List Item) (it it2 : Item) (l2 : List Item) :
      Item.Unquoted l1.isEmpty (renderItems l2 ++ after) it it2 →
      DocUnquoted after (l1 ++ it :: l2) (l1 ++ it2 :: l2)

/-! ## Objects in memory: lookup, indexed access and `Solidify`

For the operations that walk pointers the `KeyValue` objects lie in a memory:
an address is a natural number, a `KeyValue*` is an `Option Nat` (`none` is
`nullptr`), and an array of `n` objects at `base` occupies the addresses
`base`, ..., `base + n - 1`, so that `base[i]` is the object at `base + i`.
Every object of a document has the same `rootNode`; its `solidified` flag is
a field of the memory. -/

/-- The fields of a `KeyValue` object.  A leaf keeps `data.leaf.value` in
`value`; the bits `data.node.children` and `data.node.lastChild` of a leaf
are those of its value slice, which is no address of a `KeyValue` object, and
read as `none`. -/
structure Cell where
  next : Option Nat
  key : List Nat
  isNode : Bool
  children : Option Nat
  lastChild : Option Nat
  childCount : Nat
  value : List Nat
  deriving Repr, DecidableEq

/-- The address of the static object `invalid` of `KeyValue::GetInvalid()`. -/
def INVALID : Nat := 0

/-- The object the constructor `KeyValue::KeyValue(bool invalid)` builds at
`INVALID`: it points to itself. -/
def invalidCell : Cell := ⟨some INVALID, [], true, some INVALID, some INVALID, 0, []⟩

/-- The memory: the objects, the first address not yet allocated, the
addresses that are slots of `readPool` and `writePool`, and
`rootNode->solidified`. -/
structure Memory where
  cell : Nat → Cell
  top : Nat
  pooled : Nat → Bool
  solidified : Bool

/-- The memory after the assignment `*a = c`. -/
def Memory.write (m : Memory) (a : Nat) (c : Cell) : Memory :=
  { m with cell := fun x => if x = a then c else m.cell x }

/-- `KeyValue::IsValid()`. -/
def IsValid (m : Memory) (this : Nat) : Bool :=
  this != INVALID && (m.cell this).next != some this
    && (m.cell this).children != some this && (m.cell this).lastChild != some this

/-- `KeyValue::Key()`. -/
def Key (m : Memory) (this : Nat) : List Nat := (m.cell this).key

/-- `KeyValue::HasChildren()`. -/
def HasChildren (m : Memory) (this : Nat) : Bool := (m.cell this).isNode

/-- `KeyValue::ChildCount()`. -/
def ChildCount (m : Memory) (this : Nat) : Nat :=
  if (m.cell this).isNode then (m.cell this).childCount else 0

/-- `KeyValue::Value()`: the empty slice `kvString_t(nullptr, 0)` on an interior node. -/
def Value (m : Memory) (this : Nat) : List Nat :=
  if (m.cell this).isNode then [] else (m.cell this).value

/-- `tolower` in the C locale. -/
def tolower (c : Nat) : Nat := if 65 ≤ c ∧ c ≤ 90 then c + 32 else c

/-- The C library function `strcasecmp` on two NUL terminated strings: the
difference of the first two lowered bytes that differ, 0 when the strings
end together. -/
def strcasecmp : List Nat → List Nat → Int
  | [], s2 => 0 - (tolower (peek s2) : Int)
  | c :: s1, s2 =>
    if c = 0 then 0 - (tolower (peek s2) : Int)
    else if tolower c ≠ tolower (peek s2) then (tolower c : Int) - (tolower (peek s2) : Int)
    else strcasecmp s1 s2.tail

/-- The loop of the solidified branch of `InternalGet` (lines 331-337), at index `i`
with `remaining` indices left; `INVALID` is the fall through to `return GetInvalid()`. -/
def getSolid (m : Memory) (base : Nat) (keyName : List Nat) : (remaining : Nat) → (i : Nat) → Nat
  | 0, _ => INVALID
  | remaining + 1, i =>
    if strcasecmp (m.cell (base + i)).key keyName = 0 then base + i
    else getSolid m base keyName remaining (i + 1)

/-- The loop of the linked branch of `InternalGet` (lines 341-347); `none` when
the fuel runs out. -/
def getLinked (m : Memory) (keyName : List Nat) : (fuel : Nat) → (current : Option Nat) → Option Nat
  | 0, _ => none
  | _ + 1, none => some INVALID
  | fuel + 1, some a =>
    if strcasecmp (m.cell a).key keyName = 0 then some a
    else getLinked m keyName fuel (m.cell a).next

/-- `KeyValue::InternalGet(const char* keyName)`: the address of the object
returned; `none` when the fuel runs out or a null pointer is dereferenced. -/
def InternalGet (fuel : Nat) (m : Memory) (this : Nat) (keyName : List Nat) : Option Nat :=
  if !(m.cell this).isNode || (m.cell this).childCount ≤ 0 || !IsValid m this then some INVALID
  else if m.solidified then
    match (m.cell this).children with
    | none => none
    | some base => some (getSolid m base keyName (m.cell this).childCount 0)
  else getLinked m keyName fuel (m.cell this).children

/-- The loop of the linked branch of `InternalAt` (lines 365-370) and the
dereference `*current`. -/
def atLinked (m : Memory) : (index : Nat) → (current : Option Nat) → Option Nat
  | 0, current => current
  | _ + 1, none => none
  | index + 1, some a => atLinked m index (m.cell a).next

/-- `KeyValue::InternalAt(size_t index)`: the address of the object returned;
`none` when a null pointer is dereferenced. -/
def InternalAt (m : Memory) (this : Nat) (index : Nat) : Option Nat :=
  if !(m.cell this).isNode || (m.cell this).childCount ≤ 0
      || index ≥ (m.cell this).childCount || !IsValid m this then some INVALID
  else if m.solidified then
    match (m.cell this).children with
    | none => none
    | some base => some (base + index)
  else atLinked m index (m.cell this).children

/-- The loop of `KeyValue::Solidify` (lines 303-314) at index `i` with
`remaining` iterations left; `solidify` is the recursive call. -/
def solidifyLoop (solidify : Memory → Nat → Option Memory) (newArray : Nat) :
    (remaining : Nat) → (i : Nat) → Memory → (current : Option Nat) → Option Memory
  | 0, _, m, _ => some m
  | _ + 1, _, _, none => none
  | remaining + 1, i, m, some cur =>
    let m1 := m.write (newArray + i) (m.cell cur)
    let sub :=
      if (m1.cell (newArray + i)).isNode && (m1.cell (newArray + i)).childCount > 0 then
        solidify m1 (newArray + i)
      else some m1
    match sub with
    | none => none
    | some m2 =>
      let m3 := m2.write (newArray + i)
        { m2.cell (newArray + i) with next := some (newArray + (i + 1)) }
      solidifyLoop solidify newArray remaining (i + 1) m3 (m3.cell cur).next

/-- `KeyValue::Solidify()` on the object at `this`: `new KeyValue[childCount]`
takes the addresses from `top` on.  `none` when the fuel (one unit per level
of nesting) runs out, when `current` is null in an iteration, or when
`childCount` is 0 (then `newArray[cc - 1]` is no element of the array). -/
def KeyValue.Solidify : (fuel : Nat) → Memory → (this : Nat) → Option Memory
  | 0, _, _ => none
  | fuel + 1, m, this =>
    let cc := (m.cell this).childCount
    if cc = 0 then none
    else
      let newArray := m.top
      let current := (m.cell this).children
      let m1 := ({ m with top := m.top + cc } : Memory).write this
        { m.cell this with children := some newArray }
      match solidifyLoop (KeyValue.Solidify fuel) newArray cc 0 m1 current with
      | none => none
      | some m2 =>
        some (m2.write (newArray + (cc - 1)) { m2.cell (newArray + (cc - 1)) with next := none })

/-- `KeyValuePool::Drain()` on `readPool` and `writePool`: the slots are freed;
what their memory holds afterwards is arbitrary (`junk`). -/
def Memory.drain (m : Memory) (junk : Nat → Cell) : Memory :=
  { m with cell := fun x => if m.pooled x then junk x else m.cell x }

/-- `KeyValueRoot::Solidify()` on the root object at `root`. -/
def KeyValueRoot.Solidify (fuel : Nat) (m : Memory) (root : Nat) (junk : Nat → Cell) :
    Option Memory :=
  if m.solidified then some m
  else
    let m1 := { m with solidified := true }
    if (m1.cell root).childCount > 0 then
      match KeyValue.Solidify fuel m1 root with
      | none => none
      | some m2 => some (m2.drain junk)
    else some (m1.drain junk)

mutual
/-- The object at `a` is the head of the tree `t` in linked form: its fields
are those of `t`, its chain of children represents the children of `t`, and
all the objects of the tree lie at addresses from `lo` to `hi - 1` and are no
pointer loops (`IsValid`). -/
def Linked (m : Memory) (lo hi : Nat) : Nat → KeyValue → Prop
  | a, KeyValue.leaf key value =>
    lo ≤ a ∧ a < hi ∧ (m.cell a).key = key ∧ (m.cell a).isNode = false
      ∧ (m.cell a).value = value ∧ (m.cell a).children = none ∧ (m.cell a).lastChild = none
      ∧ (m.cell a).next ≠ some a
  | a, KeyValue.node key children childCount =>
    lo ≤ a ∧ a < hi ∧ (m.cell a).key = key ∧ (m.cell a).isNode = true
      ∧ (m.cell a).childCount = childCount ∧ (m.cell a).next ≠ some a
      ∧ (m.cell a).children ≠ some a
      ∧ (∀ l, (m.cell a).lastChild = some l → lo ≤ l ∧ l < hi ∧ l ≠ a)
      ∧ LinkedChain m lo hi (m.cell a).children children
/-- The chain that starts at the pointer `p` and follows `next` to the null
pointer represents the trees of the list, in order. -/
def LinkedChain (m : Memory) (lo hi : Nat) : Option Nat → List KeyValue → Prop
  | p, [] => p = none
  | p, t :: ts => ∃ a, p = some a ∧ Linked m lo hi a t ∧ LinkedChain m lo hi (m.cell a).next ts
end

mutual
/-- The object at `a` is the head of the tree `t` in solidified form: its
fields are those of `t`, it is no pointer loop, and when `t` has children
they lie in an array, which with the arrays below it occupies addresses from
`lo` to `hi - 1`. -/
def Solid (m : Memory) (lo hi : Nat) : Nat → KeyValue → Prop
  | a, KeyValue.leaf key value =>
    (m.cell a).key = key ∧ (m.cell a).isNode = false ∧ (m.cell a).value = value
      ∧ IsValid m a = true
  | a, KeyValue.node key children childCount =>
    (m.cell a).key = key ∧ (m.cell a).isNode = true ∧ (m.cell a).childCount = childCount
      ∧ IsValid m a = true
      ∧ (children ≠ [] → ∃ base, (m.cell a).children = some base ∧ lo ≤ base
          ∧ base + children.length ≤ hi ∧ SolidSeg m lo hi base children none)
/-- The objects at `b`, `b + 1`, ... represent the trees of the list in
solidified form; `next` of each is the address of its successor, and `next`
of the last one is `e`. -/
def SolidSeg (m : Memory) (lo hi : Nat) : Nat → List KeyValue → Option Nat → Prop
  | _, [], _ => True
  | b, t :: ts, e =>
    Solid m lo hi b t
      ∧ (m.cell b).next = (match ts with
          | [] => e
          | _ :: _ => some (b + 1))
      ∧ SolidSeg m lo hi (b + 1) ts e
end

mutual
/-- The nesting below a node: 0 for a leaf, one more than that of its chain
for an interior node. -/
def KeyValue.height : KeyValue → Nat
  | KeyValue.leaf _ _ => 0
  | KeyValue.node _ children _ => heightList children + 1
/-- The largest nesting below the nodes of a chain. -/
def heightList : List KeyValue → Nat
  | [] => 0
  | t :: ts => max t.height (heightList ts)
end

/-- A document in linked form: the root object at `root` is an interior node
that is no pointer loop, its chain represents the trees `ts`, whose counters
are exact; the objects of the chain are the pool slots, at addresses from
`lo` to `hi - 1`, all allocated; the root and the static invalid object lie
outside. -/
def LinkedDocument (m : Memory) (lo hi root : Nat) (ts : List KeyValue) : Prop :=
  m.solidified = false ∧ 0 < lo ∧ root ≠ INVALID ∧ root < lo ∧ hi ≤ m.top
    ∧ m.cell INVALID = invalidCell
    ∧ (∀ a, m.pooled a = true → lo ≤ a ∧ a < hi)
    ∧ (m.cell root).isNode = true ∧ (m.cell root).childCount = ts.length
    ∧ (m.cell root).next ≠ some root ∧ (m.cell root).children ≠ some root
    ∧ (∀ l, (m.cell root).lastChild = some l → lo ≤ l ∧ l < hi)
    ∧ LinkedChain m lo hi (m.cell root).children ts ∧ CountedList ts

/-- The subtree reached from a chain by a path of child indices. -/
def subtreeAt : List KeyValue → List Nat → Option KeyValue
  | _, [] => none
  | ts, [i] => ts[i]?
  | ts, i :: j :: path =>
    match ts[i]? with
    | some (KeyValue.node _ children _) => subtreeAt children (j :: path)
    | _ => none

/-- The object reached from `this` by `At(i)` for each index of the path in
turn (`kv[i][j]...`). -/
def atPath (m : Memory) : Nat → List Nat → Option Nat
  | this, [] => some this
  | this, i :: path =>
    match InternalAt m this i with
    | none => none
    | some a => atPath m a path

/-- What the accessors `Key()`, `HasChildren()`, `ChildCount()` and `Value()`
return on an object. -/
def observe (m : Memory) (a : Nat) : List Nat × Bool × Nat × List Nat :=
  (Key m a, HasChildren m a, ChildCount m a, Value m a)

/-- What the accessors return on an object that represents the tree `t`. -/
def KeyValue.observed : KeyValue → List Nat × Bool × Nat × List Nat
  | KeyValue.leaf key value => (key, false, 0, value)
  | KeyValue.node key _ childCount => (key, true, childCount, [])

/-- The key of a node. -/
def KeyValue.keyOf : KeyValue → List Nat
  | KeyValue.leaf key _ => key
  | KeyValue.node key _ _ => key

/-- Two NUL terminated strings are equal when ASCII letter case is ignored. -/
def EqIgnoreCase (s1 s2 : List Nat) : Prop := (cstr s1).map tolower = (cstr s2).map tolower

/-- The index of the first node of the chain whose key `strcasecmp` finds equal to `keyName`. -/
def firstMatch (keyName : List Nat) : List KeyValue → Option Nat
  | [] => none
  | t :: ts =>
    if strcasecmp t.keyOf keyName = 0 then some 0 else (firstMatch keyName ts).map (fun j => j + 1)

/-- What `KeyValue::Solidify()` on the object at `this`, whose chain represents
`ts`, leaves: `children` of `this` is a new array at the old `top` that
represents `ts` in solidified form, and no other object allocated before the
call has changed. -/
def SolidifyPost (m m2 : Memory) (this : Nat) (ts : List KeyValue) : Prop :=
  m.top + ts.length ≤ m2.top
    ∧ m2.cell this = { m.cell this with children := some m.top }
    ∧ SolidSeg m2 (m.top + ts.length) m2.top m.top ts none
    ∧ (∀ a, a < m.top → a ≠ this → m2.cell a = m.cell a)
    ∧ m2.pooled = m.pooled ∧ m2.solidified = m.solidified

/-- The object at `this` is an interior node whose children are the trees
`ts`, in order: in linked form (before `Solidify()`) its chain represents
them, in solidified form (after it) its array does. -/
def InteriorNode (m : Memory) (this : Nat) (ts : List KeyValue) : Prop :=
  (m.cell this).isNode = true ∧ (m.cell this).childCount = ts.length ∧ IsValid m this = true
    ∧ CountedList ts
    ∧ ((m.solidified = false ∧ ∃ lo hi, 0 < lo ∧ LinkedChain m lo hi (m.cell this).children ts)
      ∨ (m.solidified = true ∧ (ts ≠ [] → ∃ lo hi base, (m.cell this).children = some base
          ∧ SolidSeg m lo hi base ts none)))

/-- The chain of the document `A 1 B { C 2 }`. -/
def sampleTrees : List KeyValue :=
  [KeyValue.leaf [65] [49], KeyValue.node [66] [KeyValue.leaf [67] [50]] 1]

/-- A memory that holds the document `A 1 B { C 2 }` in linked form: the
invalid object at 0, the root at 1, and the pool slots 2, 3 and 4 with `A`,
`B` and `C`. -/
def sampleMemory : Memory :=
  { cell := fun a =>
      match a with
      | 0 => invalidCell
      | 1 => ⟨none, [], true, some 2, some 3, 2, []⟩
      | 2 => ⟨some 3, [65], false, none, none, 0, [49]⟩
      | 3 => ⟨none, [66], true, some 4, some 4, 1, []⟩
      | 4 => ⟨none, [67], false, none, none, 0, [50]⟩
      | _ => ⟨none, [], false, none, none, 0, []⟩
    top := 5
    pooled := fun a => decide (2 ≤ a ∧ a < 5)
    solidified := false }

mutual
/-- The strings of a node lie in the buffer `buf` from the offset `off` on: the key,
a 0 byte right behind it, and then for a leaf the value and a 0 byte right behind it,
for an interior node the strings of its chain. -/
def KeyValue.StoredAt : KeyValue → List Nat → Nat → Prop
  | KeyValue.leaf key value, buf, off =>
    slice buf off key.length = key ∧ buf[off + key.length]? = some 0
      ∧ slice buf (off + (key.length + 1)) value.length = value
      ∧ buf[off + (key.length + 1) + value.length]? = some 0
  | KeyValue.node key children _, buf, off =>
    slice buf off key.length = key ∧ buf[off + key.length]? = some 0
      ∧ StoredAtList children buf (off + (key.length + 1))
/-- The strings of the nodes of a chain lie in the buffer one after the other, in order,
from the offset `off` on. -/
def StoredAtList : List KeyValue → List Nat → Nat → Prop
  | [], _, _ => True
  | kv :: rest, buf, off => kv.StoredAt buf off ∧ StoredAtList rest buf (off + kv.stringBytes)
end

/-! ## The pool

A `KeyValuePool<T>` hands out slots of chunks it allocates with `malloc`.  An address
counts objects of type `T`; `malloc` is a bump allocator: a block of `n` objects
allocated when the first free address is `top` occupies `top`, ..., `top + n - 1`. -/

/-- The value of `POOL_STARTING_LENGTH`. -/
abbrev POOL_STARTING_LENGTH : Nat := 0
/-- The value of `POOL_INCREMENT_LENGTH`. -/
abbrev POOL_INCREMENT_LENGTH : Nat := 4

/-- A `PoolChunk`: the address `pool` of its first slot and its `length`.  The field `next`
is the order of the chunks in the list of the pool. -/
structure PoolChunk where
  pool : Nat
  length : Nat
  deriving Repr, DecidableEq

/-- A `KeyValuePool<T>`: `position` and the chain of chunks from `firstPool` through
`next`.  `currentPool` is the last chunk of the chain, where every new chunk is linked;
the empty chain stands for `firstPool == currentPool == nullptr`. -/
structure KeyValuePool where
  position : Nat
  chunks : List PoolChunk
  deriving Repr, DecidableEq

/-- The constructor `PoolChunk::PoolChunk(size_t length)` when the first free address is
`top`: the chunk and the first free address afterwards. -/
def PoolChunk.new (top length : Nat) : PoolChunk × Nat := (⟨top, length⟩, top + length)

/-- The constructor `KeyValuePool::KeyValuePool()`. -/
def KeyValuePool.new (top : Nat) : KeyValuePool × Nat :=
  (⟨0, [(PoolChunk.new top POOL_STARTING_LENGTH).1]⟩, (PoolChunk.new top POOL_STARTING_LENGTH).2)

/-- `KeyValuePool::IsFull()`; `none` when `currentPool` is the null pointer. -/
def KeyValuePool.IsFull (p : KeyValuePool) : Option Bool :=
  match p.chunks.getLast? with
  | none => none
  | some currentPool => some (decide (p.position ≥ currentPool.length))

/-- `KeyValuePool::Create()` when the first free address is `top`: the address of the
slot returned, the pool and the first free address afterwards; `none` when
`currentPool` is the null pointer (after `Drain()`). -/
def KeyValuePool.Create (p : KeyValuePool) (top : Nat) : Option (Nat × KeyValuePool × Nat) :=
  match p.IsFull, p.chunks.getLast? with
  | some false, some currentPool =>
    some (currentPool.pool + p.position, { p with position := p.position + 1 }, top)
  | some true, some currentPool =>
    let newLength := currentPool.length + POOL_INCREMENT_LENGTH
    let chunk := PoolChunk.new top newLength
    some (chunk.1.pool + 0, ⟨0 + 1, p.chunks ++ [chunk.1]⟩, chunk.2)
  | _, _ => none

/-- `KeyValuePool::Drain()`: the chunks are freed, `firstPool` and `currentPool` become
null; `position` stays. -/
def KeyValuePool.Drain (p : KeyValuePool) : KeyValuePool := { p with chunks := [] }

/-- The first `n` slots of a chunk. -/
def PoolChunk.slots (c : PoolChunk) (n : Nat) : List Nat := List.range' c.pool n

/-- All slots of the chunks of a list, in order. -/
def allSlots : List PoolChunk → List Nat
  | [] => []
  | c :: rest => c.slots c.length ++ allSlots rest

/-- The slots a pool has handed out, in the order of their addresses in the chunks: all
slots of every chunk before the current one, and the first `position` slots of the
current chunk. -/
def KeyValuePool.issued (p : KeyValuePool) : List Nat :=
  allSlots p.chunks.dropLast
    ++ (match p.chunks.getLast? with
        | none => []
        | some currentPool => currentPool.slots p.position)

/-- A sequence of calls of `Create()`, one for each element of `gaps`; before each call
other code has allocated as many addresses as the element says.  Gives the slots
returned, in order, and the pool and the first free address afterwards. -/
def createAll : List Nat → KeyValuePool → Nat → Option (List Nat × KeyValuePool × Nat)
  | [], p, top => some ([], p, top)
  | g :: gaps, p, top =>
    match p.Create (top + g) with
    | none => none
    | some (a, p1, top1) =>
      match createAll gaps p1 top1 with
      | none => none
      | some (slots, p2, top2) => some (a :: slots, p2, top2)

/-- The state of a pool that was constructed and never drained, when the first free
address is `top`: the `k`-th chunk has `4 * k` slots, `position` is at most the length
of the current chunk, and the chunks lie one behind the other below `top`. -/
def KeyValuePool.Inv (p : KeyValuePool) (top : Nat) : Prop :=
  ∃ init cur, p.chunks = init ++ [cur]
    ∧ (∀ k c, p.chunks[k]? = some c → c.length = POOL_INCREMENT_LENGTH * k)
    ∧ p.position ≤ cur.length
    ∧ (∀ c ∈ init, c.pool + c.length ≤ cur.pool)
    ∧ (∀ a ∈ allSlots init, a < cur.pool)
    ∧ cur.pool + cur.length ≤ top

/-! ## The document in memory: `Parse`, `Add`, `AddNode` and `Solidify`

The operations that create objects run on a `Document`: the memory, the address of the
root object, `bufferSize` and the three pools of the root.  Keys and values are kept by
their bytes (the `key` and `value` of a `Cell`), so the buffers that hold them
(`stringBuffer`, the strings `Add` allocates) do not appear. -/

/-- A `KeyValueRoot` and the memory its objects lie in. -/
structure Document where
  mem : Memory
  root : Nat
  bufferSize : Nat
  readPool : KeyValuePool
  writePool : KeyValuePool
  writePoolStrings : KeyValuePool

/-- The constructor `KeyValueRoot::KeyValueRoot()` for a root object at the address `root`
of the memory `m`: the pools are constructed, then the body sets the fields of the root.
`next` of the root is not assigned. -/
def Document.new (m : Memory) (root : Nat) : Document :=
  let readPool := KeyValuePool.new m.top
  let writePool := KeyValuePool.new readPool.2
  let writePoolStrings := KeyValuePool.new writePool.2
  let m1 : Memory := ⟨m.cell, writePoolStrings.2, fun _ => false, false⟩
  let cell : Cell :=
    { m.cell root with key := [], isNode := true, children := none, lastChild := none,
                       childCount := 0 }
  { mem := m1.write root cell
    root := root
    bufferSize := 0
    readPool := readPool.1
    writePool := writePool.1
    writePoolStrings := writePoolStrings.1 }

/-- `Create()` on `rootNode->writePool` (`write` true) or `rootNode->readPool` (`write`
false): the slot and the document afterwards.  The slots of a chunk that `Create()`
allocates become slots of a pool (`pooled`). -/
def Document.Create (d : Document) (write : Bool) : Option (Nat × Document) :=
  match (if write then d.writePool else d.readPool).Create d.mem.top with
  | none => none
  | some (kv, pool, top) =>
    let mem : Memory :=
      { d.mem with
        top := top
        pooled := fun a => d.mem.pooled a || (decide (d.mem.top ≤ a) && decide (a < top)) }
    some (kv, if write then { d with mem := mem, writePool := pool }
              else { d with mem := mem, readPool := pool })

/-- `KeyValue::CreateKVPair(keyName, string, pool)`.  The assignment of
`data.leaf.value` overwrites the bits of `data.node.children` and `data.node.lastChild`. -/
def CreateKVPair (d : Document) (keyName string : List Nat) (write : Bool) :
    Option (Nat × Document) :=
  match d.Create write with
  | none => none
  | some (kv, d1) =>
    let m := d1.mem.write kv
      { d1.mem.cell kv with key := keyName, value := string, children := none,
                            lastChild := none, isNode := false }
    some (kv, { d1 with mem := m })

/-- Lines 618-627 of `KeyValue::Parse`: `childCount++` and the link of `pair` behind
`lastKV`, or as first child. -/
def linkChild (m : Memory) (this : Nat) (lastKV : Option Nat) (pair : Nat) : Memory :=
  let m1 := m.write this { m.cell this with childCount := (m.cell this).childCount + 1 }
  match lastKV with
  | some l => m1.write l { m1.cell l with next := some pair }
  | none => m1.write this { m1.cell this with children := some pair }

/-- The label `end:` of `KeyValue::Parse` (lines 630-637). -/
def parseEnd (m : Memory) (this : Nat) (lastKV : Option Nat) : Memory :=
  match lastKV with
  | some l =>
    let m1 := m.write l { m.cell l with next := none }
    m1.write this { m1.cell this with lastChild := some l }
  | none => m

/-- `KeyValue::Parse(const char*& str, const bool isRoot)` on the object at `this`, with
the objects in memory; `lastKV` is the local variable of the loop.  Gives the code, the
position and the document afterwards.  One unit of `fuel` is spent per loop iteration and
per nested call; `none` means the fuel ran out or `Create()` met a null pointer. -/
def KeyValue.ParseMem : (fuel : Nat) → (str : List Nat) → (isRoot : Bool) → (this : Nat) →
    (lastKV : Option Nat) → Document → Option (KeyValueErrorCode × List Nat × Document)
  | 0, _, _, _, _, _ => none
  | fuel + 1, str, isRoot, this, lastKV, d =>
    match parseKey (SkipWhitespace str) isRoot with
    | KeyStep.ret error str => some (error, str, d)
    | KeyStep.done str =>
      some (KeyValueErrorCode.NONE, str, { d with mem := parseEnd d.mem this lastKV })
    | KeyStep.key str pairkey =>
      let d := { d with bufferSize := d.bufferSize + (pairkey.length + 1) }
      let str := SkipWhitespace str
      let c := peek str
      if c = STRING_CONTAINER then
        match ReadQuotedString str with
        | (KeyValueErrorCode.NONE, str, stringValue) =>
          match CreateKVPair d pairkey stringValue false with
          | none => none
          | some (pair, d) =>
            let d := { d with bufferSize := d.bufferSize + (stringValue.length + 1) }
            KeyValue.ParseMem fuel str isRoot this (some pair)
              { d with mem := linkChild d.mem this lastKV pair }
        | (error, str, _) => some (error, str, d)
      else if c = BLOCK_BEGIN then
        match d.Create false with
        | none => none
        | some (pair, d) =>
          let m := d.mem.write pair
            { d.mem.cell pair with isNode := true, children := none, lastChild := none,
                                   childCount := 0 }
          let d := { d with mem := m }
          match KeyValue.ParseMem fuel str.tail false pair none d with
          | none => none
          | some (error, str, d) =>
            if error = KeyValueErrorCode.NONE then
              let m := d.mem.write pair { d.mem.cell pair with key := pairkey }
              let d := { d with mem := m }
              KeyValue.ParseMem fuel str isRoot this (some pair)
                { d with mem := linkChild d.mem this lastKV pair }
            else some (error, str, d)
      else if c = 0 then some (KeyValueErrorCode.INCOMPLETE_PAIR, str, d)
      else if c = BLOCK_END then some (KeyValueErrorCode.UNEXPECTED_END_OF_BLOCK, str, d)
      else
        match CreateKVPair d pairkey (ReadQuotelessString str).1 false with
        | none => none
        | some (pair, d) =>
          let d := { d with bufferSize := d.bufferSize + ((ReadQuotelessString str).1.length + 1) }
          KeyValue.ParseMem fuel (ReadQuotelessString str).2 isRoot this (some pair)
            { d with mem := linkChild d.mem this lastKV pair }

/-- The loop of `KeyValue::BuildData` with `remaining` iterations left, on the objects in
memory.  The strings move to the buffer and keep their bytes, so no cell changes; `none`
when `current` is null in an iteration or the fuel of the nested calls runs out. -/
def buildDataLoop (build : Nat → Option Unit) (m : Memory) :
    (remaining : Nat) → (current : Option Nat) → Option Unit
  | 0, _ => some ()
  | _ + 1, none => none
  | remaining + 1, some cur =>
    match (if (m.cell cur).isNode && decide ((m.cell cur).childCount > 0) then build cur
           else some ()) with
    | none => none
    | some () => buildDataLoop build m remaining (m.cell cur).next

/-- `KeyValue::BuildData(char*& destBuffer)` on the object at `this`: the walk over the
objects. -/
def BuildDataMem : (fuel : Nat) → Memory → (this : Nat) → Option Unit
  | 0, _, _ => none
  | fuel + 1, m, this =>
    buildDataLoop (BuildDataMem fuel m) m (m.cell this).childCount (m.cell this).children

/-- `KeyValueRoot::Parse(const char* str)` on a document in memory (`none` is the null
pointer). -/
def KeyValueRoot.ParseMem (d : Document) (str : Option (List Nat)) :
    Option (KeyValueErrorCode × Document) :=
  match str with
  | none => some (KeyValueErrorCode.NO_INPUT, d)
  | some str =>
    match KeyValue.ParseMem (str.length + 1) str true d.root none d with
    | none => none
    | some (err, _, d1) =>
      if err = KeyValueErrorCode.NONE then
        if d1.bufferSize > 0 then
          match BuildDataMem (str.length + 1) d1.mem d1.root with
          | none => none
          | some () => some (KeyValueErrorCode.NONE, d1)
        else some (KeyValueErrorCode.NONE, d1)
      else some (err, d1)

/-- `KeyValue::Add(const char* keyName, const char* value)` on the object at `this`: the
pointer returned (`none` is `nullptr`) and the document afterwards.  The outer `none`
means a null pointer was dereferenced: `currentPool` in `Create()`, or
`data.node.lastChild`. -/
def KeyValue.Add (d : Document) (this : Nat) (keyName value : List Nat) :
    Option (Option Nat × Document) :=
  if d.mem.solidified && !(d.mem.cell this).isNode then some (none, d)
  else
    match d.writePoolStrings.Create d.mem.top with
    | none => none
    | some (_, strings1, top1) =>
      let copiedKey := cstr keyName
      match strings1.Create top1 with
      | none => none
      | some (_, strings2, top2) =>
        let copiedValue := cstr value
        let d1 := { d with writePoolStrings := strings2, mem := { d.mem with top := top2 } }
        match CreateKVPair d1 copiedKey copiedValue true with
        | none => none
        | some (newKV, d2) =>
          let m := d2.mem.write newKV { d2.mem.cell newKV with next := none }
          let linked : Option Memory :=
            if (m.cell this).children ≠ none then
              match (m.cell this).lastChild with
              | none => none
              | some l => some (m.write l { m.cell l with next := some newKV })
            else some (m.write this { m.cell this with children := some newKV })
          match linked with
          | none => none
          | some m1 =>
            let m2 := m1.write this
              { m1.cell this with lastChild := some newKV,
                                  childCount := (m1.cell this).childCount + 1 }
            some (some newKV, { d2 with mem := m2 })

/-- `KeyValue::AddNode(const char* keyName)` on the object at `this`, as `KeyValue.Add`;
`newNode` is the local variable `node`. -/
def KeyValue.AddNode (d : Document) (this : Nat) (keyName : List Nat) :
    Option (Option Nat × Document) :=
  if d.mem.solidified && !(d.mem.cell this).isNode then some (none, d)
  else
    match d.Create true with
    | none => none
    | some (newNode, d1) =>
      match d1.writePoolStrings.Create d1.mem.top with
      | none => none
      | some (_, strings1, top1) =>
        let copiedKey := cstr keyName
        let m0 : Memory := { d1.mem with top := top1 }
        let cell : Cell :=
          { d1.mem.cell newNode with
            key := copiedKey, isNode := true, children := none, lastChild := none,
            childCount := 0, next := none }
        let m := m0.write newNode cell
        let linked : Option Memory :=
          if (m.cell this).childCount = 0 then
            some (m.write this { m.cell this with children := some newNode })
          else
            match (m.cell this).lastChild with
            | none => none
            | some l => some (m.write l { m.cell l with next := some newNode })
        match linked with
        | none => none
        | some m1 =>
          let m2 := m1.write this
            { m1.cell this with lastChild := some newNode,
                                childCount := (m1.cell this).childCount + 1 }
          some (some newNode, { d1 with writePoolStrings := strings1, mem := m2 })

/-- `KeyValueRoot::Solidify()` on a document: the objects as `KeyValueRoot.Solidify` leaves
them, and `readPool` and `writePool` drained. -/
def Document.Solidify (fuel : Nat) (d : Document) (junk : Nat → Cell) : Option Document :=
  if d.mem.solidified then some d
  else
    match KeyValueRoot.Solidify fuel d.mem d.root junk with
    | none => none
    | some m => some { d with mem := m, readPool := d.readPool.Drain,
                              writePool := d.writePool.Drain }

/-- A memory with nothing but the invalid object at address 0; the first free address is 2,
so that a root object can lie at address 1. -/
def emptyMemory : Memory :=
  { cell := fun _ => invalidCell, top := 2, pooled := fun _ => false, solidified := false }

/-! ## The shape of a document in linked form -/

/-- The pointer `p` leads, through `next`, over the objects at the addresses of the list,
in order, to the pointer `e`. -/
def ChainFrom (m : Memory) : Option Nat → List Nat → Option Nat → Prop
  | p, [], e => p = e
  | p, a :: rest, e => p = some a ∧ ChainFrom m (m.cell a).next rest e

/-- The interior node at `a` has the children at the addresses `kids`, in order: its
chain leads over them to the null pointer, `lastChild` is the last of them, and
`childCount` is their number. -/
def NodeOK (m : Memory) (a : Nat) (kids : List Nat) : Prop :=
  (m.cell a).childCount = kids.length ∧ ChainFrom m (m.cell a).children kids none
    ∧ (m.cell a).lastChild = kids.getLast?

/-- The interior node at `a` while a call of `Parse` on it runs, with `kids` linked so
far: `next` of the last of them is not assigned yet, and `lastChild` is not assigned
before the label `end:`. -/
def NodeOpen (m : Memory) (a : Nat) (kids : List Nat) : Prop :=
  (m.cell a).childCount = kids.length ∧ (∃ e, ChainFrom m (m.cell a).children kids e)
    ∧ (kids = [] → (m.cell a).children = none ∧ (m.cell a).lastChild = none)

/-- The pools of a document that were constructed and never drained: their chunks hold
different addresses, all above the root object and below the first free address, and
`pooled` marks no other address. -/
def Document.PoolsOK (d : Document) : Prop :=
  d.readPool.Inv d.mem.top ∧ d.writePool.Inv d.mem.top ∧ d.writePoolStrings.Inv d.mem.top
    ∧ (∀ a ∈ allSlots d.readPool.chunks, a ∉ allSlots d.writePool.chunks)
    ∧ (∀ a, (a ∈ allSlots d.readPool.chunks ∨ a ∈ allSlots d.writePool.chunks) → d.root < a)
    ∧ d.root < d.mem.top
    ∧ (∀ a, d.mem.pooled a = true → d.root < a ∧ a < d.mem.top)

/-- The shape of a document in linked form.  `nodes` are the addresses of the objects the
document has created, `kids x` the addresses of the children of the object at `x`, in
order, and `isOpen x` tells that a call of `Parse` on `x` is running.  Every object was
handed out by `readPool` or `writePool`; no object is a child twice; and every interior
node has its children on its chain (`NodeOpen`, and `NodeOK` once `Parse` has returned). -/
structure Document.Shape (d : Document) (nodes : List Nat) (kids : Nat → List Nat)
    (isOpen : Nat → Prop) : Prop where
  pools : d.PoolsOK
  unsolid : d.mem.solidified = false
  invalid : d.mem.cell INVALID = invalidCell
  rootValid : d.root ≠ INVALID
  rootNode : (d.mem.cell d.root).isNode = true
  rootNext : (d.mem.cell d.root).next ≠ some d.root
  issued : ∀ a ∈ nodes, a ∈ d.readPool.issued ∨ a ∈ d.writePool.issued
  kidsNodup : ∀ x, (kids x).Nodup
  kidsNodes : ∀ x, ∀ c ∈ kids x, c ∈ nodes
  kidsOwn : ∀ x, (x = d.root ∨ x ∈ nodes) ∨ kids x = []
  kidsSelf : ∀ x, x ∉ kids x
  kidsApart : ∀ x y, x ≠ y → ∀ c ∈ kids x, c ∉ kids y
  leaf : ∀ x, x ∈ nodes → (d.mem.cell x).isNode = false →
    kids x = [] ∧ (d.mem.cell x).children = none ∧ (d.mem.cell x).lastChild = none
  node : ∀ x, (x = d.root ∨ x ∈ nodes) → (d.mem.cell x).isNode = true →
    NodeOpen d.mem x (kids x) ∧ (¬ isOpen x → NodeOK d.mem x (kids x))

/-- The chain of the interior node at `a` is well formed: following `next` from its first
child passes `childCount` objects, pairwise different, and then reaches the null
pointer; `children` is null when `childCount` is 0; and otherwise `lastChild` is the last
object of the chain. -/
def ChainWellFormed (m : Memory) (a : Nat) : Prop :=
  (∀ i, i < (m.cell a).childCount → atLinked m i (m.cell a).children ≠ none)
    ∧ atLinked m (m.cell a).childCount (m.cell a).children = none
    ∧ (∀ i j, i < j → j < (m.cell a).childCount →
        atLinked m i (m.cell a).children ≠ atLinked m j (m.cell a).children)
    ∧ ((m.cell a).childCount = 0 → (m.cell a).children = none)
    ∧ ((m.cell a).childCount > 0 →
        (m.cell a).lastChild = atLinked m ((m.cell a).childCount - 1) (m.cell a).children)

/-- The documents the claims about linked form speak of: a fresh document (the root object
at an address other than that of the invalid object, and not its own `next`) after a
successful `Parse`, and what any sequence of calls of `Add` and `AddNode` on interior
nodes of the document, each reached from the root by `At`, makes of it. -/
inductive Built : Document → Prop where
  | parse (m : Memory) (root : Nat) (str : List Nat) (d : Document) :
      m.cell INVALID = invalidCell → root ≠ INVALID → root < m.top →
      (m.cell root).next ≠ some root →
      KeyValueRoot.ParseMem (Document.new m root) (some str)
        = some (KeyValueErrorCode.NONE, d) →
      Built d
  | add (d : Document) (path : List Nat) (this : Nat) (keyName value : List Nat)
      (newKV : Nat) (d2 : Document) :
      Built d → atPath d.mem d.root path = some this → this ≠ INVALID →
      HasChildren d.mem this = true →
      KeyValue.Add d this keyName value = some (some newKV, d2) → Built d2
  | addNode (d : Document) (path : List Nat) (this : Nat) (keyName : List Nat)
      (newKV : Nat) (d2 : Document) :
      Built d → atPath d.mem d.root path = some this → this ≠ INVALID →
      HasChildren d.mem this = true →
      KeyValue.AddNode d this keyName = some (some newKV, d2) → Built d2

/-- What a call of `Parse` on the object at `this` may change in the shape of a document:
the root stays, the objects stay objects, the children of every other object of before stay,
an object of before becomes a child of no object (but for those of `extra`), and an object
stays a leaf or an interior node. -/
def Growth (d d2 : Document) (nodes nodes2 : List Nat) (kids kids2 : Nat → List Nat)
    (this : Nat) (extra : Nat → Prop) : Prop :=
  d2.root = d.root ∧ (∀ x ∈ nodes, x ∈ nodes2)
    ∧ (∀ x, x ≠ this → (x = d.root ∨ x ∈ nodes) → kids2 x = kids x)
    ∧ (∀ y c, c ∈ kids2 y → c ∈ nodes → c ∈ kids y ∨ extra c)
    ∧ (∀ x, (x = d.root ∨ x ∈ nodes) → (d2.mem.cell x).isNode = (d.mem.cell x).isNode)

/-- A successful call of `KeyValue::Parse` with the given fuel, on an interior node the
call of which is running, keeps the shape of the document and ends the call; and it has
read one byte at least for every object it has created. -/
def ParseSpec (fuel : Nat) : Prop :=
  ∀ (str : List Nat) (isRoot : Bool) (this : Nat) (lastKV : Option Nat) (d : Document)
    (nodes : List Nat) (kids : Nat → List Nat) (isOpen : Nat → Prop) (rest : List Nat)
    (d2 : Document),
    d.Shape nodes kids isOpen → (this = d.root ∨ this ∈ nodes) →
    (d.mem.cell this).isNode = true → isOpen this → lastKV = (kids this).getLast? →
    KeyValue.ParseMem fuel str isRoot this lastKV d = some (KeyValueErrorCode.NONE, rest, d2) →
    ∃ nodes2 kids2, nodes2.length + rest.length ≤ nodes.length + str.length
      ∧ d2.Shape nodes2 kids2 (fun x => isOpen x ∧ x ≠ this)
      ∧ Growth d d2 nodes nodes2 kids kids2 this (fun _ => False)

/-- The objects of a document: the root and the children of the objects. -/
def Document.Object (d : Document) (kids : Nat → List Nat) (x : Nat) : Prop :=
  x = d.root ∨ ∃ y, x ∈ kids y

/-! ## The document of the usage documentation -/

/-- The text `My RadKv` of the usage documentation in `KeyValue.h`. -/
def radText : List Nat := [77, 121, 32, 82, 97, 100, 75, 118]

/-- The document `KeyValueRoot kv("My RadKv")`, with the root object at address 1 of
`emptyMemory`. -/
def radDocument : Document :=
  match KeyValueRoot.ParseMem (Document.new emptyMemory 1) (some radText) with
  | some (_, d) => d
  | none => Document.new emptyMemory 1

/-- The document after `kv.AddNode("AwesomeNode")`; the new node lies at address 6. -/
def radDocument2 : Document :=
  match KeyValue.AddNode radDocument 1 [65, 119, 101, 115, 111, 109, 101, 78, 111, 100, 101, 0] with
  | some (_, d) => d
  | none => radDocument

/-- The document after `->Add("Taco", "Time!")` on the new node; the new leaf lies at
address 7. -/
def radDocument3 : Document :=
  match KeyValue.Add radDocument2 6 [84, 97, 99, 111, 0] [84, 105, 109, 101, 33, 0] with
  | some (_, d) => d
  | none => radDocument2

/-- The document after `kv.Add("CoolKey", "CoolValue")`; the new leaf lies at address 8. -/
def radDocument4 : Document :=
  match KeyValue.Add radDocument3 1 [67, 111, 111, 108, 75, 101, 121, 0]
      [67, 111, 111, 108, 86, 97, 108, 117, 101, 0] with
  | some (_, d) => d
  | none => radDocument3

/-- What a call of `Add` or `AddNode` on the interior node at `this` of the document `d`,
which returned the object at `newKV` and left the document `d2`, has done when it has
appended that object: the object is new (`At` reached it from the root by no path);
`ChildCount()` of `this` has grown by one; `At(c)`, with `c` the count of before, returns
the new object, and so does `Get` of a key that `strcasecmp` finds equal to the key of the
new object and to the key of no child of before; `At(i)` for `i < c` returns what it
returned before; `this` keeps its key and stays an interior node; every other object of
the document answers `Key()`, `HasChildren()`, `ChildCount()`, `Value()` and `At(i)` as
before; and no cell other than those of `this` and of the new object has changed, but for
`next` of the last child of before, which points to the new object. -/
def Appended (d d2 : Document) (this newKV : Nat) : Prop :=
  (∀ p, atPath d.mem d.root p ≠ some newKV)
    ∧ ChildCount d2.mem this = ChildCount d.mem this + 1
    ∧ InternalAt d2.mem this (ChildCount d.mem this) = some newKV
    ∧ (∀ i, i < ChildCount d.mem this → InternalAt d2.mem this i = InternalAt d.mem this i)
    ∧ (∀ keyName fuel, ChildCount d.mem this < fuel →
        (∀ i a, i < ChildCount d.mem this → InternalAt d.mem this i = some a →
          strcasecmp (Key d.mem a) keyName ≠ 0) →
        strcasecmp (Key d2.mem newKV) keyName = 0 →
        InternalGet fuel d2.mem this keyName = some newKV)
    ∧ (Key d2.mem this = Key d.mem this ∧ HasChildren d2.mem this = true)
    ∧ (∀ p x, atPath d.mem d.root p = some x → x ≠ this →
        observe d2.mem x = observe d.mem x
          ∧ ∀ i, InternalAt d2.mem x i = InternalAt d.mem x i)
    ∧ (∀ x, x ≠ this → x ≠ newKV →
        d2.mem.cell x = d.mem.cell x
          ∨ (0 < ChildCount d.mem this
              ∧ InternalAt d.mem this (ChildCount d.mem this - 1) = some x
              ∧ d2.mem.cell x = { d.mem.cell x with next := some newKV }))

/-! ## Solidified sample documents -/

/-- The document of the text `A 1`, with the root object at address 1 of `emptyMemory`. -/
def pairDocument : Document :=
  match KeyValueRoot.ParseMem (Document.new emptyMemory 1) (some [65, 32, 49]) with
  | some (_, d) => d
  | none => Document.new emptyMemory 1

/-- The document of the text `A 1` after `Solidify()`: the array of the one child of the
root, the leaf `A`, lies at address 6. -/
def solidPairDocument : Document :=
  (Document.Solidify 3 pairDocument (fun _ => invalidCell)).getD pairDocument

/-- The document of the text `"A" {}`. -/
def emptyNodeDocument : Document :=
  match KeyValueRoot.ParseMem (Document.new emptyMemory 1)
      (some [34, 65, 34, 32, 123, 125]) with
  | some (_, d) => d
  | none => Document.new emptyMemory 1

/-- The document of the text `"A" {}` after `Solidify()`: the array of the one child of
the root, the interior node `A` without children, lies at address 6. -/
def solidEmptyNodeDocument : Document :=
  (Document.Solidify 3 emptyNodeDocument (fun _ => invalidCell)).getD emptyNodeDocument

/-! ## The parser inside its input -/

/-- The position `rest` lies inside the input that starts at `str`: it is reached from
`str` by moving forward, over bytes none of which is the terminating NUL. -/
def Within (str rest : List Nat) : Prop :=
  ∃ passed, str = passed ++ rest ∧ ∀ c ∈ passed, c ≠ 0

/-- The control flow of `KeyValue::Parse(const char*& str, const bool isRoot)` with the
nesting of the calls recorded: `level` is the number of calls of `Parse` that are on the
stack below this one, and `deepest` the largest level a call has had so far.  Gives the
code, the position and the largest level afterwards.  The fuel is spent as in
`KeyValue.Parse`. -/
def KeyValue.ParseDepth : (fuel : Nat) → (str : List Nat) → (isRoot : Bool) → (level : Nat) →
    (deepest : Nat) → Option (KeyValueErrorCode × List Nat × Nat)
  | 0, _, _, _, _ => none
  | fuel + 1, str, isRoot, level, deepest =>
    match parseKey (SkipWhitespace str) isRoot with
    | KeyStep.ret error str => some (error, str, deepest)
    | KeyStep.done str => some (KeyValueErrorCode.NONE, str, deepest)
    | KeyStep.key str _ =>
      let str := SkipWhitespace str
      let c := peek str
      if c = STRING_CONTAINER then
        match ReadQuotedString str with
        | (KeyValueErrorCode.NONE, str, _) => KeyValue.ParseDepth fuel str isRoot level deepest
        | (error, str, _) => some (error, str, deepest)
      else if c = BLOCK_BEGIN then
        match KeyValue.ParseDepth fuel str.tail false (level + 1) (max deepest (level + 1)) with
        | none => none
        | some (error, str, deepest) =>
          if error = KeyValueErrorCode.NONE then
            KeyValue.ParseDepth fuel str isRoot level deepest
          else some (error, str, deepest)
      else if c = 0 then some (KeyValueErrorCode.INCOMPLETE_PAIR, str, deepest)
      else if c = BLOCK_END then some (KeyValueErrorCode.UNEXPECTED_END_OF_BLOCK, str, deepest)
      else KeyValue.ParseDepth fuel (ReadQuotelessString str).2 isRoot level deepest

/-! # Theorems -/

theorem skipSpaces_length_le (str : List Nat) : (skipSpaces str).length ≤ str.length := by
  induction str with
  | nil => simp [skipSpaces]
  | cons c rest ih =>
    unfold skipSpaces
    split
    · exact Nat.le_succ_of_le ih
    · exact Nat.le_refl _

theorem skipLine_length_le (str : List Nat) : (skipLine str).length ≤ str.length := by
  induction str with
  | nil => simp [skipLine]
  | cons c rest ih =>
    unfold skipLine
    split
    · exact Nat.le_succ_of_le ih
    · exact Nat.le_refl _

theorem startsComment_iff (str : List Nat) :
    startsComment str = true ↔ ∃ rest, str = SLASH :: SLASH :: rest := by
  constructor
  · intro h
    match str, h with
    | [], h => simp [startsComment, peek] at h
    | [_], h => simp [startsComment, peek] at h
    | a :: b :: rest, h =>
      simp [startsComment, peek] at h
      exact ⟨rest, by rw [h.1, h.2]⟩
  · rintro ⟨rest, rfl⟩
    simp [startsComment, peek]

theorem skipLine_comment_length (str : List Nat) (h : startsComment str = true) :
    (skipLine str).length + 2 ≤ str.length := by
  obtain ⟨rest, rfl⟩ := (startsComment_iff str).1 h
  have := skipLine_length_le rest
  simp [skipLine]
  omega

theorem SkipWhitespaceAux_fuel : ∀ (n m : Nat) (str : List Nat),
    str.length ≤ n → str.length ≤ m → SkipWhitespaceAux n str = SkipWhitespaceAux m str := by
  intro n
  induction n with
  | zero =>
    intro m str hn _
    have : str = [] := List.length_eq_zero.1 (Nat.le_zero.1 hn)
    subst this
    cases m <;> simp [SkipWhitespaceAux, skipSpaces, startsComment, peek]
  | succ n ih =>
    intro m str hn hm
    cases m with
    | zero =>
      have : str = [] := List.length_eq_zero.1 (Nat.le_zero.1 hm)
      subst this
      simp [SkipWhitespaceAux, skipSpaces, startsComment, peek]
    | succ m =>
      simp only [SkipWhitespaceAux]
      split
      · rename_i hc
        have h1 := skipLine_comment_length _ hc
        have h2 := skipSpaces_length_le str
        exact ih m _ (by omega) (by omega)
      · rfl

/-- The defining equation of `SkipWhitespace`, free of fuel. -/
theorem SkipWhitespace_eq (str : List Nat) :
    SkipWhitespace str =
      if startsComment (skipSpaces str) then SkipWhitespace (skipLine (skipSpaces str))
      else skipSpaces str := by
  unfold SkipWhitespace
  cases h : str.length with
  | zero =>
    have : str = [] := List.length_eq_zero.1 h
    subst this
    simp [SkipWhitespaceAux, skipSpaces, startsComment, peek]
  | succ n =>
    simp only [SkipWhitespaceAux]
    split
    · rename_i hc
      have h1 := skipLine_comment_length _ hc
      have h2 := skipSpaces_length_le str
      exact SkipWhitespaceAux_fuel _ _ _ (by omega) (Nat.le_refl _)
    · rfl

theorem IsWhitespace_iff (c : Nat) : IsWhitespace c = true ↔ (c ≤ 32 ∨ c = 127) := by
  simp only [IsWhitespace, Bool.and_eq_true, Bool.or_eq_true, decide_eq_true_eq]
  omega

theorem skipSpaces_space (c : Nat) (rest : List Nat) (h : 1 ≤ c ∧ c ≤ 32 ∨ c = 127) :
    skipSpaces (c :: rest) = skipSpaces rest := by
  have h1 : IsWhitespace c = true := (IsWhitespace_iff c).2 (by omega)
  have h2 : c ≠ 0 := by omega
  simp [skipSpaces, h1, h2]

theorem SkipWhitespace_space (c : Nat) (rest : List Nat) (h : 1 ≤ c ∧ c ≤ 32 ∨ c = 127) :
    SkipWhitespace (c :: rest) = SkipWhitespace rest := by
  rw [SkipWhitespace_eq (c :: rest), SkipWhitespace_eq rest, skipSpaces_space c rest h]

theorem skipLine_body (body rest : List Nat) (h : ∀ c ∈ body, c ≠ 0 ∧ c ≠ 13 ∧ c ≠ 10) :
    skipLine (body ++ rest) = skipLine rest := by
  induction body with
  | nil => rfl
  | cons c body ih =>
    have hc := h c (List.mem_cons_self _ _)
    have := ih (fun d hd => h d (List.mem_cons_of_mem _ hd))
    simp [skipLine, hc.1, hc.2.1, hc.2.2, this]

theorem skipSpaces_stop (c : Nat) (rest : List Nat) (h : ¬ (c ≤ 32 ∨ c = 127) ∨ c = 0) :
    skipSpaces (c :: rest) = c :: rest := by
  unfold skipSpaces
  split
  · rename_i h1
    simp only [Bool.and_eq_true, bne_iff_ne, ne_eq] at h1
    have := (IsWhitespace_iff c).1 h1.1
    rcases h with h | h
    · exact absurd this h
    · exact absurd h h1.2
  · rfl

theorem SkipWhitespace_comment (body : List Nat) (eol : Nat) (rest : List Nat)
    (hb : ∀ c ∈ body, c ≠ 0 ∧ c ≠ 13 ∧ c ≠ 10) (he : eol = 10 ∨ eol = 13) :
    SkipWhitespace (SLASH :: SLASH :: (body ++ eol :: rest)) = SkipWhitespace rest := by
  rw [SkipWhitespace_eq, skipSpaces_stop SLASH _ (by decide)]
  have hs : startsComment (SLASH :: SLASH :: (body ++ eol :: rest)) = true := by
    simp [startsComment, peek]
  rw [if_pos hs]
  have hl : skipLine (SLASH :: SLASH :: (body ++ eol :: rest)) = eol :: rest := by
    have h3 : skipLine (eol :: rest) = eol :: rest := by
      rcases he with rfl | rfl <;> simp [skipLine]
    have h4 : skipLine (SLASH :: SLASH :: (body ++ eol :: rest))
        = skipLine (body ++ eol :: rest) := by simp [skipLine]
    rw [h4, skipLine_body body _ hb, h3]
  rw [hl]
  exact SkipWhitespace_space eol rest (by omega)

/-- A gap is skipped whole. -/
theorem SkipWhitespace_gap (g rest : List Nat) (hg : IsGap g) :
    SkipWhitespace (g ++ rest) = SkipWhitespace rest := by
  induction hg with
  | nil => rfl
  | space c g hc _ ih =>
    rw [List.cons_append, SkipWhitespace_space c _ hc, ih]
  | comment body eol g hb he _ ih =>
    have : SLASH :: SLASH :: (body ++ eol :: g) ++ rest
        = SLASH :: SLASH :: (body ++ eol :: (g ++ rest)) := by simp
    rw [this, SkipWhitespace_comment body eol _ hb he, ih]

/-- Where no whitespace and no comment starts, nothing is skipped. -/
theorem SkipWhitespace_stop (str : List Nat)
    (h1 : ¬ (peek str ≤ 32 ∨ peek str = 127) ∨ peek str = 0)
    (h2 : startsComment str = false) : SkipWhitespace str = str := by
  have hs : skipSpaces str = str := by
    cases str with
    | nil => rfl
    | cons c rest => exact skipSpaces_stop c rest h1
  rw [SkipWhitespace_eq, hs, h2]
  simp

theorem SkipWhitespace_nil : SkipWhitespace [] = [] := rfl

theorem startsComment_of_peek_zero (str : List Nat) (h : peek str = 0) :
    startsComment str = false := by
  simp [startsComment, h]

theorem skipLine_of_peek_zero (str : List Nat) (h : peek str = 0) : skipLine str = str := by
  cases str with
  | nil => rfl
  | cons c rest =>
    simp only [peek, List.headD_cons] at h
    simp [skipLine, h]

/-- The ending of an input is skipped up to the terminator. -/
theorem SkipWhitespace_ending (e rest : List Nat) (he : IsEnding e) (hr : peek rest = 0) :
    SkipWhitespace (e ++ rest) = rest := by
  have hstop : SkipWhitespace rest = rest :=
    SkipWhitespace_stop rest (Or.inr hr) (startsComment_of_peek_zero rest hr)
  rcases he with ⟨_, hg⟩ | ⟨g, body, hg, hb⟩
  · rw [SkipWhitespace_gap e rest hg, hstop]
  · rw [List.append_assoc, SkipWhitespace_gap g _ hg, List.cons_append, List.cons_append,
      SkipWhitespace_eq, skipSpaces_stop SLASH _ (by decide)]
    have hs : startsComment (SLASH :: SLASH :: (body ++ rest)) = true := by
      simp [startsComment, peek]
    rw [if_pos hs]
    have hl : skipLine (SLASH :: SLASH :: (body ++ rest)) = rest := by
      have h4 : skipLine (SLASH :: SLASH :: (body ++ rest)) = skipLine (body ++ rest) := by
        simp [skipLine]
      rw [h4, skipLine_body body rest hb, skipLine_of_peek_zero rest hr]
    rw [hl, hstop]

/-! ### Tokens -/

theorem scanQuoted_closed (s rest : List Nat) (h : ∀ c ∈ s, c ≠ 0 ∧ c ≠ STRING_CONTAINER) :
    scanQuoted (s ++ STRING_CONTAINER :: rest) = (s, STRING_CONTAINER :: rest) := by
  induction s with
  | nil => simp [scanQuoted]
  | cons c s ih =>
    have hc := h c (List.mem_cons_self _ _)
    have := ih (fun d hd => h d (List.mem_cons_of_mem _ hd))
    simp [scanQuoted, hc.1, hc.2, this]

/-- `ReadQuotedString` on `"s"rest` returns `s` and stops at `rest`. -/
theorem ReadQuotedString_closed (q : Nat) (s rest : List Nat)
    (h : ∀ c ∈ s, c ≠ 0 ∧ c ≠ STRING_CONTAINER) :
    ReadQuotedString (q :: (s ++ STRING_CONTAINER :: rest)) = (KeyValueErrorCode.NONE, rest, s) := by
  simp [ReadQuotedString, scanQuoted_closed s rest h, peek]

theorem scanQuoted_open (u : List Nat) (h : ∀ c ∈ u, c ≠ STRING_CONTAINER) :
    peek (scanQuoted u).2 = 0 := by
  induction u with
  | nil => rfl
  | cons c u ih =>
    have hc := h c (List.mem_cons_self _ _)
    have := ih (fun d hd => h d (List.mem_cons_of_mem _ hd))
    unfold scanQuoted
    split
    · exact this
    · rename_i hn
      simp only [bne_iff_ne, ne_eq, Bool.and_eq_true, not_and, Decidable.not_not] at hn
      by_cases h0 : c = 0
      · simp [peek, h0]
      · exact absurd (hn h0) hc

/-- `ReadQuotedString` fails when no quote follows the opening one. -/
theorem ReadQuotedString_open (q : Nat) (u : List Nat) (h : ∀ c ∈ u, c ≠ STRING_CONTAINER) :
    (ReadQuotedString (q :: u)).1 = KeyValueErrorCode.INCOMPLETE_STRING := by
  simp [ReadQuotedString, scanQuoted_open u h]

theorem peek_append_singleton (s after : List Nat) :
    peek (s ++ [peek after]) = peek (s ++ after) := by
  cases s with
  | nil => cases after <;> rfl
  | cons c s => rfl

theorem endsBare_stop (after : List Nat) (h : endsBare after = true) :
    ReadQuotelessString after = ([], after) := by
  cases after with
  | nil => rfl
  | cons c rest =>
    unfold ReadQuotelessString
    split
    · rename_i hc
      simp only [endsBare, peek, List.headD_cons, List.tail_cons, Bool.or_eq_true,
        decide_eq_true_eq, beq_iff_eq, Bool.and_eq_true] at h
      simp only [Bool.and_eq_true, Bool.not_eq_true', IsSpecialCharacter, Bool.or_eq_false_iff,
        beq_eq_false_iff_ne, ne_eq, Bool.and_eq_false_imp, beq_iff_eq] at hc
      have hw : ¬ (c ≤ 32 ∨ c = 127) := by
        intro hw
        have := (IsWhitespace_iff c).2 hw
        rw [this] at hc
        exact absurd hc.1 (by simp)
      obtain ⟨_, ⟨⟨h34, h123⟩, h125⟩, hsl⟩ := hc
      rcases h with ((((h | h) | h) | h) | h) | h
      · exact absurd (Or.inl h) hw
      · exact absurd (Or.inr h) hw
      · exact absurd h h34
      · exact absurd h h123
      · exact absurd h h125
      · exact absurd h.2 (hsl h.1)
    · rfl

/-- `ReadQuotelessString` on a bare token followed by `after` returns the token
and stops at `after`. -/
theorem ReadQuotelessString_bare (s after : List Nat)
    (hb : ∀ c ∈ s, isBareByte c = true)
    (hc : containsComment (s ++ [peek after]) = false) (he : endsBare after = true) :
    ReadQuotelessString (s ++ after) = (s, after) := by
  induction s with
  | nil => exact endsBare_stop after he
  | cons c s ih =>
    have hcb := hb c (List.mem_cons_self _ _)
    rw [List.cons_append] at hc
    simp only [containsComment, Bool.or_eq_false_iff, Bool.and_eq_false_imp,
      beq_iff_eq, beq_eq_false_iff_ne, ne_eq] at hc
    have ih1 := ih (fun d hd => hb d (List.mem_cons_of_mem _ hd)) hc.2
    simp only [isBareByte, Bool.and_eq_true, Bool.not_eq_true', Bool.or_eq_false_iff,
      decide_eq_false_iff_not, beq_eq_false_iff_ne, bne_iff_ne, ne_eq] at hcb
    have hw : IsWhitespace c = false := by
      cases hx : IsWhitespace c with
      | false => rfl
      | true =>
        have := (IsWhitespace_iff c).1 hx
        omega
    have hs : IsSpecialCharacter c (peek (s ++ after)) = false := by
      have h1 := hc.1
      rw [peek_append_singleton] at h1
      simp only [IsSpecialCharacter, Bool.or_eq_false_iff, beq_eq_false_iff_ne, ne_eq,
        Bool.and_eq_false_imp, beq_iff_eq]
      exact ⟨⟨⟨hcb.1.1.2, hcb.1.2⟩, hcb.2⟩, h1⟩
    simp [ReadQuotelessString, hw, hs, ih1]

theorem Parse_mono_succ : ∀ (f : Nat) (str : List Nat) (isRoot : Bool) (cs : List KeyValue)
    (lk : Bool) (n b : Nat) (r : ParseResult),
    KeyValue.Parse f str isRoot cs lk n b = some r →
    KeyValue.Parse (f + 1) str isRoot cs lk n b = some r := by
  intro f
  induction f with
  | zero => intro str isRoot cs lk n b r h; simp [KeyValue.Parse] at h
  | succ f ih =>
    intro str isRoot cs lk n b r h
    rw [KeyValue.Parse] at h ⊢
    cases hk : parseKey (SkipWhitespace str) isRoot with
    | ret e s => rw [hk] at h; exact h
    | done s => rw [hk] at h; exact h
    | key s pairkey =>
      rw [hk] at h
      simp only at h ⊢
      split
      · rename_i hc
        rw [if_pos hc] at h
        rcases hq : ReadQuotedString (SkipWhitespace s) with ⟨e1, s1, v1⟩
        rw [hq] at h
        cases e1 <;> first | exact ih _ _ _ _ _ _ _ h | exact h
      · rename_i hc
        rw [if_neg hc] at h
        split
        · rename_i hc2
          rw [if_pos hc2] at h
          cases hsub : KeyValue.Parse f (SkipWhitespace s).tail false [] false 0
              (b + (pairkey.length + 1)) with
          | none => rw [hsub] at h; simp at h
          | some sub =>
            rw [hsub] at h
            rw [ih _ _ _ _ _ _ _ hsub]
            simp only at h ⊢
            split
            · rename_i he
              rw [if_pos he] at h
              exact ih _ _ _ _ _ _ _ h
            · rename_i he
              rw [if_neg he] at h
              exact h
        · rename_i hc2
          rw [if_neg hc2] at h
          split
          · rename_i hc3
            rw [if_pos hc3] at h
            exact h
          · rename_i hc3
            rw [if_neg hc3] at h
            split
            · rename_i hc4
              rw [if_pos hc4] at h
              exact h
            · rename_i hc4
              rw [if_neg hc4] at h
              exact ih _ _ _ _ _ _ _ h

theorem Parse_mono (f g : Nat) (hfg : f ≤ g) (str : List Nat) (isRoot : Bool)
    (cs : List KeyValue) (lk : Bool) (n b : Nat) (r : ParseResult)
    (h : KeyValue.Parse f str isRoot cs lk n b = some r) :
    KeyValue.Parse g str isRoot cs lk n b = some r := by
  induction hfg with
  | refl => exact h
  | step _ ih => exact Parse_mono_succ _ _ _ _ _ _ _ _ ih

theorem isBareByte_iff (c : Nat) : isBareByte c = true ↔
    (¬ (c ≤ 32 ∨ c = 127) ∧ c ≠ STRING_CONTAINER ∧ c ≠ BLOCK_BEGIN ∧ c ≠ BLOCK_END) := by
  simp only [isBareByte, Bool.and_eq_true, Bool.not_eq_true', Bool.or_eq_false_iff,
    decide_eq_false_iff_not, beq_eq_false_iff_ne, bne_iff_ne, ne_eq]
  tauto

/-- What the parser sees at the first byte of a well formed token. -/
theorem token_valid_start (t : Token) (after : List Nat) (h : t.Valid after) :
    (t.quoted = true ∧ peek (t.render ++ after) = STRING_CONTAINER
        ∧ ∀ q, ReadQuotedString (q :: (t.text ++ STRING_CONTAINER :: after))
            = (KeyValueErrorCode.NONE, after, t.text))
    ∨ (t.quoted = false ∧ isBareByte (peek (t.render ++ after)) = true
        ∧ startsComment (t.render ++ after) = false
        ∧ ReadQuotelessString (t.render ++ after) = (t.text, after)) := by
  unfold Token.Valid at h
  cases hq : t.quoted with
  | true =>
    rw [hq] at h
    simp only [if_true] at h
    left
    refine ⟨rfl, ?_, fun q => ReadQuotedString_closed q t.text after h⟩
    simp [Token.render, hq, peek]
  | false =>
    rw [hq] at h
    simp only [Bool.false_eq_true, if_false] at h
    obtain ⟨hne, hb, hc, he⟩ := h
    right
    have hr : t.render = t.text := by simp [Token.render, hq]
    rw [hr]
    obtain ⟨c, s, hcs⟩ := List.exists_cons_of_ne_nil hne
    refine ⟨rfl, ?_, ?_, ReadQuotelessString_bare t.text after hb hc he⟩
    · rw [hcs]
      exact hb c (by rw [hcs]; exact List.mem_cons_self _ _)
    · rw [hcs] at hc ⊢
      rw [List.cons_append] at hc
      simp only [containsComment, Bool.or_eq_false_iff] at hc
      have h1 := hc.1
      rw [peek_append_singleton] at h1
      simpa [startsComment, peek] using h1

theorem render_quoted (t : Token) (after : List Nat) (hq : t.quoted = true) :
    t.render ++ after = STRING_CONTAINER :: (t.text ++ STRING_CONTAINER :: after) := by
  simp [Token.render, hq]

theorem SkipWhitespace_token (t : Token) (after : List Nat) (h : t.Valid after) :
    SkipWhitespace (t.render ++ after) = t.render ++ after := by
  rcases token_valid_start t after h with ⟨_, hp, _⟩ | ⟨_, hb, hs, _⟩
  · apply SkipWhitespace_stop
    · rw [hp]; left; decide
    · simp [startsComment, hp]
  · apply SkipWhitespace_stop _ _ hs
    left
    exact ((isBareByte_iff _).1 hb).1

theorem parseKey_token (t : Token) (after : List Nat) (isRoot : Bool) (h : t.Valid after) :
    parseKey (t.render ++ after) isRoot = KeyStep.key after t.text := by
  rcases token_valid_start t after h with ⟨hq, hp, hr⟩ | ⟨_, hb, _, hr⟩
  · unfold parseKey
    simp only [hp, if_true]
    rw [render_quoted t after hq, hr]
  · unfold parseKey
    have hb2 := (isBareByte_iff _).1 hb
    have h0 : peek (t.render ++ after) ≠ 0 := by
      intro h0; rw [h0] at hb2; exact hb2.1 (by omega)
    simp only [if_neg hb2.2.1, if_neg hb2.2.2.1, if_neg hb2.2.2.2, if_neg h0, hr]

/-- One iteration of the parser loop over a written leaf. -/
theorem Parse_leaf_step (f : Nat) (pre : List Nat) (k : Token) (gap : List Nat) (v : Token)
    (after : List Nat) (isRoot : Bool) (cs : List KeyValue) (lk : Bool) (n b : Nat)
    (hv : (Item.leaf pre k gap v).Valid after) :
    KeyValue.Parse (f + 1) ((Item.leaf pre k gap v).render ++ after) isRoot cs lk n b
      = KeyValue.Parse f after isRoot (linkPair cs lk (KeyValue.leaf k.text v.text)) true (n + 1)
          (b + (k.text.length + 1) + (v.text.length + 1)) := by
  obtain ⟨hpre, hk, hgap, hval⟩ := hv
  have e1 : (Item.leaf pre k gap v).render ++ after
      = pre ++ (k.render ++ (gap ++ (v.render ++ after))) := by
    simp [Item.render]
  rw [e1, KeyValue.Parse, SkipWhitespace_gap _ _ hpre, SkipWhitespace_token k _ hk,
    parseKey_token k _ isRoot hk]
  simp only
  rw [SkipWhitespace_gap _ _ hgap, SkipWhitespace_token v _ hval]
  rcases token_valid_start v after hval with ⟨hq, hp, hr⟩ | ⟨_, hb, _, hr⟩
  · rw [if_pos hp, render_quoted v after hq, hr]
  · have hb2 := (isBareByte_iff _).1 hb
    have h0 : peek (v.render ++ after) ≠ 0 := by
      intro h0; rw [h0] at hb2; exact hb2.1 (by omega)
    rw [if_neg hb2.2.1, if_neg hb2.2.2.1, if_neg h0, if_neg hb2.2.2.2, hr]

/-- One iteration of the parser loop up to the nested call for a written block. -/
theorem Parse_node_step (f : Nat) (pre : List Nat) (k : Token) (gap : List Nat)
    (rest : List Nat) (isRoot : Bool) (cs : List KeyValue) (lk : Bool) (n b : Nat)
    (hpre : IsGap pre) (hk : k.Valid (gap ++ BLOCK_BEGIN :: rest)) (hgap : IsGap gap) :
    KeyValue.Parse (f + 1) (pre ++ (k.render ++ (gap ++ BLOCK_BEGIN :: rest))) isRoot cs lk n b
      = match KeyValue.Parse f rest false [] false 0 (b + (k.text.length + 1)) with
        | none => none
        | some sub =>
          if sub.error = KeyValueErrorCode.NONE then
            KeyValue.Parse f sub.str isRoot
              (linkPair cs lk (KeyValue.node k.text sub.children sub.childCount)) true
              (n + 1) sub.bufferSize
          else some ⟨sub.error, sub.str, cs, n, sub.bufferSize⟩ := by
  rw [KeyValue.Parse, SkipWhitespace_gap _ _ hpre, SkipWhitespace_token k _ hk,
    parseKey_token k _ isRoot hk]
  simp only
  have hs : SkipWhitespace (gap ++ BLOCK_BEGIN :: rest) = BLOCK_BEGIN :: rest := by
    rw [SkipWhitespace_gap _ _ hgap]
    exact SkipWhitespace_stop _ (by left; simp [peek, BLOCK_BEGIN, BLOCK_END]) (by simp [startsComment, peek])
  rw [hs]
  simp [peek]

/-- The parser loop at the `}` that closes a block. -/
theorem Parse_close_step (f : Nat) (close after : List Nat) (cs : List KeyValue) (lk : Bool)
    (n b : Nat) (hc : IsGap close) :
    KeyValue.Parse (f + 1) (close ++ BLOCK_END :: after) false cs lk n b
      = some ⟨KeyValueErrorCode.NONE, after, cs, n, b⟩ := by
  have hs : SkipWhitespace (close ++ BLOCK_END :: after) = BLOCK_END :: after := by
    rw [SkipWhitespace_gap _ _ hc]
    exact SkipWhitespace_stop _ (by left; simp [peek, BLOCK_BEGIN, BLOCK_END]) (by simp [startsComment, peek])
  rw [KeyValue.Parse, hs]
  simp [parseKey, peek]

/-- The parser loop of the root at the end of the input. -/
theorem Parse_end_root (f : Nat) (e rest : List Nat) (cs : List KeyValue) (lk : Bool)
    (n b : Nat) (he : IsEnding e) (hr : peek rest = 0) :
    KeyValue.Parse (f + 1) (e ++ rest) true cs lk n b
      = some ⟨KeyValueErrorCode.NONE, rest, cs, n, b⟩ := by
  rw [KeyValue.Parse, SkipWhitespace_ending e rest he hr]
  simp [parseKey, hr]

theorem linkItems_linkPair (cs : List KeyValue) (lk : Bool) (t : KeyValue) (ts : List KeyValue) :
    linkItems (linkPair cs lk t) true ts = linkPair cs lk t ++ ts := by
  cases ts with
  | nil => simp [linkItems]
  | cons u us => simp [linkItems, linkPair]

theorem linkItems_fresh (ts : List KeyValue) : linkItems [] false ts = ts := by
  cases ts with
  | nil => rfl
  | cons u us => simp [linkItems, linkPair]

mutual
/-- The parser loop consumes a well formed written pair and links its node. -/
theorem Parse_item : ∀ (it : Item) (after : List Nat), it.Valid after →
    ∀ (isRoot : Bool) (cs : List KeyValue) (lk : Bool) (n b : Nat) (r : ParseResult) (f : Nat),
    KeyValue.Parse f after isRoot (linkPair cs lk it.tree) true (n + 1)
      (b + it.tree.stringBytes) = some r →
    ∃ g, KeyValue.Parse g (it.render ++ after) isRoot cs lk n b = some r
  | Item.leaf pre k gap v, after, hv, isRoot, cs, lk, n, b, r, f, h => by
    refine ⟨f + 1, ?_⟩
    rw [Parse_leaf_step f pre k gap v after isRoot cs lk n b hv]
    simpa [Item.tree, KeyValue.stringBytes, Nat.add_assoc] using h
  | Item.node pre k gap body close, after, hv, isRoot, cs, lk, n, b, r, f, h => by
    obtain ⟨hpre, hk, hgap, hbody, hclose⟩ := hv
    have hsub := Parse_items body (close ++ BLOCK_END :: after) hbody false [] false 0
      (b + (k.text.length + 1))
      ⟨KeyValueErrorCode.NONE, after, linkItems [] false (treeItems body), 0 + body.length,
        b + (k.text.length + 1) + stringBytesList (treeItems body)⟩ 1
      (Parse_close_step 0 close after _ _ _ _ hclose)
    obtain ⟨g1, hg1⟩ := hsub
    refine ⟨max g1 f + 1, ?_⟩
    have e1 : (Item.node pre k gap body close).render ++ after
        = pre ++ (k.render ++ (gap ++ BLOCK_BEGIN ::
            (renderItems body ++ (close ++ BLOCK_END :: after)))) := by
      simp [Item.render]
    rw [e1, Parse_node_step _ pre k gap _ isRoot cs lk n b hpre hk hgap,
      Parse_mono g1 (max g1 f) (Nat.le_max_left _ _) _ _ _ _ _ _ _ hg1]
    simp only [if_true]
    apply Parse_mono f (max g1 f) (Nat.le_max_right _ _)
    simpa [Item.tree, KeyValue.stringBytes, Nat.add_assoc, linkItems_fresh] using h
/-- The parser loop consumes a well formed sequence of written pairs. -/
theorem Parse_items : ∀ (items : List Item) (after : List Nat), ValidItems items after →
    ∀ (isRoot : Bool) (cs : List KeyValue) (lk : Bool) (n b : Nat) (r : ParseResult) (f : Nat),
    KeyValue.Parse f after isRoot (linkItems cs lk (treeItems items)) (lk || !items.isEmpty)
      (n + items.length) (b + stringBytesList (treeItems items)) = some r →
    ∃ g, KeyValue.Parse g (renderItems items ++ after) isRoot cs lk n b = some r
  | [], after, _, isRoot, cs, lk, n, b, r, f, h => by
    refine ⟨f, ?_⟩
    simpa [renderItems, treeItems, linkItems, stringBytesList] using h
  | it :: rest, after, hv, isRoot, cs, lk, n, b, r, f, h => by
    obtain ⟨hit, hrest⟩ := hv
    have h1 := Parse_items rest after hrest isRoot (linkPair cs lk it.tree) true (n + 1)
      (b + it.tree.stringBytes) r f
      (by
        rw [linkItems_linkPair]
        simpa [treeItems, linkItems, stringBytesList, Nat.add_assoc, Nat.add_comm 1] using h)
    obtain ⟨g1, hg1⟩ := h1
    have h2 := Parse_item it (renderItems rest ++ after) hit isRoot cs lk n b r g1 hg1
    obtain ⟨g2, hg2⟩ := h2
    refine ⟨g2, ?_⟩
    simpa [renderItems] using hg2
end

theorem skipSpaces_head (str : List Nat) :
    ¬ (peek (skipSpaces str) ≤ 32 ∨ peek (skipSpaces str) = 127) ∨ peek (skipSpaces str) = 0 := by
  induction str with
  | nil => right; rfl
  | cons c rest ih =>
    unfold skipSpaces
    split
    · exact ih
    · rename_i h
      simp only [Bool.and_eq_true, bne_iff_ne, ne_eq, not_and, Decidable.not_not] at h
      by_cases hw : IsWhitespace c = true
      · right; exact h hw
      · left
        intro hc
        exact hw ((IsWhitespace_iff c).2 hc)

/-- Where `SkipWhitespace` stops: it moved forward only, and it stands on the
terminator or on a byte that is no whitespace and starts no comment. -/
theorem SkipWhitespace_spec (str : List Nat) :
    (SkipWhitespace str).length ≤ str.length
    ∧ (¬ (peek (SkipWhitespace str) ≤ 32 ∨ peek (SkipWhitespace str) = 127)
        ∨ peek (SkipWhitespace str) = 0)
    ∧ startsComment (SkipWhitespace str) = false := by
  suffices h : ∀ (n : Nat) (str : List Nat), str.length = n →
      (SkipWhitespace str).length ≤ str.length
      ∧ (¬ (peek (SkipWhitespace str) ≤ 32 ∨ peek (SkipWhitespace str) = 127)
          ∨ peek (SkipWhitespace str) = 0)
      ∧ startsComment (SkipWhitespace str) = false from h _ str rfl
  intro n
  induction n using Nat.strong_induction_on with
  | _ n ih =>
    intro str hn
    rw [SkipWhitespace_eq]
    split
    · rename_i hc
      have h1 := skipLine_comment_length _ hc
      have h2 := skipSpaces_length_le str
      have := ih (skipLine (skipSpaces str)).length (by omega) _ rfl
      exact ⟨by omega, this.2⟩
    · rename_i hc
      exact ⟨skipSpaces_length_le str, skipSpaces_head str, by simpa using hc⟩

theorem scanQuoted_length (str : List Nat) : (scanQuoted str).2.length ≤ str.length := by
  induction str with
  | nil => simp [scanQuoted]
  | cons c rest ih =>
    unfold scanQuoted
    split
    · exact Nat.le_succ_of_le ih
    · exact Nat.le_refl _

theorem ReadQuotedString_length (str : List Nat) :
    (ReadQuotedString str).2.1.length ≤ str.length - 1 := by
  unfold ReadQuotedString
  have := scanQuoted_length str.tail
  have ht : str.tail.length = str.length - 1 := by simp
  simp only
  split
  · simp only; omega
  · simp only [List.length_tail]; omega

theorem ReadQuotelessString_length (str : List Nat) :
    (ReadQuotelessString str).2.length ≤ str.length := by
  induction str with
  | nil => simp [ReadQuotelessString]
  | cons c rest ih =>
    unfold ReadQuotelessString
    split
    · exact Nat.le_succ_of_le ih
    · exact Nat.le_refl _

/-- A quoteless string read where the parser reads one is never empty: the
position moves by one byte at least. -/
theorem ReadQuotelessString_progress (str : List Nat)
    (h1 : ¬ (peek str ≤ 32 ∨ peek str = 127) ∨ peek str = 0)
    (h2 : startsComment str = false)
    (h0 : peek str ≠ 0) (hq : peek str ≠ STRING_CONTAINER) (hb : peek str ≠ BLOCK_BEGIN)
    (he : peek str ≠ BLOCK_END) :
    (ReadQuotelessString str).2.length < str.length ∧ (ReadQuotelessString str).1 ≠ [] := by
  cases str with
  | nil => exact absurd rfl h0
  | cons c rest =>
    simp only [peek, List.headD_cons] at h1 h0 hq hb he
    have hw : IsWhitespace c = false := by
      cases hx : IsWhitespace c with
      | false => rfl
      | true =>
        have := (IsWhitespace_iff c).1 hx
        rcases h1 with h1 | h1
        · exact absurd this h1
        · exact absurd h1 h0
    have hs : IsSpecialCharacter c (peek rest) = false := by
      simp only [startsComment, peek, List.headD_cons, List.tail_cons, Bool.and_eq_false_imp,
        beq_iff_eq, beq_eq_false_iff_ne, ne_eq] at h2
      simp only [IsSpecialCharacter, Bool.or_eq_false_iff, beq_eq_false_iff_ne, ne_eq,
        Bool.and_eq_false_imp, beq_iff_eq]
      exact ⟨⟨⟨hq, hb⟩, he⟩, h2⟩
    have := ReadQuotelessString_length rest
    simp only [ReadQuotelessString, hw, hs, Bool.not_false, Bool.and_self, if_true,
      List.length_cons]
    exact ⟨by omega, by simp⟩

/-- The first `switch` of the loop: a key that was read moved the position
forward, and no other outcome moved it back. -/
theorem parseKey_length (str0 : List Nat) (isRoot : Bool) :
    match parseKey (SkipWhitespace str0) isRoot with
    | KeyStep.ret _ s => s.length ≤ str0.length
    | KeyStep.done s => s.length ≤ str0.length
    | KeyStep.key s _ => s.length < str0.length := by
  obtain ⟨hl, h1, h2⟩ := SkipWhitespace_spec str0
  generalize SkipWhitespace str0 = str at hl h1 h2
  unfold parseKey
  simp only
  by_cases hq : peek str = STRING_CONTAINER
  · rw [if_pos hq]
    have := ReadQuotedString_length str
    have hpos : 0 < str.length := by
      cases str with
      | nil => simp [peek] at hq
      | cons _ _ => simp
    rcases hr : ReadQuotedString str with ⟨e, s, v⟩
    rw [hr] at this
    simp only at this
    cases e <;> simp only <;> omega
  · rw [if_neg hq]
    by_cases he : peek str = BLOCK_END
    · rw [if_pos he]
      cases isRoot <;> simp only [if_true, Bool.false_eq_true, if_false, List.length_tail] <;> omega
    · rw [if_neg he]
      by_cases h0 : peek str = 0
      · rw [if_pos h0]
        cases isRoot <;> simp only [if_true, Bool.false_eq_true, if_false] <;> omega
      · rw [if_neg h0]
        by_cases hb : peek str = BLOCK_BEGIN
        · rw [if_pos hb]
          simp only
          omega
        · rw [if_neg hb]
          have := (ReadQuotelessString_progress str h1 h2 h0 hq hb he).1
          simp only
          omega

/-- `KeyValue::Parse` returns: fuel above the length of the input is enough,
and the position it leaves is not behind the one it started from. -/
theorem Parse_total : ∀ (f : Nat) (str : List Nat) (isRoot : Bool) (cs : List KeyValue)
    (lk : Bool) (n b : Nat), str.length < f →
    ∃ r, KeyValue.Parse f str isRoot cs lk n b = some r ∧ r.str.length ≤ str.length := by
  intro f
  induction f with
  | zero => intro str _ _ _ _ _ h; exact absurd h (Nat.not_lt_zero _)
  | succ f ih =>
    intro str isRoot cs lk n b hf
    rw [KeyValue.Parse]
    have hk := parseKey_length str isRoot
    cases hkey : parseKey (SkipWhitespace str) isRoot with
    | ret e s => rw [hkey] at hk; exact ⟨_, rfl, hk⟩
    | done s => rw [hkey] at hk; exact ⟨_, rfl, hk⟩
    | key s pairkey =>
      rw [hkey] at hk
      simp only at hk ⊢
      have hs := (SkipWhitespace_spec s).1
      split
      · have hq := ReadQuotedString_length (SkipWhitespace s)
        rcases hr : ReadQuotedString (SkipWhitespace s) with ⟨e1, s1, v1⟩
        rw [hr] at hq
        simp only at hq
        cases e1
        case NONE =>
          obtain ⟨r, hr1, hr2⟩ := ih s1 isRoot
            (linkPair cs lk (KeyValue.leaf pairkey v1)) true (n + 1)
            (b + (pairkey.length + 1) + (v1.length + 1)) (by omega)
          exact ⟨r, hr1, by omega⟩
        all_goals exact ⟨_, rfl, by simp only; omega⟩
      · split
        · obtain ⟨sub, hsub1, hsub2⟩ := ih (SkipWhitespace s).tail false [] false 0
            (b + (pairkey.length + 1)) (by simp only [List.length_tail]; omega)
          rw [hsub1]
          simp only [List.length_tail] at hsub2
          simp only
          split
          · obtain ⟨r, hr1, hr2⟩ := ih sub.str isRoot
              (linkPair cs lk (KeyValue.node pairkey sub.children sub.childCount)) true (n + 1)
              sub.bufferSize (by omega)
            exact ⟨r, hr1, by omega⟩
          · exact ⟨_, rfl, by simp only; omega⟩
        · split
          · exact ⟨_, rfl, by simp only; omega⟩
          · split
            · exact ⟨_, rfl, by simp only; omega⟩
            · have hq := ReadQuotelessString_length (SkipWhitespace s)
              obtain ⟨r, hr1, hr2⟩ := ih (ReadQuotelessString (SkipWhitespace s)).2 isRoot
                (linkPair cs lk (KeyValue.leaf pairkey (ReadQuotelessString (SkipWhitespace s)).1))
                true (n + 1)
                (b + (pairkey.length + 1) + ((ReadQuotelessString (SkipWhitespace s)).1.length + 1))
                (by omega)
              exact ⟨r, hr1, by omega⟩

/-- A result obtained with some fuel is the result of the call with the fuel
`KeyValueRoot::Parse` gives. -/
theorem Parse_of_fuel (g : Nat) (str : List Nat) (isRoot : Bool) (cs : List KeyValue)
    (lk : Bool) (n b : Nat) (r : ParseResult)
    (h : KeyValue.Parse g str isRoot cs lk n b = some r) :
    KeyValue.Parse (str.length + 1) str isRoot cs lk n b = some r := by
  obtain ⟨r1, h1, _⟩ := Parse_total (str.length + 1) str isRoot cs lk n b (Nat.lt_succ_self _)
  have h2 := Parse_mono _ (max g (str.length + 1)) (Nat.le_max_left _ _) _ _ _ _ _ _ _ h
  have h3 := Parse_mono _ (max g (str.length + 1)) (Nat.le_max_right _ _) _ _ _ _ _ _ _ h1
  rw [h2] at h3
  rw [h1]
  exact h3.symm

theorem isGap_space : IsGap [32] := IsGap.space 32 [] (by omega) IsGap.nil

mutual
theorem toItem_render : ∀ (kv : KeyValue) (pre : List Nat),
    (kv.toItem pre).render = pre ++ kv.canon
  | KeyValue.leaf key value, pre => by
    simp [KeyValue.toItem, Item.render, KeyValue.canon, Token.render]
  | KeyValue.node key children n, pre => by
    simp [KeyValue.toItem, Item.render, KeyValue.canon, Token.render,
      toItemsSpaced_render children]
theorem toItemsSpaced_render : ∀ (kvs : List KeyValue),
    renderItems (toItemsSpaced kvs) = canonSpaced kvs
  | [] => rfl
  | kv :: rest => by
    simp [toItemsSpaced, renderItems, canonSpaced, toItem_render kv,
      toItemsSpaced_render rest]
end

theorem toItemsSpaced_length (kvs : List KeyValue) : (toItemsSpaced kvs).length = kvs.length := by
  induction kvs with
  | nil => rfl
  | cons kv rest ih => simp [toItemsSpaced, ih]

mutual
theorem toItem_tree : ∀ (kv : KeyValue) (pre : List Nat), kv.WellFormed →
    (kv.toItem pre).tree = kv
  | KeyValue.leaf key value, pre, _ => by simp [KeyValue.toItem, Item.tree]
  | KeyValue.node key children n, pre, h => by
    obtain ⟨_, hn, hc⟩ := h
    simp [KeyValue.toItem, Item.tree, toItemsSpaced_tree children hc, toItemsSpaced_length, hn]
theorem toItemsSpaced_tree : ∀ (kvs : List KeyValue), WellFormedList kvs →
    treeItems (toItemsSpaced kvs) = kvs
  | [], _ => rfl
  | kv :: rest, h => by
    simp [toItemsSpaced, treeItems, toItem_tree kv [32] h.1, toItemsSpaced_tree rest h.2]
end

theorem quoted_valid (s after : List Nat) (h : Quotable s) : Token.Valid ⟨true, s⟩ after := by
  simpa [Token.Valid] using h

mutual
theorem toItem_valid : ∀ (kv : KeyValue) (pre after : List Nat), IsGap pre → kv.WellFormed →
    (kv.toItem pre).Valid after
  | KeyValue.leaf key value, pre, after, hp, h => by
    exact ⟨hp, quoted_valid _ _ h.1, isGap_space, quoted_valid _ _ h.2⟩
  | KeyValue.node key children n, pre, after, hp, h => by
    exact ⟨hp, quoted_valid _ _ h.1, isGap_space,
      toItemsSpaced_valid children _ h.2.2, isGap_space⟩
theorem toItemsSpaced_valid : ∀ (kvs : List KeyValue) (after : List Nat), WellFormedList kvs →
    ValidItems (toItemsSpaced kvs) after
  | [], _, _ => trivial
  | kv :: rest, after, h =>
    ⟨toItem_valid kv [32] _ isGap_space h.1, toItemsSpaced_valid rest after h.2⟩
end

theorem overwrite_length (buf : List Nat) (dest : Nat) (data : List Nat)
    (h : dest + data.length ≤ buf.length) : (overwrite buf dest data).length = buf.length := by
  simp only [overwrite, List.length_append, List.length_take, List.length_drop]
  omega

theorem overwrite_nil (buf : List Nat) (dest : Nat) : overwrite buf dest [] = buf := by
  simp [overwrite]

theorem overwrite_overwrite (buf : List Nat) (dest : Nat) (a b : List Nat)
    (h : dest + a.length ≤ buf.length) :
    overwrite (overwrite buf dest a) (dest + a.length) b = overwrite buf dest (a ++ b) := by
  have h1 : (List.take dest buf).length = dest := by
    rw [List.length_take]; omega
  have h2 : List.take (dest + a.length) (List.take dest buf ++ a ++ List.drop (dest + a.length) buf)
      = List.take dest buf ++ a := by
    rw [List.take_append_eq_append_take]
    simp [h1]
  have h3 : List.drop (dest + a.length + b.length)
      (List.take dest buf ++ a ++ List.drop (dest + a.length) buf)
      = List.drop (dest + (a.length + b.length)) buf := by
    rw [List.drop_append_eq_append_drop]
    simp only [List.length_append, h1]
    have : List.drop (dest + a.length + b.length) (List.take dest buf ++ a) = [] := by
      apply List.drop_eq_nil_of_le
      simp [h1]
    rw [this, List.nil_append, List.drop_drop]
    congr 1
    omega
  unfold overwrite
  rw [h2, h3]
  simp only [List.length_append, List.append_assoc]

theorem memcpy_eq (buf : List Nat) (dest : Nat) (src : List Nat) (n : Nat)
    (h : dest + n ≤ buf.length) (hn : n ≤ src.length) :
    memcpy buf dest src n = some (overwrite buf dest (src.take n)) := by
  simp [memcpy, h, overwrite, List.length_take, Nat.min_eq_left hn]

theorem store_eq (buf : List Nat) (i v : Nat) (h : i < buf.length) :
    store buf i v = some (overwrite buf i [v]) := by
  simp only [store, h, if_true, overwrite, List.length_singleton, Option.some.injEq]
  rw [List.set_eq_take_append_cons_drop, if_pos h]
  simp

theorem slice_overwrite (buf : List Nat) (dest : Nat) (data more : List Nat)
    (h : dest ≤ buf.length) :
    slice (overwrite buf dest (data ++ more)) dest data.length = data := by
  have h1 : (List.take dest buf).length = dest := by
    rw [List.length_take]; omega
  simp only [slice, overwrite, List.append_assoc]
  rw [List.drop_append_eq_append_drop, h1, Nat.sub_self, List.drop_zero]
  have : List.drop dest (List.take dest buf) = [] := by
    apply List.drop_eq_nil_of_le
    omega
  rw [this, List.nil_append, List.take_append_eq_append_take]
  simp

/-- Copying a slice into the buffer: the slice keeps its bytes, the buffer
receives them and a terminator, `destBuffer` moves past both. -/
theorem copySlice_ok (s buf : List Nat) (dest : Nat) (h : dest + (s.length + 1) ≤ buf.length) :
    copySlice s buf dest = some (s, overwrite buf dest (s ++ [0]), dest + (s.length + 1)) := by
  unfold copySlice
  rw [memcpy_eq buf dest s s.length (by omega) (Nat.le_refl _), List.take_length]
  simp only
  rw [store_eq _ _ _ (by rw [overwrite_length _ _ _ (by omega)]; omega),
    overwrite_overwrite _ _ _ _ (by omega)]
  simp only
  rw [slice_overwrite _ _ _ _ (by omega)]

mutual
theorem stringData_length : ∀ (kv : KeyValue), kv.stringData.length = kv.stringBytes
  | KeyValue.leaf key value => by
    simp [KeyValue.stringData, KeyValue.stringBytes]; omega
  | KeyValue.node key children n => by
    simp [KeyValue.stringData, KeyValue.stringBytes, stringDataList_length children]; omega
theorem stringDataList_length : ∀ (kvs : List KeyValue),
    (stringDataList kvs).length = stringBytesList kvs
  | [] => rfl
  | kv :: rest => by
    simp [stringDataList, stringBytesList, stringData_length kv, stringDataList_length rest]
end

mutual
/-- `BuildData` on one node: the node keeps its strings and the buffer receives them. -/
theorem BuildDataNode_ok : ∀ (kv : KeyValue) (buf : List Nat) (dest : Nat), kv.Counted →
    dest + kv.stringBytes ≤ buf.length →
    BuildDataNode kv buf dest = some (kv, overwrite buf dest kv.stringData, dest + kv.stringBytes)
  | KeyValue.leaf key value, buf, dest, _, h => by
    simp only [KeyValue.stringBytes] at h
    rw [BuildDataNode, copySlice_ok key buf dest (by omega)]
    simp only
    rw [copySlice_ok value _ _ (by rw [overwrite_length _ _ _ (by simp; omega)]; omega)]
    simp only
    have := overwrite_overwrite buf dest (key ++ [0]) (value ++ [0]) (by simp; omega)
    simp only [List.length_append, List.length_singleton] at this
    rw [this]
    simp [KeyValue.stringData, KeyValue.stringBytes, Nat.add_assoc]
  | KeyValue.node key children n, buf, dest, hc, h => by
    simp only [KeyValue.stringBytes] at h
    obtain ⟨hn, hcs⟩ := hc
    rw [BuildDataNode, copySlice_ok key buf dest (by omega)]
    simp only
    by_cases hpos : n > 0
    · rw [if_pos hpos, hn,
        BuildData_ok children _ _ hcs
          (by rw [overwrite_length _ _ _ (by simp; omega)]; omega)]
      simp only
      have := overwrite_overwrite buf dest (key ++ [0]) (stringDataList children) (by simp; omega)
      simp only [List.length_append, List.length_singleton] at this
      rw [this]
      simp [KeyValue.stringData, KeyValue.stringBytes, Nat.add_assoc]
    · rw [if_neg hpos]
      have h0 : children = [] := by
        apply List.length_eq_zero.1
        omega
      subst h0
      simp [KeyValue.stringData, KeyValue.stringBytes, stringDataList, stringBytesList]
/-- `BuildData` on a chain: every node keeps its strings, the buffer receives
them in order, and `destBuffer` moves by the bytes tallied for them. -/
theorem BuildData_ok : ∀ (kvs : List KeyValue) (buf : List Nat) (dest : Nat), CountedList kvs →
    dest + stringBytesList kvs ≤ buf.length →
    BuildData kvs.length kvs buf dest
      = some (kvs, overwrite buf dest (stringDataList kvs), dest + stringBytesList kvs)
  | [], buf, dest, _, _ => by
    simp [BuildData, stringDataList, stringBytesList, overwrite_nil]
  | kv :: rest, buf, dest, hc, h => by
    simp only [stringBytesList] at h
    rw [List.length_cons, BuildData, BuildDataNode_ok kv buf dest hc.1 (by omega)]
    simp only
    rw [BuildData_ok rest _ _ hc.2
      (by rw [overwrite_length _ _ _ (by rw [stringData_length]; omega)]; omega)]
    simp only
    have := overwrite_overwrite buf dest kv.stringData (stringDataList rest)
      (by rw [stringData_length]; omega)
    rw [stringData_length] at this
    rw [this]
    simp [stringDataList, stringBytesList, Nat.add_assoc]
end

mutual
theorem wellFormed_counted : ∀ (kv : KeyValue), kv.WellFormed → kv.Counted
  | KeyValue.leaf _ _, _ => trivial
  | KeyValue.node _ children _, h => ⟨h.2.1, wellFormedList_counted children h.2.2⟩
theorem wellFormedList_counted : ∀ (kvs : List KeyValue), WellFormedList kvs → CountedList kvs
  | [], _ => trivial
  | kv :: rest, h => ⟨wellFormed_counted kv h.1, wellFormedList_counted rest h.2⟩
end

theorem treeItems_length (items : List Item) : (treeItems items).length = items.length := by
  induction items with
  | nil => rfl
  | cons it rest ih => simp [treeItems, ih]

theorem token_valid_quotable (t : Token) (after : List Nat) (h : t.Valid after) :
    Quotable t.text := by
  unfold Token.Valid at h
  split at h
  · exact h
  · intro c hc
    have := (isBareByte_iff c).1 (h.2.1 c hc)
    exact ⟨by omega, this.2.1⟩

mutual
theorem item_valid_wellFormed : ∀ (it : Item) (after : List Nat), it.Valid after →
    it.tree.WellFormed
  | Item.leaf _ _ _ _, _, h => ⟨token_valid_quotable _ _ h.2.1, token_valid_quotable _ _ h.2.2.2⟩
  | Item.node _ _ _ body _, _, h =>
    ⟨token_valid_quotable _ _ h.2.1, (treeItems_length body).symm, validItems_wellFormed body _ h.2.2.2.1⟩
theorem validItems_wellFormed : ∀ (items : List Item) (after : List Nat),
    ValidItems items after → WellFormedList (treeItems items)
  | [], _, _ => trivial
  | it :: rest, after, h =>
    ⟨item_valid_wellFormed it _ h.1, validItems_wellFormed rest after h.2⟩
end

theorem alloc_length (junk : Nat → Nat) (n : Nat) : (alloc junk n).length = n := by
  simp [alloc]

/-- The inner parse of a well formed document from a fresh root. -/
theorem Parse_document (items : List Item) (e rest : List Nat)
    (hv : ValidItems items (e ++ rest)) (he : IsEnding e) (hr : peek rest = 0) :
    KeyValue.Parse ((renderItems items ++ (e ++ rest)).length + 1)
        (renderItems items ++ (e ++ rest)) true [] false 0 0
      = some ⟨KeyValueErrorCode.NONE, rest, treeItems items, items.length,
          stringBytesList (treeItems items)⟩ := by
  obtain ⟨g, hg⟩ := Parse_items items (e ++ rest) hv true [] false 0 0
    ⟨KeyValueErrorCode.NONE, rest, treeItems items, items.length,
      stringBytesList (treeItems items)⟩ 1
    (by
      have := Parse_end_root 0 e rest (linkItems [] false (treeItems items))
        (false || !items.isEmpty) (0 + items.length) (0 + stringBytesList (treeItems items))
        he hr
      simpa [linkItems_fresh] using this)
  exact Parse_of_fuel g _ _ _ _ _ _ _ hg

/-- The document `KeyValueRoot::Parse` builds from a fresh root for the chain `kvs`. -/
theorem parsed_eq (kvs : List KeyValue) (junk : Nat → Nat) :
    parsed kvs junk = ⟨kvs, kvs.length,
      if stringBytesList kvs > 0 then
        some (overwrite (alloc junk (stringBytesList kvs)) 0 (stringDataList kvs))
      else none, stringBytesList kvs, false⟩ := rfl

/-- `KeyValueRoot::Parse` on a well formed document, from a fresh root. -/
theorem KeyValueRoot_Parse_document (items : List Item) (e rest : List Nat) (junk : Nat → Nat)
    (hv : ValidItems items (e ++ rest)) (he : IsEnding e) (hr : peek rest = 0) :
    KeyValueRoot.new.Parse junk (some (renderItems items ++ (e ++ rest)))
      = some (KeyValueErrorCode.NONE, parsed (treeItems items) junk) := by
  have hp := Parse_document items e rest hv he hr
  unfold KeyValueRoot.Parse
  simp only [KeyValueRoot.new]
  rw [hp]
  simp only [if_true]
  rw [parsed_eq, treeItems_length]
  by_cases hpos : stringBytesList (treeItems items) > 0
  · rw [if_pos hpos, if_pos hpos]
    have hb := BuildData_ok (treeItems items) (alloc junk (stringBytesList (treeItems items))) 0
      (wellFormedList_counted _ (validItems_wellFormed items _ hv))
      (by rw [alloc_length]; omega)
    rw [treeItems_length] at hb
    rw [hb]
  · rw [if_neg hpos, if_neg hpos]

/-! ## C1: parser correctness on canonical text -/

theorem canonText_eq_render (kvs : List KeyValue) :
    ∃ items, canonText kvs = renderItems items ++ []
      ∧ (WellFormedList kvs → ValidItems items [] ∧ treeItems items = kvs ∧ items.length = kvs.length) := by
  cases kvs with
  | nil => exact ⟨[], rfl, fun _ => ⟨trivial, rfl, rfl⟩⟩
  | cons kv rest =>
    refine ⟨kv.toItem [] :: toItemsSpaced rest, ?_, fun h => ⟨⟨?_, ?_⟩, ?_, ?_⟩⟩
    · simp [canonText, renderItems, toItem_render, toItemsSpaced_render]
    · exact toItem_valid kv [] _ IsGap.nil h.1
    · exact toItemsSpaced_valid rest [] h.2
    · simp [treeItems, toItem_tree kv [] h.1, toItemsSpaced_tree rest h.2]
    · simp [toItemsSpaced_length]

/-- C1. For every tree whose keys and values hold no quote byte and no NUL byte,
`KeyValueRoot::Parse` run from a fresh root on the canonical text of the tree (leaves written
`"key" "value"`, interior nodes `"key" { children }`, single spaces between items) returns
`NONE` and leaves exactly that tree under the root: the same keys, values, leaf and interior
tags, counters, order and nesting; `bufferSize` is the tally of its strings. -/
theorem C1_parse_canonical_text (kvs : List KeyValue) (junk : Nat → Nat)
    (h : WellFormedList kvs) :
    KeyValueRoot.new.Parse junk (some (canonText kvs))
      = some (KeyValueErrorCode.NONE,
          ⟨kvs, kvs.length,
            if stringBytesList kvs > 0 then
              some (overwrite (alloc junk (stringBytesList kvs)) 0 (stringDataList kvs))
            else none,
            stringBytesList kvs, false⟩) := by
  obtain ⟨items, htext, hitems⟩ := canonText_eq_render kvs
  obtain ⟨hv, htree, hlen⟩ := hitems h
  have := KeyValueRoot_Parse_document items [] [] junk hv (IsEnding.gap [] IsGap.nil) rfl
  rw [List.append_nil] at this
  rw [htext, this, htree, parsed_eq]

/-- C1 on the example of the specification, `"A" "1" "B" { "C" "2" }`. -/
theorem C1_parse_canonical_text_witness :
    WellFormedList [KeyValue.leaf [65] [49], KeyValue.node [66] [KeyValue.leaf [67] [50]] 1]
    ∧ canonText [KeyValue.leaf [65] [49], KeyValue.node [66] [KeyValue.leaf [67] [50]] 1]
        = [34, 65, 34, 32, 34, 49, 34, 32, 34, 66, 34, 32, 123, 32, 34, 67, 34, 32, 34, 50, 34,
            32, 125]
    ∧ KeyValueRoot.new.Parse (fun _ => 170)
        (some (canonText
          [KeyValue.leaf [65] [49], KeyValue.node [66] [KeyValue.leaf [67] [50]] 1]))
      = some (KeyValueErrorCode.NONE,
          ⟨[KeyValue.leaf [65] [49], KeyValue.node [66] [KeyValue.leaf [67] [50]] 1], 2,
            some [65, 0, 49, 0, 66, 0, 67, 0, 50, 0], 10, false⟩) :=
  ⟨by simp [WellFormedList, KeyValue.WellFormed, Quotable], rfl,
    C1_parse_canonical_text _ _ (by simp [WellFormedList, KeyValue.WellFormed, Quotable])⟩

/-! ## Errors inside open blocks -/

/-- An error of the nested call is returned by the calling loop. -/
theorem Parse_frame_error (err : KeyValueErrorCode) (herr : err ≠ KeyValueErrorCode.NONE)
    (fr : Frame) (inner : List Nat) (isRoot : Bool)
    (hv : ValidItems fr.items (fr.pre ++ (fr.key.render ++ (fr.gap ++ BLOCK_BEGIN :: inner))))
    (hpre : IsGap fr.pre) (hk : fr.key.Valid (fr.gap ++ BLOCK_BEGIN :: inner))
    (hgap : IsGap fr.gap)
    (h : ∀ cs lk n b, ∃ f r, KeyValue.Parse f inner false cs lk n b = some r ∧ r.error = err)
    (cs : List KeyValue) (lk : Bool) (n b : Nat) :
    ∃ f r, KeyValue.Parse f
      (renderItems fr.items ++ (fr.pre ++ (fr.key.render ++ (fr.gap ++ BLOCK_BEGIN :: inner))))
      isRoot cs lk n b = some r ∧ r.error = err := by
  obtain ⟨f, sub, hsub, hsube⟩ := h [] false 0
    (b + stringBytesList (treeItems fr.items) + (fr.key.text.length + 1))
  have hstep := Parse_node_step f fr.pre fr.key fr.gap inner isRoot
    (linkItems cs lk (treeItems fr.items)) (lk || !fr.items.isEmpty) (n + fr.items.length)
    (b + stringBytesList (treeItems fr.items)) hpre hk hgap
  rw [hsub] at hstep
  simp only [hsube, if_neg herr] at hstep
  obtain ⟨g, hg⟩ := Parse_items fr.items _ hv isRoot cs lk n b _ (f + 1) hstep
  exact ⟨g, _, hg, rfl⟩

/-- An error met inside open blocks is the result of the outermost call. -/
theorem Parse_frames_error (err : KeyValueErrorCode) (herr : err ≠ KeyValueErrorCode.NONE) :
    ∀ (frames : List Frame) (inner : List Nat) (isRoot : Bool), ValidFrames frames inner →
    (∀ cs lk n b, ∃ f r,
      KeyValue.Parse f inner (isRoot && frames.isEmpty) cs lk n b = some r ∧ r.error = err) →
    ∀ cs lk n b, ∃ f r,
      KeyValue.Parse f (renderFrames frames inner) isRoot cs lk n b = some r ∧ r.error = err
  | [], inner, isRoot, _, h => by
    simpa [renderFrames] using h
  | fr :: rest, inner, isRoot, hv, h => by
    obtain ⟨hitems, hpre, hk, hgap, hrest⟩ := hv
    have ih := Parse_frames_error err herr rest inner false hrest
      (by simpa using h)
    exact Parse_frame_error err herr fr _ isRoot hitems hpre hk hgap ih

/-- An error after complete pairs inside open blocks is the result of the outermost call. -/
theorem Parse_context_error (err : KeyValueErrorCode) (herr : err ≠ KeyValueErrorCode.NONE)
    (frames : List Frame) (items : List Item) (inner : List Nat) (isRoot : Bool)
    (hf : ValidFrames frames (renderItems items ++ inner)) (hi : ValidItems items inner)
    (h : ∀ cs lk n b, ∃ f r,
      KeyValue.Parse f inner (isRoot && frames.isEmpty) cs lk n b = some r ∧ r.error = err)
    (cs : List KeyValue) (lk : Bool) (n b : Nat) :
    ∃ f r, KeyValue.Parse f (renderFrames frames (renderItems items ++ inner)) isRoot cs lk n b
      = some r ∧ r.error = err := by
  apply Parse_frames_error err herr frames _ isRoot hf
  intro cs lk n b
  obtain ⟨f, r, hr, hre⟩ := h (linkItems cs lk (treeItems items)) (lk || !items.isEmpty)
    (n + items.length) (b + stringBytesList (treeItems items))
  obtain ⟨g, hg⟩ := Parse_items items inner hi _ cs lk n b r f hr
  exact ⟨g, r, hg, hre⟩

/-- An error of the inner parse is the code `KeyValueRoot::Parse` returns. -/
theorem parseCode_error (junk : Nat → Nat) (str : List Nat) (err : KeyValueErrorCode)
    (herr : err ≠ KeyValueErrorCode.NONE)
    (h : ∃ f r, KeyValue.Parse f str true [] false 0 0 = some r ∧ r.error = err) :
    parseCode junk str = some err := by
  obtain ⟨f, r, hr, hre⟩ := h
  have := Parse_of_fuel f _ _ _ _ _ _ _ hr
  unfold parseCode KeyValueRoot.Parse
  simp only [KeyValueRoot.new]
  rw [this]
  simp [hre, herr]

/-! ## C8, C9, C10: the error codes -/

/-- The parser loop at the end of the input: `INCOMPLETE_BLOCK` inside a block,
the end of the document at the root. -/
theorem Parse_at_end (f : Nat) (str : List Nat) (isRoot : Bool) (cs : List KeyValue) (lk : Bool)
    (n b : Nat) (h : peek (SkipWhitespace str) = 0) :
    KeyValue.Parse (f + 1) str isRoot cs lk n b
      = some ⟨if isRoot then KeyValueErrorCode.NONE else KeyValueErrorCode.INCOMPLETE_BLOCK,
          SkipWhitespace str, cs, n, b⟩ := by
  rw [KeyValue.Parse]
  cases isRoot <;> simp [parseKey, h]

/-- The parser loop at a `}` where a key is expected, at the root. -/
theorem Parse_close_root (f : Nat) (g rest : List Nat) (cs : List KeyValue) (lk : Bool)
    (n b : Nat) (hg : IsGap g) :
    KeyValue.Parse (f + 1) (g ++ BLOCK_END :: rest) true cs lk n b
      = some ⟨KeyValueErrorCode.UNEXPECTED_END_OF_BLOCK, rest, cs, n, b⟩ := by
  have hs : SkipWhitespace (g ++ BLOCK_END :: rest) = BLOCK_END :: rest := by
    rw [SkipWhitespace_gap _ _ hg]
    exact SkipWhitespace_stop _ (by left; simp [peek, BLOCK_END]) (by simp [startsComment, peek])
  rw [KeyValue.Parse, hs]
  simp [parseKey, peek]

/-- The parser loop at a `}` where the value of a key is expected. -/
theorem Parse_close_value (f : Nat) (pre : List Nat) (k : Token) (gap rest : List Nat)
    (isRoot : Bool) (cs : List KeyValue) (lk : Bool) (n b : Nat)
    (hpre : IsGap pre) (hk : k.Valid (gap ++ BLOCK_END :: rest)) (hgap : IsGap gap) :
    KeyValue.Parse (f + 1) (pre ++ (k.render ++ (gap ++ BLOCK_END :: rest))) isRoot cs lk n b
      = some ⟨KeyValueErrorCode.UNEXPECTED_END_OF_BLOCK, BLOCK_END :: rest, cs, n,
          b + (k.text.length + 1)⟩ := by
  rw [KeyValue.Parse, SkipWhitespace_gap _ _ hpre, SkipWhitespace_token k _ hk,
    parseKey_token k _ isRoot hk]
  simp only
  have hs : SkipWhitespace (gap ++ BLOCK_END :: rest) = BLOCK_END :: rest := by
    rw [SkipWhitespace_gap _ _ hgap]
    exact SkipWhitespace_stop _ (by left; simp [peek, BLOCK_END]) (by simp [startsComment, peek])
  rw [hs]
  simp [peek]

theorem SkipWhitespace_quote (g u : List Nat) (hg : IsGap g) :
    SkipWhitespace (g ++ STRING_CONTAINER :: u) = STRING_CONTAINER :: u := by
  rw [SkipWhitespace_gap _ _ hg]
  exact SkipWhitespace_stop _ (by left; simp [peek, STRING_CONTAINER])
    (by simp [startsComment, peek])

/-- The parser loop at a quote that opens a key and is never closed. -/
theorem Parse_open_key (f : Nat) (pre u : List Nat) (isRoot : Bool) (cs : List KeyValue)
    (lk : Bool) (n b : Nat) (hpre : IsGap pre) (hu : ∀ c ∈ u, c ≠ STRING_CONTAINER) :
    ∃ r, KeyValue.Parse (f + 1) (pre ++ STRING_CONTAINER :: u) isRoot cs lk n b = some r
      ∧ r.error = KeyValueErrorCode.INCOMPLETE_STRING := by
  rw [KeyValue.Parse, SkipWhitespace_quote pre u hpre]
  have hq := ReadQuotedString_open STRING_CONTAINER u hu
  rcases hr : ReadQuotedString (STRING_CONTAINER :: u) with ⟨e, s, v⟩
  rw [hr] at hq
  simp only at hq
  subst hq
  simp [parseKey, peek, hr]

/-- The parser loop at a quote that opens a value and is never closed. -/
theorem Parse_open_value (f : Nat) (pre : List Nat) (k : Token) (gap u : List Nat)
    (isRoot : Bool) (cs : List KeyValue) (lk : Bool) (n b : Nat)
    (hpre : IsGap pre) (hk : k.Valid (gap ++ STRING_CONTAINER :: u)) (hgap : IsGap gap)
    (hu : ∀ c ∈ u, c ≠ STRING_CONTAINER) :
    ∃ r, KeyValue.Parse (f + 1) (pre ++ (k.render ++ (gap ++ STRING_CONTAINER :: u)))
        isRoot cs lk n b = some r
      ∧ r.error = KeyValueErrorCode.INCOMPLETE_STRING := by
  rw [KeyValue.Parse, SkipWhitespace_gap _ _ hpre, SkipWhitespace_token k _ hk,
    parseKey_token k _ isRoot hk]
  simp only
  rw [SkipWhitespace_quote gap u hgap]
  have hq := ReadQuotedString_open STRING_CONTAINER u hu
  rcases hr : ReadQuotedString (STRING_CONTAINER :: u) with ⟨e, s, v⟩
  rw [hr] at hq
  simp only at hq
  subst hq
  simp [peek]

/-- C8. Unterminated block: when the input ends (after whitespace and comments only) behind
complete pairs inside one or more open blocks, as in `k { P`, `KeyValueRoot::Parse` returns
`INCOMPLETE_BLOCK`; more generally an iteration of the parser loop that finds the end of the
input where a key is expected returns `INCOMPLETE_BLOCK` in a block and `NONE` at the root. -/
theorem C8_unterminated_block (junk : Nat → Nat) (frames : List Frame) (items : List Item)
    (e rest : List Nat) (hne : frames ≠ [])
    (hf : ValidFrames frames (renderItems items ++ (e ++ rest)))
    (hi : ValidItems items (e ++ rest)) (he : IsEnding e) (hr : peek rest = 0) :
    parseCode junk (renderFrames frames (renderItems items ++ (e ++ rest)))
        = some KeyValueErrorCode.INCOMPLETE_BLOCK
    ∧ ∀ (f : Nat) (str : List Nat) (cs : List KeyValue) (lk : Bool) (n b : Nat),
        peek (SkipWhitespace str) = 0 →
        KeyValue.Parse (f + 1) str false cs lk n b
            = some ⟨KeyValueErrorCode.INCOMPLETE_BLOCK, SkipWhitespace str, cs, n, b⟩
        ∧ KeyValue.Parse (f + 1) str true cs lk n b
            = some ⟨KeyValueErrorCode.NONE, SkipWhitespace str, cs, n, b⟩ := by
  constructor
  · apply parseCode_error junk _ _ (by decide)
    apply Parse_context_error _ (by decide) frames items (e ++ rest) true hf hi
    intro cs lk n b
    have hempty : frames.isEmpty = false := by
      cases frames with
      | nil => exact absurd rfl hne
      | cons _ _ => rfl
    refine ⟨1, _, Parse_at_end 0 (e ++ rest) _ cs lk n b ?_, ?_⟩
    · rw [SkipWhitespace_ending e rest he hr]; exact hr
    · simp [hempty]
  · intro f str cs lk n b h
    exact ⟨Parse_at_end f str false cs lk n b h, Parse_at_end f str true cs lk n b h⟩

/-- C8 on the example of the specification, `"A" {`. -/
theorem C8_unterminated_block_witness :
    renderFrames [⟨[], [], ⟨true, [65]⟩, [32]⟩] (renderItems [] ++ ([] ++ []))
        = [34, 65, 34, 32, 123]
    ∧ parseCode (fun _ => 0) [34, 65, 34, 32, 123] = some KeyValueErrorCode.INCOMPLETE_BLOCK :=
  ⟨rfl, (C8_unterminated_block (fun _ => 0) [⟨[], [], ⟨true, [65]⟩, [32]⟩] [] [] []
    (by simp) ⟨trivial, IsGap.nil, by simp [Token.Valid], isGap_space, trivial⟩ trivial
    (IsEnding.gap [] IsGap.nil) rfl).1⟩

/-- C9. Unexpected block end: a `}` behind complete top level pairs makes
`KeyValueRoot::Parse` return `UNEXPECTED_END_OF_BLOCK` whatever follows it; and so does, at
any nesting depth, a `}` met where the value of a key is expected. -/
theorem C9_unexpected_block_end (junk : Nat → Nat)
    (top : List Item) (g after : List Nat)
    (frames : List Frame) (items : List Item) (pre : List Nat) (k : Token)
    (gap after2 : List Nat)
    (htop : ValidItems top (g ++ BLOCK_END :: after)) (hg : IsGap g)
    (hf : ValidFrames frames
      (renderItems items ++ (pre ++ (k.render ++ (gap ++ BLOCK_END :: after2)))))
    (hi : ValidItems items (pre ++ (k.render ++ (gap ++ BLOCK_END :: after2))))
    (hpre : IsGap pre) (hk : k.Valid (gap ++ BLOCK_END :: after2)) (hgap : IsGap gap) :
    parseCode junk (renderItems top ++ (g ++ BLOCK_END :: after))
        = some KeyValueErrorCode.UNEXPECTED_END_OF_BLOCK
    ∧ parseCode junk (renderFrames frames
        (renderItems items ++ (pre ++ (k.render ++ (gap ++ BLOCK_END :: after2)))))
        = some KeyValueErrorCode.UNEXPECTED_END_OF_BLOCK := by
  constructor
  · apply parseCode_error junk _ _ (by decide)
    have := Parse_context_error KeyValueErrorCode.UNEXPECTED_END_OF_BLOCK (by decide) [] top
      (g ++ BLOCK_END :: after) true trivial htop
      (fun cs lk n b => ⟨1, _, Parse_close_root 0 g after cs lk n b hg, rfl⟩) [] false 0 0
    simpa [renderFrames] using this
  · apply parseCode_error junk _ _ (by decide)
    exact Parse_context_error _ (by decide) frames items _ true hf hi
      (fun cs lk n b => ⟨1, _, Parse_close_value 0 pre k gap after2 _ cs lk n b hpre hk hgap,
        rfl⟩) [] false 0 0

/-- C9 on the example of the specification, `} "A" "1"`, and on `A }`. -/
theorem C9_unexpected_block_end_witness :
    parseCode (fun _ => 0) [125, 32, 34, 65, 34, 32, 34, 49, 34]
        = some KeyValueErrorCode.UNEXPECTED_END_OF_BLOCK
    ∧ parseCode (fun _ => 0) [65, 32, 125] = some KeyValueErrorCode.UNEXPECTED_END_OF_BLOCK :=
  C9_unexpected_block_end (fun _ => 0) [] [] [32, 34, 65, 34, 32, 34, 49, 34]
    [] [] [] ⟨false, [65]⟩ [32] []
    trivial IsGap.nil trivial trivial IsGap.nil
    (by simp [Token.Valid, isBareByte, containsComment, endsBare, peek]) isGap_space

/-- C10. Unterminated quoted string: when, behind complete pairs at any nesting depth, a
quote opens a key, or opens the value of a key, and no quote follows it,
`KeyValueRoot::Parse` returns `INCOMPLETE_STRING` (inside open blocks too); conversely
`ReadQuotedString` on `"s"rest`, with `s` free of quote and NUL bytes, returns `NONE` and
exactly `s` and leaves the position at `rest`. -/
theorem C10_unterminated_string (junk : Nat → Nat)
    (frames : List Frame) (items : List Item) (pre u : List Nat)
    (frames2 : List Frame) (items2 : List Item) (pre2 : List Nat) (k : Token)
    (gap u2 : List Nat)
    (hu : ∀ c ∈ u, c ≠ STRING_CONTAINER)
    (hf : ValidFrames frames (renderItems items ++ (pre ++ STRING_CONTAINER :: u)))
    (hi : ValidItems items (pre ++ STRING_CONTAINER :: u)) (hpre : IsGap pre)
    (hu2 : ∀ c ∈ u2, c ≠ STRING_CONTAINER)
    (hf2 : ValidFrames frames2
      (renderItems items2 ++ (pre2 ++ (k.render ++ (gap ++ STRING_CONTAINER :: u2)))))
    (hi2 : ValidItems items2 (pre2 ++ (k.render ++ (gap ++ STRING_CONTAINER :: u2))))
    (hpre2 : IsGap pre2) (hk : k.Valid (gap ++ STRING_CONTAINER :: u2)) (hgap : IsGap gap) :
    parseCode junk (renderFrames frames (renderItems items ++ (pre ++ STRING_CONTAINER :: u)))
        = some KeyValueErrorCode.INCOMPLETE_STRING
    ∧ parseCode junk (renderFrames frames2
        (renderItems items2 ++ (pre2 ++ (k.render ++ (gap ++ STRING_CONTAINER :: u2)))))
        = some KeyValueErrorCode.INCOMPLETE_STRING
    ∧ ∀ (s rest : List Nat), Quotable s →
        ReadQuotedString (STRING_CONTAINER :: (s ++ STRING_CONTAINER :: rest))
          = (KeyValueErrorCode.NONE, rest, s) := by
  refine ⟨?_, ?_, fun s rest hs => ReadQuotedString_closed _ s rest hs⟩
  · apply parseCode_error junk _ _ (by decide)
    exact Parse_context_error _ (by decide) frames items _ true hf hi
      (fun cs lk n b => by
        obtain ⟨r, h1, h2⟩ := Parse_open_key 0 pre u _ cs lk n b hpre hu
        exact ⟨1, r, h1, h2⟩) [] false 0 0
  · apply parseCode_error junk _ _ (by decide)
    exact Parse_context_error _ (by decide) frames2 items2 _ true hf2 hi2
      (fun cs lk n b => by
        obtain ⟨r, h1, h2⟩ := Parse_open_value 0 pre2 k gap u2 _ cs lk n b hpre2 hk hgap hu2
        exact ⟨1, r, h1, h2⟩) [] false 0 0

/-- C10 on the example of the specification, `"A" "1`, and on `B { "C`. -/
theorem C10_unterminated_string_witness :
    parseCode (fun _ => 0) [66, 32, 123, 32, 34, 67] = some KeyValueErrorCode.INCOMPLETE_STRING
    ∧ parseCode (fun _ => 0) [34, 65, 34, 32, 34, 49] = some KeyValueErrorCode.INCOMPLETE_STRING
    ∧ ∀ (s rest : List Nat), Quotable s →
        ReadQuotedString (STRING_CONTAINER :: (s ++ STRING_CONTAINER :: rest))
          = (KeyValueErrorCode.NONE, rest, s) :=
  C10_unterminated_string (fun _ => 0)
    [⟨[], [], ⟨false, [66]⟩, [32]⟩] [] [32] [67]
    [] [] [] ⟨true, [65]⟩ [32] [49]
    (by simp)
    ⟨trivial, IsGap.nil,
      by simp [Token.Valid, isBareByte, containsComment, endsBare, peek], isGap_space, trivial⟩
    trivial isGap_space
    (by simp) trivial trivial IsGap.nil (by simp [Token.Valid]) isGap_space

/-! ## What the lexer passed over -/

theorem isGap_append (a b : List Nat) (ha : IsGap a) (hb : IsGap b) : IsGap (a ++ b) := by
  induction ha with
  | nil => exact hb
  | space c g hc _ ih => exact IsGap.space c _ hc ih
  | comment body eol g hbody he _ ih =>
    have : SLASH :: SLASH :: (body ++ eol :: g) ++ b = SLASH :: SLASH :: (body ++ eol :: (g ++ b)) := by
      simp
    rw [this]
    exact IsGap.comment body eol _ hbody he ih

theorem isEnding_append (a b : List Nat) (ha : IsGap a) (hb : IsEnding b) : IsEnding (a ++ b) := by
  rcases hb with ⟨_, hg⟩ | ⟨g, body, hg, hbody⟩
  · exact IsEnding.gap _ (isGap_append a b ha hg)
  · rw [← List.append_assoc]
    exact IsEnding.comment _ body (isGap_append a g ha hg) hbody

theorem skipSpaces_decomp (str : List Nat) :
    ∃ ws, str = ws ++ skipSpaces str ∧ IsGap ws := by
  induction str with
  | nil => exact ⟨[], rfl, IsGap.nil⟩
  | cons c rest ih =>
    unfold skipSpaces
    split
    · rename_i h
      simp only [Bool.and_eq_true, bne_iff_ne, ne_eq] at h
      obtain ⟨ws, h1, h2⟩ := ih
      have hw := (IsWhitespace_iff c).1 h.1
      refine ⟨c :: ws, by rw [List.cons_append, ← h1], IsGap.space c ws (by omega) h2⟩
    · exact ⟨[], rfl, IsGap.nil⟩

theorem skipLine_decomp (str : List Nat) :
    ∃ body, str = body ++ skipLine str ∧ (∀ c ∈ body, c ≠ 0 ∧ c ≠ 13 ∧ c ≠ 10)
      ∧ (peek (skipLine str) = 0
          ∨ ∃ eol rest, skipLine str = eol :: rest ∧ (eol = 10 ∨ eol = 13)) := by
  induction str with
  | nil => exact ⟨[], rfl, by simp, Or.inl rfl⟩
  | cons c rest ih =>
    unfold skipLine
    split
    · rename_i h
      simp only [Bool.and_eq_true, bne_iff_ne, ne_eq] at h
      obtain ⟨body, h1, h2, h3⟩ := ih
      refine ⟨c :: body, by rw [List.cons_append, ← h1], ?_, h3⟩
      intro d hd
      rcases List.mem_cons.1 hd with rfl | hd
      · exact ⟨h.1.1, h.1.2, h.2⟩
      · exact h2 d hd
    · rename_i h
      simp only [Bool.and_eq_true, bne_iff_ne, ne_eq, not_and, Decidable.not_not] at h
      refine ⟨[], rfl, by simp, ?_⟩
      by_cases h0 : c = 0
      · left; simp [peek, h0]
      · right
        refine ⟨c, rest, rfl, ?_⟩
        by_cases h13 : c = 13
        · right; exact h13
        · left; exact h ⟨h0, h13⟩

/-- What `SkipWhitespace` passed over is a gap, or the ending of the input when
it stopped on the terminator. -/
theorem SkipWhitespace_decomp (str : List Nat) :
    ∃ g, str = g ++ SkipWhitespace str ∧ IsEnding g
      ∧ (peek (SkipWhitespace str) ≠ 0 → IsGap g) := by
  suffices h : ∀ (n : Nat) (str : List Nat), str.length = n →
      ∃ g, str = g ++ SkipWhitespace str ∧ IsEnding g
        ∧ (peek (SkipWhitespace str) ≠ 0 → IsGap g) from h _ str rfl
  intro n
  induction n using Nat.strong_induction_on with
  | _ n ih =>
    intro str hn
    obtain ⟨ws, hws, hwsg⟩ := skipSpaces_decomp str
    rw [SkipWhitespace_eq]
    split
    · rename_i hc
      obtain ⟨r, hr⟩ := (startsComment_iff _).1 hc
      have hlen : (skipSpaces str).length ≤ str.length := skipSpaces_length_le str
      have hsl : skipLine (skipSpaces str) = skipLine r := by
        rw [hr]; simp [skipLine]
      obtain ⟨body, hb1, hb2, hb3⟩ := skipLine_decomp r
      have hrl : (skipLine r).length ≤ r.length := skipLine_length_le r
      have hstr : str = ws ++ (SLASH :: SLASH :: (body ++ skipLine r)) := by
        rw [← hb1, ← hr]; exact hws
      rw [hsl]
      rcases hb3 with h0 | ⟨eol, rest, he1, he2⟩
      · have hstop : SkipWhitespace (skipLine r) = skipLine r :=
          SkipWhitespace_stop _ (Or.inr h0) (startsComment_of_peek_zero _ h0)
        rw [hstop]
        refine ⟨ws ++ SLASH :: SLASH :: body, ?_, IsEnding.comment ws body hwsg hb2, ?_⟩
        · rw [hstr]; simp
        · intro hne; exact absurd h0 hne
      · rw [he1, SkipWhitespace_space eol rest (by omega)]
        have hlr : rest.length < n := by
          rw [hr] at hlen
          rw [he1] at hrl
          simp only [List.length_cons] at hlen hrl
          omega
        obtain ⟨g, hg1, hg2, hg3⟩ := ih rest.length hlr rest rfl
        refine ⟨ws ++ (SLASH :: SLASH :: (body ++ eol :: g)), ?_, ?_, ?_⟩
        · rw [hstr, he1]
          conv_lhs => rw [hg1]
          simp
        · have : ws ++ (SLASH :: SLASH :: (body ++ eol :: g))
              = (ws ++ (SLASH :: SLASH :: (body ++ eol :: []))) ++ g := by simp
          rw [this]
          exact isEnding_append _ _
            (isGap_append _ _ hwsg (IsGap.comment body eol [] hb2 he2 IsGap.nil)) hg2
        · intro hne
          exact isGap_append _ _ hwsg (IsGap.comment body eol g hb2 he2 (hg3 hne))
    · exact ⟨ws, hws, IsEnding.gap ws hwsg, fun _ => hwsg⟩

theorem scanQuoted_decomp (str : List Nat) :
    str = (scanQuoted str).1 ++ (scanQuoted str).2 ∧ Quotable (scanQuoted str).1
      ∧ (peek (scanQuoted str).2 = 0
          ∨ ∃ rest, (scanQuoted str).2 = STRING_CONTAINER :: rest) := by
  induction str with
  | nil => exact ⟨rfl, by simp [scanQuoted, Quotable], Or.inl rfl⟩
  | cons c rest ih =>
    unfold scanQuoted
    split
    · rename_i h
      simp only [Bool.and_eq_true, bne_iff_ne, ne_eq] at h
      obtain ⟨h1, h2, h3⟩ := ih
      refine ⟨?_, ?_, h3⟩
      · simp only [List.cons_append]
        rw [← h1]
      · intro d hd
        rcases List.mem_cons.1 hd with rfl | hd
        · exact h
        · exact h2 d hd
    · rename_i h
      simp only [Bool.and_eq_true, bne_iff_ne, ne_eq, not_and, Decidable.not_not] at h
      refine ⟨rfl, by simp [Quotable], ?_⟩
      by_cases h0 : c = 0
      · left; simp [peek, h0]
      · right; exact ⟨rest, by rw [h h0]⟩

/-- A quoted string that was read stood between two quotes. -/
theorem ReadQuotedString_decomp (str rest s : List Nat) (hq : peek str = STRING_CONTAINER)
    (h : ReadQuotedString str = (KeyValueErrorCode.NONE, rest, s)) :
    str = STRING_CONTAINER :: (s ++ STRING_CONTAINER :: rest) ∧ Quotable s := by
  cases str with
  | nil => simp [peek] at hq
  | cons q tl =>
    simp only [peek, List.headD_cons] at hq
    subst hq
    obtain ⟨h1, h2, h3⟩ := scanQuoted_decomp tl
    unfold ReadQuotedString at h
    simp only [List.tail_cons] at h
    split at h
    · simp at h
    · rename_i hz
      simp only [Prod.mk.injEq, true_and] at h
      rcases h3 with h0 | ⟨r, hr⟩
      · simp [h0] at hz
      · rw [hr] at h
        simp only [List.tail_cons] at h
        rw [← h.1, ← h.2]
        rw [hr] at h1
        exact ⟨by rw [← h1], h2⟩

/-- A quoteless string that was read is made of bare bytes, holds no `//`, and
is ended by what follows it. -/
theorem ReadQuotelessString_decomp (str : List Nat) :
    str = (ReadQuotelessString str).1 ++ (ReadQuotelessString str).2
      ∧ (∀ c ∈ (ReadQuotelessString str).1, isBareByte c = true)
      ∧ containsComment ((ReadQuotelessString str).1 ++ [peek (ReadQuotelessString str).2]) = false
      ∧ endsBare (ReadQuotelessString str).2 = true := by
  induction str with
  | nil => exact ⟨rfl, by simp [ReadQuotelessString], by simp [ReadQuotelessString, containsComment, peek],
      by simp [ReadQuotelessString, endsBare, peek]⟩
  | cons c rest ih =>
    unfold ReadQuotelessString
    split
    · rename_i h
      simp only [Bool.and_eq_true, Bool.not_eq_true', IsSpecialCharacter, Bool.or_eq_false_iff,
        beq_eq_false_iff_ne, ne_eq, Bool.and_eq_false_imp, beq_iff_eq] at h
      obtain ⟨h1, h2, h3, h4⟩ := ih
      have hw : ¬ (c ≤ 32 ∨ c = 127) := by
        intro hw
        have := (IsWhitespace_iff c).2 hw
        rw [this] at h
        exact absurd h.1 (by simp)
      refine ⟨?_, ?_, ?_, h4⟩
      · simp only [List.cons_append]
        rw [← h1]
      · intro d hd
        rcases List.mem_cons.1 hd with rfl | hd
        · exact (isBareByte_iff _).2 ⟨hw, h.2.1.1.1, h.2.1.1.2, h.2.1.2⟩
        · exact h2 d hd
      · show containsComment (c :: ((ReadQuotelessString rest).1
            ++ [peek (ReadQuotelessString rest).2])) = false
        simp only [containsComment, Bool.or_eq_false_iff, Bool.and_eq_false_imp,
          beq_iff_eq, beq_eq_false_iff_ne, ne_eq]
        refine ⟨?_, h3⟩
        rw [peek_append_singleton, ← h1]
        exact h.2.2
    · rename_i h
      refine ⟨rfl, by simp, by simp [containsComment, peek], ?_⟩
      simp only [Bool.and_eq_true, Bool.not_eq_true', IsSpecialCharacter, Bool.or_eq_false_iff,
        beq_eq_false_iff_ne, ne_eq, Bool.and_eq_false_imp, beq_iff_eq, not_and] at h
      simp only [endsBare, peek, List.headD_cons, List.tail_cons, Bool.or_eq_true,
        decide_eq_true_eq, beq_iff_eq, Bool.and_eq_true]
      by_cases hw : c ≤ 32 ∨ c = 127
      · rcases hw with hw | hw
        · exact Or.inl (Or.inl (Or.inl (Or.inl (Or.inl hw))))
        · exact Or.inl (Or.inl (Or.inl (Or.inl (Or.inr hw))))
      · have hwf : IsWhitespace c = false := by
          cases hx : IsWhitespace c with
          | false => rfl
          | true => exact absurd ((IsWhitespace_iff c).1 hx) hw
        have := h hwf
        by_cases h34 : c = STRING_CONTAINER
        · exact Or.inl (Or.inl (Or.inl (Or.inr h34)))
        · by_cases h123 : c = BLOCK_BEGIN
          · exact Or.inl (Or.inl (Or.inr h123))
          · by_cases h125 : c = BLOCK_END
            · exact Or.inl (Or.inr h125)
            · by_cases h47 : c = SLASH
              · right
                refine ⟨h47, ?_⟩
                by_contra hne
                exact this ⟨⟨h34, h123⟩, h125⟩ (fun _ => hne)
              · exact absurd (fun hc => absurd hc h47) (this ⟨⟨h34, h123⟩, h125⟩)

/-! ## Every input the parser accepts is a well formed written document -/

theorem peek_cons_of_ne_zero (str : List Nat) (h : peek str ≠ 0) :
    str = peek str :: str.tail := by
  cases str with
  | nil => exact absurd rfl h
  | cons c rest => rfl

/-- The outcomes of the first `switch`, read backwards. -/
theorem parseKey_inv (s0 : List Nat) (isRoot : Bool)
    (h1 : ¬ (peek s0 ≤ 32 ∨ peek s0 = 127) ∨ peek s0 = 0) (h2 : startsComment s0 = false) :
    match parseKey s0 isRoot with
    | KeyStep.ret e _ => e ≠ KeyValueErrorCode.NONE
    | KeyStep.done s => (isRoot = true ∧ peek s0 = 0 ∧ s = s0)
        ∨ (isRoot = false ∧ s0 = BLOCK_END :: s)
    | KeyStep.key s1 pairkey => peek s0 ≠ 0 ∧
        ∃ k : Token, k.text = pairkey ∧ s0 = k.render ++ s1 ∧ k.Valid s1 := by
  unfold parseKey
  simp only
  by_cases hq : peek s0 = STRING_CONTAINER
  · rw [if_pos hq]
    rcases hr : ReadQuotedString s0 with ⟨e, s, v⟩
    cases e with
    | NONE =>
      obtain ⟨hd1, hd2⟩ := ReadQuotedString_decomp s0 s v hq hr
      simp only
      refine ⟨by rw [hq]; decide, ⟨true, v⟩, rfl, ?_, ?_⟩
      · rw [hd1]; simp [Token.render]
      · simpa [Token.Valid] using hd2
    | _ => simp
  · rw [if_neg hq]
    by_cases he : peek s0 = BLOCK_END
    · rw [if_pos he]
      have hs : s0 = BLOCK_END :: s0.tail := by
        have := peek_cons_of_ne_zero s0 (by rw [he]; decide)
        rw [he] at this
        exact this
      cases isRoot
      · simpa using hs
      · simp
    · rw [if_neg he]
      by_cases h0 : peek s0 = 0
      · rw [if_pos h0]
        cases isRoot
        · simp
        · simpa using h0
      · rw [if_neg h0]
        by_cases hb : peek s0 = BLOCK_BEGIN
        · rw [if_pos hb]
          simp
        · rw [if_neg hb]
          obtain ⟨hd1, hd2, hd3, hd4⟩ := ReadQuotelessString_decomp s0
          have hne := (ReadQuotelessString_progress s0 h1 h2 h0 hq hb he).2
          simp only
          refine ⟨h0, ⟨false, (ReadQuotelessString s0).1⟩, rfl, ?_, ?_⟩
          · simpa [Token.render] using hd1
          · simp only [Token.Valid, Bool.false_eq_true, if_false]
            exact ⟨hne, hd2, hd3, hd4⟩

theorem closes_root (e rest : List Nat) (he : IsEnding e) (hr : peek rest = 0) :
    Closes true (e ++ rest) rest := by
  simp only [Closes, if_true]
  exact ⟨e, rfl, he, hr⟩

theorem closes_block (close rest : List Nat) (hc : IsGap close) :
    Closes false (close ++ BLOCK_END :: rest) rest := by
  simp only [Closes, Bool.false_eq_true, if_false]
  exact ⟨close, rfl, hc⟩

/-- Every input on which `KeyValue::Parse` returns `NONE` is a sequence of well
formed written pairs followed by the text that closes the call, and what the
call built is what the pairs stand for. -/
theorem Parse_complete : ∀ (f : Nat) (str : List Nat) (isRoot : Bool) (cs : List KeyValue)
    (lk : Bool) (n b : Nat) (r : ParseResult),
    KeyValue.Parse f str isRoot cs lk n b = some r → r.error = KeyValueErrorCode.NONE →
    ∃ items t, str = renderItems items ++ t ∧ ValidItems items t ∧ Closes isRoot t r.str
      ∧ r.children = linkItems cs lk (treeItems items)
      ∧ r.childCount = n + items.length
      ∧ r.bufferSize = b + stringBytesList (treeItems items) := by
  intro f
  induction f with
  | zero => intro str isRoot cs lk n b r h; simp [KeyValue.Parse] at h
  | succ f ih =>
    intro str isRoot cs lk n b r h hnone
    rw [KeyValue.Parse] at h
    obtain ⟨g, hg1, hg2, hg3⟩ := SkipWhitespace_decomp str
    obtain ⟨_, hs1, hs2⟩ := SkipWhitespace_spec str
    have hinv := parseKey_inv (SkipWhitespace str) isRoot hs1 hs2
    cases hkey : parseKey (SkipWhitespace str) isRoot with
    | ret e s =>
      rw [hkey] at h hinv
      simp only [Option.some.injEq] at h
      rw [← h] at hnone
      exact absurd hnone hinv
    | done s =>
      rw [hkey] at h hinv
      simp only [Option.some.injEq] at h
      subst h
      refine ⟨[], str, rfl, trivial, ?_, rfl, rfl, rfl⟩
      rcases hinv with ⟨hr, h0, hs⟩ | ⟨hr, hs⟩
      · subst hr
        subst hs
        have := closes_root g (SkipWhitespace str) hg2 h0
        rw [← hg1] at this
        exact this
      · subst hr
        have hne : peek (SkipWhitespace str) ≠ 0 := by rw [hs]; simp [peek]
        have := closes_block g s (hg3 hne)
        rw [← hs, ← hg1] at this
        exact this
    | key s1 pairkey =>
      rw [hkey] at h hinv
      obtain ⟨hk0, k, hk1, hk2, hk3⟩ := hinv
      subst hk1
      have hgap : IsGap g := hg3 hk0
      simp only at h
      obtain ⟨g2, hv1, hv2, hv3⟩ := SkipWhitespace_decomp s1
      obtain ⟨_, hw1, hw2⟩ := SkipWhitespace_spec s1
      by_cases hq : peek (SkipWhitespace s1) = STRING_CONTAINER
      · rw [if_pos hq] at h
        rcases hr : ReadQuotedString (SkipWhitespace s1) with ⟨e, s3, v⟩
        rw [hr] at h
        cases e with
        | NONE =>
          simp only at h
          obtain ⟨hd1, hd2⟩ := ReadQuotedString_decomp _ s3 v hq hr
          obtain ⟨items, t, e1, e2, e3, e4, e5, e6⟩ := ih _ _ _ _ _ _ _ h hnone
          have hgap2 : IsGap g2 := hv3 (by rw [hq]; decide)
          refine ⟨Item.leaf g k g2 ⟨true, v⟩ :: items, t, ?_, ⟨⟨hgap, ?_, hgap2, ?_⟩, e2⟩, e3,
            ?_, ?_, ?_⟩
          · rw [hg1, hk2, hv1, hd1, e1]
            simp [renderItems, Item.render, Token.render]
          · have : g2 ++ ((⟨true, v⟩ : Token).render ++ (renderItems items ++ t)) = s1 := by
              rw [hv1, hd1, e1]; simp [Token.render]
            rw [this]; exact hk3
          · simpa [Token.Valid] using hd2
          · rw [e4, linkItems_linkPair]; rfl
          · rw [e5]; simp only [List.length_cons]; omega
          · rw [e6]; simp only [treeItems, stringBytesList, Item.tree, KeyValue.stringBytes]; omega
        | _ =>
          simp only [Option.some.injEq] at h
          rw [← h] at hnone
          exact absurd hnone (by simp)
      · rw [if_neg hq] at h
        by_cases hb : peek (SkipWhitespace s1) = BLOCK_BEGIN
        · rw [if_pos hb] at h
          have hgap2 : IsGap g2 := hv3 (by rw [hb]; decide)
          have hs2 : SkipWhitespace s1 = BLOCK_BEGIN :: (SkipWhitespace s1).tail := by
            have := peek_cons_of_ne_zero (SkipWhitespace s1) (by rw [hb]; decide)
            rw [hb] at this
            exact this
          cases hsub : KeyValue.Parse f (SkipWhitespace s1).tail false [] false 0
              (b + (k.text.length + 1)) with
          | none => rw [hsub] at h; simp at h
          | some sub =>
            rw [hsub] at h
            simp only at h
            by_cases hse : sub.error = KeyValueErrorCode.NONE
            · rw [if_pos hse] at h
              obtain ⟨body, tb, b1, b2, b3, b4, b5, b6⟩ := ih _ _ _ _ _ _ _ hsub hse
              obtain ⟨items, t, e1, e2, e3, e4, e5, e6⟩ := ih _ _ _ _ _ _ _ h hnone
              simp only [Closes, Bool.false_eq_true, if_false] at b3
              obtain ⟨close, hc1, hc2⟩ := b3
              have hchild : sub.children = treeItems body := by rw [b4, linkItems_fresh]
              have hcount : sub.childCount = body.length := by rw [b5]; omega
              have hs1 : s1 = g2 ++ BLOCK_BEGIN ::
                  (renderItems body ++ (close ++ BLOCK_END :: (renderItems items ++ t))) := by
                rw [← e1, ← hc1, ← b1, ← hs2, ← hv1]
              refine ⟨Item.node g k g2 body close :: items, t, ?_,
                ⟨⟨hgap, ?_, hgap2, ?_, hc2⟩, e2⟩, e3, ?_, ?_, ?_⟩
              · rw [hg1, hk2, hs1]
                simp [renderItems, Item.render]
              · rw [← hs1]; exact hk3
              · rw [← e1, ← hc1]; exact b2
              · rw [e4, linkItems_linkPair, hchild, hcount]; rfl
              · rw [e5]; simp only [List.length_cons]; omega
              · rw [e6, b6]
                simp only [treeItems, stringBytesList, Item.tree, KeyValue.stringBytes]
                omega
            · rw [if_neg hse] at h
              simp only [Option.some.injEq] at h
              rw [← h] at hnone
              exact absurd hnone hse
        · rw [if_neg hb] at h
          by_cases h0 : peek (SkipWhitespace s1) = 0
          · rw [if_pos h0] at h
            simp only [Option.some.injEq] at h
            rw [← h] at hnone
            exact absurd hnone (by simp)
          · rw [if_neg h0] at h
            by_cases he : peek (SkipWhitespace s1) = BLOCK_END
            · rw [if_pos he] at h
              simp only [Option.some.injEq] at h
              rw [← h] at hnone
              exact absurd hnone (by simp)
            · rw [if_neg he] at h
              have hgap2 : IsGap g2 := hv3 h0
              obtain ⟨hd1, hd2, hd3, hd4⟩ := ReadQuotelessString_decomp (SkipWhitespace s1)
              have hne := (ReadQuotelessString_progress _ hw1 hw2 h0 hq hb he).2
              generalize ReadQuotelessString (SkipWhitespace s1) = rq at h hd1 hd2 hd3 hd4 hne
              obtain ⟨v, s3⟩ := rq
              simp only at h hd1 hd2 hd3 hd4 hne
              obtain ⟨items, t, e1, e2, e3, e4, e5, e6⟩ := ih _ _ _ _ _ _ _ h hnone
              have hs1 : s1 = g2 ++ (v ++ (renderItems items ++ t)) := by
                rw [← e1, ← hd1, ← hv1]
              refine ⟨Item.leaf g k g2 ⟨false, v⟩ :: items, t, ?_,
                ⟨⟨hgap, ?_, hgap2, ?_⟩, e2⟩, e3, ?_, ?_, ?_⟩
              · rw [hg1, hk2, hs1]
                simp [renderItems, Item.render, Token.render]
              · have : (⟨false, v⟩ : Token).render = v := by simp [Token.render]
                rw [this, ← hs1]; exact hk3
              · simp only [Token.Valid, Bool.false_eq_true, if_false]
                rw [← e1]
                exact ⟨hne, hd2, hd3, hd4⟩
              · rw [e4, linkItems_linkPair]; rfl
              · rw [e5]; simp only [List.length_cons]; omega
              · rw [e6]
                simp only [treeItems, stringBytesList, Item.tree, KeyValue.stringBytes]
                omega

/-! ## Serializer -/

theorem emit_inBounds (w : Writer) (data : List Nat) (h : w.InBounds) :
    (w.emit data).InBounds := by
  unfold Writer.InBounds at h ⊢
  simp only [Writer.emit]
  rw [overwrite_length _ _ _ (by simp only [List.length_take]; omega)]
  omega

theorem emit_emit (w : Writer) (a b : List Nat) (h : w.InBounds) :
    (w.emit a).emit b = w.emit (a ++ b) := by
  unfold Writer.InBounds at h
  simp only [Writer.emit, List.length_append]
  have h1 : (List.take w.maxLength a).length = min w.maxLength a.length := by
    simp [List.length_take]
  have h2 := overwrite_overwrite w.buf w.str (List.take w.maxLength a)
    (List.take (w.maxLength - min w.maxLength a.length) b) (by rw [h1]; omega)
  rw [h1] at h2
  rw [h2]
  have h3 : List.take w.maxLength a ++ List.take (w.maxLength - min w.maxLength a.length) b
      = List.take w.maxLength (a ++ b) := by
    rw [List.take_append_eq_append_take]
    congr 2
    by_cases hle : w.maxLength ≤ a.length
    · rw [Nat.min_eq_left hle]; omega
    · rw [Nat.min_eq_right (by omega)]
  rw [h3]
  congr 1 <;> omega

theorem emit_nil (w : Writer) : w.emit [] = w := by
  simp [Writer.emit, overwrite_nil]

theorem CopyAndShift_emit (w : Writer) (src : List Nat) (h : w.InBounds) :
    CopyAndShift w src src.length = some (w.emit src) := by
  unfold Writer.InBounds at h
  unfold CopyAndShift
  simp only
  rw [memcpy_eq _ _ _ _ (by omega) (Nat.min_le_right _ _)]
  simp only [Writer.emit, Option.some.injEq, Writer.mk.injEq, and_true]
  congr 1
  rw [List.take_eq_take]
  simp

theorem tabs_succ (d : Nat) : tabs (d + 1) = TAB_STYLE ++ tabs d := by
  simp only [tabs, TAB_STYLE]
  have : 4 * (d + 1) = 4 * d + 1 + 1 + 1 + 1 := by omega
  rw [this]
  simp [List.replicate_succ]

theorem TabFill_emit : ∀ (d : Nat) (w : Writer), w.InBounds →
    TabFill w d = some (w.emit (tabs d))
  | 0, w, _ => by simp [TabFill, tabs, emit_nil]
  | d + 1, w, h => by
    have h1 := CopyAndShift_emit w TAB_STYLE h
    simp only [TAB_STYLE, List.length_cons, List.length_nil] at h1
    rw [TabFill, h1]
    simp only
    rw [TabFill_emit d _ (emit_inBounds w _ h), emit_emit w _ _ h, tabs_succ]

theorem CopyAndShift_emit1 (w : Writer) (c : Nat) (h : w.InBounds) :
    CopyAndShift w [c] 1 = some (w.emit [c]) := CopyAndShift_emit w [c] h

theorem CopyAndShift_emit2 (w : Writer) (c d : Nat) (h : w.InBounds) :
    CopyAndShift w [c, d] 2 = some (w.emit [c, d]) := CopyAndShift_emit w [c, d] h

mutual
/-- The loop body of `ToString` offers the reference text of the node to the cursor. -/
theorem ToStringNode_emit : ∀ (kv : KeyValue) (w : Writer) (d : Nat), w.InBounds →
    ToStringNode kv w d = some (w.emit (kv.referenceText d))
  | KeyValue.leaf key value, w, d, h => by
    have i1 := emit_inBounds w (tabs d) h
    have i2 := emit_inBounds _ [34] i1
    have i3 := emit_inBounds _ key i2
    have i4 := emit_inBounds _ [34, 32] i3
    have i5 := emit_inBounds _ [34] i4
    have i6 := emit_inBounds _ value i5
    simp only [ToStringNode, TabFill_emit d w h, Option.some_bind, CopyAndShift_emit1 _ _ i1,
      CopyAndShift_emit _ key i2, CopyAndShift_emit2 _ _ _ i3, CopyAndShift_emit1 _ _ i4,
      CopyAndShift_emit _ value i5, CopyAndShift_emit2 _ _ _ i6]
    rw [emit_emit _ _ _ i5, emit_emit _ _ _ i4, emit_emit _ _ _ i3, emit_emit _ _ _ i2,
      emit_emit _ _ _ i1, emit_emit _ _ _ h]
    simp [KeyValue.referenceText]
  | KeyValue.node key children n, w, d, h => by
    have i1 := emit_inBounds w (tabs d) h
    have i2 := emit_inBounds _ [34] i1
    have i3 := emit_inBounds _ key i2
    have i4 := emit_inBounds _ [34, 32] i3
    have i5 := emit_inBounds _ [10] i4
    have i6 := emit_inBounds _ (tabs d) i5
    have i7 := emit_inBounds _ [123, 10] i6
    have i8 := emit_inBounds _ (referenceText children (d + 1)) i7
    have i9 := emit_inBounds _ (tabs d) i8
    simp only [ToStringNode, TabFill_emit d w h, Option.some_bind, CopyAndShift_emit1 _ _ i1,
      CopyAndShift_emit _ key i2, CopyAndShift_emit2 _ _ _ i3, CopyAndShift_emit1 _ _ i4,
      TabFill_emit d _ i5, CopyAndShift_emit2 _ _ _ i6, ToString_emit children _ (d + 1) i7,
      TabFill_emit d _ i8, CopyAndShift_emit2 _ _ _ i9]
    rw [emit_emit _ _ _ i8, emit_emit _ _ _ i7, emit_emit _ _ _ i6,
      emit_emit _ _ _ i5, emit_emit _ _ _ i4, emit_emit _ _ _ i3, emit_emit _ _ _ i2,
      emit_emit _ _ _ i1, emit_emit _ _ _ h]
    simp [KeyValue.referenceText]
/-- `ToString` offers the reference text of the chain to the cursor. -/
theorem ToString_emit : ∀ (kvs : List KeyValue) (w : Writer) (d : Nat), w.InBounds →
    ToString kvs w d = some (w.emit (referenceText kvs d))
  | [], w, d, _ => by simp [ToString, referenceText, emit_nil]
  | kv :: rest, w, d, h => by
    rw [ToString, ToStringNode_emit kv w d h, Option.some_bind,
      ToString_emit rest _ d (emit_inBounds w _ h), emit_emit w _ _ h]
    rfl
end

theorem tabs_length (d : Nat) : (tabs d).length = 4 * d := by simp [tabs]

mutual
theorem referenceTextNode_length : ∀ (kv : KeyValue) (d : Nat),
    (kv.referenceText d).length ≤ ToStringLengthNode kv d
  | KeyValue.leaf key value, d => by
    simp only [KeyValue.referenceText, ToStringLengthNode, List.length_append, List.length_cons,
      tabs_length, List.length_nil, SIZEOF_TAB_STYLE]
    omega
  | KeyValue.node key children n, d => by
    have := referenceText_length children (d + 1)
    simp only [KeyValue.referenceText, ToStringLengthNode, List.length_append, List.length_cons,
      tabs_length, List.length_nil, SIZEOF_TAB_STYLE]
    omega
/-- The length pass never counts fewer bytes than the reference text has. -/
theorem referenceText_length : ∀ (kvs : List KeyValue) (d : Nat),
    (referenceText kvs d).length ≤ ToStringLength kvs d
  | [], _ => by simp [referenceText]
  | kv :: rest, d => by
    have h1 := referenceTextNode_length kv d
    have h2 := referenceText_length rest d
    simp only [referenceText, ToStringLength, List.length_append]
    omega
end

theorem cstr_terminated (a x : List Nat) (h : ∀ c ∈ a, c ≠ 0) : cstr (a ++ 0 :: x) = a := by
  induction a with
  | nil => simp [cstr]
  | cons c a ih =>
    have hc := h c (List.mem_cons_self _ _)
    have := ih (fun d hd => h d (List.mem_cons_of_mem _ hd))
    simp only [cstr] at this ⊢
    rw [List.cons_append, List.takeWhile_cons, this]
    simp [hc]

theorem set_zero_head (x : List Nat) (k : Nat) : ∃ y, (0 :: x).set k 0 = 0 :: y := by
  cases k with
  | zero => exact ⟨x, rfl⟩
  | succ k => exact ⟨x.set k 0, rfl⟩

mutual
theorem referenceTextNode_nulFree : ∀ (kv : KeyValue) (d : Nat), kv.NulFree →
    ∀ c ∈ kv.referenceText d, c ≠ 0
  | KeyValue.leaf key value, d, h => by
    intro c hc
    simp only [KeyValue.referenceText, tabs, List.mem_append, List.mem_replicate, List.mem_cons,
      List.mem_singleton, List.not_mem_nil, or_false] at hc
    rcases hc with ⟨_, rfl⟩ | rfl | hc | rfl | rfl | rfl | hc | rfl | rfl
    any_goals decide
    · exact h.1 c hc
    · exact h.2 c hc
  | KeyValue.node key children n, d, h => by
    intro c hc
    have ih := referenceText_nulFree children (d + 1) h.2 c
    simp only [KeyValue.referenceText, tabs, List.mem_append, List.mem_replicate, List.mem_cons,
      List.mem_singleton, List.not_mem_nil, or_false] at hc
    rcases hc with ⟨_, rfl⟩ | rfl | hc | rfl | rfl | rfl | ⟨_, rfl⟩ | rfl | rfl | hc
      | ⟨_, rfl⟩ | rfl | rfl
    any_goals decide
    · exact h.1 c hc
    · exact ih hc
theorem referenceText_nulFree : ∀ (kvs : List KeyValue) (d : Nat), NulFreeList kvs →
    ∀ c ∈ referenceText kvs d, c ≠ 0
  | [], _, _ => by simp [referenceText]
  | kv :: rest, d, h => by
    intro c hc
    simp only [referenceText, List.mem_append] at hc
    rcases hc with hc | hc
    · exact referenceTextNode_nulFree kv d h.1 c hc
    · exact referenceText_nulFree rest d h.2 c hc
end

/-- `char* KeyValue::ToString()` returns a buffer that holds, read as a NUL
terminated string, the reference text of the chain at depth 0. -/
theorem ToStringOwned_cstr (kvs : List KeyValue) (junk : Nat → Nat) (h : NulFreeList kvs) :
    ∃ buf, ToStringOwned kvs junk = some buf ∧ cstr buf = referenceText kvs 0 := by
  have hlen := referenceText_length kvs 0
  have hin : (⟨alloc junk (ToStringLength kvs 0 + 1), 0, ToStringLength kvs 0 + 1⟩ :
      Writer).InBounds := by
    simp [Writer.InBounds, alloc_length]
  unfold ToStringOwned ToStringBuffer
  simp only
  rw [ToString_emit kvs _ 0 hin]
  simp only [Writer.emit, Nat.zero_add]
  have hmin : min (ToStringLength kvs 0 + 1) (referenceText kvs 0).length
      = (referenceText kvs 0).length := Nat.min_eq_right (by omega)
  have htake : List.take (ToStringLength kvs 0 + 1) (referenceText kvs 0) = referenceText kvs 0 :=
    List.take_of_length_le (by omega)
  rw [hmin, htake, if_pos (by omega)]
  have hl1 : (overwrite (alloc junk (ToStringLength kvs 0 + 1)) 0 (referenceText kvs 0)).length
      = ToStringLength kvs 0 + 1 := by
    rw [overwrite_length _ _ _ (by rw [alloc_length]; omega), alloc_length]
  rw [store_eq _ _ _ (by rw [hl1]; omega)]
  simp only
  have h2 := overwrite_overwrite (alloc junk (ToStringLength kvs 0 + 1)) 0
    (referenceText kvs 0) [0] (by rw [alloc_length]; omega)
  rw [Nat.zero_add] at h2
  rw [h2]
  have hl2 : (overwrite (alloc junk (ToStringLength kvs 0 + 1)) 0
      (referenceText kvs 0 ++ [0])).length = ToStringLength kvs 0 + 1 := by
    rw [overwrite_length _ _ _ (by rw [alloc_length]; simp; omega), alloc_length]
  simp only [Nat.add_sub_cancel]
  unfold store
  rw [if_pos (by rw [hl2]; omega)]
  refine ⟨_, rfl, ?_⟩
  have hform : overwrite (alloc junk (ToStringLength kvs 0 + 1)) 0 (referenceText kvs 0 ++ [0])
      = referenceText kvs 0 ++ 0 ::
          List.drop ((referenceText kvs 0).length + 1) (alloc junk (ToStringLength kvs 0 + 1)) := by
    simp [overwrite]
  rw [hform, List.set_append, if_neg (by omega)]
  obtain ⟨y, hy⟩ := set_zero_head
    (List.drop ((referenceText kvs 0).length + 1) (alloc junk (ToStringLength kvs 0 + 1)))
    (ToStringLength kvs 0 - (referenceText kvs 0).length)
  rw [hy]
  exact cstr_terminated _ _ (referenceText_nulFree kvs 0 h)

/-- A gap in front of the input of a call of the parser changes nothing. -/
theorem Parse_gap (f : Nat) (g str : List Nat) (isRoot : Bool) (cs : List KeyValue) (lk : Bool)
    (n b : Nat) (hg : IsGap g) :
    KeyValue.Parse f (g ++ str) isRoot cs lk n b = KeyValue.Parse f str isRoot cs lk n b := by
  cases f with
  | zero => rfl
  | succ f => rw [KeyValue.Parse, KeyValue.Parse, SkipWhitespace_gap g str hg]

theorem isGap_tabs (d : Nat) : IsGap (tabs d) := by
  unfold tabs
  induction 4 * d with
  | zero => exact IsGap.nil
  | succ n ih => exact IsGap.space 32 _ (by omega) ih

theorem isGap_newline : IsGap [10] := IsGap.space 10 [] (by omega) IsGap.nil

mutual
/-- The parser loop consumes the reference text of a node and links the node. -/
theorem Parse_referenceNode : ∀ (kv : KeyValue) (d : Nat) (after : List Nat), kv.WellFormed →
    ∀ (isRoot : Bool) (cs : List KeyValue) (lk : Bool) (n b : Nat) (r : ParseResult) (f : Nat),
    KeyValue.Parse f after isRoot (linkPair cs lk kv) true (n + 1) (b + kv.stringBytes) = some r →
    ∃ g, KeyValue.Parse g (kv.referenceText d ++ after) isRoot cs lk n b = some r
  | KeyValue.leaf key value, d, after, hw, isRoot, cs, lk, n, b, r, f, h => by
    have hv : (Item.leaf (tabs d) ⟨true, key⟩ [32] ⟨true, value⟩).Valid (10 :: after) :=
      ⟨isGap_tabs d, quoted_valid _ _ hw.1, isGap_space, quoted_valid _ _ hw.2⟩
    have h1 : KeyValue.Parse f ([10] ++ after) isRoot
        (linkPair cs lk (Item.leaf (tabs d) ⟨true, key⟩ [32] ⟨true, value⟩).tree) true (n + 1)
        (b + (Item.leaf (tabs d) ⟨true, key⟩ [32] ⟨true, value⟩).tree.stringBytes) = some r := by
      rw [Parse_gap f [10] after _ _ _ _ _ isGap_newline]
      exact h
    obtain ⟨g, hg⟩ := Parse_item _ _ hv isRoot cs lk n b r f h1
    refine ⟨g, ?_⟩
    have : (KeyValue.leaf key value).referenceText d ++ after
        = (Item.leaf (tabs d) ⟨true, key⟩ [32] ⟨true, value⟩).render ++ (10 :: after) := by
      simp [KeyValue.referenceText, Item.render, Token.render]
    rw [this]
    exact hg
  | KeyValue.node key children cnt, d, after, hw, isRoot, cs, lk, n, b, r, f, h => by
    obtain ⟨hkey, hcnt, hch⟩ := hw
    have hclose := Parse_close_step 0 (tabs d) (10 :: after) (linkItems [] false children)
      (false || !children.isEmpty) (0 + children.length)
      (b + (key.length + 1) + stringBytesList children) (isGap_tabs d)
    obtain ⟨g1, hg1⟩ := Parse_referenceText children (d + 1) (tabs d ++ BLOCK_END :: 10 :: after)
      hch false [] false 0 (b + (key.length + 1)) _ 1 hclose
    have hg1b : KeyValue.Parse g1
        ([10] ++ (referenceText children (d + 1) ++ (tabs d ++ BLOCK_END :: 10 :: after)))
        false [] false 0 (b + (key.length + 1))
        = some ⟨KeyValueErrorCode.NONE, 10 :: after, linkItems [] false children,
            0 + children.length, b + (key.length + 1) + stringBytesList children⟩ := by
      rw [Parse_gap g1 [10] _ _ _ _ _ _ isGap_newline]
      exact hg1
    have hstep := Parse_node_step (max g1 f) (tabs d) ⟨true, key⟩ ([32, 10] ++ tabs d)
      ([10] ++ (referenceText children (d + 1) ++ (tabs d ++ BLOCK_END :: 10 :: after)))
      isRoot cs lk n b (isGap_tabs d) (quoted_valid _ _ hkey)
      (isGap_append _ _ (IsGap.space 32 _ (by omega) isGap_newline) (isGap_tabs d))
    rw [Parse_mono g1 (max g1 f) (Nat.le_max_left _ _) _ _ _ _ _ _ _ hg1b] at hstep
    simp only [if_true] at hstep
    refine ⟨max g1 f + 1, ?_⟩
    have : (KeyValue.node key children cnt).referenceText d ++ after
        = tabs d ++ ((⟨true, key⟩ : Token).render ++ (([32, 10] ++ tabs d) ++ BLOCK_BEGIN ::
            ([10] ++ (referenceText children (d + 1)
              ++ (tabs d ++ BLOCK_END :: 10 :: after))))) := by
      simp [KeyValue.referenceText, Token.render]
    rw [this, hstep]
    have h2 : KeyValue.Parse f ([10] ++ after) isRoot
        (linkPair cs lk (KeyValue.node key children cnt)) true (n + 1)
        (b + (KeyValue.node key children cnt).stringBytes) = some r := by
      rw [Parse_gap f [10] after _ _ _ _ _ isGap_newline]
      exact h
    apply Parse_mono f (max g1 f) (Nat.le_max_right _ _)
    simpa [linkItems_fresh, hcnt, KeyValue.stringBytes, Nat.add_assoc] using h2
/-- The parser loop consumes the reference text of a chain and links its nodes. -/
theorem Parse_referenceText : ∀ (kvs : List KeyValue) (d : Nat) (after : List Nat),
    WellFormedList kvs →
    ∀ (isRoot : Bool) (cs : List KeyValue) (lk : Bool) (n b : Nat) (r : ParseResult) (f : Nat),
    KeyValue.Parse f after isRoot (linkItems cs lk kvs) (lk || !kvs.isEmpty)
      (n + kvs.length) (b + stringBytesList kvs) = some r →
    ∃ g, KeyValue.Parse g (referenceText kvs d ++ after) isRoot cs lk n b = some r
  | [], d, after, _, isRoot, cs, lk, n, b, r, f, h => by
    refine ⟨f, ?_⟩
    simpa [referenceText, linkItems, stringBytesList] using h
  | kv :: rest, d, after, hw, isRoot, cs, lk, n, b, r, f, h => by
    obtain ⟨g1, hg1⟩ := Parse_referenceText rest d after hw.2 isRoot (linkPair cs lk kv) true
      (n + 1) (b + kv.stringBytes) r f
      (by
        rw [linkItems_linkPair]
        simpa [linkItems, stringBytesList, Nat.add_assoc, Nat.add_comm 1] using h)
    obtain ⟨g2, hg2⟩ := Parse_referenceNode kv d (referenceText rest d ++ after) hw.1 isRoot
      cs lk n b r g1 hg1
    refine ⟨g2, ?_⟩
    simpa [referenceText] using hg2
end

/-- `KeyValueRoot::Parse` from a fresh root, once the inner parse is known. -/
theorem KeyValueRoot_Parse_of_inner (junk : Nat → Nat) (str rest : List Nat)
    (kvs : List KeyValue) (g : Nat) (hc : CountedList kvs)
    (h : KeyValue.Parse g str true [] false 0 0
      = some ⟨KeyValueErrorCode.NONE, rest, kvs, kvs.length, stringBytesList kvs⟩) :
    KeyValueRoot.new.Parse junk (some str) = some (KeyValueErrorCode.NONE, parsed kvs junk) := by
  have hp := Parse_of_fuel g _ _ _ _ _ _ _ h
  unfold KeyValueRoot.Parse
  simp only [KeyValueRoot.new]
  rw [hp]
  simp only [if_true]
  rw [parsed_eq]
  by_cases hpos : stringBytesList kvs > 0
  · rw [if_pos hpos, if_pos hpos,
      BuildData_ok kvs (alloc junk (stringBytesList kvs)) 0 hc (by rw [alloc_length]; omega)]
  · rw [if_neg hpos, if_neg hpos]

/-- Every input `KeyValueRoot::Parse` accepts from a fresh root is a well formed
written document, and the document built is the one it stands for. -/
theorem KeyValueRoot_Parse_complete (junk : Nat → Nat) (str : List Nat) (root : KeyValueRoot)
    (h : KeyValueRoot.new.Parse junk (some str) = some (KeyValueErrorCode.NONE, root)) :
    ∃ items e rest, str = renderItems items ++ (e ++ rest) ∧ ValidItems items (e ++ rest)
      ∧ IsEnding e ∧ peek rest = 0 ∧ root = parsed (treeItems items) junk := by
  obtain ⟨r, hr, _⟩ := Parse_total (str.length + 1) str true [] false 0 0 (Nat.lt_succ_self _)
  have hnone : r.error = KeyValueErrorCode.NONE := by
    unfold KeyValueRoot.Parse at h
    simp only [KeyValueRoot.new] at h
    rw [hr] at h
    simp only at h
    by_contra hne
    rw [if_neg hne] at h
    simp only [Option.some.injEq, Prod.mk.injEq] at h
    exact hne h.1
  obtain ⟨items, t, e1, e2, e3, e4, e5, e6⟩ := Parse_complete _ _ _ _ _ _ _ _ hr hnone
  simp only [Closes, if_true] at e3
  obtain ⟨e, he1, he2, he3⟩ := e3
  subst he1
  refine ⟨items, e, r.str, e1, e2, he2, he3, ?_⟩
  have hdoc := KeyValueRoot_Parse_document items e r.str junk e2 he2 he3
  rw [← e1, h] at hdoc
  simp only [Option.some.injEq, Prod.mk.injEq, true_and] at hdoc
  exact hdoc

mutual
theorem wellFormed_nulFree : ∀ (kv : KeyValue), kv.WellFormed → kv.NulFree
  | KeyValue.leaf _ _, h => ⟨fun c hc => (h.1 c hc).1, fun c hc => (h.2 c hc).1⟩
  | KeyValue.node _ children _, h =>
    ⟨fun c hc => (h.1 c hc).1, wellFormedList_nulFree children h.2.2⟩
theorem wellFormedList_nulFree : ∀ (kvs : List KeyValue), WellFormedList kvs → NulFreeList kvs
  | [], _ => trivial
  | kv :: rest, h => ⟨wellFormed_nulFree kv h.1, wellFormedList_nulFree rest h.2⟩
end

/-- Serializing a well formed chain with `ToString()` and parsing the text into
a fresh document gives the chain back. -/
theorem roundTrip_wellFormed (kvs : List KeyValue) (junk2 junk3 : Nat → Nat)
    (hw : WellFormedList kvs) :
    ∃ buf, ToStringOwned kvs junk2 = some buf
      ∧ KeyValueRoot.new.Parse junk3 (some (cstr buf))
          = some (KeyValueErrorCode.NONE, parsed kvs junk3) := by
  obtain ⟨buf, hb1, hb2⟩ := ToStringOwned_cstr kvs junk2 (wellFormedList_nulFree kvs hw)
  refine ⟨buf, hb1, ?_⟩
  rw [hb2]
  have hend := Parse_end_root 0 [] [] (linkItems [] false kvs) (false || !kvs.isEmpty)
    (0 + kvs.length) (0 + stringBytesList kvs) (IsEnding.gap [] IsGap.nil) rfl
  obtain ⟨g, hg⟩ := Parse_referenceText kvs 0 [] hw true [] false 0 0 _ 1 hend
  rw [List.append_nil] at hg
  apply KeyValueRoot_Parse_of_inner junk3 _ [] kvs g (wellFormedList_counted kvs hw)
  simpa [linkItems_fresh] using hg

/-! ## C2: structural round trip -/

/-- C2. For every input on which `KeyValueRoot::Parse` succeeds from a fresh root, leaving
the document `root`, `ToString()` on the root returns a buffer, and parsing the NUL terminated
string it holds into a fresh document succeeds and builds the same chain of children: the same
keys, values, leaf and interior tags, counters, sibling order and nesting. -/
theorem C2_structural_round_trip (str : List Nat) (junk junk2 junk3 : Nat → Nat)
    (root : KeyValueRoot)
    (h : KeyValueRoot.new.Parse junk (some str) = some (KeyValueErrorCode.NONE, root)) :
    ∃ buf root2, ToStringOwned root.children junk2 = some buf
      ∧ KeyValueRoot.new.Parse junk3 (some (cstr buf)) = some (KeyValueErrorCode.NONE, root2)
      ∧ root2.children = root.children ∧ root2.childCount = root.childCount := by
  obtain ⟨items, e, rest, _, hv, _, _, hroot⟩ := KeyValueRoot_Parse_complete junk str root h
  subst hroot
  obtain ⟨buf, hb1, hb2⟩ := roundTrip_wellFormed (treeItems items) junk2 junk3
    (validItems_wellFormed items _ hv)
  exact ⟨buf, parsed (treeItems items) junk3, hb1, hb2, rfl, rfl⟩

/-- C2 on the input `A 1 B { C 2 } // end`. -/
theorem C2_structural_round_trip_witness :
    ∃ buf root2,
      ToStringOwned [KeyValue.leaf [65] [49], KeyValue.node [66] [KeyValue.leaf [67] [50]] 1]
          (fun _ => 170) = some buf
      ∧ KeyValueRoot.new.Parse (fun _ => 0) (some (cstr buf))
          = some (KeyValueErrorCode.NONE, root2)
      ∧ root2.children = [KeyValue.leaf [65] [49], KeyValue.node [66] [KeyValue.leaf [67] [50]] 1]
      ∧ root2.childCount = 2 :=
  C2_structural_round_trip
    [65, 32, 49, 32, 66, 32, 123, 32, 67, 32, 50, 32, 125, 32, 47, 47, 32, 101, 110, 100]
    (fun _ => 0) (fun _ => 170) (fun _ => 0)
    ⟨[KeyValue.leaf [65] [49], KeyValue.node [66] [KeyValue.leaf [67] [50]] 1], 2,
      some [65, 0, 49, 0, 66, 0, 67, 0, 50, 0], 10, false⟩ rfl

/-! ## Changing what follows a token -/

theorem endsLike_refl (a : List Nat) : EndsLike a a := ⟨id, id⟩

theorem endsLike_of_heads (a1 a2 : List Nat) (h1 : peek a1 = peek a2)
    (h2 : peek a1.tail = peek a2.tail) : EndsLike a1 a2 := by
  unfold EndsLike endsBare
  rw [h1, h2]
  exact ⟨id, id⟩

theorem endsLike_of_space (a1 a2 : List Nat) (h : 1 ≤ peek a2 ∧ peek a2 ≤ 32 ∨ peek a2 = 127) :
    EndsLike a1 a2 := by
  constructor
  · intro _
    simp only [endsBare, Bool.or_eq_true, decide_eq_true_eq, beq_iff_eq]
    rcases h with h | h
    · exact Or.inl (Or.inl (Or.inl (Or.inl (Or.inl h.2))))
    · exact Or.inl (Or.inl (Or.inl (Or.inl (Or.inr h))))
  · intro h47
    rw [h47] at h
    exact absurd h (by decide)

theorem endsLike_of_special (c : Nat) (x y : List Nat)
    (h : c = STRING_CONTAINER ∨ c = BLOCK_BEGIN ∨ c = BLOCK_END) :
    EndsLike (c :: x) (c :: y) := by
  constructor
  · intro _
    simp only [endsBare, peek, List.headD_cons, Bool.or_eq_true, decide_eq_true_eq, beq_iff_eq]
    rcases h with h | h | h
    · exact Or.inl (Or.inl (Or.inl (Or.inr h)))
    · exact Or.inl (Or.inl (Or.inr h))
    · exact Or.inl (Or.inr h)
  · intro h47
    simpa [peek] using h47

/-- A gap that is not empty decides by itself whether it ends a bare token. -/
theorem endsLike_gap (g x y : List Nat) (hg : IsGap g) (hne : g ≠ []) :
    EndsLike (g ++ x) (g ++ y) := by
  cases hg with
  | nil => exact absurd rfl hne
  | space c g hc _ =>
    exact endsLike_of_space _ _ (by simpa [peek] using hc)
  | comment body eol g _ _ _ =>
    exact endsLike_of_heads _ _ (by simp [peek]) (by simp [peek])

theorem endsLike_gap_or (g : List Nat) (c : Nat) (x y : List Nat) (hg : IsGap g)
    (h : c = STRING_CONTAINER ∨ c = BLOCK_BEGIN ∨ c = BLOCK_END) :
    EndsLike (g ++ c :: x) (g ++ c :: y) := by
  by_cases hne : g = []
  · subst hne
    exact endsLike_of_special c x y h
  · exact endsLike_gap g _ _ hg hne

theorem peek_filler (ins : List Nat) (h : Filler ins) :
    ins = [] ∨ (1 ≤ peek ins ∧ peek ins ≤ 32 ∨ peek ins = 127) := by
  obtain ⟨hg, hp⟩ := h
  cases hg with
  | nil => left; rfl
  | space c g hc _ => right; simpa [peek] using hc
  | comment body eol g _ _ _ => exact absurd (by simp [peek]) hp

theorem peek_append_of_ne_nil (a b : List Nat) (h : a ≠ []) : peek (a ++ b) = peek a := by
  cases a with
  | nil => exact absurd rfl h
  | cons c a => rfl

/-- Inserting a filler into a gap keeps the way the gap ends a bare token. -/
theorem endsLike_insert (ins g1 g2 x : List Nat) (hi : Filler ins) (h1 : IsGap g1) :
    EndsLike (g1 ++ g2 ++ x) (g1 ++ (ins ++ g2) ++ x) := by
  by_cases hne : g1 = []
  · subst hne
    rcases peek_filler ins hi with h | h
    · subst h; exact endsLike_refl _
    · apply endsLike_of_space
      have hn : ins ≠ [] := by
        intro h0; subst h0; simp [peek] at h
      simp only [List.nil_append, List.append_assoc]
      rw [peek_append_of_ne_nil ins _ hn]
      exact h
  · simp only [List.append_assoc]
    exact endsLike_gap g1 _ _ h1 hne

theorem containsComment_append_singleton (s : List Nat) (x y : Nat)
    (h : containsComment (s ++ [x]) = false) (hxy : y = SLASH → x = SLASH) :
    containsComment (s ++ [y]) = false := by
  induction s with
  | nil => simp [containsComment, peek]
  | cons c s ih =>
    rw [List.cons_append] at h ⊢
    simp only [containsComment, Bool.or_eq_false_iff, Bool.and_eq_false_imp, beq_iff_eq,
      beq_eq_false_iff_ne, ne_eq] at h ⊢
    refine ⟨?_, ih h.2⟩
    intro hc
    have h1 := h.1 hc
    cases s with
    | nil =>
      simp only [List.nil_append, peek, List.headD_cons] at h1 ⊢
      exact fun hy => h1 (hxy hy)
    | cons d s => exact h1

/-- A token that is well formed in front of a text is well formed in front of
every text that ends bare tokens like it. -/
theorem token_valid_endsLike (t : Token) (a1 a2 : List Nat) (h : t.Valid a1)
    (hl : EndsLike a1 a2) : t.Valid a2 := by
  unfold Token.Valid at h ⊢
  split
  · rename_i hq
    rw [if_pos hq] at h
    exact h
  · rename_i hq
    rw [if_neg hq] at h
    exact ⟨h.1, h.2.1, containsComment_append_singleton _ _ _ h.2.2.1 hl.2, hl.1 h.2.2.2⟩

/-- A well formed token decides by itself, whatever follows it, whether it ends
a bare token written before it. -/
theorem endsLike_token (t : Token) (a1 a2 : List Nat) (h : t.Valid a1) :
    EndsLike (t.render ++ a1) (t.render ++ a2) := by
  rcases token_valid_start t a1 h with ⟨hq, _, _⟩ | ⟨hq, hb, hs, _⟩
  · rw [render_quoted t a1 hq, render_quoted t a2 hq]
    exact endsLike_of_special _ _ _ (Or.inl rfl)
  · have hr : t.render = t.text := by simp [Token.render, hq]
    have hne : t.text ≠ [] := by
      unfold Token.Valid at h
      rw [hq] at h
      exact h.1
    rw [hr] at hb hs ⊢
    have hp : peek (t.text ++ a2) = peek (t.text ++ a1) := by
      rw [peek_append_of_ne_nil _ _ hne, peek_append_of_ne_nil _ _ hne]
    constructor
    · intro he
      exfalso
      have hb2 := (isBareByte_iff _).1 hb
      simp only [startsComment, Bool.and_eq_false_imp, beq_iff_eq, beq_eq_false_iff_ne,
        ne_eq] at hs
      simp only [endsBare, Bool.or_eq_true, decide_eq_true_eq, beq_iff_eq,
        Bool.and_eq_true] at he
      rcases he with ((((he | he) | he) | he) | he) | he
      · exact hb2.1 (Or.inl he)
      · exact hb2.1 (Or.inr he)
      · exact hb2.2.1 he
      · exact hb2.2.2.1 he
      · exact hb2.2.2.2 he
      · exact hs he.1 he.2
    · intro h47
      rw [← hp]; exact h47

theorem endsLike_head (pre : List Nat) (k : Token) (b1 b2 : List Nat) (hpre : IsGap pre)
    (hk : k.Valid b1) : EndsLike (pre ++ (k.render ++ b1)) (pre ++ (k.render ++ b2)) := by
  by_cases hne : pre = []
  · subst hne
    exact endsLike_token k b1 b2 hk
  · exact endsLike_gap pre _ _ hpre hne

theorem item_render_eq (it : Item) :
    ∃ (pre : List Nat) (k : Token) (b : List Nat), it.render = pre ++ (k.render ++ b)
      ∧ ∀ after, it.Valid after → IsGap pre ∧ k.Valid (b ++ after) := by
  cases it with
  | leaf pre k gap v =>
    refine ⟨pre, k, gap ++ v.render, by simp [Item.render], ?_⟩
    intro after h
    exact ⟨h.1, by simpa using h.2.1⟩
  | node pre k gap body close =>
    refine ⟨pre, k, gap ++ BLOCK_BEGIN :: (renderItems body ++ (close ++ [BLOCK_END])),
      by simp [Item.render], ?_⟩
    intro after h
    exact ⟨h.1, by simpa using h.2.1⟩

/-- A well formed written pair decides by itself, whatever follows it, whether
it ends a bare token written before it. -/
theorem endsLike_item (it : Item) (a1 a2 : List Nat) (h : it.Valid a1) :
    EndsLike (it.render ++ a1) (it.render ++ a2) := by
  obtain ⟨pre, k, b, hr, hv⟩ := item_render_eq it
  obtain ⟨hpre, hk⟩ := hv a1 h
  rw [hr]
  simp only [List.append_assoc]
  exact endsLike_head pre k _ _ hpre hk

theorem endsLike_items (items : List Item) (a1 a2 : List Nat) (h : ValidItems items a1)
    (hl : EndsLike a1 a2) : EndsLike (renderItems items ++ a1) (renderItems items ++ a2) := by
  cases items with
  | nil => simpa [renderItems] using hl
  | cons it rest =>
    simp only [renderItems, List.append_assoc]
    exact endsLike_item it _ _ h.1

mutual
/-- A written pair that is well formed in front of a text is well formed in
front of every text that ends bare tokens like it. -/
theorem item_valid_endsLike : ∀ (it : Item) (a1 a2 : List Nat), it.Valid a1 → EndsLike a1 a2 →
    it.Valid a2
  | Item.leaf pre k gap v, a1, a2, h, hl => by
    obtain ⟨hpre, hk, hgap, hv⟩ := h
    refine ⟨hpre, ?_, hgap, token_valid_endsLike v a1 a2 hv hl⟩
    apply token_valid_endsLike k _ _ hk
    by_cases hne : gap = []
    · subst hne
      exact endsLike_token v a1 a2 hv
    · exact endsLike_gap gap _ _ hgap hne
  | Item.node pre k gap body close, a1, a2, h, hl => by
    obtain ⟨hpre, hk, hgap, hbody, hclose⟩ := h
    refine ⟨hpre, ?_, hgap, ?_, hclose⟩
    · exact token_valid_endsLike k _ _ hk (endsLike_gap_or gap _ _ _ hgap (Or.inr (Or.inl rfl)))
    · exact validItems_endsLike body _ _ hbody
        (endsLike_gap_or close _ _ _ hclose (Or.inr (Or.inr rfl)))
theorem validItems_endsLike : ∀ (items : List Item) (a1 a2 : List Nat), ValidItems items a1 →
    EndsLike a1 a2 → ValidItems items a2
  | [], _, _, _, _ => trivial
  | it :: rest, a1, a2, h, hl =>
    ⟨item_valid_endsLike it _ _ h.1 (endsLike_items rest a1 a2 h.2 hl),
      validItems_endsLike rest a1 a2 h.2 hl⟩
end

theorem renderItems_append (l1 l2 : List Item) :
    renderItems (l1 ++ l2) = renderItems l1 ++ renderItems l2 := by
  induction l1 with
  | nil => rfl
  | cons it l1 ih => simp [renderItems, ih]

theorem treeItems_append (l1 l2 : List Item) :
    treeItems (l1 ++ l2) = treeItems l1 ++ treeItems l2 := by
  induction l1 with
  | nil => rfl
  | cons it l1 ih => simp [treeItems, ih]

theorem validItems_append (l1 l2 : List Item) (a : List Nat) :
    ValidItems (l1 ++ l2) a ↔ ValidItems l1 (renderItems l2 ++ a) ∧ ValidItems l2 a := by
  induction l1 with
  | nil => simp [ValidItems]
  | cons it l1 ih =>
    show (it.Valid (renderItems (l1 ++ l2) ++ a) ∧ ValidItems (l1 ++ l2) a)
      ↔ (it.Valid (renderItems l1 ++ (renderItems l2 ++ a))
          ∧ ValidItems l1 (renderItems l2 ++ a)) ∧ ValidItems l2 a
    rw [renderItems_append, List.append_assoc, ih]
    tauto

/-- Replacing one pair of a well formed sequence by a pair that is well formed
in its place keeps the sequence well formed, provided the new pair ends the
bare token before it like the old one (no condition for the first pair). -/
theorem validItems_replace (l1 : List Item) (it it2 : Item) (l2 : List Item) (a : List Nat)
    (h : ValidItems (l1 ++ it :: l2) a) (h2 : it2.Valid (renderItems l2 ++ a))
    (hl : l1 ≠ [] → EndsLike (it.render ++ (renderItems l2 ++ a))
      (it2.render ++ (renderItems l2 ++ a))) :
    ValidItems (l1 ++ it2 :: l2) a := by
  rw [validItems_append] at h ⊢
  obtain ⟨h1, h3⟩ := h
  refine ⟨?_, h2, h3.2⟩
  by_cases hne : l1 = []
  · subst hne; trivial
  · simp only [renderItems, List.append_assoc] at h1 ⊢
    exact validItems_endsLike l1 _ _ h1 (hl hne)

theorem treeItems_replace (l1 : List Item) (it it2 : Item) (l2 : List Item)
    (h : it2.tree = it.tree) : treeItems (l1 ++ it2 :: l2) = treeItems (l1 ++ it :: l2) := by
  simp [treeItems_append, treeItems, h]

/-! ## Insertions at token boundaries -/

theorem isGap_insert (ins g1 g2 : List Nat) (hi : Filler ins) (h1 : IsGap g1) (h2 : IsGap g2) :
    IsGap (g1 ++ (ins ++ g2)) :=
  isGap_append _ _ h1 (isGap_append _ _ hi.1 h2)

theorem length_replace (l1 : List Item) (it it2 : Item) (l2 : List Item) :
    (l1 ++ it2 :: l2).length = (l1 ++ it :: l2).length := by simp

/-- An insertion into a gap of a written pair keeps the node the pair stands
for, keeps the pair well formed, and keeps the way it ends a bare token
written before it. -/
theorem inserted_spec (it it2 : Item) (h : Item.Inserted it it2) :
    it2.tree = it.tree
    ∧ ∀ a, it.Valid a → it2.Valid a ∧ EndsLike (it.render ++ a) (it2.render ++ a) := by
  induction h with
  | leafPre ins g1 g2 k gap v hi h1 h2 =>
    refine ⟨rfl, fun a hv => ⟨⟨isGap_insert ins g1 g2 hi h1 h2, hv.2⟩, ?_⟩⟩
    have := endsLike_insert ins g1 g2 (k.render ++ (gap ++ v.render) ++ a) hi h1
    simpa [Item.render] using this
  | leafGap ins g1 g2 pre k v hi h1 h2 =>
    refine ⟨rfl, fun a hv => ?_⟩
    obtain ⟨hpre, hk, _, hval⟩ := hv
    have hk2 : k.Valid (g1 ++ (ins ++ g2) ++ (v.render ++ a)) :=
      token_valid_endsLike k _ _ hk (endsLike_insert ins g1 g2 _ hi h1)
    refine ⟨⟨hpre, hk2, isGap_insert ins g1 g2 hi h1 h2, hval⟩, ?_⟩
    have := endsLike_head pre k (g1 ++ g2 ++ (v.render ++ a))
      (g1 ++ (ins ++ g2) ++ (v.render ++ a)) hpre hk
    simpa [Item.render] using this
  | nodePre ins g1 g2 k gap body close hi h1 h2 =>
    refine ⟨rfl, fun a hv => ⟨⟨isGap_insert ins g1 g2 hi h1 h2, hv.2⟩, ?_⟩⟩
    have := endsLike_insert ins g1 g2
      (k.render ++ (gap ++ BLOCK_BEGIN :: (renderItems body ++ (close ++ [BLOCK_END]))) ++ a)
      hi h1
    simpa [Item.render] using this
  | nodeGap ins g1 g2 pre k body close hi h1 h2 =>
    refine ⟨rfl, fun a hv => ?_⟩
    obtain ⟨hpre, hk, _, hbody, hclose⟩ := hv
    have hk2 : k.Valid (g1 ++ (ins ++ g2)
        ++ BLOCK_BEGIN :: (renderItems body ++ (close ++ BLOCK_END :: a))) :=
      token_valid_endsLike k _ _ hk (endsLike_insert ins g1 g2 _ hi h1)
    refine ⟨⟨hpre, hk2, isGap_insert ins g1 g2 hi h1 h2, hbody, hclose⟩, ?_⟩
    have := endsLike_head pre k
      (g1 ++ g2 ++ BLOCK_BEGIN :: (renderItems body ++ (close ++ BLOCK_END :: a)))
      (g1 ++ (ins ++ g2) ++ BLOCK_BEGIN :: (renderItems body ++ (close ++ BLOCK_END :: a)))
      hpre hk
    simpa [Item.render] using this
  | nodeClose ins g1 g2 pre k gap body hi h1 h2 =>
    refine ⟨rfl, fun a hv => ?_⟩
    obtain ⟨hpre, hk, hgap, hbody, _⟩ := hv
    have hk2 : k.Valid (gap ++ BLOCK_BEGIN ::
        (renderItems body ++ (g1 ++ (ins ++ g2) ++ BLOCK_END :: a))) :=
      token_valid_endsLike k _ _ hk (endsLike_gap_or gap _ _ _ hgap (Or.inr (Or.inl rfl)))
    have hb2 : ValidItems body (g1 ++ (ins ++ g2) ++ BLOCK_END :: a) :=
      validItems_endsLike body _ _ hbody (endsLike_insert ins g1 g2 _ hi h1)
    refine ⟨⟨hpre, hk2, hgap, hb2, isGap_insert ins g1 g2 hi h1 h2⟩, ?_⟩
    have := endsLike_head pre k
      (gap ++ BLOCK_BEGIN :: (renderItems body ++ (g1 ++ g2 ++ BLOCK_END :: a)))
      (gap ++ BLOCK_BEGIN :: (renderItems body ++ (g1 ++ (ins ++ g2) ++ BLOCK_END :: a)))
      hpre hk
    simpa [Item.render] using this
  | nodeBody pre k gap l1 it it2 l2 close _ ih =>
    obtain ⟨iht, ihv⟩ := ih
    refine ⟨?_, fun a hv => ?_⟩
    · simp only [Item.tree, treeItems_replace l1 it it2 l2 iht, length_replace l1 it it2 l2]
    · obtain ⟨hpre, hk, hgap, hbody, hclose⟩ := hv
      have hit := ((validItems_append l1 (it :: l2) _).1 hbody).2.1
      obtain ⟨hv2, hl2⟩ := ihv _ hit
      have hb2 : ValidItems (l1 ++ it2 :: l2) (close ++ BLOCK_END :: a) :=
        validItems_replace l1 it it2 l2 _ hbody hv2 (fun _ => hl2)
      have hk2 : k.Valid (gap ++ BLOCK_BEGIN ::
          (renderItems (l1 ++ it2 :: l2) ++ (close ++ BLOCK_END :: a))) :=
        token_valid_endsLike k _ _ hk (endsLike_gap_or gap _ _ _ hgap (Or.inr (Or.inl rfl)))
      refine ⟨⟨hpre, hk2, hgap, hb2, hclose⟩, ?_⟩
      have := endsLike_head pre k
        (gap ++ BLOCK_BEGIN :: (renderItems (l1 ++ it :: l2) ++ (close ++ BLOCK_END :: a)))
        (gap ++ BLOCK_BEGIN :: (renderItems (l1 ++ it2 :: l2) ++ (close ++ BLOCK_END :: a)))
        hpre hk
      simpa [Item.render] using this

theorem gap_split (g : List Nat) (hg : IsGap g) :
    (∀ c ∈ g, c ≠ 0 ∧ c ≠ 13 ∧ c ≠ 10)
    ∨ ∃ a eol b, g = a ++ eol :: b ∧ (∀ c ∈ a, c ≠ 0 ∧ c ≠ 13 ∧ c ≠ 10)
        ∧ (eol = 10 ∨ eol = 13) ∧ IsGap b := by
  induction hg with
  | nil => left; simp
  | space c g hc hg ih =>
    by_cases he : c = 10 ∨ c = 13
    · right; exact ⟨[], c, g, rfl, by simp, he, hg⟩
    · have hcc : c ≠ 0 ∧ c ≠ 13 ∧ c ≠ 10 := by omega
      rcases ih with ih | ⟨a, eol, b, h1, h2, h3, h4⟩
      · left
        intro d hd
        rcases List.mem_cons.1 hd with rfl | hd
        · exact hcc
        · exact ih d hd
      · right
        refine ⟨c :: a, eol, b, by rw [h1]; rfl, ?_, h3, h4⟩
        intro d hd
        rcases List.mem_cons.1 hd with rfl | hd
        · exact hcc
        · exact h2 d hd
  | comment body eol g hb he hg _ =>
    right
    refine ⟨SLASH :: SLASH :: body, eol, g, by simp, ?_, he, hg⟩
    intro d hd
    rcases List.mem_cons.1 hd with rfl | hd
    · decide
    · rcases List.mem_cons.1 hd with rfl | hd
      · decide
      · exact hb d hd

theorem ending_split (x : List Nat) (hx : IsEnding x) :
    (∀ c ∈ x, c ≠ 0 ∧ c ≠ 13 ∧ c ≠ 10)
    ∨ ∃ a eol b, x = a ++ eol :: b ∧ (∀ c ∈ a, c ≠ 0 ∧ c ≠ 13 ∧ c ≠ 10)
        ∧ (eol = 10 ∨ eol = 13) ∧ IsEnding b := by
  rcases hx with ⟨_, hg⟩ | ⟨g, body, hg, hb⟩
  · rcases gap_split x hg with h | ⟨a, eol, b, h1, h2, h3, h4⟩
    · exact Or.inl h
    · exact Or.inr ⟨a, eol, b, h1, h2, h3, IsEnding.gap b h4⟩
  · rcases gap_split g hg with h | ⟨a, eol, b, h1, h2, h3, h4⟩
    · left
      intro c hc
      rcases List.mem_append.1 hc with hc | hc
      · exact h c hc
      · rcases List.mem_cons.1 hc with rfl | hc
        · decide
        · rcases List.mem_cons.1 hc with rfl | hc
          · decide
          · exact hb c hc
    · right
      exact ⟨a, eol, b ++ SLASH :: SLASH :: body, by rw [h1]; simp, h2, h3,
        IsEnding.comment b body h4 hb⟩

/-- An ending followed by an ending is an ending. -/
theorem isEnding_append_ending (e x : List Nat) (he : IsEnding e) (hx : IsEnding x) :
    IsEnding (e ++ x) := by
  rcases he with ⟨_, hg⟩ | ⟨g, body, hg, hb⟩
  · exact isEnding_append e x hg hx
  · rcases ending_split x hx with h | ⟨a, eol, b, h1, h2, h3, h4⟩
    · have : g ++ SLASH :: SLASH :: body ++ x = g ++ SLASH :: SLASH :: (body ++ x) := by simp
      rw [this]
      apply IsEnding.comment g _ hg
      intro c hc
      rcases List.mem_append.1 hc with hc | hc
      · exact hb c hc
      · exact h c hc
    · have : g ++ SLASH :: SLASH :: body ++ x
          = (g ++ SLASH :: SLASH :: ((body ++ a) ++ eol :: [])) ++ b := by
        rw [h1]; simp
      rw [this]
      apply isEnding_append _ _ _ h4
      apply isGap_append _ _ hg
      apply IsGap.comment _ eol [] _ h3 IsGap.nil
      intro c hc
      rcases List.mem_append.1 hc with hc | hc
      · exact hb c hc
      · exact h2 c hc

theorem endsLike_ending (e x y : List Nat) (he : IsEnding e) (hne : e ≠ []) :
    EndsLike (e ++ x) (e ++ y) := by
  rcases he with ⟨_, hg⟩ | ⟨g, body, hg, hb⟩
  · exact endsLike_gap e x y hg hne
  · by_cases hgn : g = []
    · subst hgn
      exact endsLike_of_heads _ _ (by simp [peek]) (by simp [peek])
    · simp only [List.append_assoc]
      exact endsLike_gap g _ _ hg hgn

theorem peek_fillerEnd (ins : List Nat) (h : FillerEnd ins) :
    ins = [] ∨ (1 ≤ peek ins ∧ peek ins ≤ 32 ∨ peek ins = 127) := by
  obtain ⟨he, hp⟩ := h
  rcases he with ⟨_, hg⟩ | ⟨g, body, hg, hb⟩
  · exact peek_filler ins ⟨hg, hp⟩
  · by_cases hgn : g = []
    · subst hgn
      exact absurd (by simp [peek]) hp
    · rw [peek_append_of_ne_nil g _ hgn] at hp ⊢
      rcases peek_filler g ⟨hg, hp⟩ with h | h
      · exact absurd h hgn
      · exact Or.inr h

/-- An insertion at a token boundary of a well formed written document gives a
well formed written document that stands for the same nodes. -/
theorem docInserted_spec (items items2 : List Item) (e e2 rest : List Nat)
    (h : DocInserted items e items2 e2) (hv : ValidItems items (e ++ rest)) (he : IsEnding e) :
    ValidItems items2 (e2 ++ rest) ∧ IsEnding e2 ∧ treeItems items2 = treeItems items := by
  cases h with
  | item l1 it it2 l2 _ hins =>
    obtain ⟨ht, hspec⟩ := inserted_spec it it2 hins
    have hit := ((validItems_append l1 (it :: l2) _).1 hv).2.1
    obtain ⟨hv2, hl2⟩ := hspec _ hit
    exact ⟨validItems_replace l1 it it2 l2 _ hv hv2 (fun _ => hl2), he,
      treeItems_replace l1 it it2 l2 ht⟩
  | ending _ ins e1 e3 hi h1 h3 =>
    refine ⟨validItems_endsLike items _ _ hv (endsLike_insert ins e1 e3 rest hi h1), ?_, rfl⟩
    exact isEnding_append _ _ h1 (isEnding_append _ _ hi.1 h3)
  | atEnd _ _ ins hi =>
    refine ⟨validItems_endsLike items _ _ hv ?_, isEnding_append_ending e ins he hi.1, rfl⟩
    by_cases hne : e = []
    · subst hne
      rcases peek_fillerEnd ins hi with h | h
      · subst h; exact endsLike_refl _
      · apply endsLike_of_space
        have hn : ins ≠ [] := by
          intro h0; subst h0; simp [peek] at h
        simp only [List.nil_append]
        rw [peek_append_of_ne_nil ins _ hn]
        exact h
    · simp only [List.append_assoc]
      exact endsLike_ending e _ _ he hne

/-! ## Writing a quoted token bare -/

theorem containsComment_snoc (s : List Nat) (x : Nat) (h : containsComment s = false)
    (hx : x ≠ SLASH) : containsComment (s ++ [x]) = false := by
  induction s with
  | nil => simp [containsComment, peek]
  | cons c s ih =>
    rw [List.cons_append]
    simp only [containsComment, Bool.or_eq_false_iff, Bool.and_eq_false_imp, beq_iff_eq,
      beq_eq_false_iff_ne, ne_eq] at h ⊢
    refine ⟨?_, ih h.2⟩
    intro hc
    cases s with
    | nil => simpa [peek] using hx
    | cons d s => exact h.1 hc

theorem endsBare_of_space (a : List Nat) (h : peek a ≤ 32 ∨ peek a = 127) :
    endsBare a = true := by
  simp only [endsBare, Bool.or_eq_true, decide_eq_true_eq, beq_iff_eq]
  rcases h with h | h
  · exact Or.inl (Or.inl (Or.inl (Or.inl (Or.inl h))))
  · exact Or.inl (Or.inl (Or.inl (Or.inl (Or.inr h))))

/-- A bare string in front of whitespace, or of the end of the input, is a well formed token. -/
theorem bare_valid (s a : List Nat) (hs : Bare s) (ha : peek a ≤ 32 ∨ peek a = 127) :
    Token.Valid ⟨false, s⟩ a := by
  simp only [Token.Valid, Bool.false_eq_true, if_false]
  refine ⟨hs.1, hs.2.1, containsComment_snoc s _ hs.2.2 ?_, endsBare_of_space a ha⟩
  intro h47
  rw [h47] at ha
  exact absurd ha (by decide)

theorem peek_gap_space (gap x : List Nat) (hg : IsGap gap) (hne : gap ≠ [])
    (hp : peek gap ≠ SLASH) : peek (gap ++ x) ≤ 32 ∨ peek (gap ++ x) = 127 := by
  rw [peek_append_of_ne_nil gap x hne]
  rcases peek_filler gap ⟨hg, hp⟩ with h | h
  · exact absurd h hne
  · omega

/-- Writing one quoted token of a written pair bare keeps the node the pair
stands for, keeps the pair well formed and, unless the pair starts the input,
keeps the way it ends a bare token written before it. -/
theorem unquoted_spec (start : Bool) (after : List Nat) (it it2 : Item)
    (h : Item.Unquoted start after it it2) :
    it2.tree = it.tree
    ∧ (it.Valid after → it2.Valid after
        ∧ (start = false → EndsLike (it.render ++ after) (it2.render ++ after))) := by
  induction h with
  | leafKey start after pre s gap v hs hpre hgne hgp =>
    refine ⟨rfl, fun hv => ?_⟩
    obtain ⟨hp, _, hgap, hval⟩ := hv
    refine ⟨⟨hp, bare_valid s _ hs (peek_gap_space gap _ hgap hgne hgp), hgap, hval⟩, ?_⟩
    intro hst
    have hne : pre ≠ [] := by
      rcases hpre with h | h
      · exact h
      · rw [hst] at h; exact absurd h (by decide)
    have := endsLike_gap pre
      ((⟨true, s⟩ : Token).render ++ (gap ++ v.render) ++ after)
      ((⟨false, s⟩ : Token).render ++ (gap ++ v.render) ++ after) hp hne
    simpa [Item.render] using this
  | leafValue start after pre k gap s hs hgne ha =>
    refine ⟨rfl, fun hv => ?_⟩
    obtain ⟨hp, hk, hgap, _⟩ := hv
    have hk2 : k.Valid (gap ++ ((⟨false, s⟩ : Token).render ++ after)) :=
      token_valid_endsLike k _ _ hk (endsLike_gap gap _ _ hgap hgne)
    refine ⟨⟨hp, hk2, hgap, bare_valid s after hs ha⟩, fun _ => ?_⟩
    have := endsLike_head pre k (gap ++ ((⟨true, s⟩ : Token).render ++ after))
      (gap ++ ((⟨false, s⟩ : Token).render ++ after)) hp hk
    simpa [Item.render] using this
  | nodeKey start after pre s gap body close hs hpre hgne hgp =>
    refine ⟨rfl, fun hv => ?_⟩
    obtain ⟨hp, _, hgap, hbody, hclose⟩ := hv
    refine ⟨⟨hp, bare_valid s _ hs (peek_gap_space gap _ hgap hgne hgp), hgap, hbody, hclose⟩,
      ?_⟩
    intro hst
    have hne : pre ≠ [] := by
      rcases hpre with h | h
      · exact h
      · rw [hst] at h; exact absurd h (by decide)
    have := endsLike_gap pre
      ((⟨true, s⟩ : Token).render
        ++ (gap ++ BLOCK_BEGIN :: (renderItems body ++ (close ++ [BLOCK_END]))) ++ after)
      ((⟨false, s⟩ : Token).render
        ++ (gap ++ BLOCK_BEGIN :: (renderItems body ++ (close ++ [BLOCK_END]))) ++ after) hp hne
    simpa [Item.render] using this
  | nodeBody start after pre k gap l1 it it2 l2 close _ ih =>
    obtain ⟨iht, ihv⟩ := ih
    refine ⟨?_, fun hv => ?_⟩
    · simp only [Item.tree, treeItems_replace l1 it it2 l2 iht, length_replace l1 it it2 l2]
    · obtain ⟨hpre, hk, hgap, hbody, hclose⟩ := hv
      have hit := ((validItems_append l1 (it :: l2) _).1 hbody).2.1
      obtain ⟨hv2, hl2⟩ := ihv hit
      have hb2 : ValidItems (l1 ++ it2 :: l2) (close ++ BLOCK_END :: after) :=
        validItems_replace l1 it it2 l2 _ hbody hv2 (fun _ => hl2 rfl)
      have hk2 : k.Valid (gap ++ BLOCK_BEGIN ::
          (renderItems (l1 ++ it2 :: l2) ++ (close ++ BLOCK_END :: after))) :=
        token_valid_endsLike k _ _ hk (endsLike_gap_or gap _ _ _ hgap (Or.inr (Or.inl rfl)))
      refine ⟨⟨hpre, hk2, hgap, hb2, hclose⟩, fun _ => ?_⟩
      have := endsLike_head pre k
        (gap ++ BLOCK_BEGIN :: (renderItems (l1 ++ it :: l2) ++ (close ++ BLOCK_END :: after)))
        (gap ++ BLOCK_BEGIN :: (renderItems (l1 ++ it2 :: l2) ++ (close ++ BLOCK_END :: after)))
        hpre hk
      simpa [Item.render] using this

/-- Writing one quoted token of a well formed written document bare gives a
well formed written document that stands for the same nodes. -/
theorem docUnquoted_spec (after : List Nat) (items items2 : List Item)
    (h : DocUnquoted after items items2) (hv : ValidItems items after) :
    ValidItems items2 after ∧ treeItems items2 = treeItems items := by
  cases h with
  | item l1 it it2 l2 hu =>
    obtain ⟨ht, hspec⟩ := unquoted_spec _ _ it it2 hu
    have hit := ((validItems_append l1 (it :: l2) _).1 hv).2.1
    obtain ⟨hv2, hl2⟩ := hspec hit
    refine ⟨validItems_replace l1 it it2 l2 _ hv hv2 (fun hne => hl2 ?_),
      treeItems_replace l1 it it2 l2 ht⟩
    cases l1 with
    | nil => exact absurd rfl hne
    | cons _ _ => rfl

theorem KeyValueRoot_Parse_shape (junk : Nat → Nat) (str : List Nat) (root : KeyValueRoot)
    (h : KeyValueRoot.new.Parse junk (some str) = some (KeyValueErrorCode.NONE, root)) :
    ∃ items e rest, str = renderItems items ++ (e ++ rest) ∧ ValidItems items (e ++ rest)
      ∧ IsEnding e ∧ peek rest = 0 := by
  obtain ⟨items, e, rest, h1, h2, h3, h4, _⟩ := KeyValueRoot_Parse_complete junk str root h
  exact ⟨items, e, rest, h1, h2, h3, h4⟩

/-! ## C3 and C4 -/

/-- C3. Quoteless tokens parse like quoted ones.  Take a well formed written document (its
pairs `items`, its ending `e`, the terminator at `rest`) and write one of its quoted key or
value tokens `"s"` bare, where `s` is non-empty and holds no whitespace byte, quote, brace or
`//`, and whitespace keeps the bare token apart from its neighbours.  Then
`KeyValueRoot::Parse` succeeds on both inputs and builds the same document.  Every input on
which `KeyValueRoot::Parse` succeeds is such a written document (last conjunct). -/
theorem C3_quoteless_like_quoted (junk : Nat → Nat) (items items2 : List Item)
    (e rest : List Nat) (hv : ValidItems items (e ++ rest)) (he : IsEnding e)
    (hr : peek rest = 0) (hu : DocUnquoted (e ++ rest) items items2) :
    KeyValueRoot.new.Parse junk (some (renderItems items ++ (e ++ rest)))
        = some (KeyValueErrorCode.NONE, parsed (treeItems items) junk)
    ∧ KeyValueRoot.new.Parse junk (some (renderItems items2 ++ (e ++ rest)))
        = some (KeyValueErrorCode.NONE, parsed (treeItems items) junk)
    ∧ ∀ (junk2 : Nat → Nat) (str : List Nat) (root : KeyValueRoot),
        KeyValueRoot.new.Parse junk2 (some str) = some (KeyValueErrorCode.NONE, root) →
        ∃ items3 e3 rest3, str = renderItems items3 ++ (e3 ++ rest3)
          ∧ ValidItems items3 (e3 ++ rest3) ∧ IsEnding e3 ∧ peek rest3 = 0 := by
  obtain ⟨hv2, ht⟩ := docUnquoted_spec _ items items2 hu hv
  refine ⟨KeyValueRoot_Parse_document items e rest junk hv he hr, ?_,
    fun junk2 str root h => KeyValueRoot_Parse_shape junk2 str root h⟩
  rw [← ht]
  exact KeyValueRoot_Parse_document items2 e rest junk hv2 he hr

/-- C3 on the example of the specification: `A 1` parses like `"A" "1"` (first the key is
written bare, `A "1"`, then the value). -/
theorem C3_quoteless_like_quoted_witness :
    (KeyValueRoot.new.Parse (fun _ => 0) (some [34, 65, 34, 32, 34, 49, 34])
        = some (KeyValueErrorCode.NONE, parsed [KeyValue.leaf [65] [49]] (fun _ => 0))
      ∧ KeyValueRoot.new.Parse (fun _ => 0) (some [65, 32, 34, 49, 34])
        = some (KeyValueErrorCode.NONE, parsed [KeyValue.leaf [65] [49]] (fun _ => 0)))
    ∧ KeyValueRoot.new.Parse (fun _ => 0) (some [65, 32, 49])
        = some (KeyValueErrorCode.NONE, parsed [KeyValue.leaf [65] [49]] (fun _ => 0)) :=
  ⟨⟨(C3_quoteless_like_quoted (fun _ => 0)
      [Item.leaf [] ⟨true, [65]⟩ [32] ⟨true, [49]⟩] [Item.leaf [] ⟨false, [65]⟩ [32] ⟨true, [49]⟩]
      [] []
      ⟨⟨IsGap.nil, by simp [Token.Valid], isGap_space, by simp [Token.Valid]⟩, trivial⟩
      (IsEnding.gap [] IsGap.nil) rfl
      (DocUnquoted.item _ [] _ _ []
        (Item.Unquoted.leafKey true _ [] [65] [32] ⟨true, [49]⟩
          ⟨by simp, by simp [isBareByte], rfl⟩ (Or.inr rfl) (by simp) (by simp [peek])))).1,
    (C3_quoteless_like_quoted (fun _ => 0)
      [Item.leaf [] ⟨true, [65]⟩ [32] ⟨true, [49]⟩] [Item.leaf [] ⟨false, [65]⟩ [32] ⟨true, [49]⟩]
      [] []
      ⟨⟨IsGap.nil, by simp [Token.Valid], isGap_space, by simp [Token.Valid]⟩, trivial⟩
      (IsEnding.gap [] IsGap.nil) rfl
      (DocUnquoted.item _ [] _ _ []
        (Item.Unquoted.leafKey true _ [] [65] [32] ⟨true, [49]⟩
          ⟨by simp, by simp [isBareByte], rfl⟩ (Or.inr rfl) (by simp) (by simp [peek])))).2.1⟩,
    (C3_quoteless_like_quoted (fun _ => 0)
      [Item.leaf [] ⟨false, [65]⟩ [32] ⟨true, [49]⟩]
      [Item.leaf [] ⟨false, [65]⟩ [32] ⟨false, [49]⟩] [] []
      ⟨⟨IsGap.nil, by simp [Token.Valid, isBareByte, containsComment, endsBare, peek, renderItems],
        isGap_space, by simp [Token.Valid]⟩, trivial⟩
      (IsEnding.gap [] IsGap.nil) rfl
      (DocUnquoted.item _ [] _ _ []
        (Item.Unquoted.leafValue true _ [] ⟨false, [65]⟩ [32] [49]
          ⟨by simp, by simp [isBareByte], rfl⟩ (by simp) (by simp [peek, renderItems])))).2.1⟩

/-- C4. Whitespace and line comments are insignificant.  Take a well formed written document
and insert, at a token boundary (a point of a gap before a key, between a key and its value,
before or after a brace, or of the ending, that is not inside a comment), a run of whitespace
bytes or whitespace followed by complete line comments, or at the end of the input the same
with a last comment the end of the input closes.  Then `KeyValueRoot::Parse` succeeds on
both inputs and builds the same document.  Every input on which `KeyValueRoot::Parse`
succeeds is such a written document (last conjunct). -/
theorem C4_whitespace_comments_insignificant (junk : Nat → Nat) (items items2 : List Item)
    (e e2 rest : List Nat) (hv : ValidItems items (e ++ rest)) (he : IsEnding e)
    (hr : peek rest = 0) (hins : DocInserted items e items2 e2) :
    KeyValueRoot.new.Parse junk (some (renderItems items ++ (e ++ rest)))
        = some (KeyValueErrorCode.NONE, parsed (treeItems items) junk)
    ∧ KeyValueRoot.new.Parse junk (some (renderItems items2 ++ (e2 ++ rest)))
        = some (KeyValueErrorCode.NONE, parsed (treeItems items) junk)
    ∧ ∀ (junk2 : Nat → Nat) (str : List Nat) (root : KeyValueRoot),
        KeyValueRoot.new.Parse junk2 (some str) = some (KeyValueErrorCode.NONE, root) →
        ∃ items3 e3 rest3, str = renderItems items3 ++ (e3 ++ rest3)
          ∧ ValidItems items3 (e3 ++ rest3) ∧ IsEnding e3 ∧ peek rest3 = 0 := by
  obtain ⟨hv2, he2, ht⟩ := docInserted_spec items items2 e e2 rest hins hv he
  refine ⟨KeyValueRoot_Parse_document items e rest junk hv he hr, ?_,
    fun junk2 str root h => KeyValueRoot_Parse_shape junk2 str root h⟩
  rw [← ht]
  exact KeyValueRoot_Parse_document items2 e2 rest junk hv2 he2 hr

/-- C4 on `A 1`: with ` //c` and a newline inserted between the key and the value, and with
` //c` inserted at the end of the input, the document is the same. -/
theorem C4_whitespace_comments_insignificant_witness :
    KeyValueRoot.new.Parse (fun _ => 0) (some [65, 32, 32, 47, 47, 99, 10, 49])
        = some (KeyValueErrorCode.NONE, parsed [KeyValue.leaf [65] [49]] (fun _ => 0))
    ∧ KeyValueRoot.new.Parse (fun _ => 0) (some [65, 32, 49, 32, 47, 47, 99])
        = some (KeyValueErrorCode.NONE, parsed [KeyValue.leaf [65] [49]] (fun _ => 0)) :=
  ⟨(C4_whitespace_comments_insignificant (fun _ => 0)
      [Item.leaf [] ⟨false, [65]⟩ ([32] ++ []) ⟨false, [49]⟩]
      [Item.leaf [] ⟨false, [65]⟩ ([32] ++ ([32, 47, 47, 99, 10] ++ [])) ⟨false, [49]⟩]
      [] [] []
      ⟨⟨IsGap.nil, by simp [Token.Valid, isBareByte, containsComment, endsBare, peek, renderItems],
        isGap_space, by simp [Token.Valid, isBareByte, containsComment, endsBare, peek, renderItems]⟩, trivial⟩
      (IsEnding.gap [] IsGap.nil) rfl
      (DocInserted.item [] _ _ [] []
        (Item.Inserted.leafGap [32, 47, 47, 99, 10] [32] [] [] ⟨false, [65]⟩ ⟨false, [49]⟩
          ⟨IsGap.space 32 _ (by omega)
            (IsGap.comment [99] 10 [] (by simp) (Or.inl rfl) IsGap.nil), by simp [peek]⟩
          isGap_space IsGap.nil))).2.1,
    (C4_whitespace_comments_insignificant (fun _ => 0)
      [Item.leaf [] ⟨false, [65]⟩ [32] ⟨false, [49]⟩]
      [Item.leaf [] ⟨false, [65]⟩ [32] ⟨false, [49]⟩]
      [] ([] ++ [32, 47, 47, 99]) []
      ⟨⟨IsGap.nil, by simp [Token.Valid, isBareByte, containsComment, endsBare, peek, renderItems],
        isGap_space, by simp [Token.Valid, isBareByte, containsComment, endsBare, peek, renderItems]⟩, trivial⟩
      (IsEnding.gap [] IsGap.nil) rfl
      (DocInserted.atEnd _ [] [32, 47, 47, 99]
        ⟨IsEnding.comment [32] [99] isGap_space (by simp), by simp [peek]⟩)).2.1⟩

/-! ## Lookup and indexed access -/

theorem tolower_eq_zero (c : Nat) : tolower c = 0 ↔ c = 0 := by
  unfold tolower
  split <;> omega

/-- `strcasecmp` returns 0 exactly on strings that are equal when case is ignored. -/
theorem strcasecmp_eq_zero : ∀ (s1 s2 : List Nat),
    strcasecmp s1 s2 = 0 ↔ EqIgnoreCase s1 s2
  | [], s2 => by
    unfold strcasecmp EqIgnoreCase
    cases s2 with
    | nil => simp [cstr, peek, tolower]
    | cons d s2 =>
      by_cases hd : d = 0
      · subst hd; simp [cstr, peek, tolower]
      · have : tolower d ≠ 0 := fun h => hd ((tolower_eq_zero d).1 h)
        simp [cstr, peek, hd]
        omega
  | c :: s1, s2 => by
    unfold strcasecmp
    by_cases hc : c = 0
    · subst hc
      simp only [if_true, EqIgnoreCase]
      cases s2 with
      | nil => simp [cstr, peek, tolower]
      | cons d s2 =>
        by_cases hd : d = 0
        · subst hd; simp [cstr, peek, tolower]
        · have : tolower d ≠ 0 := fun h => hd ((tolower_eq_zero d).1 h)
          simp [cstr, peek, hd]
          omega
    · rw [if_neg hc]
      have hlc : tolower c ≠ 0 := fun h => hc ((tolower_eq_zero c).1 h)
      cases s2 with
      | nil =>
        have : tolower c ≠ tolower (peek []) := by simpa [peek, tolower] using hlc
        rw [if_pos this]
        simp [EqIgnoreCase, cstr, hc, peek, tolower]
        intro h
        have : (tolower c : Int) = 0 := by
          simp only [tolower] at h ⊢
          omega
        exact hlc (by exact_mod_cast this)
      | cons d s2 =>
        simp only [peek, List.headD_cons, List.tail_cons]
        by_cases hne : tolower c ≠ tolower d
        · rw [if_pos hne]
          have h1 : ¬ ((tolower c : Int) - (tolower d : Int) = 0) := by
            intro h
            apply hne
            have : (tolower c : Int) = (tolower d : Int) := by omega
            exact_mod_cast this
          simp only [h1, false_iff, EqIgnoreCase, cstr]
          by_cases hd : d = 0
          · subst hd; simp [hc]
          · simp [hc, hd, List.takeWhile_cons]
            intro h; exact absurd h hne
        · rw [if_neg hne]
          simp only [ne_eq, Decidable.not_not] at hne
          have hd : d ≠ 0 := by
            intro hd; subst hd
            exact hlc (by rw [hne]; simp [tolower])
          rw [strcasecmp_eq_zero s1 s2]
          simp [EqIgnoreCase, cstr, hc, hd, List.takeWhile_cons, hne]

theorem eqIgnoreCase_trans (a b c : List Nat) (h1 : EqIgnoreCase a b) (h2 : EqIgnoreCase b c) :
    EqIgnoreCase a c := h1.trans h2

theorem strcasecmp_congr (k q1 q2 : List Nat) (h : EqIgnoreCase q1 q2) :
    (strcasecmp k q1 = 0) ↔ (strcasecmp k q2 = 0) := by
  rw [strcasecmp_eq_zero, strcasecmp_eq_zero]
  exact ⟨fun h1 => h1.trans h, fun h1 => h1.trans h.symm⟩

theorem firstMatch_congr (q1 q2 : List Nat) (h : EqIgnoreCase q1 q2) (ts : List KeyValue) :
    firstMatch q1 ts = firstMatch q2 ts := by
  induction ts with
  | nil => rfl
  | cons t ts ih =>
    unfold firstMatch
    by_cases h1 : strcasecmp t.keyOf q1 = 0
    · rw [if_pos h1, if_pos ((strcasecmp_congr _ _ _ h).1 h1)]
    · rw [if_neg h1, if_neg (fun h2 => h1 ((strcasecmp_congr _ _ _ h).2 h2)), ih]

/-- `firstMatch` gives the first index whose key equals `keyName` when case is ignored. -/
theorem firstMatch_spec (q : List Nat) (ts : List KeyValue) :
    match firstMatch q ts with
    | some j => ∃ t, ts[j]? = some t ∧ EqIgnoreCase t.keyOf q
        ∧ ∀ i t2, i < j → ts[i]? = some t2 → ¬ EqIgnoreCase t2.keyOf q
    | none => ∀ t ∈ ts, ¬ EqIgnoreCase t.keyOf q := by
  induction ts with
  | nil => simp [firstMatch]
  | cons t ts ih =>
    unfold firstMatch
    by_cases h1 : strcasecmp t.keyOf q = 0
    · rw [if_pos h1]
      exact ⟨t, by simp, (strcasecmp_eq_zero _ _).1 h1,
        fun i t2 hi _ => absurd hi (Nat.not_lt_zero _)⟩
    · rw [if_neg h1]
      have hn : ¬ EqIgnoreCase t.keyOf q := fun h => h1 ((strcasecmp_eq_zero _ _).2 h)
      cases hf : firstMatch q ts with
      | none =>
        rw [hf] at ih
        simp only [Option.map_none']
        intro t2 ht2
        rcases List.mem_cons.1 ht2 with rfl | ht2
        · exact hn
        · exact ih t2 ht2
      | some j =>
        rw [hf] at ih
        simp only [Option.map_some']
        obtain ⟨t1, ht1, he, hall⟩ := ih
        refine ⟨t1, by simpa using ht1, he, ?_⟩
        intro i t2 hi ht2
        cases i with
        | zero =>
          simp only [List.getElem?_cons_zero, Option.some.injEq] at ht2
          subst ht2; exact hn
        | succ i =>
          simp only [List.getElem?_cons_succ] at ht2
          exact hall i t2 (by omega) ht2

theorem linked_fields (m : Memory) (lo hi a : Nat) (t : KeyValue) (h : Linked m lo hi a t) :
    lo ≤ a ∧ a < hi ∧ (m.cell a).key = t.keyOf ∧ (m.cell a).next ≠ some a
      ∧ (m.cell a).children ≠ some a ∧ (m.cell a).lastChild ≠ some a := by
  cases t with
  | leaf key value =>
    obtain ⟨h1, h2, h3, _, _, h6, h7, h8⟩ := h
    exact ⟨h1, h2, h3, h8, by rw [h6]; simp, by rw [h7]; simp⟩
  | node key children n =>
    obtain ⟨h1, h2, h3, _, _, h6, h7, h8, _⟩ := h
    exact ⟨h1, h2, h3, h6, h7, fun hl => (h8 a hl).2.2 rfl⟩

/-- An object of a tree in linked form is no pointer loop. -/
theorem linked_isValid (m : Memory) (lo hi a : Nat) (t : KeyValue) (h : Linked m lo hi a t)
    (hlo : 0 < lo) : IsValid m a = true := by
  obtain ⟨h1, _, _, h4, h5, h6⟩ := linked_fields m lo hi a t h
  have : a ≠ INVALID := by unfold INVALID; omega
  simp [IsValid, this, h4, h5, h6]

theorem linked_observe (m : Memory) (lo hi a : Nat) (t : KeyValue) (h : Linked m lo hi a t) :
    observe m a = t.observed := by
  cases t with
  | leaf key value =>
    obtain ⟨_, _, h3, h4, h5, _⟩ := h
    simp [observe, KeyValue.observed, Key, HasChildren, ChildCount, Value, h3, h4, h5]
  | node key children n =>
    obtain ⟨_, _, h3, h4, h5, _⟩ := h
    simp [observe, KeyValue.observed, Key, HasChildren, ChildCount, Value, h3, h4, h5]

/-- Following `next` from the head of a chain `i` times reaches the object of the `i`-th tree. -/
theorem atLinked_chain (m : Memory) (lo hi : Nat) : ∀ (ts : List KeyValue) (p : Option Nat)
    (i : Nat) (t : KeyValue), LinkedChain m lo hi p ts → ts[i]? = some t →
    ∃ a, atLinked m i p = some a ∧ Linked m lo hi a t
  | [], _, i, t, _, ht => by simp at ht
  | t1 :: ts, p, i, t, h, ht => by
    obtain ⟨a, hp, hl, hrest⟩ := h
    subst hp
    cases i with
    | zero =>
      simp only [List.getElem?_cons_zero, Option.some.injEq] at ht
      subst ht
      exact ⟨a, rfl, hl⟩
    | succ i =>
      simp only [List.getElem?_cons_succ] at ht
      exact atLinked_chain m lo hi ts _ i t hrest ht

/-- The linked loop of `InternalGet` returns the object of the first tree whose key matches. -/
theorem getLinked_chain (m : Memory) (lo hi : Nat) (q : List Nat) : ∀ (ts : List KeyValue)
    (p : Option Nat) (fuel : Nat), LinkedChain m lo hi p ts → ts.length < fuel →
    getLinked m q fuel p = (match firstMatch q ts with
      | some j => atLinked m j p
      | none => some INVALID)
  | [], p, fuel, h, hf => by
    have hp : p = none := h
    subst hp
    cases fuel with
    | zero => exact absurd hf (Nat.not_lt_zero _)
    | succ fuel => rfl
  | t :: ts, p, fuel, h, hf => by
    obtain ⟨a, hp, hl, hrest⟩ := h
    subst hp
    cases fuel with
    | zero => exact absurd hf (Nat.not_lt_zero _)
    | succ fuel =>
      have hk := (linked_fields m lo hi a t hl).2.2.1
      unfold getLinked firstMatch
      rw [hk]
      by_cases h1 : strcasecmp t.keyOf q = 0
      · rw [if_pos h1, if_pos h1]
        rfl
      · rw [if_neg h1, if_neg h1,
          getLinked_chain m lo hi q ts _ fuel hrest (by simp at hf; omega)]
        cases firstMatch q ts with
        | none => rfl
        | some j => rfl

mutual
theorem linked_frame (m m2 : Memory) (lo hi : Nat)
    (hm : ∀ a, lo ≤ a → a < hi → m2.cell a = m.cell a) :
    ∀ (t : KeyValue) (a : Nat), Linked m lo hi a t → Linked m2 lo hi a t
  | KeyValue.leaf key value, a, h => by
    have := hm a h.1 h.2.1
    unfold Linked at h ⊢
    rw [this]
    exact h
  | KeyValue.node key children n, a, h => by
    have := hm a h.1 h.2.1
    unfold Linked at h ⊢
    rw [this]
    obtain ⟨h1, h2, h3, h4, h5, h6, h7, h8, h9⟩ := h
    exact ⟨h1, h2, h3, h4, h5, h6, h7, h8, linkedChain_frame m m2 lo hi hm children _ h9⟩
/-- A chain in linked form does not depend on the memory outside its addresses. -/
theorem linkedChain_frame (m m2 : Memory) (lo hi : Nat)
    (hm : ∀ a, lo ≤ a → a < hi → m2.cell a = m.cell a) :
    ∀ (ts : List KeyValue) (p : Option Nat), LinkedChain m lo hi p ts → LinkedChain m2 lo hi p ts
  | [], _, h => h
  | t :: ts, p, h => by
    obtain ⟨a, hp, hl, hrest⟩ := h
    have ha := linked_fields m lo hi a t hl
    refine ⟨a, hp, linked_frame m m2 lo hi hm t a hl, ?_⟩
    rw [hm a ha.1 ha.2.1]
    exact linkedChain_frame m m2 lo hi hm ts _ hrest
end

theorem solid_fields (m : Memory) (lo hi a : Nat) (t : KeyValue) (h : Solid m lo hi a t) :
    (m.cell a).key = t.keyOf ∧ IsValid m a = true ∧ observe m a = t.observed := by
  cases t with
  | leaf key value =>
    obtain ⟨h1, h2, h3, h4⟩ := h
    exact ⟨h1, h4, by
      simp [observe, KeyValue.observed, Key, HasChildren, ChildCount, Value, h1, h2, h3]⟩
  | node key children n =>
    obtain ⟨h1, h2, h3, h4, _⟩ := h
    exact ⟨h1, h4, by
      simp [observe, KeyValue.observed, Key, HasChildren, ChildCount, Value, h1, h2, h3]⟩

/-- The `i`-th object of an array in solidified form represents the `i`-th tree. -/
theorem solidSeg_get (m : Memory) (lo hi : Nat) : ∀ (ts : List KeyValue) (b : Nat)
    (e : Option Nat) (i : Nat) (t : KeyValue), SolidSeg m lo hi b ts e → ts[i]? = some t →
    Solid m lo hi (b + i) t
  | [], _, _, i, t, _, ht => by simp at ht
  | t1 :: ts, b, e, i, t, h, ht => by
    obtain ⟨h1, _, h3⟩ := h
    cases i with
    | zero =>
      simp only [List.getElem?_cons_zero, Option.some.injEq] at ht
      subst ht
      exact h1
    | succ i =>
      simp only [List.getElem?_cons_succ] at ht
      have := solidSeg_get m lo hi ts (b + 1) e i t h3 ht
      have e1 : b + (i + 1) = b + 1 + i := by omega
      rw [e1]
      exact this

/-- The solidified loop of `InternalGet` returns the object of the first tree whose key matches. -/
theorem getSolid_seg (m : Memory) (lo hi : Nat) (q : List Nat) (base : Nat) :
    ∀ (ts : List KeyValue) (i : Nat) (e : Option Nat), SolidSeg m lo hi (base + i) ts e →
    getSolid m base q ts.length i = (match firstMatch q ts with
      | some j => base + (i + j)
      | none => INVALID)
  | [], _, _, _ => rfl
  | t :: ts, i, e, h => by
    obtain ⟨h1, _, h3⟩ := h
    have hk := (solid_fields m lo hi _ t h1).1
    simp only [List.length_cons]
    unfold getSolid firstMatch
    rw [hk]
    by_cases hq : strcasecmp t.keyOf q = 0
    · rw [if_pos hq, if_pos hq]
      rfl
    · rw [if_neg hq, if_neg hq, getSolid_seg m lo hi q base ts (i + 1) e h3]
      cases firstMatch q ts with
      | none => rfl
      | some j =>
        simp only [Option.map_some']
        have : base + (i + 1 + j) = base + (i + (j + 1)) := by
          rw [Nat.add_assoc i 1 j, Nat.add_comm 1 j]
        exact this

mutual
theorem solid_frame (m m2 : Memory) (lo hi : Nat)
    (hm : ∀ a, lo ≤ a → a < hi → m2.cell a = m.cell a) :
    ∀ (t : KeyValue) (a : Nat), m2.cell a = m.cell a → Solid m lo hi a t → Solid m2 lo hi a t
  | KeyValue.leaf key value, a, ha, h => by
    unfold Solid IsValid at h ⊢
    rw [ha]
    exact h
  | KeyValue.node key children n, a, ha, h => by
    unfold Solid IsValid at h ⊢
    rw [ha]
    obtain ⟨h1, h2, h3, h4, h5⟩ := h
    refine ⟨h1, h2, h3, h4, fun hne => ?_⟩
    obtain ⟨base, hb1, hb2, hb3, hb4⟩ := h5 hne
    exact ⟨base, hb1, hb2, hb3, solidSeg_frame m m2 lo hi hm children base none
      (fun x hx1 hx2 => hm x (by omega) (by omega)) hb4⟩
/-- An array in solidified form does not depend on the memory outside its own
objects and the addresses of the arrays below it. -/
theorem solidSeg_frame (m m2 : Memory) (lo hi : Nat)
    (hm : ∀ a, lo ≤ a → a < hi → m2.cell a = m.cell a) :
    ∀ (ts : List KeyValue) (b : Nat) (e : Option Nat),
    (∀ a, b ≤ a → a < b + ts.length → m2.cell a = m.cell a) →
    SolidSeg m lo hi b ts e → SolidSeg m2 lo hi b ts e
  | [], _, _, _, _ => trivial
  | t :: ts, b, e, hown, h => by
    simp only [List.length_cons] at hown
    obtain ⟨h1, h2, h3⟩ := h
    have hb := hown b (Nat.le_refl _) (by omega)
    refine ⟨solid_frame m m2 lo hi hm t b hb h1, by rw [hb]; exact h2,
      solidSeg_frame m m2 lo hi hm ts (b + 1) e
        (fun x hx1 hx2 => hown x (by omega) (by omega)) h3⟩
end

mutual
theorem solid_widen (m : Memory) (lo hi lo2 hi2 : Nat) (h1 : lo2 ≤ lo) (h2 : hi ≤ hi2) :
    ∀ (t : KeyValue) (a : Nat), Solid m lo hi a t → Solid m lo2 hi2 a t
  | KeyValue.leaf key value, a, h => h
  | KeyValue.node key children n, a, h => by
    unfold Solid at h ⊢
    obtain ⟨g1, g2, g3, g4, g5⟩ := h
    refine ⟨g1, g2, g3, g4, fun hne => ?_⟩
    obtain ⟨base, hb1, hb2, hb3, hb4⟩ := g5 hne
    exact ⟨base, hb1, by omega, by omega, solidSeg_widen m lo hi lo2 hi2 h1 h2 children base none hb4⟩
/-- The bounds of an array in solidified form can be widened. -/
theorem solidSeg_widen (m : Memory) (lo hi lo2 hi2 : Nat) (h1 : lo2 ≤ lo) (h2 : hi ≤ hi2) :
    ∀ (ts : List KeyValue) (b : Nat) (e : Option Nat), SolidSeg m lo hi b ts e →
    SolidSeg m lo2 hi2 b ts e
  | [], _, _, _ => trivial
  | t :: ts, b, e, h =>
    ⟨solid_widen m lo hi lo2 hi2 h1 h2 t b h.1, h.2.1,
      solidSeg_widen m lo hi lo2 hi2 h1 h2 ts (b + 1) e h.2.2⟩
end

/-! ## `Solidify` -/

@[simp] theorem write_cell_same (m : Memory) (a : Nat) (c : Cell) : (m.write a c).cell a = c := by
  simp [Memory.write]

theorem write_cell_other (m : Memory) (a x : Nat) (c : Cell) (h : x ≠ a) :
    (m.write a c).cell x = m.cell x := by
  simp [Memory.write, h]

@[simp] theorem write_top (m : Memory) (a : Nat) (c : Cell) : (m.write a c).top = m.top := rfl

@[simp] theorem write_pooled (m : Memory) (a : Nat) (c : Cell) :
    (m.write a c).pooled = m.pooled := rfl

@[simp] theorem write_solidified (m : Memory) (a : Nat) (c : Cell) :
    (m.write a c).solidified = m.solidified := rfl

/-- Assigning `next` of an object keeps the tree it heads, as long as it does
not point to the object itself. -/
theorem solid_setNext (m : Memory) (lo hi a : Nat) (x : Option Nat) (t : KeyValue)
    (h : Solid m lo hi a t) (hx : x ≠ some a) (ha : a < lo) :
    Solid (m.write a { m.cell a with next := x }) lo hi a t := by
  have hm : ∀ y, lo ≤ y → y < hi →
      (m.write a { m.cell a with next := x }).cell y = m.cell y :=
    fun y hy _ => write_cell_other m a y _ (by omega)
  cases t with
  | leaf key value =>
    obtain ⟨h1, h2, h3, h4⟩ := h
    simp only [IsValid, Bool.and_eq_true, bne_iff_ne, ne_eq] at h4
    refine ⟨by simp [h1], by simp [h2], by simp [h3], ?_⟩
    simp only [IsValid, write_cell_same, Bool.and_eq_true, bne_iff_ne, ne_eq]
    exact ⟨⟨⟨h4.1.1.1, hx⟩, h4.1.2⟩, h4.2⟩
  | node key children n =>
    obtain ⟨h1, h2, h3, h4, h5⟩ := h
    simp only [IsValid, Bool.and_eq_true, bne_iff_ne, ne_eq] at h4
    refine ⟨by simp [h1], by simp [h2], by simp [h3], ?_, fun hne => ?_⟩
    · simp only [IsValid, write_cell_same, Bool.and_eq_true, bne_iff_ne, ne_eq]
      exact ⟨⟨⟨h4.1.1.1, hx⟩, h4.1.2⟩, h4.2⟩
    · obtain ⟨base, hb1, hb2, hb3, hb4⟩ := h5 hne
      refine ⟨base, by simp [hb1], hb2, hb3, ?_⟩
      exact solidSeg_frame m _ lo hi hm children base none
        (fun y hy1 _ => hm y (by omega) (by omega)) hb4

/-- Appending an object to a segment whose last `next` points to it. -/
theorem solidSeg_snoc (m : Memory) (lo hi : Nat) (t : KeyValue) (e : Option Nat) :
    ∀ (ts1 : List KeyValue) (b : Nat), SolidSeg m lo hi b ts1 (some (b + ts1.length)) →
    Solid m lo hi (b + ts1.length) t → (m.cell (b + ts1.length)).next = e →
    SolidSeg m lo hi b (ts1 ++ [t]) e
  | [], b, _, h2, h3 => by
    simp only [List.length_nil, Nat.add_zero] at h2 h3
    exact ⟨h2, h3, trivial⟩
  | t1 :: ts1, b, h1, h2, h3 => by
    obtain ⟨g1, g2, g3⟩ := h1
    simp only [List.length_cons] at g3 h2 h3
    have e1 : b + (ts1.length + 1) = b + 1 + ts1.length := by omega
    rw [e1] at g3 h2 h3
    refine ⟨g1, ?_, solidSeg_snoc m lo hi t e ts1 (b + 1) g3 h2 h3⟩
    cases ts1 with
    | nil => simpa using g2
    | cons t2 ts2 => simpa using g2

/-- The last assignment of `Solidify`, `newArray[cc - 1].next = nullptr`. -/
theorem solidSeg_setLast (lo hi : Nat) : ∀ (ts : List KeyValue) (m : Memory) (b : Nat)
    (e : Option Nat), ts ≠ [] → b + ts.length ≤ lo → SolidSeg m lo hi b ts e →
    SolidSeg (m.write (b + (ts.length - 1))
      { m.cell (b + (ts.length - 1)) with next := none }) lo hi b ts none
  | [], _, _, _, hne, _, _ => absurd rfl hne
  | [t], m, b, e, _, hb, h => by
    simp only [List.length_singleton, Nat.sub_self, Nat.add_zero] at hb ⊢
    exact ⟨solid_setNext m lo hi b none t h.1 (by simp) (by omega), by simp, trivial⟩
  | t :: t2 :: ts, m, b, e, _, hb, h => by
    obtain ⟨h1, h2, h3⟩ := h
    simp only [List.length_cons] at hb
    have ih := solidSeg_setLast lo hi (t2 :: ts) m (b + 1) e (by simp)
      (by simp only [List.length_cons]; omega) h3
    have e1 : b + ((t :: t2 :: ts).length - 1) = b + 1 + ((t2 :: ts).length - 1) := by
      simp only [List.length_cons]; omega
    rw [e1]
    have hb2 : b ≠ b + 1 + ((t2 :: ts).length - 1) := by omega
    have hm : ∀ y, lo ≤ y → y < hi →
        (m.write (b + 1 + ((t2 :: ts).length - 1))
          { m.cell (b + 1 + ((t2 :: ts).length - 1)) with next := none }).cell y = m.cell y :=
      fun y hy _ => write_cell_other m _ y _ (by simp only [List.length_cons]; omega)
    refine ⟨solid_frame m _ lo hi hm t b (write_cell_other m _ b _ hb2) h1, ?_, ih⟩
    rw [write_cell_other m _ b _ hb2]
    exact h2

theorem isValid_of_fields (m : Memory) (a : Nat) (h0 : a ≠ INVALID)
    (h1 : (m.cell a).next ≠ some a) (h2 : (m.cell a).children ≠ some a)
    (h3 : (m.cell a).lastChild ≠ some a) : IsValid m a = true := by
  simp [IsValid, h0, h1, h2, h3]

theorem counted_node (key : List Nat) (cs : List KeyValue) (n : Nat)
    (h : (KeyValue.node key cs n).Counted) : n = cs.length ∧ CountedList cs := h

theorem linked_node (m : Memory) (lo hi a : Nat) (key : List Nat) (cs : List KeyValue) (n : Nat)
    (h : Linked m lo hi a (KeyValue.node key cs n)) :
    (m.cell a).isNode = true ∧ (m.cell a).childCount = n
      ∧ (∀ l, (m.cell a).lastChild = some l → lo ≤ l ∧ l < hi ∧ l ≠ a)
      ∧ LinkedChain m lo hi (m.cell a).children cs := by
  obtain ⟨_, _, _, h4, h5, _, _, h8, h9⟩ := h
  exact ⟨h4, h5, h8, h9⟩

theorem linked_leaf (m : Memory) (lo hi a : Nat) (key value : List Nat)
    (h : Linked m lo hi a (KeyValue.leaf key value)) :
    (m.cell a).isNode = false ∧ (m.cell a).value = value ∧ (m.cell a).children = none
      ∧ (m.cell a).lastChild = none := by
  obtain ⟨_, _, _, h4, h5, h6, h7, _⟩ := h
  exact ⟨h4, h5, h6, h7⟩

/-- One iteration of the loop of `Solidify` up to the assignment of `next`: the
copy of the object `cur` at `A` heads the tree `t` in solidified form. -/
theorem solidify_child (lo hi fuel D : Nat)
    (IH : ∀ (ts : List KeyValue) (m : Memory) (this : Nat), heightList ts < fuel → ts ≠ [] →
      CountedList ts → LinkedChain m lo hi (m.cell this).children ts →
      (m.cell this).childCount = ts.length → (this < lo ∨ hi ≤ this) → this < m.top →
      hi ≤ m.top → ∃ m2, KeyValue.Solidify fuel m this = some m2 ∧ SolidifyPost m m2 this ts)
    (m : Memory) (cur A : Nat) (t : KeyValue) (hl : Linked m lo hi cur t) (hc : t.Counted)
    (hh : t.height ≤ fuel) (hA1 : hi ≤ A) (hA2 : A < D) (hD : D ≤ m.top) :
    ∃ m2, (if ((m.write A (m.cell cur)).cell A).isNode
            && decide (((m.write A (m.cell cur)).cell A).childCount > 0) then
          KeyValue.Solidify fuel (m.write A (m.cell cur)) A
        else some (m.write A (m.cell cur))) = some m2
      ∧ m.top ≤ m2.top
      ∧ (∀ a, a < m.top → a ≠ A → m2.cell a = m.cell a)
      ∧ m2.pooled = m.pooled ∧ m2.solidified = m.solidified
      ∧ Solid (m2.write A { m2.cell A with next := some (A + 1) }) D m2.top A t := by
  obtain ⟨hc1, hc2, hkey, _, _, _⟩ := linked_fields m lo hi cur t hl
  have hAne : A ≠ INVALID := by unfold INVALID; omega
  cases t with
  | leaf key value =>
    obtain ⟨g1, g2, g3, g4⟩ := linked_leaf m lo hi cur key value hl
    refine ⟨m.write A (m.cell cur), by simp [g1], Nat.le_refl _,
      fun a _ ha => write_cell_other m A a _ ha, rfl, rfl, ?_⟩
    refine ⟨by simpa using hkey, by simp [g1], by simp [g2], ?_⟩
    apply isValid_of_fields _ _ hAne <;> simp [g3, g4]
  | node key cs n =>
    obtain ⟨g1, g2, g3, g4⟩ := linked_node m lo hi cur key cs n hl
    obtain ⟨hn, hcs⟩ := counted_node key cs n hc
    by_cases hne : cs = []
    · subst hne
      have hch : (m.cell cur).children = none := g4
      have hn0 : n = 0 := hn
      refine ⟨m.write A (m.cell cur), by simp [g2, hn0], Nat.le_refl _,
        fun a _ ha => write_cell_other m A a _ ha, rfl, rfl, ?_⟩
      refine ⟨by simpa using hkey, by simp [g1], by simp [g2], ?_, fun h => absurd rfl h⟩
      apply isValid_of_fields _ _ hAne
      · simp
      · simp [hch]
      · simp only [write_cell_same]
        intro hlast
        have := g3 A hlast
        omega
    · have hpos : 0 < cs.length := List.length_pos.2 hne
      have hm1 : ∀ a, lo ≤ a → a < hi → (m.write A (m.cell cur)).cell a = m.cell a :=
        fun a _ ha => write_cell_other m A a _ (by omega)
      obtain ⟨m2, hm2, p1, p2, p3, p4, p5, p6⟩ := IH cs (m.write A (m.cell cur)) A
        (by simp only [KeyValue.height] at hh; omega) hne hcs
        (by
          simp only [write_cell_same]
          exact linkedChain_frame m _ lo hi hm1 cs _ g4)
        (by simp [g2, hn]) (Or.inr hA1) (by simp only [write_top]; omega)
        (by simp only [write_top]; omega)
      simp only [write_top, write_cell_same, write_pooled, write_solidified] at p1 p2 p3 p4 p5 p6
      refine ⟨m2, by simp [g1, g2, hn, hpos, hm2], by omega, ?_, p5, p6, ?_⟩
      · intro a ha1 ha2
        rw [p4 a ha1 ha2, write_cell_other m A a _ ha2]
      · have hm3 : ∀ y, D ≤ y → y < m2.top →
            (m2.write A { m2.cell A with next := some (A + 1) }).cell y = m2.cell y :=
          fun y hy _ => write_cell_other m2 A y _ (by omega)
        refine ⟨by simp [p2, hkey, KeyValue.keyOf], by simp [p2, g1], by simp [p2, g2], ?_, fun _ => ?_⟩
        · apply isValid_of_fields _ _ hAne
          · simp
          · simp only [write_cell_same, p2]
            intro h
            simp only [Option.some.injEq] at h
            omega
          · simp only [write_cell_same, p2]
            intro hlast
            have := g3 A hlast
            omega
        · refine ⟨m.top, by simp [p2], hD, by omega, ?_⟩
          apply solidSeg_frame m2 _ D m2.top hm3 cs m.top none
            (fun y hy1 _ => write_cell_other m2 A y _ (by omega))
          exact solidSeg_widen m2 _ _ D m2.top (by omega) (Nat.le_refl _) cs m.top none p3

/-- The loop of `Solidify`: with `ts1` copied already and the chain of `ts2`
left, it ends with all of `ts1 ++ ts2` in the array. -/
theorem solidifyLoop_spec (lo hi fuel newArray cc : Nat)
    (IH : ∀ (ts : List KeyValue) (m : Memory) (this : Nat), heightList ts < fuel → ts ≠ [] →
      CountedList ts → LinkedChain m lo hi (m.cell this).children ts →
      (m.cell this).childCount = ts.length → (this < lo ∨ hi ≤ this) → this < m.top →
      hi ≤ m.top → ∃ m2, KeyValue.Solidify fuel m this = some m2 ∧ SolidifyPost m m2 this ts)
    (hhi : hi ≤ newArray) :
    ∀ (ts2 ts1 : List KeyValue) (m : Memory) (current : Option Nat),
    heightList ts2 ≤ fuel → CountedList ts2 → LinkedChain m lo hi current ts2 →
    SolidSeg m (newArray + cc) m.top newArray ts1 (some (newArray + ts1.length)) →
    ts1.length + ts2.length = cc → newArray + cc ≤ m.top →
    ∃ m2, solidifyLoop (KeyValue.Solidify fuel) newArray ts2.length ts1.length m current = some m2
      ∧ m.top ≤ m2.top
      ∧ SolidSeg m2 (newArray + cc) m2.top newArray (ts1 ++ ts2) (some (newArray + cc))
      ∧ (∀ a, a < newArray → m2.cell a = m.cell a)
      ∧ m2.pooled = m.pooled ∧ m2.solidified = m.solidified
  | [], ts1, m, current, _, _, _, hs, hlen, _ => by
    simp only [List.length_nil, Nat.add_zero] at hlen
    refine ⟨m, rfl, Nat.le_refl _, ?_, fun _ _ => rfl, rfl, rfl⟩
    subst hlen
    rw [List.append_nil]
    exact hs
  | t :: ts2, ts1, m, current, hh, hc, hl, hs, hlen, hD => by
    obtain ⟨cur, hp, hl1, hl2⟩ := hl
    subst hp
    simp only [List.length_cons] at hlen
    simp only [heightList] at hh
    obtain ⟨hcur1, hcur2, _⟩ := linked_fields m lo hi cur t hl1
    obtain ⟨m2, hm2, q1, q2, q3, q4, q5⟩ := solidify_child lo hi fuel (newArray + cc) IH m cur
      (newArray + ts1.length) t hl1 hc.1 (by omega) (by omega) (by omega) hD
    have hframe : ∀ a, a < m.top → a ≠ newArray + ts1.length →
        (m2.write (newArray + ts1.length)
          { m2.cell (newArray + ts1.length) with
            next := some (newArray + ts1.length + 1) }).cell a = m.cell a := by
      intro a ha1 ha2
      rw [write_cell_other m2 _ a _ ha2, q2 a ha1 ha2]
    have hchain := linkedChain_frame m _ lo hi
      (fun a _ ha => hframe a (by omega) (by omega)) ts2 _ hl2
    rw [← hframe cur (by omega) (by omega)] at hchain
    have hseg := solidSeg_snoc _ (newArray + cc) m2.top t (some (newArray + (ts1.length + 1)))
      ts1 newArray
      (solidSeg_widen _ (newArray + cc) m.top (newArray + cc) m2.top (Nat.le_refl _) q1 ts1
        newArray _
        (solidSeg_frame m _ (newArray + cc) m.top
          (fun a ha1 ha2 => hframe a ha2 (by omega)) ts1 newArray _
          (fun a _ ha2 => hframe a (by omega) (by omega)) hs))
      q5 (by simp [Nat.add_assoc])
    obtain ⟨m4, hm4, r1, r2, r3, r4, r5⟩ := solidifyLoop_spec lo hi fuel newArray cc IH hhi ts2
      (ts1 ++ [t]) _ _ (by omega) hc.2 hchain
      (by simpa using hseg)
      (by simp only [List.length_append, List.length_singleton]; omega)
      (by simp only [write_top]; omega)
    simp only [write_top, write_pooled, write_solidified, List.length_append,
      List.length_singleton, List.append_assoc, List.singleton_append] at hm4 r1 r2 r3 r4 r5
    refine ⟨m4, ?_, by omega, r2, ?_, by rw [r4, q3], by rw [r5, q4]⟩
    · simp only [List.length_cons, solidifyLoop]
      simp only [gt_iff_lt] at hm2
      rw [hm2]
      exact hm4
    · intro a ha
      rw [r3 a ha, hframe a (by omega) (by omega)]

/-- `KeyValue::Solidify()` returns on every node in linked form that has a
child, given fuel above the nesting, and leaves the children in an array. -/
theorem Solidify_spec (lo hi : Nat) : ∀ (fuel : Nat) (ts : List KeyValue) (m : Memory)
    (this : Nat), heightList ts < fuel → ts ≠ [] → CountedList ts →
    LinkedChain m lo hi (m.cell this).children ts → (m.cell this).childCount = ts.length →
    (this < lo ∨ hi ≤ this) → this < m.top → hi ≤ m.top →
    ∃ m2, KeyValue.Solidify fuel m this = some m2 ∧ SolidifyPost m m2 this ts
  | 0, _, _, _, hh, _, _, _, _, _, _, _ => absurd hh (Nat.not_lt_zero _)
  | fuel + 1, ts, m, this, hh, hne, hc, hl, hcc, hthis, htop, hhi => by
    have hpos : 0 < ts.length := List.length_pos.2 hne
    have hm1 : ∀ a, a ≠ this →
        (({ m with top := m.top + ts.length } : Memory).write this
          { m.cell this with children := some m.top }).cell a = m.cell a :=
      fun a ha => write_cell_other _ this a _ ha
    obtain ⟨m2, hm2, p1, p2, p3, p4, p5⟩ := solidifyLoop_spec lo hi fuel m.top ts.length
      (Solidify_spec lo hi fuel) hhi ts [] _ _ (by omega) hc
      (linkedChain_frame m _ lo hi (fun a h1 h2 => hm1 a (by omega)) ts _ hl)
      trivial (by simp) (by simp only [write_top]; omega)
    simp only [write_top, write_pooled, write_solidified, List.length_nil, List.nil_append]
      at hm2 p1 p2 p3 p4 p5
    refine ⟨m2.write (m.top + (ts.length - 1))
      { m2.cell (m.top + (ts.length - 1)) with next := none }, ?_, ?_⟩
    · unfold KeyValue.Solidify
      simp only [hcc] at hm2
      simp only [hcc, if_neg (Nat.pos_iff_ne_zero.1 hpos), hm2]
    · refine ⟨by simp only [write_top]; omega, ?_, ?_, ?_, by simpa using p4, by simpa using p5⟩
      · rw [write_cell_other m2 _ this _ (by omega), p3 this htop]
        simp
      · have := solidSeg_setLast (m.top + ts.length) m2.top ts m2 m.top _ hne (Nat.le_refl _) p2
        simpa using this
      · intro a ha1 ha2
        rw [write_cell_other m2 _ a _ (by omega), p3 a ha1, hm1 a ha2]

/-! ## Lookups on interior nodes -/

theorem countedList_get : ∀ (ts : List KeyValue) (i : Nat) (t : KeyValue),
    CountedList ts → ts[i]? = some t → t.Counted
  | [], i, t, _, ht => by simp at ht
  | t1 :: ts, 0, t, h, ht => by
    simp only [List.getElem?_cons_zero, Option.some.injEq] at ht
    subst ht
    exact h.1
  | t1 :: ts, i + 1, t, h, ht => by
    simp only [List.getElem?_cons_succ] at ht
    exact countedList_get ts i t h.2 ht

theorem getElem_lt (ts : List KeyValue) (i : Nat) (t : KeyValue) (ht : ts[i]? = some t) :
    i < ts.length := by
  by_contra h
  rw [List.getElem?_eq_none (by omega)] at ht
  exact absurd ht (by simp)

/-- `At(i)` on an interior node, `i` below the child count, returns the object of the
`i`-th child. -/
theorem interior_child (m : Memory) (this : Nat) (ts : List KeyValue) (i : Nat) (t : KeyValue)
    (hn : InteriorNode m this ts) (ht : ts[i]? = some t) :
    ∃ a, InternalAt m this i = some a ∧ IsValid m a = true ∧ observe m a = t.observed
      ∧ (m.cell a).key = t.keyOf
      ∧ ∀ key cs n, t = KeyValue.node key cs n → InteriorNode m a cs := by
  obtain ⟨h1, h2, h3, h4, h5⟩ := hn
  have hi := getElem_lt ts i t ht
  have hc := countedList_get ts i t h4 ht
  have hat : InternalAt m this i = (if m.solidified then
      match (m.cell this).children with
      | none => none
      | some base => some (base + i)
    else atLinked m i (m.cell this).children) := by
    unfold InternalAt
    rw [if_neg]
    simp only [h1, h2, h3, Bool.not_true, Bool.false_or, Bool.or_false, decide_eq_true_eq]
    simp only [Bool.or_eq_true, decide_eq_true_eq]
    omega
  rcases h5 with ⟨hs, lo, hi2, hlo, hl⟩ | ⟨hs, hseg⟩
  · obtain ⟨a, ha, hla⟩ := atLinked_chain m lo hi2 ts _ i t hl ht
    refine ⟨a, by rw [hat, hs]; simpa using ha, linked_isValid m lo hi2 a t hla hlo,
      linked_observe m lo hi2 a t hla, (linked_fields m lo hi2 a t hla).2.2.1, ?_⟩
    intro key cs n hk
    subst hk
    obtain ⟨g1, g2, _, g4⟩ := linked_node m lo hi2 a key cs n hla
    obtain ⟨hn1, hn2⟩ := counted_node key cs n hc
    exact ⟨g1, by rw [g2, hn1], linked_isValid m lo hi2 a _ hla hlo, hn2,
      Or.inl ⟨hs, lo, hi2, hlo, g4⟩⟩
  · obtain ⟨lo, hi2, base, hb, hsg⟩ := hseg (by intro h; subst h; simp at hi)
    have hsa := solidSeg_get m lo hi2 ts base none i t hsg ht
    obtain ⟨f1, f2, f3⟩ := solid_fields m lo hi2 _ t hsa
    refine ⟨base + i, by rw [hat, hs, hb]; rfl, f2, f3, f1, ?_⟩
    intro key cs n hk
    subst hk
    obtain ⟨g1, g2, g3, g4, g5⟩ := hsa
    obtain ⟨hn1, hn2⟩ := counted_node key cs n hc
    refine ⟨g2, by rw [g3, hn1], g4, hn2, Or.inr ⟨hs, fun hne => ?_⟩⟩
    obtain ⟨b2, q1, _, _, q4⟩ := g5 hne
    exact ⟨lo, hi2, b2, q1, q4⟩

theorem firstMatch_lt (q : List Nat) : ∀ (ts : List KeyValue) (j : Nat),
    firstMatch q ts = some j → j < ts.length
  | [], j, h => by simp [firstMatch] at h
  | t :: ts, j, h => by
    unfold firstMatch at h
    by_cases h1 : strcasecmp t.keyOf q = 0
    · rw [if_pos h1] at h
      simp only [Option.some.injEq] at h
      subst h
      simp
    · rw [if_neg h1] at h
      cases hf : firstMatch q ts with
      | none => rw [hf] at h; simp at h
      | some k =>
        rw [hf] at h
        simp only [Option.map_some', Option.some.injEq] at h
        have := firstMatch_lt q ts k hf
        simp only [List.length_cons]
        omega

/-- `Get(q)` on an interior node is `At(j)` for the first index `j` whose key
`strcasecmp` finds equal to `q`, and the invalid object when there is none. -/
theorem InternalGet_interior (fuel : Nat) (m : Memory) (this : Nat) (ts : List KeyValue)
    (q : List Nat) (hn : InteriorNode m this ts) (hf : ts.length < fuel) :
    InternalGet fuel m this q = (match firstMatch q ts with
      | some j => InternalAt m this j
      | none => some INVALID) := by
  obtain ⟨h1, h2, h3, h4, h5⟩ := hn
  by_cases hne : ts = []
  · subst hne
    unfold InternalGet
    simp [h2, firstMatch]
  have hpos : 0 < ts.length := List.length_pos.2 hne
  have hget : InternalGet fuel m this q = (if m.solidified then
      match (m.cell this).children with
      | none => none
      | some base => some (getSolid m base q (m.cell this).childCount 0)
    else getLinked m q fuel (m.cell this).children) := by
    unfold InternalGet
    rw [if_neg]
    simp only [h1, h2, h3, Bool.not_true, Bool.false_or, Bool.or_false, decide_eq_true_eq]
    omega
  have hat : ∀ j, j < ts.length → InternalAt m this j = (if m.solidified then
      match (m.cell this).children with
      | none => none
      | some base => some (base + j)
    else atLinked m j (m.cell this).children) := by
    intro j hj
    unfold InternalAt
    rw [if_neg]
    simp only [h1, h2, h3, Bool.not_true, Bool.false_or, Bool.or_false, decide_eq_true_eq]
    simp only [Bool.or_eq_true, decide_eq_true_eq]
    omega
  rcases h5 with ⟨hs, lo, hi2, hlo, hl⟩ | ⟨hs, hseg⟩
  · rw [hget, hs, getLinked_chain m lo hi2 q ts _ fuel hl hf]
    cases hfm : firstMatch q ts with
    | none => rfl
    | some j =>
      have := hat j (firstMatch_lt q ts j hfm)
      simp [this, hs]
  · obtain ⟨lo, hi2, base, hb, hsg⟩ := hseg hne
    rw [hget, hs, hb, h2]
    simp only [if_true]
    rw [getSolid_seg m lo hi2 q base ts 0 none (by simpa using hsg)]
    cases hfm : firstMatch q ts with
    | none => rfl
    | some j =>
      have := hat j (firstMatch_lt q ts j hfm)
      simp [this, hs, hb]

/-- The accessors along a path of child indices reach the object of the subtree at that path. -/
theorem atPath_interior (m : Memory) : ∀ (path : List Nat) (this : Nat) (ts : List KeyValue)
    (t : KeyValue), InteriorNode m this ts → subtreeAt ts path = some t →
    ∃ a, atPath m this path = some a ∧ IsValid m a = true ∧ observe m a = t.observed
  | [], _, _, _, _, h => by simp [subtreeAt] at h
  | [i], this, ts, t, hn, h => by
    obtain ⟨a, h1, h2, h3, _⟩ := interior_child m this ts i t hn h
    exact ⟨a, by simp [atPath, h1], h2, h3⟩
  | i :: j :: path, this, ts, t, hn, h => by
    unfold subtreeAt at h
    cases hti : ts[i]? with
    | none => rw [hti] at h; simp at h
    | some t1 =>
      rw [hti] at h
      cases t1 with
      | leaf key value => simp at h
      | node key cs n =>
        simp only at h
        obtain ⟨a, h1, _, _, _, h5⟩ := interior_child m this ts i _ hn hti
        obtain ⟨a2, g1, g2, g3⟩ := atPath_interior m (j :: path) a cs t (h5 key cs n rfl) h
        refine ⟨a2, ?_, g2, g3⟩
        unfold atPath
        rw [h1]
        exact g1

/-! ## `KeyValueRoot::Solidify` on a document -/

theorem drain_cell (m : Memory) (junk : Nat → Cell) (a : Nat) (h : m.pooled a = false) :
    (m.drain junk).cell a = m.cell a := by
  simp [Memory.drain, h]

theorem linkedDocument_interior (m : Memory) (lo hi root : Nat) (ts : List KeyValue)
    (hd : LinkedDocument m lo hi root ts) : InteriorNode m root ts := by
  obtain ⟨h1, h2, h3, h4, _, _, _, h8, h9, h10, h11, h12, h13, h14⟩ := hd
  refine ⟨h8, h9, isValid_of_fields m root h3 h10 h11 ?_, h14, Or.inl ⟨h1, lo, hi, h2, h13⟩⟩
  intro hl
  have := (h12 root hl).1
  omega

/-- `KeyValueRoot::Solidify()` returns on every document in linked form, given
fuel above the nesting, and leaves the document in solidified form. -/
theorem KeyValueRoot_Solidify_document (fuel : Nat) (m : Memory) (lo hi root : Nat)
    (ts : List KeyValue) (junk : Nat → Cell) (hd : LinkedDocument m lo hi root ts)
    (hf : heightList ts < fuel) :
    ∃ m2, KeyValueRoot.Solidify fuel m root junk = some m2 ∧ m2.solidified = true
      ∧ m2.cell INVALID = invalidCell ∧ InteriorNode m2 root ts := by
  obtain ⟨h1, h2, h3, h4, h5, h6, h7, h8, h9, h10, h11, h12, h13, h14⟩ := hd
  have hnp : ∀ a, (a < lo ∨ hi ≤ a) → m.pooled a = false := by
    intro a ha
    cases hp : m.pooled a with
    | false => rfl
    | true =>
      have := h7 a hp
      omega
  have hl : ∀ l, (m.cell root).lastChild = some l → l ≠ root := by
    intro l hl
    have := (h12 l hl).1
    omega
  by_cases hne : ts = []
  · subst hne
    refine ⟨({ m with solidified := true } : Memory).drain junk, ?_, rfl, ?_, ?_⟩
    · unfold KeyValueRoot.Solidify
      simp [h1, h9]
    · rw [drain_cell ({ m with solidified := true } : Memory) junk INVALID (hnp INVALID (Or.inl h2))]
      exact h6
    · have hr : (({ m with solidified := true } : Memory).drain junk).cell root = m.cell root :=
        drain_cell _ junk _ (hnp _ (Or.inl h4))
      refine ⟨by rw [hr]; exact h8, by rw [hr]; exact h9, ?_, trivial,
        Or.inr ⟨rfl, fun h => absurd rfl h⟩⟩
      apply isValid_of_fields _ _ h3 <;> rw [hr]
      · exact h10
      · exact h11
      · exact fun h => hl root h rfl
  · have hroot : root < m.top := by
      cases ts with
      | nil => exact absurd rfl hne
      | cons t ts =>
        obtain ⟨a, _, hla, _⟩ := h13
        have := linked_fields m lo hi a t hla
        omega
    obtain ⟨m2, hm2, p1, p2, p3, p4, p5, p6⟩ := Solidify_spec lo hi fuel ts
      ({ m with solidified := true } : Memory) root hf hne h14
      (linkedChain_frame m ({ m with solidified := true } : Memory) lo hi (fun _ _ _ => rfl) ts _ h13) h9 (Or.inl h4) hroot h5
    have hpos : 0 < ts.length := List.length_pos.2 hne
    simp only at p1 p2 p3 p4 p5 p6
    have hnp2 : ∀ a, (a < lo ∨ hi ≤ a) → m2.pooled a = false := by
      intro a ha
      rw [p5]
      exact hnp a ha
    refine ⟨m2.drain junk, ?_, p6, ?_, ?_⟩
    · unfold KeyValueRoot.Solidify
      simp [h1, h9, hpos, hm2]
    · rw [drain_cell _ junk INVALID (hnp2 INVALID (Or.inl h2)), p4 INVALID (by unfold INVALID; omega) h3.symm]
      exact h6
    · have hr : (m2.drain junk).cell root = m2.cell root :=
        drain_cell _ junk _ (hnp2 _ (Or.inl h4))
      refine ⟨by rw [hr, p2]; exact h8, by rw [hr, p2]; exact h9, ?_, h14,
        Or.inr ⟨p6, fun _ => ⟨m.top + ts.length, m2.top, m.top, by rw [hr, p2], ?_⟩⟩⟩
      · apply isValid_of_fields _ _ h3 <;> rw [hr, p2]
        · exact h10
        · simp only [ne_eq, Option.some.injEq]
          omega
        · exact fun h => hl root h rfl
      · exact solidSeg_frame m2 _ (m.top + ts.length) m2.top
          (fun a ha _ => drain_cell _ junk _ (hnp2 _ (Or.inr (by omega)))) ts m.top none
          (fun a ha _ => drain_cell _ junk _ (hnp2 _ (Or.inr (by omega)))) p3

theorem sampleMemory_linked : LinkedDocument sampleMemory 2 5 1 sampleTrees := by
  simp [LinkedDocument, sampleMemory, sampleTrees, LinkedChain, Linked, INVALID, CountedList,
    KeyValue.Counted]

/-! ## Lookup by key -/

theorem firstMatch_none (q : List Nat) (ts : List KeyValue)
    (h : ∀ t ∈ ts, ¬ EqIgnoreCase t.keyOf q) : firstMatch q ts = none := by
  have hs := firstMatch_spec q ts
  cases hfm : firstMatch q ts with
  | none => rfl
  | some j =>
    rw [hfm] at hs
    obtain ⟨t, ht, heq, _⟩ := hs
    exact absurd heq (h t (List.getElem?_mem ht))

theorem firstMatch_first (q : List Nat) (ts : List KeyValue) (j : Nat) (t : KeyValue)
    (ht : ts[j]? = some t) (heq : EqIgnoreCase t.keyOf q)
    (hfirst : ∀ i t2, i < j → ts[i]? = some t2 → ¬ EqIgnoreCase t2.keyOf q) :
    firstMatch q ts = some j := by
  have hs := firstMatch_spec q ts
  cases hfm : firstMatch q ts with
  | none =>
    rw [hfm] at hs
    exact absurd heq (hs t (List.getElem?_mem ht))
  | some k =>
    rw [hfm] at hs
    obtain ⟨t2, ht2, heq2, hfirst2⟩ := hs
    rcases Nat.lt_trichotomy k j with hlt | heq3 | hgt
    · exact absurd heq2 (hfirst k t2 hlt ht2)
    · rw [heq3]
    · exact absurd heq (hfirst2 j t hgt ht)

/-- C5. Lookup by key is a case-insensitive first match.  On every interior node, in
linked or in solidified form, whose children are the trees `ts`, and for every key string
`q`: when `j` is the first index whose key equals `q` with ASCII letter case ignored,
`Get(q)` returns the object that `At(j)` returns, a valid object with the key, tag, count
and value of the `j`-th child; when no child has such a key, `Get(q)` returns the invalid
object; and `Get` returns the same object for two strings that differ in letter case
only. -/
theorem C5_get_case_insensitive_first_match (fuel : Nat) (m : Memory) (this : Nat)
    (ts : List KeyValue) (q : List Nat) (hn : InteriorNode m this ts) (hf : ts.length < fuel) :
    (∀ j t, ts[j]? = some t → EqIgnoreCase t.keyOf q →
        (∀ i t2, i < j → ts[i]? = some t2 → ¬ EqIgnoreCase t2.keyOf q) →
        ∃ a, InternalGet fuel m this q = some a ∧ InternalAt m this j = some a
          ∧ IsValid m a = true ∧ observe m a = t.observed)
    ∧ ((∀ t ∈ ts, ¬ EqIgnoreCase t.keyOf q) → InternalGet fuel m this q = some INVALID)
    ∧ (∀ q2, EqIgnoreCase q q2 → InternalGet fuel m this q2 = InternalGet fuel m this q) := by
  refine ⟨fun j t ht heq hfirst => ?_, fun h => ?_, fun q2 h => ?_⟩
  · obtain ⟨a, h1, h2, h3, _⟩ := interior_child m this ts j t hn ht
    refine ⟨a, ?_, h1, h2, h3⟩
    rw [InternalGet_interior fuel m this ts q hn hf, firstMatch_first q ts j t ht heq hfirst]
    exact h1
  · rw [InternalGet_interior fuel m this ts q hn hf, firstMatch_none q ts h]
  · rw [InternalGet_interior fuel m this ts q hn hf, InternalGet_interior fuel m this ts q2 hn hf,
      firstMatch_congr q q2 h ts]

/-- C6. Indexed access agrees before and after `Solidify()`.  On every document in linked
form, `KeyValueRoot::Solidify()` returns, and for every path of child indices that stays
in range (`kv[i][j]...`, each index below the child count of the node it is applied to),
`At` along the path returns, before and after `Solidify()`, a valid object with the key,
the leaf or interior tag, the child count and the value of the subtree at that path, the
children of the document being counted in chain order. -/
theorem C6_at_agrees_across_solidify (fuel : Nat) (m : Memory) (lo hi root : Nat)
    (ts : List KeyValue) (junk : Nat → Cell) (hd : LinkedDocument m lo hi root ts)
    (hf : heightList ts < fuel) :
    ∃ m2, KeyValueRoot.Solidify fuel m root junk = some m2 ∧ m2.solidified = true
      ∧ ∀ path t, subtreeAt ts path = some t →
        ∃ a a2, atPath m root path = some a ∧ atPath m2 root path = some a2
          ∧ IsValid m a = true ∧ IsValid m2 a2 = true
          ∧ observe m a = t.observed ∧ observe m2 a2 = t.observed := by
  obtain ⟨m2, h1, h2, _, h4⟩ := KeyValueRoot_Solidify_document fuel m lo hi root ts junk hd hf
  refine ⟨m2, h1, h2, fun path t ht => ?_⟩
  obtain ⟨a, g1, g2, g3⟩ := atPath_interior m path root ts t
    (linkedDocument_interior m lo hi root ts hd) ht
  obtain ⟨a2, k1, k2, k3⟩ := atPath_interior m2 path root ts t h4 ht
  exact ⟨a, a2, g1, k1, g2, k2, g3, k3⟩

/-- C7. Failed lookups return the invalid object and never raise.  In every memory that
holds the invalid object as its constructor builds it: `IsValid()` is false on it,
`ChildCount()` is 0 and `Value()` is the empty slice; `Get(q)` and `At(i)` return it when
the receiver is the invalid object itself, is a leaf, or has zero children; `At(i)`
returns it when `i` is not below the child count; and `Get(q)` returns it on an interior
node none of whose children has a key equal to `q` with letter case ignored. -/
theorem C7_failed_lookups_return_sentinel (fuel : Nat) (m : Memory) (this : Nat) (q : List Nat)
    (i : Nat) (h0 : m.cell INVALID = invalidCell) :
    IsValid m INVALID = false ∧ ChildCount m INVALID = 0 ∧ Value m INVALID = []
    ∧ InternalGet fuel m INVALID q = some INVALID ∧ InternalAt m INVALID i = some INVALID
    ∧ (HasChildren m this = false →
        InternalGet fuel m this q = some INVALID ∧ InternalAt m this i = some INVALID)
    ∧ (ChildCount m this = 0 →
        InternalGet fuel m this q = some INVALID ∧ InternalAt m this i = some INVALID)
    ∧ (ChildCount m this ≤ i → InternalAt m this i = some INVALID)
    ∧ (∀ ts, InteriorNode m this ts → ts.length < fuel →
        (∀ t ∈ ts, ¬ EqIgnoreCase t.keyOf q) → InternalGet fuel m this q = some INVALID) := by
  refine ⟨by simp [IsValid], by simp [ChildCount, h0, invalidCell],
    by simp [Value, h0, invalidCell], by simp [InternalGet, h0, invalidCell],
    by simp [InternalAt, h0, invalidCell], fun h => ?_, fun h => ?_, fun h => ?_,
    fun ts hn hf h => ?_⟩
  · simp only [HasChildren] at h
    simp [InternalGet, InternalAt, h]
  · simp only [ChildCount] at h
    cases hn : (m.cell this).isNode with
    | false => simp [InternalGet, InternalAt, hn]
    | true =>
      rw [hn] at h
      simp only [if_true] at h
      simp [InternalGet, InternalAt, h]
  · simp only [ChildCount] at h
    cases hn : (m.cell this).isNode with
    | false => simp [InternalAt, hn]
    | true =>
      rw [hn] at h
      simp only [if_true] at h
      unfold InternalAt
      rw [if_pos]
      simp only [Bool.or_eq_true, decide_eq_true_eq]
      left; right
      exact h
  · rw [InternalGet_interior fuel m this ts q hn hf, firstMatch_none q ts h]

theorem sampleMemory_interior : InteriorNode sampleMemory 1 sampleTrees :=
  linkedDocument_interior sampleMemory 2 5 1 sampleTrees sampleMemory_linked

theorem sampleTrees_first (i : Nat) (t2 : KeyValue) (hi : i < 1) (h : sampleTrees[i]? = some t2) :
    ¬ EqIgnoreCase t2.keyOf [98] := by
  have : i = 0 := by omega
  subst this
  simp only [sampleTrees, List.getElem?_cons_zero, Option.some.injEq] at h
  subst h
  simp [EqIgnoreCase, KeyValue.keyOf, cstr, tolower]

/-- C5 on the document `A 1 B { C 2 }` in linked form: `Get("b")` on the root returns
the object of `B`, which is what `At(1)` returns, `Get("c")` returns the invalid object,
and `Get("B")` returns what `Get("b")` returns. -/
theorem C5_get_case_insensitive_first_match_witness :
    (∃ a, InternalGet 3 sampleMemory 1 [98] = some a ∧ InternalAt sampleMemory 1 1 = some a
        ∧ IsValid sampleMemory a = true ∧ observe sampleMemory a = ([66], true, 1, []))
    ∧ InternalGet 3 sampleMemory 1 [99] = some INVALID
    ∧ InternalGet 3 sampleMemory 1 [66] = InternalGet 3 sampleMemory 1 [98] :=
  ⟨(C5_get_case_insensitive_first_match 3 sampleMemory 1 sampleTrees [98] sampleMemory_interior
      (by decide)).1 1 (KeyValue.node [66] [KeyValue.leaf [67] [50]] 1) rfl
      (by simp [EqIgnoreCase, KeyValue.keyOf, cstr, tolower]) sampleTrees_first,
    (C5_get_case_insensitive_first_match 3 sampleMemory 1 sampleTrees [99] sampleMemory_interior
      (by decide)).2.1 (by simp [sampleTrees, EqIgnoreCase, KeyValue.keyOf, cstr, tolower]),
    (C5_get_case_insensitive_first_match 3 sampleMemory 1 sampleTrees [98] sampleMemory_interior
      (by decide)).2.2 [66] (by simp [EqIgnoreCase, cstr, tolower])⟩

/-- C6 on the document `A 1 B { C 2 }`: `Solidify()` returns, and `kv[1][0]` is the
pair `C 2` before and after it. -/
theorem C6_at_agrees_across_solidify_witness :
    ∃ m2, KeyValueRoot.Solidify 3 sampleMemory 1 (fun _ => invalidCell) = some m2
      ∧ m2.solidified = true
      ∧ ∃ a a2, atPath sampleMemory 1 [1, 0] = some a ∧ atPath m2 1 [1, 0] = some a2
          ∧ IsValid sampleMemory a = true ∧ IsValid m2 a2 = true
          ∧ observe sampleMemory a = ([67], false, 0, [50])
          ∧ observe m2 a2 = ([67], false, 0, [50]) := by
  obtain ⟨m2, h1, h2, h3⟩ := C6_at_agrees_across_solidify 3 sampleMemory 2 5 1 sampleTrees
    (fun _ => invalidCell) sampleMemory_linked (by decide)
  exact ⟨m2, h1, h2, h3 [1, 0] (KeyValue.leaf [67] [50]) rfl⟩

/-- C7 on the memory of the document `A 1 B { C 2 }`: lookups on the invalid object, on
the leaf `A`, with the index 7 on the root, and with the key `Z` on the root. -/
theorem C7_failed_lookups_return_sentinel_witness :
    IsValid sampleMemory INVALID = false ∧ ChildCount sampleMemory INVALID = 0
    ∧ Value sampleMemory INVALID = []
    ∧ InternalGet 3 sampleMemory INVALID [90] = some INVALID
    ∧ InternalAt sampleMemory INVALID 7 = some INVALID
    ∧ (InternalGet 3 sampleMemory 2 [90] = some INVALID
        ∧ InternalAt sampleMemory 2 7 = some INVALID)
    ∧ InternalAt sampleMemory 1 7 = some INVALID
    ∧ InternalGet 3 sampleMemory 1 [90] = some INVALID :=
  have h := C7_failed_lookups_return_sentinel 3 sampleMemory 2 [90] 7 rfl
  have g := C7_failed_lookups_return_sentinel 3 sampleMemory 1 [90] 7 rfl
  ⟨h.1, h.2.1, h.2.2.1, h.2.2.2.1, h.2.2.2.2.1, h.2.2.2.2.2.1 rfl,
    g.2.2.2.2.2.2.2.1 (by decide),
    g.2.2.2.2.2.2.2.2 sampleTrees sampleMemory_interior (by decide)
      (by simp [sampleTrees, EqIgnoreCase, KeyValue.keyOf, cstr, tolower])⟩

/-! ## C11: a key without a value -/

/-- The parser loop at a key that only whitespace and comments follow up to the end of
the input. -/
theorem Parse_dangling_key (f : Nat) (pre : List Nat) (k : Token) (e rest : List Nat)
    (isRoot : Bool) (cs : List KeyValue) (lk : Bool) (n b : Nat)
    (hpre : IsGap pre) (hk : k.Valid (e ++ rest)) (he : IsEnding e) (hr : peek rest = 0) :
    KeyValue.Parse (f + 1) (pre ++ (k.render ++ (e ++ rest))) isRoot cs lk n b
      = some ⟨KeyValueErrorCode.INCOMPLETE_PAIR, rest, cs, n, b + (k.text.length + 1)⟩ := by
  rw [KeyValue.Parse, SkipWhitespace_gap _ _ hpre, SkipWhitespace_token k _ hk,
    parseKey_token k _ isRoot hk]
  simp only
  rw [SkipWhitespace_ending e rest he hr]
  have h1 : peek rest ≠ STRING_CONTAINER := by rw [hr]; decide
  have h2 : peek rest ≠ BLOCK_BEGIN := by rw [hr]; decide
  rw [if_neg h1, if_neg h2, if_pos hr]

/-- C11. Dangling key: when, behind complete pairs at any nesting depth, a complete key
token (quoted or bare) is followed only by whitespace and comments up to the end of the
input, `KeyValueRoot::Parse` returns `INCOMPLETE_PAIR`, at the top level (`frames = []`)
and inside open blocks alike; the iteration of the parser loop that reads the key returns
`INCOMPLETE_PAIR` whether the call is the one of the root or the one of a block. -/
theorem C11_dangling_key (junk : Nat → Nat) (frames : List Frame) (items : List Item)
    (pre : List Nat) (k : Token) (e rest : List Nat)
    (hf : ValidFrames frames (renderItems items ++ (pre ++ (k.render ++ (e ++ rest)))))
    (hi : ValidItems items (pre ++ (k.render ++ (e ++ rest))))
    (hpre : IsGap pre) (hk : k.Valid (e ++ rest)) (he : IsEnding e) (hr : peek rest = 0) :
    parseCode junk (renderFrames frames (renderItems items ++ (pre ++ (k.render ++ (e ++ rest)))))
        = some KeyValueErrorCode.INCOMPLETE_PAIR
    ∧ ∀ (f : Nat) (isRoot : Bool) (cs : List KeyValue) (lk : Bool) (n b : Nat),
        KeyValue.Parse (f + 1) (pre ++ (k.render ++ (e ++ rest))) isRoot cs lk n b
          = some ⟨KeyValueErrorCode.INCOMPLETE_PAIR, rest, cs, n, b + (k.text.length + 1)⟩ := by
  refine ⟨?_, fun f isRoot cs lk n b =>
    Parse_dangling_key f pre k e rest isRoot cs lk n b hpre hk he hr⟩
  apply parseCode_error junk _ _ (by decide)
  exact Parse_context_error _ (by decide) frames items _ true hf hi
    (fun cs lk n b => ⟨1, _, Parse_dangling_key 0 pre k e rest _ cs lk n b hpre hk he hr, rfl⟩)
    [] false 0 0

/-- C11 on `B { C`, a bare key inside an open block, and on `"A" ` followed by a comment
at the top level. -/
theorem C11_dangling_key_witness :
    parseCode (fun _ => 0) [66, 32, 123, 32, 67] = some KeyValueErrorCode.INCOMPLETE_PAIR
    ∧ parseCode (fun _ => 0) [34, 65, 34, 32, 47, 47, 120]
        = some KeyValueErrorCode.INCOMPLETE_PAIR :=
  ⟨(C11_dangling_key (fun _ => 0) [⟨[], [], ⟨false, [66]⟩, [32]⟩] [] [32] ⟨false, [67]⟩ [] []
      ⟨trivial, IsGap.nil,
        by simp [Token.Valid, isBareByte, containsComment, endsBare, peek], isGap_space, trivial⟩
      trivial isGap_space
      (by simp [Token.Valid, isBareByte, containsComment, endsBare, peek])
      (IsEnding.gap [] IsGap.nil) rfl).1,
    (C11_dangling_key (fun _ => 0) [] [] [] ⟨true, [65]⟩ [32, 47, 47, 120] []
      trivial trivial IsGap.nil (by simp [Token.Valid])
      (IsEnding.comment [32] [120] isGap_space (by simp)) rfl).1⟩

/-! ## C15: serialization into a buffer of limited capacity -/

theorem overwrite_get_in (buf : List Nat) (dest : Nat) (data : List Nat) (i : Nat)
    (h : dest ≤ buf.length) (hi : i < data.length) :
    (overwrite buf dest data)[dest + i]? = data[i]? := by
  have h1 : (List.take dest buf).length = dest := by
    rw [List.length_take]; omega
  simp only [overwrite, List.append_assoc]
  rw [List.getElem?_append_right (by omega), h1, Nat.add_sub_cancel_left,
    List.getElem?_append_left hi]

theorem overwrite_get_out (buf : List Nat) (dest : Nat) (data : List Nat) (i : Nat)
    (h : dest + data.length ≤ buf.length) (hi : i < dest ∨ dest + data.length ≤ i) :
    (overwrite buf dest data)[i]? = buf[i]? := by
  have h1 : (List.take dest buf).length = dest := by
    rw [List.length_take]; omega
  simp only [overwrite, List.append_assoc]
  rcases hi with hi | hi
  · rw [List.getElem?_append_left (by omega), List.getElem?_take_of_lt hi]
  · rw [List.getElem?_append_right (by omega), h1,
      List.getElem?_append_right (by omega), List.getElem?_drop]
    congr 1
    omega

/-- `ToString(str, maxLength)` writes the reference text, cut at the capacity, and after
it a 0 byte when the capacity is not used up. -/
theorem ToStringBuffer_spec (children : List KeyValue) (buf : List Nat) (off c : Nat)
    (h : off + c ≤ buf.length) :
    ToStringBuffer children ⟨buf, off, c⟩
      = some (overwrite buf off
          (if (referenceText children 0).length < c then referenceText children 0 ++ [0]
            else (referenceText children 0).take c)) := by
  have hin : (⟨buf, off, c⟩ : Writer).InBounds := h
  unfold ToStringBuffer
  rw [ToString_emit children _ 0 hin]
  simp only [Writer.emit]
  by_cases hlt : (referenceText children 0).length < c
  · have hmin : min c (referenceText children 0).length = (referenceText children 0).length :=
      Nat.min_eq_right (by omega)
    rw [hmin, if_pos (by omega), if_pos hlt, List.take_of_length_le (by omega),
      store_eq _ _ _ (by rw [overwrite_length _ _ _ (by omega)]; omega),
      overwrite_overwrite _ _ _ _ (by omega)]
  · have hmin : min c (referenceText children 0).length = c := Nat.min_eq_left (by omega)
    rw [hmin, if_neg (by omega), if_neg hlt]

/-- C15. Capacity-bounded serialization.  With `R` the reference text of the chain of a
node at depth 0, `ToString(buffer, c)` on a buffer that holds `c` bytes from the offset
`off` on returns, and the buffer afterwards is the buffer before with, from `off` on, the
first `c` bytes of `R` when `c ≤ |R|`, and all of `R` and a 0 byte when `|R| < c`: the
first `min(c, |R|)` bytes are those of `R`, a 0 byte stands at index `|R|` exactly when
`|R| < c`, and every byte before the offset, at an index `≥ c` behind it, or behind the 0
byte is what it was. -/
theorem C15_capacity_bounded_serialization (children : List KeyValue) (buf : List Nat)
    (off c : Nat) (h : off + c ≤ buf.length) :
    ∃ out, ToStringBuffer children ⟨buf, off, c⟩ = some out
      ∧ out = overwrite buf off
          (if (referenceText children 0).length < c then referenceText children 0 ++ [0]
            else (referenceText children 0).take c)
      ∧ out.length = buf.length
      ∧ (∀ i, i < min c (referenceText children 0).length →
          out[off + i]? = (referenceText children 0)[i]?)
      ∧ ((referenceText children 0).length < c →
          out[off + (referenceText children 0).length]? = some 0)
      ∧ (c ≤ (referenceText children 0).length → ∀ i, off + c ≤ i → out[i]? = buf[i]?)
      ∧ (∀ i, (i < off ∨ off + c ≤ i ∨ off + (referenceText children 0).length < i) →
          out[i]? = buf[i]?) := by
  refine ⟨_, ToStringBuffer_spec children buf off c h, rfl, ?_, ?_, ?_, ?_, ?_⟩
  · apply overwrite_length
    split
    · simp only [List.length_append, List.length_singleton]; omega
    · simp only [List.length_take]; omega
  · intro i hi
    by_cases hlt : (referenceText children 0).length < c
    · rw [if_pos hlt, overwrite_get_in _ _ _ _ (by omega)
        (by simp only [List.length_append, List.length_singleton]; omega),
        List.getElem?_append_left (by omega)]
    · rw [if_neg hlt, overwrite_get_in _ _ _ _ (by omega)
        (by simp only [List.length_take]; omega), List.getElem?_take_of_lt (by omega)]
  · intro hlt
    rw [if_pos hlt, overwrite_get_in _ _ _ _ (by omega)
      (by simp only [List.length_append, List.length_singleton]; omega)]
    simp
  · intro hle i hi
    rw [if_neg (by omega)]
    exact overwrite_get_out _ _ _ _ (by simp only [List.length_take]; omega)
      (Or.inr (by simp only [List.length_take]; omega))
  · intro i hi
    by_cases hlt : (referenceText children 0).length < c
    · rw [if_pos hlt]
      apply overwrite_get_out _ _ _ _
        (by simp only [List.length_append, List.length_singleton]; omega)
      simp only [List.length_append, List.length_singleton]
      omega
    · rw [if_neg hlt]
      apply overwrite_get_out _ _ _ _ (by simp only [List.length_take]; omega)
      simp only [List.length_take]
      omega

/-- C15 on the pair `"A" "1"` and a buffer of 12 bytes: with capacity 5 the first five
bytes of the text are written and nothing else, with capacity 10 the whole text and a
0 byte. -/
theorem C15_capacity_bounded_serialization_witness :
    ToStringBuffer [KeyValue.leaf [65] [49]] ⟨[7, 7, 7, 7, 7, 7, 7, 7, 7, 7, 7, 7], 0, 5⟩
        = some [34, 65, 34, 32, 34, 7, 7, 7, 7, 7, 7, 7]
    ∧ ToStringBuffer [KeyValue.leaf [65] [49]] ⟨[7, 7, 7, 7, 7, 7, 7, 7, 7, 7, 7, 7], 0, 10⟩
        = some [34, 65, 34, 32, 34, 49, 34, 10, 0, 7, 7, 7] := by
  obtain ⟨out, h1, h2, _⟩ := C15_capacity_bounded_serialization [KeyValue.leaf [65] [49]]
    [7, 7, 7, 7, 7, 7, 7, 7, 7, 7, 7, 7] 0 5 (by decide)
  obtain ⟨out2, g1, g2, _⟩ := C15_capacity_bounded_serialization [KeyValue.leaf [65] [49]]
    [7, 7, 7, 7, 7, 7, 7, 7, 7, 7, 7, 7] 0 10 (by decide)
  subst h2 g2
  exact ⟨h1.trans (by decide), g1.trans (by decide)⟩

/-! ## C16: the length pass against the fill pass -/

/-- C16 at the tree of `A { B 1 }`: `ToStringLength(0)` is 22, while `ToString` with a
capacity of 64 writes 21 bytes (the cursor ends at offset 21 with 43 bytes of capacity
left); and for the chain `B 1` at depth 1 `ToStringLength(1)` is 13, while the text
written has 12 bytes.  Each indentation is counted with `sizeof(TAB_STYLE)`, 5 bytes,
and written with 4. -/
theorem C16_length_pass_counts_tab_terminator :
    ToStringLength [KeyValue.node [65] [KeyValue.leaf [66] [49]] 1] 0 = 22
    ∧ ToString [KeyValue.node [65] [KeyValue.leaf [66] [49]] 1] ⟨List.replicate 64 0, 0, 64⟩ 0
        = some ⟨[34, 65, 34, 32, 10, 123, 10, 32, 32, 32, 32, 34, 66, 34, 32, 34, 49, 34, 10,
            125, 10] ++ List.replicate 43 0, 21, 43⟩
    ∧ ToStringLength [KeyValue.leaf [66] [49]] 1 = 13
    ∧ ToString [KeyValue.leaf [66] [49]] ⟨List.replicate 64 0, 0, 64⟩ 1
        = some ⟨[32, 32, 32, 32, 34, 66, 34, 32, 34, 49, 34, 10] ++ List.replicate 52 0,
            12, 52⟩ := by
  refine ⟨by decide, ?_, by decide, ?_⟩
  · rw [ToString_emit _ _ _ (by simp [Writer.InBounds])]
    rfl
  · rw [ToString_emit _ _ _ (by simp [Writer.InBounds])]
    rfl

/-! ## C17: parsing the serialized output -/

/-- C17, as the code has it.  For every tree whose keys and values hold no quote byte and
no NUL byte (trees built or extended by `Add` and `AddNode` with such strings included;
the counters are the lengths of the chains), `ToString()` returns a buffer, and parsing
the NUL terminated string it holds into a fresh document succeeds and builds the same
chain: the same keys, values, nesting and child order. -/
theorem C17_serialized_output_parses_back (kvs : List KeyValue) (junk2 junk3 : Nat → Nat)
    (hw : WellFormedList kvs) :
    ∃ buf root2, ToStringOwned kvs junk2 = some buf
      ∧ KeyValueRoot.new.Parse junk3 (some (cstr buf)) = some (KeyValueErrorCode.NONE, root2)
      ∧ root2.children = kvs ∧ root2.childCount = kvs.length := by
  obtain ⟨buf, hb1, hb2⟩ := roundTrip_wellFormed kvs junk2 junk3 hw
  exact ⟨buf, parsed kvs junk3, hb1, hb2, rfl, rfl⟩

/-- C17 on the tree of `A 1 B { C 2 }`. -/
theorem C17_serialized_output_parses_back_witness :
    ∃ buf root2, ToStringOwned sampleTrees (fun _ => 0) = some buf
      ∧ KeyValueRoot.new.Parse (fun _ => 0) (some (cstr buf))
          = some (KeyValueErrorCode.NONE, root2)
      ∧ root2.children = sampleTrees ∧ root2.childCount = sampleTrees.length :=
  C17_serialized_output_parses_back sampleTrees (fun _ => 0) (fun _ => 0)
    (by simp [sampleTrees, WellFormedList, KeyValue.WellFormed, Quotable])

/-- The claim C17 fails for a key that holds a quote: for the tree `Add("\"", "")` builds
on an empty document, `ToString()` returns the text `""" ""` and a newline, and parsing
it fails with `INCOMPLETE_STRING`. -/
theorem C17_quote_in_key_fails_to_parse_back :
    ∃ buf, ToStringOwned [KeyValue.leaf [34] []] (fun _ => 0) = some buf
      ∧ cstr buf = [34, 34, 34, 32, 34, 34, 10]
      ∧ KeyValueRoot.new.Parse (fun _ => 0) (some (cstr buf))
          = some (KeyValueErrorCode.INCOMPLETE_STRING,
              ⟨[KeyValue.leaf [] [32]], 1, none, 3, false⟩) := by
  obtain ⟨buf, h1, h2⟩ := ToStringOwned_cstr [KeyValue.leaf [34] []] (fun _ => 0)
    (by simp [NulFreeList, KeyValue.NulFree])
  refine ⟨buf, h1, h2.trans (by decide), ?_⟩
  rw [h2]
  rfl

/-! ## C18: the consolidated string buffer -/

theorem overwrite_full (buf data : List Nat) (h : data.length = buf.length) :
    overwrite buf 0 data = data := by
  simp [overwrite, h]

theorem slice_append (a b c : List Nat) : slice (a ++ b ++ c) a.length b.length = b := by
  simp [slice]

theorem getElem_after (a x : List Nat) (c n : Nat) (h : n = a.length) :
    (a ++ c :: x)[n]? = some c := by
  subst h
  rw [List.getElem?_append_right (Nat.le_refl _), Nat.sub_self, List.getElem?_cons_zero]

mutual
theorem storedAt_stringData : ∀ (kv : KeyValue) (a b : List Nat),
    kv.StoredAt (a ++ kv.stringData ++ b) a.length
  | KeyValue.leaf key value, a, b => by
    simp only [KeyValue.StoredAt, KeyValue.stringData]
    refine ⟨?_, ?_, ?_, ?_⟩
    · have := slice_append a key (0 :: (value ++ [0]) ++ b)
      simpa using this
    · have : a ++ (key ++ 0 :: (value ++ [0])) ++ b = (a ++ key) ++ 0 :: (value ++ [0] ++ b) := by
        simp
      rw [this]
      exact getElem_after _ _ _ _ (by simp)
    · have := slice_append (a ++ key ++ [0]) value ([0] ++ b)
      simpa [Nat.add_assoc] using this
    · have : a ++ (key ++ 0 :: (value ++ [0])) ++ b = (a ++ key ++ [0] ++ value) ++ 0 :: b := by
        simp
      rw [this]
      exact getElem_after _ _ _ _ (by simp only [List.length_append, List.length_singleton]; omega)
  | KeyValue.node key children n, a, b => by
    simp only [KeyValue.StoredAt, KeyValue.stringData]
    refine ⟨?_, ?_, ?_⟩
    · have := slice_append a key (0 :: stringDataList children ++ b)
      simpa using this
    · have : a ++ (key ++ 0 :: stringDataList children) ++ b
          = (a ++ key) ++ 0 :: (stringDataList children ++ b) := by
        simp
      rw [this]
      exact getElem_after _ _ _ _ (by simp)
    · have := storedAtList_stringData children (a ++ key ++ [0]) b
      simpa [Nat.add_assoc] using this
theorem storedAtList_stringData : ∀ (kvs : List KeyValue) (a b : List Nat),
    StoredAtList kvs (a ++ stringDataList kvs ++ b) a.length
  | [], _, _ => trivial
  | kv :: rest, a, b => by
    simp only [StoredAtList, stringDataList]
    refine ⟨?_, ?_⟩
    · have := storedAt_stringData kv a (stringDataList rest ++ b)
      simpa using this
    · have := storedAtList_stringData rest (a ++ kv.stringData) b
      simpa [stringData_length] using this
end

/-- C18. Consolidation fills exactly the tallied buffer and preserves content.  After a
successful parse of a fresh document: `bufferSize` is the sum over all nodes of the key
length plus 1 and over all leaves of the value length plus 1; `BuildData`, run on the chain
the parser built and a fresh buffer of `bufferSize` bytes, returns, has advanced
`destBuffer` by exactly `bufferSize`, and has written every byte of the buffer, namely,
in document order, each key and a 0 byte and for a leaf its value and a 0 byte; the chain
is the one the parser built (every slice has the length and the bytes it had in the
input); and every key and value lies in the owned buffer, at its place in that order,
with a 0 byte right behind it. -/
theorem C18_consolidated_buffer (junk : Nat → Nat) (str : List Nat) (root : KeyValueRoot)
    (h : KeyValueRoot.new.Parse junk (some str) = some (KeyValueErrorCode.NONE, root)) :
    root.bufferSize = stringBytesList root.children
    ∧ (stringDataList root.children).length = root.bufferSize
    ∧ (∃ res, KeyValue.Parse (str.length + 1) str true [] false 0 0 = some res
        ∧ res.error = KeyValueErrorCode.NONE ∧ res.bufferSize = root.bufferSize
        ∧ res.children = root.children
        ∧ BuildData res.childCount res.children (alloc junk res.bufferSize) 0
            = some (root.children, stringDataList root.children, root.bufferSize))
    ∧ (root.bufferSize > 0 → root.stringBuffer = some (stringDataList root.children))
    ∧ (∀ buf, root.stringBuffer = some buf → StoredAtList root.children buf 0) := by
  obtain ⟨items, e, rest, hstr, hv, he, hr, hroot⟩ := KeyValueRoot_Parse_complete junk str root h
  subst hroot
  subst hstr
  have hlen := stringDataList_length (treeItems items)
  have hfull : overwrite (alloc junk (stringBytesList (treeItems items))) 0
      (stringDataList (treeItems items)) = stringDataList (treeItems items) :=
    overwrite_full _ _ (by rw [hlen, alloc_length])
  have hstored : StoredAtList (treeItems items) (stringDataList (treeItems items)) 0 := by
    have := storedAtList_stringData (treeItems items) [] []
    simpa using this
  refine ⟨rfl, hlen, ⟨_, Parse_document items e rest hv he hr, rfl, rfl, rfl, ?_⟩, ?_, ?_⟩
  · have hb := BuildData_ok (treeItems items) (alloc junk (stringBytesList (treeItems items))) 0
      (wellFormedList_counted _ (validItems_wellFormed items _ hv))
      (by rw [alloc_length]; omega)
    rw [treeItems_length, hfull, Nat.zero_add] at hb
    exact hb
  · intro hpos
    simp only [parsed] at hpos ⊢
    rw [if_pos hpos, hfull]
  · intro buf hbuf
    simp only [parsed] at hbuf
    by_cases hpos : stringBytesList (treeItems items) > 0
    · rw [if_pos hpos, hfull] at hbuf
      simp only [Option.some.injEq] at hbuf
      subst hbuf
      exact hstored
    · rw [if_neg hpos] at hbuf
      exact absurd hbuf (by simp)

/-- C18 on the input `A 1 B { C 2 }`: the buffer of 10 bytes holds `A`, `1`, `B`, `C` and
`2`, each with its 0 byte. -/
theorem C18_consolidated_buffer_witness :
    KeyValueRoot.new.Parse (fun _ => 170)
        (some [65, 32, 49, 32, 66, 32, 123, 32, 67, 32, 50, 32, 125])
      = some (KeyValueErrorCode.NONE,
          ⟨sampleTrees, 2, some [65, 0, 49, 0, 66, 0, 67, 0, 50, 0], 10, false⟩)
    ∧ (10 > 0 → some [65, 0, 49, 0, 66, 0, 67, 0, 50, 0] = some (stringDataList sampleTrees))
    ∧ StoredAtList sampleTrees [65, 0, 49, 0, 66, 0, 67, 0, 50, 0] 0 :=
  have h : KeyValueRoot.new.Parse (fun _ => 170)
        (some [65, 32, 49, 32, 66, 32, 123, 32, 67, 32, 50, 32, 125])
      = some (KeyValueErrorCode.NONE,
          ⟨sampleTrees, 2, some [65, 0, 49, 0, 66, 0, 67, 0, 50, 0], 10, false⟩) := rfl
  have g := C18_consolidated_buffer (fun _ => 170)
    [65, 32, 49, 32, 66, 32, 123, 32, 67, 32, 50, 32, 125] _ h
  ⟨h, g.2.2.2.1, g.2.2.2.2 _ rfl⟩

/-! ## C20: the pool -/

theorem allSlots_append (l1 l2 : List PoolChunk) :
    allSlots (l1 ++ l2) = allSlots l1 ++ allSlots l2 := by
  induction l1 with
  | nil => rfl
  | cons c l1 ih => simp [allSlots, ih]

theorem issued_snoc (pos : Nat) (init : List PoolChunk) (cur : PoolChunk) :
    (⟨pos, init ++ [cur]⟩ : KeyValuePool).issued = allSlots init ++ cur.slots pos := by
  simp [KeyValuePool.issued]

theorem slots_succ (c : PoolChunk) (n : Nat) : c.slots (n + 1) = c.slots n ++ [c.pool + n] := by
  simp [PoolChunk.slots, List.range'_concat]

theorem mem_slots (c : PoolChunk) (n a : Nat) : a ∈ c.slots n ↔ c.pool ≤ a ∧ a < c.pool + n := by
  simp [PoolChunk.slots, List.mem_range']
  constructor
  · rintro ⟨i, hi, rfl⟩; omega
  · intro h; exact ⟨a - c.pool, by omega, by omega⟩

theorem new_inv (top : Nat) : (KeyValuePool.new top).1.Inv (KeyValuePool.new top).2 := by
  refine ⟨[], ⟨top, 0⟩, rfl, ?_, Nat.le_refl _, by simp, by simp [allSlots], Nat.le_refl _⟩
  intro k c h
  cases k with
  | zero =>
    simp [KeyValuePool.new, PoolChunk.new] at h
    subst h
    rfl
  | succ k => simp [KeyValuePool.new, PoolChunk.new] at h

/-- One call of `Create()` on a pool that was never drained. -/
theorem Create_spec (p : KeyValuePool) (top0 top : Nat) (h : p.Inv top0) (ht : top0 ≤ top) :
    ∃ a p2 top2, p.Create top = some (a, p2, top2) ∧ p2.Inv top2 ∧ top ≤ top2
      ∧ p2.issued = p.issued ++ [a] ∧ a ∉ p.issued
      ∧ (∃ cur, p2.chunks.getLast? = some cur ∧ 0 < p2.position
          ∧ a = cur.pool + (p2.position - 1) ∧ p2.position - 1 < cur.length)
      ∧ ((p2.chunks = p.chunks ∧ top2 = top)
        ∨ ((∀ cur, p.chunks.getLast? = some cur → p.position = cur.length)
            ∧ p2.chunks = p.chunks ++ [⟨top, POOL_INCREMENT_LENGTH * p.chunks.length⟩]
            ∧ top2 = top + POOL_INCREMENT_LENGTH * p.chunks.length)) := by
  obtain ⟨init, cur, hch, hlen, hpos, hbelow, hslots, htop⟩ := h
  obtain ⟨pos, chunks⟩ := p
  simp only [POOL_INCREMENT_LENGTH] at hch hlen hpos ⊢
  subst hch
  have hlast : (init ++ [cur]).getLast? = some cur := by simp
  have hcur : cur.length = 4 * init.length :=
    hlen init.length cur (by simp)
  by_cases hfull : pos ≥ cur.length
  · have hposeq : pos = cur.length := Nat.le_antisymm hpos hfull
    refine ⟨top, ⟨1, init ++ [cur] ++ [⟨top, cur.length + 4⟩]⟩,
      top + (cur.length + 4), ?_, ?_, by omega, ?_, ?_, ?_, ?_⟩
    · simp [KeyValuePool.Create, KeyValuePool.IsFull, hlast, hfull, PoolChunk.new]
    · refine ⟨init ++ [cur], _, rfl, ?_, by simp, ?_, ?_, Nat.le_refl _⟩
      · intro k c hk
        show c.length = 4 * k
        by_cases hk2 : k < (init ++ [cur]).length
        · rw [List.getElem?_append_left hk2] at hk
          exact hlen k c hk
        · rw [List.getElem?_append_right (by omega)] at hk
          rcases hj : k - (init ++ [cur]).length with _ | j
          · rw [hj] at hk
            simp only [List.getElem?_cons_zero, Option.some.injEq] at hk
            subst hk
            simp only [List.length_append, List.length_singleton] at hk2 hj ⊢
            omega
          · rw [hj] at hk
            simp at hk
      · intro c hc
        simp only [List.mem_append, List.mem_singleton] at hc
        rcases hc with hc | rfl
        · have := hbelow c hc
          simp only
          omega
        · simp only
          omega
      · intro a ha
        rw [allSlots_append] at ha
        simp only [List.mem_append, allSlots, List.append_nil] at ha
        rcases ha with ha | ha
        · have := hslots a ha
          simp only
          omega
        · have := (mem_slots cur cur.length a).1 ha
          simp only
          omega
    · rw [issued_snoc, issued_snoc, allSlots_append, hposeq]
      simp [allSlots, PoolChunk.slots]
    · rw [issued_snoc]
      intro ha
      simp only [List.mem_append] at ha
      rcases ha with ha | ha
      · have := hslots top ha
        omega
      · have := (mem_slots cur pos top).1 ha
        omega
    · exact ⟨(⟨top, cur.length + 4⟩ : PoolChunk), by simp, by simp, by simp, by simp⟩
    · right
      refine ⟨fun c hc => ?_, ?_, ?_⟩
      · rw [hlast] at hc
        simp only [Option.some.injEq] at hc
        subst hc
        exact hposeq
      · simp only [List.length_append, List.length_singleton, hcur]
        congr 3
      · simp only [List.length_append, List.length_singleton, hcur]
        omega
  · refine ⟨cur.pool + pos, ⟨pos + 1, init ++ [cur]⟩, top, ?_, ?_, Nat.le_refl _, ?_, ?_, ?_,
      Or.inl ⟨rfl, rfl⟩⟩
    · simp [KeyValuePool.Create, KeyValuePool.IsFull, hlast, hfull]
    · exact ⟨init, cur, rfl, hlen, by simp only; omega, hbelow, hslots, by omega⟩
    · rw [issued_snoc, issued_snoc, slots_succ, List.append_assoc]
    · rw [issued_snoc]
      intro ha
      simp only [List.mem_append] at ha
      rcases ha with ha | ha
      · have := hslots _ ha
        omega
      · have := (mem_slots cur pos _).1 ha
        omega
    · exact ⟨cur, hlast, by simp, by simp, by simp only [Nat.add_sub_cancel]; omega⟩

/-- A sequence of calls of `Create()` on a pool that was never drained. -/
theorem createAll_spec : ∀ (gaps : List Nat) (p : KeyValuePool) (top0 top : Nat),
    p.Inv top0 → top0 ≤ top → p.issued.Nodup →
    ∃ slots p2 top2, createAll gaps p top = some (slots, p2, top2) ∧ p2.Inv top2 ∧ top ≤ top2
      ∧ p2.issued = p.issued ++ slots ∧ p2.issued.Nodup ∧ slots.length = gaps.length
      ∧ ∃ more, p2.chunks = p.chunks ++ more
  | [], p, top0, top, h, ht, hn =>
    ⟨[], p, top, rfl, by
      obtain ⟨init, cur, h1, h2, h3, h4, h5, h6⟩ := h
      exact ⟨init, cur, h1, h2, h3, h4, h5, by omega⟩,
      Nat.le_refl _, by simp, hn, rfl, [], by simp⟩
  | g :: gaps, p, top0, top, h, ht, hn => by
    obtain ⟨a, p1, top1, h1, h2, h3, h4, h5, _, h7⟩ := Create_spec p top0 (top + g) h (by omega)
    have hn1 : p1.issued.Nodup := by
      rw [h4]
      exact List.Nodup.append hn (List.nodup_singleton a) (by simpa using h5)
    obtain ⟨slots, p2, top2, g1, g2, g3, g4, g5, g6, g7⟩ :=
      createAll_spec gaps p1 top1 top1 h2 (Nat.le_refl _) hn1
    obtain ⟨more, g7⟩ := g7
    have hmore : ∃ more1, p2.chunks = p.chunks ++ more1 := by
      rcases h7 with ⟨h7, _⟩ | ⟨_, h7, _⟩
      · exact ⟨more, by rw [g7, h7]⟩
      · exact ⟨_ :: more, by rw [g7, h7, List.append_assoc, List.singleton_append]⟩
    refine ⟨a :: slots, p2, top2, ?_, g2, by omega, ?_, g5, by simp [g6], hmore⟩
    · simp only [createAll, h1, g1]
    · rw [g4, h4, List.append_assoc, List.singleton_append]

/-- C20. Arena growth and slot uniqueness.  Starting from a new pool, after any sequence
of calls of `Create()` (with any other allocations between them) all calls have returned;
the `k`-th chunk of the chain has `4 * k` slots (the first chunk none); the slots
returned are pairwise distinct and are, in order, all slots of every chunk before the
current one followed by the first `position` slots of the current chunk, with `position`
at most its length; the chunks allocated earlier stay where they are; and the next
`Create()` returns a slot not returned before at an index below the length of the (then)
current chunk, allocating a new chunk only when `position` has reached the length of the
current one. -/
theorem C20_pool_growth_and_slot_uniqueness (top : Nat) (gaps : List Nat) :
    ∃ slots p top2,
      createAll gaps (KeyValuePool.new top).1 (KeyValuePool.new top).2 = some (slots, p, top2)
      ∧ slots.length = gaps.length ∧ slots.Nodup ∧ slots = p.issued
      ∧ (∀ k c, p.chunks[k]? = some c → c.length = 4 * k)
      ∧ (∃ init cur, p.chunks = init ++ [cur] ∧ p.position ≤ cur.length)
      ∧ (∃ more, p.chunks = (KeyValuePool.new top).1.chunks ++ more)
      ∧ ∀ g, ∃ a p2 top3, p.Create (top2 + g) = some (a, p2, top3) ∧ a ∉ slots
          ∧ (∃ cur, p2.chunks.getLast? = some cur ∧ 0 < p2.position
              ∧ a = cur.pool + (p2.position - 1) ∧ p2.position - 1 < cur.length)
          ∧ (p2.chunks = p.chunks
            ∨ ((∀ cur, p.chunks.getLast? = some cur → p.position = cur.length)
                ∧ p2.chunks = p.chunks ++ [⟨top2 + g, 4 * p.chunks.length⟩])) := by
  obtain ⟨slots, p, top2, h1, h2, _, h4, h5, h6, h7⟩ := createAll_spec gaps
    (KeyValuePool.new top).1 (KeyValuePool.new top).2 (KeyValuePool.new top).2 (new_inv top)
    (Nat.le_refl _) (by simp [KeyValuePool.issued, KeyValuePool.new, PoolChunk.new, allSlots,
      PoolChunk.slots])
  have hs : slots = p.issued := by
    rw [h4]
    simp [KeyValuePool.issued, KeyValuePool.new, PoolChunk.new, allSlots, PoolChunk.slots]
  refine ⟨slots, p, top2, h1, h6, by rw [hs]; exact h5, hs, ?_, ?_, h7, fun g => ?_⟩
  · obtain ⟨_, _, _, hlen, _⟩ := h2
    exact hlen
  · obtain ⟨init, cur, hch, _, hpos, _⟩ := h2
    exact ⟨init, cur, hch, hpos⟩
  · obtain ⟨a, p2, top3, g1, _, _, _, g5, g6, g7⟩ := Create_spec p top2 (top2 + g) h2 (by omega)
    refine ⟨a, p2, top3, g1, by rw [hs]; exact g5, g6, ?_⟩
    rcases g7 with ⟨g7, _⟩ | ⟨g7, g8, _⟩
    · exact Or.inl g7
    · exact Or.inr ⟨g7, g8⟩

/-- Five calls of `Create()` on a new pool at the address 10: the chunk of no slots at 10,
then a chunk of four slots at 10, and for the fifth call a chunk of eight slots at 14. -/
theorem createAll_five :
    createAll [0, 0, 0, 0, 0] (KeyValuePool.new 10).1 (KeyValuePool.new 10).2
      = some ([10, 11, 12, 13, 14], ⟨1, [⟨10, 0⟩, ⟨10, 4⟩, ⟨14, 8⟩]⟩, 22) := by
  decide

/-! ## Chains of objects -/

theorem chainFrom_frame (m m2 : Memory) : ∀ (l : List Nat) (p e : Option Nat),
    (∀ a ∈ l, (m2.cell a).next = (m.cell a).next) → ChainFrom m p l e → ChainFrom m2 p l e
  | [], _, _, _, h => h
  | a :: rest, p, e, hm, h => by
    obtain ⟨h1, h2⟩ := h
    refine ⟨h1, ?_⟩
    rw [hm a (List.mem_cons_self _ _)]
    exact chainFrom_frame m m2 rest _ e (fun x hx => hm x (List.mem_cons_of_mem _ hx)) h2

theorem chainFrom_snoc (m : Memory) (a : Nat) : ∀ (l : List Nat) (p : Option Nat),
    ChainFrom m p l (some a) → ChainFrom m p (l ++ [a]) (m.cell a).next
  | [], p, h => by
    have hp : p = some a := h
    exact ⟨hp, rfl⟩
  | b :: rest, p, h => ⟨h.1, chainFrom_snoc m a rest _ h.2⟩

theorem chainFrom_unsnoc (m : Memory) (a : Nat) : ∀ (l : List Nat) (p e : Option Nat),
    ChainFrom m p (l ++ [a]) e → ChainFrom m p l (some a) ∧ (m.cell a).next = e
  | [], p, e, h => by
    obtain ⟨h1, h2⟩ := h
    exact ⟨h1, h2⟩
  | b :: rest, p, e, h => by
    obtain ⟨h1, h2⟩ := h
    obtain ⟨g1, g2⟩ := chainFrom_unsnoc m a rest _ e h2
    exact ⟨⟨h1, g1⟩, g2⟩

/-- Following `next` `i` times along a chain reaches its `i`-th object. -/
theorem chainFrom_atLinked (m : Memory) : ∀ (l : List Nat) (p e : Option Nat) (i : Nat),
    ChainFrom m p l e → i < l.length → atLinked m i p = l[i]?
  | [], _, _, i, _, hi => absurd hi (Nat.not_lt_zero _)
  | a :: rest, p, e, 0, h, _ => by
    rw [h.1]
    simp [atLinked]
  | a :: rest, p, e, i + 1, h, hi => by
    rw [h.1]
    simp only [atLinked, List.getElem?_cons_succ]
    exact chainFrom_atLinked m rest _ e i h.2 (by simpa using hi)

/-- Following `next` along a whole chain reaches its end. -/
theorem chainFrom_atLinked_end (m : Memory) : ∀ (l : List Nat) (p e : Option Nat),
    ChainFrom m p l e → atLinked m l.length p = e
  | [], p, e, h => by
    have hp : p = e := h
    rw [hp]
    rfl
  | a :: rest, p, e, h => by
    rw [h.1]
    simp only [atLinked, List.length_cons]
    exact chainFrom_atLinked_end m rest _ e h.2

/-- Assigning `next` of the last object of a chain makes the chain lead there. -/
theorem chainFrom_setNext (m : Memory) (init : List Nat) (l : Nat) (p e x : Option Nat)
    (hn : (init ++ [l]).Nodup) (h : ChainFrom m p (init ++ [l]) e) :
    ChainFrom (m.write l { m.cell l with next := x }) p (init ++ [l]) x := by
  obtain ⟨h1, _⟩ := chainFrom_unsnoc m l init p e h
  have hl : l ∉ init := by
    intro hmem
    have := List.disjoint_of_nodup_append hn hmem
    exact this (List.mem_singleton_self l)
  have h2 := chainFrom_frame m (m.write l { m.cell l with next := x }) init p (some l)
    (fun a ha => by
      rw [write_cell_other m l a _ (fun heq => hl (heq ▸ ha))]) h1
  have h3 := chainFrom_snoc _ l init p h2
  simpa using h3

theorem getLast_snoc (init : List Nat) (l : Nat) : (init ++ [l]).getLast? = some l := by
  simp

theorem eq_snoc_of_ne_nil (l : List Nat) (h : l ≠ []) :
    ∃ init a, l = init ++ [a] := by
  refine ⟨l.dropLast, l.getLast h, ?_⟩
  exact (List.dropLast_append_getLast h).symm

theorem nodeOK_open (m : Memory) (a : Nat) (kids : List Nat) (h : NodeOK m a kids) :
    NodeOpen m a kids := by
  obtain ⟨h1, h2, h3⟩ := h
  refine ⟨h1, ⟨none, h2⟩, fun hk => ?_⟩
  subst hk
  exact ⟨h2, h3⟩

/-- The chain of an interior node whose children are on it is well formed. -/
theorem nodeOK_wellFormed (m : Memory) (a : Nat) (kids : List Nat) (hn : kids.Nodup)
    (h : NodeOK m a kids) : ChainWellFormed m a := by
  obtain ⟨h1, h2, h3⟩ := h
  have hat : ∀ i, i < kids.length → atLinked m i (m.cell a).children = kids[i]? :=
    fun i hi => chainFrom_atLinked m kids _ none i h2 hi
  refine ⟨?_, ?_, ?_, ?_, ?_⟩
  · intro i hi
    rw [h1] at hi
    rw [hat i hi, List.getElem?_eq_getElem hi]
    simp
  · rw [h1]
    exact chainFrom_atLinked_end m kids _ none h2
  · intro i j hij hj
    rw [h1] at hj
    rw [hat i (by omega), hat j hj, List.getElem?_eq_getElem (by omega),
      List.getElem?_eq_getElem hj]
    intro heq
    simp only [Option.some.injEq] at heq
    have := (List.Nodup.getElem_inj_iff hn).1 heq
    omega
  · intro h0
    rw [h1] at h0
    have : kids = [] := List.length_eq_zero.1 h0
    subst this
    exact h2
  · intro hpos
    rw [h1] at hpos ⊢
    rw [h3, hat _ (by omega), List.getLast?_eq_getElem?]

/-! ## The pools of a document -/

theorem inv_mono (p : KeyValuePool) (t t2 : Nat) (h : p.Inv t) (ht : t ≤ t2) : p.Inv t2 := by
  obtain ⟨init, cur, h1, h2, h3, h4, h5, h6⟩ := h
  exact ⟨init, cur, h1, h2, h3, h4, h5, by omega⟩

theorem inv_slots_lt (p : KeyValuePool) (t : Nat) (h : p.Inv t) :
    ∀ a ∈ allSlots p.chunks, a < t := by
  obtain ⟨init, cur, h1, _, _, _, h5, h6⟩ := h
  intro a ha
  rw [h1, allSlots_append] at ha
  simp only [List.mem_append, allSlots, List.append_nil] at ha
  rcases ha with ha | ha
  · have := h5 a ha
    omega
  · have := (mem_slots cur cur.length a).1 ha
    omega

theorem issued_slots (p : KeyValuePool) (t : Nat) (h : p.Inv t) :
    ∀ a ∈ p.issued, a ∈ allSlots p.chunks := by
  obtain ⟨init, cur, h1, _, h3, _, _, _⟩ := h
  obtain ⟨pos, chunks⟩ := p
  simp only at h1 h3
  subst h1
  intro a ha
  rw [issued_snoc] at ha
  rw [allSlots_append]
  simp only [List.mem_append, allSlots, List.append_nil] at ha ⊢
  rcases ha with ha | ha
  · exact Or.inl ha
  · right
    have := (mem_slots cur pos a).1 ha
    exact (mem_slots cur cur.length a).2 ⟨this.1, by omega⟩

/-- `Create()` on a pool that was never drained, with what it means for the slots of the
chunks. -/
theorem Create_slots (p : KeyValuePool) (top : Nat) (h : p.Inv top) :
    ∃ a p2 top2, p.Create top = some (a, p2, top2) ∧ p2.Inv top2 ∧ top ≤ top2
      ∧ a ∉ p.issued ∧ a ∈ p2.issued ∧ (∀ x ∈ p.issued, x ∈ p2.issued)
      ∧ (∀ x ∈ p2.issued, x = a ∨ x ∈ p.issued)
      ∧ (∀ x, x ∈ allSlots p2.chunks ↔ (x ∈ allSlots p.chunks ∨ (top ≤ x ∧ x < top2))) := by
  obtain ⟨a, p2, top2, h1, h2, h3, h4, h5, _, h7⟩ := Create_spec p top top h (Nat.le_refl _)
  refine ⟨a, p2, top2, h1, h2, h3, h5, by rw [h4]; simp, fun x hx => by rw [h4]; simp [hx],
    fun x hx => ?_, fun x => ?_⟩
  · rw [h4] at hx
    simp only [List.mem_append, List.mem_singleton] at hx
    exact hx.symm
  · rcases h7 with ⟨h7, h8⟩ | ⟨_, h7, h8⟩
    · rw [h7, h8]
      constructor
      · exact fun hx => Or.inl hx
      · rintro (hx | hx)
        · exact hx
        · omega
    · rw [h7, h8, allSlots_append]
      simp only [List.mem_append, allSlots, List.append_nil, mem_slots]

/-- `Create()` on one of the two pools of objects of a document whose pools were never
drained returns a slot that no pool has handed out before, and changes no object. -/
theorem create_ok (d : Document) (write : Bool) (h : d.PoolsOK) :
    ∃ a d1, d.Create write = some (a, d1) ∧ d1.PoolsOK ∧ d1.root = d.root
      ∧ d1.bufferSize = d.bufferSize ∧ d1.mem.cell = d.mem.cell
      ∧ d1.mem.solidified = d.mem.solidified ∧ d1.writePoolStrings = d.writePoolStrings
      ∧ a ∉ d.readPool.issued ∧ a ∉ d.writePool.issued ∧ d.root < a
      ∧ (a ∈ d1.readPool.issued ∨ a ∈ d1.writePool.issued)
      ∧ (∀ x ∈ d.readPool.issued, x ∈ d1.readPool.issued)
      ∧ (∀ x ∈ d.writePool.issued, x ∈ d1.writePool.issued) := by
  obtain ⟨hr, hw, hs, hdis, hroot, htop, hpooled⟩ := h
  cases write with
  | false =>
    obtain ⟨a, p2, top2, h1, h2, h3, h4, h5, h6, _, h8⟩ := Create_slots d.readPool d.mem.top hr
    have hslot : a ∈ allSlots p2.chunks := issued_slots p2 top2 h2 a h5
    have hcase := (h8 a).1 hslot
    refine ⟨a, { d with
        mem := { d.mem with
          top := top2
          pooled := fun x => d.mem.pooled x || (decide (d.mem.top ≤ x) && decide (x < top2)) }
        readPool := p2 }, by simp [Document.Create, h1], ?_, rfl, rfl, rfl, rfl, rfl, h4, ?_, ?_,
      Or.inl h5, h6, fun x hx => hx⟩
    · refine ⟨h2, inv_mono _ _ _ hw h3, inv_mono _ _ _ hs h3, ?_, ?_, by simp only; omega, ?_⟩
      · intro x hx hx2
        rcases (h8 x).1 hx with hx | hx
        · exact hdis x hx hx2
        · have := inv_slots_lt _ _ hw x hx2
          omega
      · intro x hx
        rcases hx with hx | hx
        · rcases (h8 x).1 hx with hx | hx
          · exact hroot x (Or.inl hx)
          · show d.root < x
            omega
        · exact hroot x (Or.inr hx)
      · intro x hx
        simp only [Bool.or_eq_true, Bool.and_eq_true, decide_eq_true_eq] at hx
        rcases hx with hx | hx
        · have := hpooled x hx
          exact ⟨this.1, by simp only; omega⟩
        · exact ⟨show d.root < x by omega, hx.2⟩
    · intro ha
      have ha2 := issued_slots _ _ hw a ha
      rcases hcase with hc | hc
      · exact hdis a hc ha2
      · have := inv_slots_lt _ _ hw a ha2
        omega
    · rcases hcase with hc | hc
      · exact hroot a (Or.inl hc)
      · omega
  | true =>
    obtain ⟨a, p2, top2, h1, h2, h3, h4, h5, h6, _, h8⟩ := Create_slots d.writePool d.mem.top hw
    have hslot : a ∈ allSlots p2.chunks := issued_slots p2 top2 h2 a h5
    have hcase := (h8 a).1 hslot
    refine ⟨a, { d with
        mem := { d.mem with
          top := top2
          pooled := fun x => d.mem.pooled x || (decide (d.mem.top ≤ x) && decide (x < top2)) }
        writePool := p2 }, by simp [Document.Create, h1], ?_, rfl, rfl, rfl, rfl, rfl, ?_, h4, ?_,
      Or.inr h5, fun x hx => hx, h6⟩
    · refine ⟨inv_mono _ _ _ hr h3, h2, inv_mono _ _ _ hs h3, ?_, ?_, by simp only; omega, ?_⟩
      · intro x hx hx2
        rcases (h8 x).1 hx2 with hx2 | hx2
        · exact hdis x hx hx2
        · have := inv_slots_lt _ _ hr x hx
          omega
      · intro x hx
        rcases hx with hx | hx
        · exact hroot x (Or.inl hx)
        · rcases (h8 x).1 hx with hx | hx
          · exact hroot x (Or.inr hx)
          · show d.root < x
            omega
      · intro x hx
        simp only [Bool.or_eq_true, Bool.and_eq_true, decide_eq_true_eq] at hx
        rcases hx with hx | hx
        · have := hpooled x hx
          exact ⟨this.1, by simp only; omega⟩
        · exact ⟨show d.root < x by omega, hx.2⟩
    · intro ha
      have ha2 := issued_slots _ _ hr a ha
      rcases hcase with hc | hc
      · exact hdis a ha2 hc
      · have := inv_slots_lt _ _ hr a ha2
        omega
    · rcases hcase with hc | hc
      · exact hroot a (Or.inr hc)
      · omega

/-! ## Keeping the shape of a document -/

theorem nodeOK_frame (m m2 : Memory) (x : Nat) (kids : List Nat)
    (h1 : (m2.cell x).children = (m.cell x).children)
    (h2 : (m2.cell x).lastChild = (m.cell x).lastChild)
    (h3 : (m2.cell x).childCount = (m.cell x).childCount)
    (h4 : ∀ c ∈ kids, (m2.cell c).next = (m.cell c).next) (h : NodeOK m x kids) :
    NodeOK m2 x kids := by
  obtain ⟨g1, g2, g3⟩ := h
  exact ⟨by rw [h3, g1], by rw [h1]; exact chainFrom_frame m m2 kids _ _ h4 g2, by rw [h2, g3]⟩

theorem nodeOpen_frame (m m2 : Memory) (x : Nat) (kids : List Nat)
    (h1 : (m2.cell x).children = (m.cell x).children)
    (h2 : (m2.cell x).lastChild = (m.cell x).lastChild)
    (h3 : (m2.cell x).childCount = (m.cell x).childCount)
    (h4 : ∀ c ∈ kids, (m2.cell c).next = (m.cell c).next) (h : NodeOpen m x kids) :
    NodeOpen m2 x kids := by
  obtain ⟨g1, ⟨e, g2⟩, g3⟩ := h
  refine ⟨by rw [h3, g1], ⟨e, by rw [h1]; exact chainFrom_frame m m2 kids _ _ h4 g2⟩, ?_⟩
  intro hk
  rw [h1, h2]
  exact g3 hk

theorem shape_node_gt (d : Document) (nodes : List Nat) (kids : Nat → List Nat)
    (isOpen : Nat → Prop) (h : d.Shape nodes kids isOpen) (a : Nat) (ha : a ∈ nodes) :
    d.root < a := by
  obtain ⟨hr, hw, _, _, hroot, _, _⟩ := h.pools
  rcases h.issued a ha with hi | hi
  · exact hroot a (Or.inl (issued_slots _ _ hr a hi))
  · exact hroot a (Or.inr (issued_slots _ _ hw a hi))

theorem shape_kid_ne_root (d : Document) (nodes : List Nat) (kids : Nat → List Nat)
    (isOpen : Nat → Prop) (h : d.Shape nodes kids isOpen) (x c : Nat) (hc : c ∈ kids x) :
    d.root < c :=
  shape_node_gt d nodes kids isOpen h c (h.kidsNodes x c hc)

/-- A change of the memory that keeps the links of every object (all fields but the key
and the value) keeps the shape of the document. -/
theorem shape_congr (d d2 : Document) (nodes : List Nat) (kids : Nat → List Nat)
    (isOpen : Nat → Prop) (h : d.Shape nodes kids isOpen)
    (hp : d2.PoolsOK) (hroot : d2.root = d.root) (hsol : d2.mem.solidified = d.mem.solidified)
    (hir : ∀ x ∈ d.readPool.issued, x ∈ d2.readPool.issued)
    (hiw : ∀ x ∈ d.writePool.issued, x ∈ d2.writePool.issued)
    (hinv : d2.mem.cell INVALID = d.mem.cell INVALID)
    (hc : ∀ x, (d2.mem.cell x).next = (d.mem.cell x).next
      ∧ (d2.mem.cell x).isNode = (d.mem.cell x).isNode
      ∧ (d2.mem.cell x).children = (d.mem.cell x).children
      ∧ (d2.mem.cell x).lastChild = (d.mem.cell x).lastChild
      ∧ (d2.mem.cell x).childCount = (d.mem.cell x).childCount) :
    d2.Shape nodes kids isOpen where
  pools := hp
  unsolid := by rw [hsol]; exact h.unsolid
  invalid := by rw [hinv]; exact h.invalid
  rootValid := by rw [hroot]; exact h.rootValid
  rootNode := by rw [hroot, (hc _).2.1]; exact h.rootNode
  rootNext := by rw [hroot, (hc _).1]; exact h.rootNext
  issued := fun a ha => (h.issued a ha).imp (hir a) (hiw a)
  kidsNodup := h.kidsNodup
  kidsNodes := h.kidsNodes
  kidsOwn := by rw [hroot]; exact h.kidsOwn
  kidsSelf := h.kidsSelf
  kidsApart := h.kidsApart
  leaf := fun x hx hl => by
    rw [(hc x).2.1] at hl
    rw [(hc x).2.2.1, (hc x).2.2.2.1]
    exact h.leaf x hx hl
  node := fun x hx hn => by
    rw [hroot] at hx
    rw [(hc x).2.1] at hn
    obtain ⟨g1, g2⟩ := h.node x hx hn
    exact ⟨nodeOpen_frame _ _ x _ (hc x).2.2.1 (hc x).2.2.2.1 (hc x).2.2.2.2
        (fun c _ => (hc c).1) g1,
      fun ho => nodeOK_frame _ _ x _ (hc x).2.2.1 (hc x).2.2.2.1 (hc x).2.2.2.2
        (fun c _ => (hc c).1) (g2 ho)⟩

/-- More objects may count as open. -/
theorem shape_open (d : Document) (nodes : List Nat) (kids : Nat → List Nat)
    (isOpen isOpen2 : Nat → Prop) (h : d.Shape nodes kids isOpen)
    (ho : ∀ x, isOpen x → isOpen2 x) : d.Shape nodes kids isOpen2 :=
  { h with node := fun x hx hn => ⟨(h.node x hx hn).1, fun hno =>
      (h.node x hx hn).2 (fun hox => hno (ho x hox))⟩ }

/-- A slot that `Create()` has just returned becomes an object of the document, a leaf or an
interior node without children, while no object points to it yet. -/
theorem shape_adopt (d d2 : Document) (nodes : List Nat) (kids : Nat → List Nat)
    (isOpen : Nat → Prop) (a : Nat) (h : d.Shape nodes kids isOpen)
    (hp : d2.PoolsOK) (hroot : d2.root = d.root) (hsol : d2.mem.solidified = d.mem.solidified)
    (hir : ∀ x ∈ d.readPool.issued, x ∈ d2.readPool.issued)
    (hiw : ∀ x ∈ d.writePool.issued, x ∈ d2.writePool.issued)
    (ha1 : a ∉ d.readPool.issued) (ha2 : a ∉ d.writePool.issued) (ha3 : d.root < a)
    (ha4 : a ∈ d2.readPool.issued ∨ a ∈ d2.writePool.issued)
    (hc : ∀ x, x ≠ a → d2.mem.cell x = d.mem.cell x)
    (hch : (d2.mem.cell a).children = none) (hlast : (d2.mem.cell a).lastChild = none)
    (hcount : (d2.mem.cell a).isNode = true → (d2.mem.cell a).childCount = 0) :
    d2.Shape (a :: nodes) kids isOpen := by
  have hnot : a ∉ nodes := fun hmem => by
    rcases h.issued a hmem with hi | hi
    · exact ha1 hi
    · exact ha2 hi
  have hkid : ∀ x, a ∉ kids x := fun x hmem => hnot (h.kidsNodes x a hmem)
  have hka : kids a = [] := by
    rcases h.kidsOwn a with (hx | hx) | hx
    · omega
    · exact absurd hx hnot
    · exact hx
  have hinv0 : INVALID ≠ a := by unfold INVALID; omega
  have hframe : ∀ x, (x = d.root ∨ x ∈ nodes) → d2.mem.cell x = d.mem.cell x := by
    intro x hx
    apply hc
    rcases hx with hx | hx
    · omega
    · exact fun heq => hnot (heq ▸ hx)
  have hknext : ∀ x, ∀ c ∈ kids x, (d2.mem.cell c).next = (d.mem.cell c).next := by
    intro x c hc2
    rw [hc c (fun heq => hkid x (heq ▸ hc2))]
  refine
    { pools := hp
      unsolid := by rw [hsol]; exact h.unsolid
      invalid := by rw [hc _ hinv0]; exact h.invalid
      rootValid := by rw [hroot]; exact h.rootValid
      rootNode := by rw [hroot, hframe _ (Or.inl rfl)]; exact h.rootNode
      rootNext := by rw [hroot, hframe _ (Or.inl rfl)]; exact h.rootNext
      issued := ?_
      kidsNodup := h.kidsNodup
      kidsNodes := fun x c hc2 => List.mem_cons_of_mem _ (h.kidsNodes x c hc2)
      kidsOwn := ?_
      kidsSelf := h.kidsSelf
      kidsApart := h.kidsApart
      leaf := ?_
      node := ?_ }
  · intro x hx
    rcases List.mem_cons.1 hx with hx | hx
    · rw [hx]; exact ha4
    · exact (h.issued x hx).imp (hir x) (hiw x)
  · intro x
    rw [hroot]
    rcases h.kidsOwn x with (hx | hx) | hx
    · exact Or.inl (Or.inl hx)
    · exact Or.inl (Or.inr (List.mem_cons_of_mem _ hx))
    · exact Or.inr hx
  · intro x hx hl
    rcases List.mem_cons.1 hx with hx | hx
    · subst hx
      exact ⟨hka, hch, hlast⟩
    · rw [hframe x (Or.inr hx)] at hl ⊢
      exact h.leaf x hx hl
  · intro x hx hn
    rw [hroot] at hx
    by_cases hxa : x = a
    · subst hxa
      rw [hka]
      have h0 := hcount hn
      exact ⟨⟨h0, ⟨_, rfl⟩, fun _ => ⟨hch, hlast⟩⟩, fun _ => ⟨h0, hch, hlast⟩⟩
    · have hx2 : x = d.root ∨ x ∈ nodes := by
        rcases hx with hx | hx
        · exact Or.inl hx
        · rcases List.mem_cons.1 hx with hx | hx
          · exact absurd hx hxa
          · exact Or.inr hx
      have hcx := hframe x hx2
      rw [hcx] at hn
      obtain ⟨g1, g2⟩ := h.node x hx2 hn
      exact ⟨nodeOpen_frame _ _ x _ (by rw [hcx]) (by rw [hcx]) (by rw [hcx]) (hknext x) g1,
        fun ho => nodeOK_frame _ _ x _ (by rw [hcx]) (by rw [hcx]) (by rw [hcx]) (hknext x)
          (g2 ho)⟩

/-- The children of the object at `this` become `ks` by a change of the memory that, on
every other object, touches at most `next` of the former last child of `this`. -/
theorem shape_update_gen (d d2 : Document) (nodes : List Nat) (kids : Nat → List Nat)
    (isOpen isOpen2 : Nat → Prop) (this : Nat) (ks : List Nat)
    (h : d.Shape nodes kids isOpen) (hthis : this = d.root ∨ this ∈ nodes)
    (hks1 : ks.Nodup) (hks2 : ∀ c ∈ ks, c ∈ nodes) (hks3 : this ∉ ks)
    (hks4 : ∀ y, y ≠ this → ∀ c ∈ ks, c ∉ kids y)
    (hp : d2.PoolsOK) (hroot : d2.root = d.root) (hsol : d2.mem.solidified = d.mem.solidified)
    (hir : ∀ x ∈ d.readPool.issued, x ∈ d2.readPool.issued)
    (hiw : ∀ x ∈ d.writePool.issued, x ∈ d2.writePool.issued)
    (hinv : d2.mem.cell INVALID = d.mem.cell INVALID)
    (hf1 : ∀ x, x ≠ this → (d2.mem.cell x).isNode = (d.mem.cell x).isNode
      ∧ (d2.mem.cell x).children = (d.mem.cell x).children
      ∧ (d2.mem.cell x).lastChild = (d.mem.cell x).lastChild
      ∧ (d2.mem.cell x).childCount = (d.mem.cell x).childCount)
    (hf1t : (d2.mem.cell this).isNode = true)
    (hf2 : ∀ x, (x = d.root ∨ ∃ y, y ≠ this ∧ x ∈ kids y) →
      (d2.mem.cell x).next = (d.mem.cell x).next)
    (hopen : NodeOpen d2.mem this ks) (hok : ¬ isOpen2 this → NodeOK d2.mem this ks)
    (ho : ∀ x, x ≠ this → isOpen x → isOpen2 x) :
    d2.Shape nodes (Function.update kids this ks) isOpen2 := by
  have hupd : ∀ x, x ≠ this → Function.update kids this ks x = kids x :=
    fun x hx => Function.update_noteq hx _ _
  have hupdt : Function.update kids this ks this = ks := Function.update_same _ _ _
  refine
    { pools := hp
      unsolid := by rw [hsol]; exact h.unsolid
      invalid := by rw [hinv]; exact h.invalid
      rootValid := by rw [hroot]; exact h.rootValid
      rootNode := ?_
      rootNext := by rw [hroot, hf2 _ (Or.inl rfl)]; exact h.rootNext
      issued := fun a ha => (h.issued a ha).imp (hir a) (hiw a)
      kidsNodup := ?_
      kidsNodes := ?_
      kidsOwn := ?_
      kidsSelf := ?_
      kidsApart := ?_
      leaf := ?_
      node := ?_ }
  · rw [hroot]
    by_cases hr : d.root = this
    · rw [hr]; exact hf1t
    · rw [(hf1 _ hr).1]; exact h.rootNode
  · intro x
    by_cases hx : x = this
    · rw [hx, hupdt]; exact hks1
    · rw [hupd x hx]; exact h.kidsNodup x
  · intro x c hc
    by_cases hx : x = this
    · rw [hx, hupdt] at hc; exact hks2 c hc
    · rw [hupd x hx] at hc; exact h.kidsNodes x c hc
  · intro x
    rw [hroot]
    by_cases hx : x = this
    · rw [hx]; exact Or.inl hthis
    · rw [hupd x hx]; exact h.kidsOwn x
  · intro x
    by_cases hx : x = this
    · rw [hx, hupdt]; exact hks3
    · rw [hupd x hx]; exact h.kidsSelf x
  · intro x y hxy c hc
    by_cases hx : x = this
    · rw [hx, hupdt] at hc
      rw [hupd y (fun hy => hxy (hx.trans hy.symm))]
      exact hks4 y (fun hy => hxy (hx.trans hy.symm)) c hc
    · rw [hupd x hx] at hc
      by_cases hy : y = this
      · rw [hy, hupdt]
        exact fun hc2 => hks4 x hx c hc2 hc
      · rw [hupd y hy]
        exact h.kidsApart x y hxy c hc
  · intro x hx hl
    have hxt : x ≠ this := fun heq => by
      rw [heq, hf1t] at hl
      exact absurd hl (by simp)
    obtain ⟨g1, g2, g3, _⟩ := hf1 x hxt
    rw [g1] at hl
    rw [hupd x hxt, g2, g3]
    exact h.leaf x hx hl
  · intro x hx hn
    rw [hroot] at hx
    by_cases hxt : x = this
    · rw [hxt, hupdt]
      exact ⟨hopen, fun hno => hok (hxt ▸ hno)⟩
    · obtain ⟨g1, g2, g3, g4⟩ := hf1 x hxt
      rw [g1] at hn
      rw [hupd x hxt]
      have hnext : ∀ c ∈ kids x, (d2.mem.cell c).next = (d.mem.cell c).next :=
        fun c hc => hf2 c (Or.inr ⟨x, hxt, hc⟩)
      obtain ⟨k1, k2⟩ := h.node x hx hn
      exact ⟨nodeOpen_frame _ _ x _ g2 g3 g4 hnext k1,
        fun hno => nodeOK_frame _ _ x _ g2 g3 g4 hnext (k2 (fun hox => hno (ho x hxt hox)))⟩

theorem shape_update (d d2 : Document) (nodes : List Nat) (kids : Nat → List Nat)
    (isOpen isOpen2 : Nat → Prop) (this : Nat) (ks : List Nat)
    (h : d.Shape nodes kids isOpen) (hthis : this = d.root ∨ this ∈ nodes)
    (hks1 : ks.Nodup) (hks2 : ∀ c ∈ ks, c ∈ nodes) (hks3 : this ∉ ks)
    (hks4 : ∀ y, y ≠ this → ∀ c ∈ ks, c ∉ kids y)
    (hp : d2.PoolsOK) (hroot : d2.root = d.root) (hsol : d2.mem.solidified = d.mem.solidified)
    (hir : ∀ x ∈ d.readPool.issued, x ∈ d2.readPool.issued)
    (hiw : ∀ x ∈ d.writePool.issued, x ∈ d2.writePool.issued)
    (hinv : d2.mem.cell INVALID = d.mem.cell INVALID)
    (hf1 : ∀ x, x ≠ this → (d2.mem.cell x).isNode = (d.mem.cell x).isNode
      ∧ (d2.mem.cell x).children = (d.mem.cell x).children
      ∧ (d2.mem.cell x).lastChild = (d.mem.cell x).lastChild
      ∧ (d2.mem.cell x).childCount = (d.mem.cell x).childCount)
    (hf1t : (d2.mem.cell this).isNode = true)
    (hf2 : ∀ x, (kids this).getLast? ≠ some x → (d2.mem.cell x).next = (d.mem.cell x).next)
    (hopen : NodeOpen d2.mem this ks) (hok : ¬ isOpen2 this → NodeOK d2.mem this ks)
    (ho : ∀ x, x ≠ this → isOpen x → isOpen2 x) :
    d2.Shape nodes (Function.update kids this ks) isOpen2 := by
  refine shape_update_gen d d2 nodes kids isOpen isOpen2 this ks h hthis hks1 hks2 hks3 hks4 hp
    hroot hsol hir hiw hinv hf1 hf1t (fun x hx => hf2 x ?_) hopen hok ho
  intro hlast
  have hmem : x ∈ kids this := List.mem_of_mem_getLast? hlast
  rcases hx with hx | ⟨y, hy, hxy⟩
  · have := shape_kid_ne_root d nodes kids isOpen h this x hmem
    omega
  · exact h.kidsApart y this hy x hxy hmem

theorem linkChild_other (m : Memory) (this : Nat) (lastKV : Option Nat) (pair x : Nat)
    (hx : x ≠ this) :
    (linkChild m this lastKV pair).cell x
      = if lastKV = some x then { m.cell x with next := some pair } else m.cell x := by
  unfold linkChild
  cases lastKV with
  | none =>
    simp only [if_neg (by simp : ¬ (none : Option Nat) = some x)]
    rw [write_cell_other _ _ _ _ hx, write_cell_other _ _ _ _ hx]
  | some l =>
    by_cases hl : l = x
    · subst hl
      simp only [if_true, write_cell_same]
      rw [write_cell_other _ _ _ _ hx]
    · simp only
      rw [if_neg (by simpa using hl), write_cell_other _ _ _ _ (Ne.symm hl),
        write_cell_other _ _ _ _ hx]

theorem linkChild_this (m : Memory) (this : Nat) (lastKV : Option Nat) (pair : Nat)
    (hl : lastKV ≠ some this) :
    (linkChild m this lastKV pair).cell this
      = { m.cell this with
          childCount := (m.cell this).childCount + 1
          children := if lastKV = none then some pair else (m.cell this).children } := by
  unfold linkChild
  cases lastKV with
  | none => simp
  | some l =>
    have : this ≠ l := fun heq => hl (by rw [heq])
    simp only
    rw [write_cell_other _ _ _ _ this, write_cell_same]
    simp

/-- The links of lines 618-627 put `pair` at the end of the children of `this`. -/
theorem nodeOpen_link (m : Memory) (this pair : Nat) (kids : List Nat)
    (h : NodeOpen m this kids) (hn : kids.Nodup) (hp : pair ∉ kids) (ht : this ∉ kids) :
    NodeOpen (linkChild m this kids.getLast? pair) this (kids ++ [pair]) := by
  obtain ⟨h1, ⟨e, h2⟩, h3⟩ := h
  have hlast : kids.getLast? ≠ some this := fun hx => ht (List.mem_of_mem_getLast? hx)
  refine ⟨?_, ?_, fun hk => absurd hk (by simp)⟩
  · rw [linkChild_this m this _ pair hlast]
    simp [h1]
  · by_cases hk : kids = []
    · subst hk
      refine ⟨_, ?_, rfl⟩
      rw [linkChild_this m this _ pair hlast]
      simp
    · obtain ⟨init, l, hil⟩ := eq_snoc_of_ne_nil kids hk
      subst hil
      have hlt : l ≠ this := fun heq => ht (by rw [← heq]; simp)
      have hcell : ∀ x, (linkChild m this (init ++ [l]).getLast? pair).cell x
          = ((m.write l { m.cell l with next := some pair }).write this
              { m.cell this with childCount := (m.cell this).childCount + 1 }).cell x := by
        intro x
        by_cases hx : x = this
        · subst hx
          rw [linkChild_this m _ _ pair hlast, write_cell_same]
          simp
        · rw [linkChild_other m this _ pair x hx, write_cell_other _ _ _ _ hx, getLast_snoc]
          by_cases hxl : x = l
          · subst hxl
            simp
          · rw [if_neg (by simpa using Ne.symm hxl), write_cell_other _ _ _ _ hxl]
      have hc1 := chainFrom_setNext m init l _ e (some pair) hn h2
      have hc2 := chainFrom_snoc _ pair (init ++ [l]) _ hc1
      have hch : ((linkChild m this (init ++ [l]).getLast? pair).cell this).children
          = (m.cell this).children := by
        rw [linkChild_this m _ _ pair hlast, getLast_snoc]
        simp
      have hc3 := chainFrom_frame _ (linkChild m this (init ++ [l]).getLast? pair) _ _ _
        (fun x _ => by
          rw [hcell x]
          by_cases hx : x = this
          · subst hx
            rw [write_cell_same, write_cell_other _ _ _ _ (Ne.symm hlt)]
          · rw [write_cell_other _ _ _ _ hx]) hc2
      exact ⟨_, by rw [hch]; exact hc3⟩

theorem poolsOK_mem (d d2 : Document) (h : d.PoolsOK) (h1 : d2.readPool = d.readPool)
    (h2 : d2.writePool = d.writePool) (h3 : d2.writePoolStrings = d.writePoolStrings)
    (h4 : d2.root = d.root) (h5 : d2.mem.top = d.mem.top) (h6 : d2.mem.pooled = d.mem.pooled) :
    d2.PoolsOK := by
  unfold Document.PoolsOK at h ⊢
  rw [h1, h2, h3, h4, h5, h6]
  exact h

theorem linkChild_top (m : Memory) (this : Nat) (lastKV : Option Nat) (pair : Nat) :
    (linkChild m this lastKV pair).top = m.top
      ∧ (linkChild m this lastKV pair).pooled = m.pooled
      ∧ (linkChild m this lastKV pair).solidified = m.solidified := by
  cases lastKV <;> exact ⟨rfl, rfl, rfl⟩

theorem parseEnd_top (m : Memory) (this : Nat) (lastKV : Option Nat) :
    (parseEnd m this lastKV).top = m.top ∧ (parseEnd m this lastKV).pooled = m.pooled
      ∧ (parseEnd m this lastKV).solidified = m.solidified := by
  cases lastKV <;> exact ⟨rfl, rfl, rfl⟩

theorem shape_valid_ne (d : Document) (nodes : List Nat) (kids : Nat → List Nat)
    (isOpen : Nat → Prop) (h : d.Shape nodes kids isOpen) (x : Nat)
    (hx : x = d.root ∨ x ∈ nodes) : x ≠ INVALID := by
  rcases hx with hx | hx
  · rw [hx]; exact h.rootValid
  · have := shape_node_gt d nodes kids isOpen h x hx
    unfold INVALID
    omega

/-- The links of lines 618-627 keep the shape of the document: the object `pair`, which no
object points to yet, becomes the last child of `this`. -/
theorem shape_linkChild (d : Document) (nodes : List Nat) (kids : Nat → List Nat)
    (isOpen : Nat → Prop) (this pair : Nat) (h : d.Shape nodes kids isOpen)
    (hthis : this = d.root ∨ this ∈ nodes) (hnode : (d.mem.cell this).isNode = true)
    (hopen : isOpen this) (hp : pair ∈ nodes) (hpt : pair ≠ this)
    (horph : ∀ y, pair ∉ kids y) :
    ({ d with mem := linkChild d.mem this (kids this).getLast? pair } : Document).Shape nodes
      (Function.update kids this (kids this ++ [pair])) isOpen := by
  have hlast : (kids this).getLast? ≠ some this :=
    fun hx => h.kidsSelf this (List.mem_of_mem_getLast? hx)
  obtain ⟨t1, t2, t3⟩ := linkChild_top d.mem this (kids this).getLast? pair
  apply shape_update d _ nodes kids isOpen isOpen this (kids this ++ [pair]) h hthis
  · exact List.Nodup.append (h.kidsNodup this) (List.nodup_singleton _)
      (by simpa using horph this)
  · intro c hc
    rcases List.mem_append.1 hc with hc | hc
    · exact h.kidsNodes this c hc
    · rw [List.mem_singleton.1 hc]; exact hp
  · intro hc
    rcases List.mem_append.1 hc with hc | hc
    · exact h.kidsSelf this hc
    · exact hpt (List.mem_singleton.1 hc).symm
  · intro y hy c hc
    rcases List.mem_append.1 hc with hc | hc
    · exact h.kidsApart this y (Ne.symm hy) c hc
    · rw [List.mem_singleton.1 hc]; exact horph y
  · exact poolsOK_mem d _ h.pools rfl rfl rfl rfl t1 t2
  · rfl
  · exact t3
  · exact fun x hx => hx
  · exact fun x hx => hx
  · show (linkChild d.mem this (kids this).getLast? pair).cell INVALID = d.mem.cell INVALID
    have h0 := shape_valid_ne d nodes kids isOpen h this hthis
    rw [linkChild_other _ _ _ _ _ (Ne.symm h0), if_neg]
    intro hx
    have := shape_kid_ne_root d nodes kids isOpen h this INVALID (List.mem_of_mem_getLast? hx)
    unfold INVALID at this
    omega
  · intro x hx
    show ((linkChild d.mem this (kids this).getLast? pair).cell x).isNode = _ ∧ _
    rw [linkChild_other _ _ _ _ _ hx]
    split <;> exact ⟨rfl, rfl, rfl, rfl⟩
  · show ((linkChild d.mem this (kids this).getLast? pair).cell this).isNode = true
    rw [linkChild_this _ _ _ _ hlast]
    exact hnode
  · intro x hx
    show ((linkChild d.mem this (kids this).getLast? pair).cell x).next = _
    by_cases hxt : x = this
    · rw [hxt, linkChild_this _ _ _ _ hlast]
    · rw [linkChild_other _ _ _ _ _ hxt, if_neg hx]
  · exact nodeOpen_link d.mem this pair (kids this) (h.node this hthis hnode).1
      (h.kidsNodup this) (horph this) (h.kidsSelf this)
  · exact fun hno => absurd hopen hno
  · exact fun x _ hx => hx

/-- The label `end:` closes the chain of `this`. -/
theorem nodeOK_parseEnd (m : Memory) (this : Nat) (kids : List Nat) (h : NodeOpen m this kids)
    (hn : kids.Nodup) (ht : this ∉ kids) : NodeOK (parseEnd m this kids.getLast?) this kids := by
  obtain ⟨h1, ⟨e, h2⟩, h3⟩ := h
  by_cases hk : kids = []
  · subst hk
    obtain ⟨g1, g2⟩ := h3 rfl
    exact ⟨h1, g1, g2⟩
  · obtain ⟨init, l, hil⟩ := eq_snoc_of_ne_nil kids hk
    subst hil
    have hlt : this ≠ l := fun heq => ht (by rw [heq]; simp)
    rw [getLast_snoc]
    have hm1 : (m.write l { m.cell l with next := none }).cell this = m.cell this :=
      write_cell_other _ _ _ _ hlt
    have hc1 := chainFrom_setNext m init l _ e none hn h2
    refine ⟨?_, ?_, ?_⟩
    · simp only [parseEnd, write_cell_same, hm1]
      exact h1
    · simp only [parseEnd, write_cell_same, hm1]
      refine chainFrom_frame _ _ _ _ _ (fun x hx => ?_) hc1
      have hxt : x ≠ this := fun heq => ht (heq ▸ hx)
      rw [write_cell_other _ _ _ _ hxt]
    · simp only [parseEnd, write_cell_same, getLast_snoc]

theorem parseEnd_other (m : Memory) (this : Nat) (lastKV : Option Nat) (x : Nat)
    (hx : x ≠ this) :
    (parseEnd m this lastKV).cell x
      = if lastKV = some x then { m.cell x with next := none } else m.cell x := by
  unfold parseEnd
  cases lastKV with
  | none => simp
  | some l =>
    simp only
    rw [write_cell_other _ _ _ _ hx]
    by_cases hl : l = x
    · subst hl
      simp
    · rw [if_neg (by simpa using hl), write_cell_other _ _ _ _ (Ne.symm hl)]

theorem parseEnd_this (m : Memory) (this : Nat) (lastKV : Option Nat)
    (hl : lastKV ≠ some this) :
    ((parseEnd m this lastKV).cell this).isNode = (m.cell this).isNode
      ∧ ((parseEnd m this lastKV).cell this).next = (m.cell this).next := by
  unfold parseEnd
  cases lastKV with
  | none => exact ⟨rfl, rfl⟩
  | some l =>
    have : this ≠ l := fun heq => hl (by rw [heq])
    simp only [write_cell_same]
    rw [write_cell_other _ _ _ _ this]
    exact ⟨rfl, rfl⟩

/-- The label `end:` keeps the shape of the document and ends the call on `this`. -/
theorem shape_parseEnd (d : Document) (nodes : List Nat) (kids : Nat → List Nat)
    (isOpen : Nat → Prop) (this : Nat) (h : d.Shape nodes kids isOpen)
    (hthis : this = d.root ∨ this ∈ nodes) (hnode : (d.mem.cell this).isNode = true) :
    ({ d with mem := parseEnd d.mem this (kids this).getLast? } : Document).Shape nodes kids
      (fun x => isOpen x ∧ x ≠ this) := by
  have hlast : (kids this).getLast? ≠ some this :=
    fun hx => h.kidsSelf this (List.mem_of_mem_getLast? hx)
  obtain ⟨t1, t2, t3⟩ := parseEnd_top d.mem this (kids this).getLast?
  have hopen := (h.node this hthis hnode).1
  have hok := nodeOK_parseEnd d.mem this (kids this) hopen (h.kidsNodup this) (h.kidsSelf this)
  have key := shape_update d ({ d with mem := parseEnd d.mem this (kids this).getLast? })
    nodes kids isOpen (fun x => isOpen x ∧ x ≠ this) this (kids this) h hthis
    (h.kidsNodup this) (h.kidsNodes this) (h.kidsSelf this)
    (fun y hy c hc => h.kidsApart this y (Ne.symm hy) c hc)
    (poolsOK_mem d _ h.pools rfl rfl rfl rfl t1 t2) rfl t3 (fun x hx => hx) (fun x hx => hx)
    (by
      show (parseEnd d.mem this (kids this).getLast?).cell INVALID = d.mem.cell INVALID
      have h0 := shape_valid_ne d nodes kids isOpen h this hthis
      rw [parseEnd_other _ _ _ _ (Ne.symm h0), if_neg]
      intro hx
      have := shape_kid_ne_root d nodes kids isOpen h this INVALID (List.mem_of_mem_getLast? hx)
      unfold INVALID at this
      omega)
    (by
      intro x hx
      show ((parseEnd d.mem this (kids this).getLast?).cell x).isNode = _ ∧ _
      rw [parseEnd_other _ _ _ _ hx]
      split <;> exact ⟨rfl, rfl, rfl, rfl⟩)
    (by
      show ((parseEnd d.mem this (kids this).getLast?).cell this).isNode = true
      rw [(parseEnd_this _ _ _ hlast).1]
      exact hnode)
    (by
      intro x hx
      show ((parseEnd d.mem this (kids this).getLast?).cell x).next = _
      by_cases hxt : x = this
      · rw [hxt, (parseEnd_this _ _ _ hlast).2]
      · rw [parseEnd_other _ _ _ _ hxt, if_neg hx])
    (nodeOK_open _ _ _ hok) (fun _ => hok) (fun x hx hox => ⟨hox, hx⟩)
  rw [Function.update_eq_self] at key
  exact key

theorem parseKey_ret_ne (s : List Nat) (isRoot : Bool) (e : KeyValueErrorCode) (s2 : List Nat)
    (h : parseKey s isRoot = KeyStep.ret e s2) : e ≠ KeyValueErrorCode.NONE := by
  unfold parseKey at h
  simp only at h
  split_ifs at h with h1 h2 h3 h4 h5 h6
  · split at h
    · cases h
    · injection h with he hs
      subst he
      intro hx
      subst hx
      simp_all
  all_goals first | (cases h; done) | (cases h; decide)

/-- A document with the same memory, root and pools has the same shape. -/
theorem shape_of_eq (d d2 : Document) (nodes : List Nat) (kids : Nat → List Nat)
    (isOpen : Nat → Prop) (h : d.Shape nodes kids isOpen) (h1 : d2.mem = d.mem)
    (h2 : d2.root = d.root) (h3 : d2.readPool = d.readPool) (h4 : d2.writePool = d.writePool)
    (h5 : d2.writePoolStrings = d.writePoolStrings) : d2.Shape nodes kids isOpen := by
  refine shape_congr d d2 nodes kids isOpen h ?_ h2 (by rw [h1]) (by rw [h3]; exact fun x hx => hx)
    (by rw [h4]; exact fun x hx => hx) (by rw [h1]) (fun x => by rw [h1]; exact ⟨rfl, rfl, rfl, rfl, rfl⟩)
  exact poolsOK_mem d d2 h.pools h3 h4 h5 h2 (by rw [h1]) (by rw [h1])

theorem linkChild_isNode (m : Memory) (this : Nat) (lastKV : Option Nat) (pair x : Nat) :
    ((linkChild m this lastKV pair).cell x).isNode = (m.cell x).isNode := by
  unfold linkChild
  cases lastKV with
  | none =>
    simp only [Memory.write]
    split_ifs <;> simp_all
  | some l =>
    simp only [Memory.write]
    split_ifs <;> simp_all

theorem parseEnd_isNode (m : Memory) (this : Nat) (lastKV : Option Nat) (x : Nat) :
    ((parseEnd m this lastKV).cell x).isNode = (m.cell x).isNode := by
  unfold parseEnd
  cases lastKV with
  | none => rfl
  | some l =>
    simp only [Memory.write]
    split_ifs <;> simp_all

/-- The object a successful `CreateKVPair` returns is a new leaf of the document. -/
theorem shape_createKVPair (d : Document) (nodes : List Nat) (kids : Nat → List Nat)
    (isOpen : Nat → Prop) (k v : List Nat) (w : Bool) (h : d.Shape nodes kids isOpen) :
    ∃ pair d1, CreateKVPair d k v w = some (pair, d1) ∧ d1.Shape (pair :: nodes) kids isOpen
      ∧ pair ∉ nodes ∧ d.root < pair ∧ d1.root = d.root
      ∧ d1.writePoolStrings = d.writePoolStrings ∧ d1.bufferSize = d.bufferSize
      ∧ (∀ x, x ≠ pair → d1.mem.cell x = d.mem.cell x)
      ∧ d1.mem.cell pair = { d.mem.cell pair with key := k, value := v, children := none,
                                                  lastChild := none, isNode := false } := by
  obtain ⟨a, dC, h1, h2, h3, h4, h5, h6, h7, h8, h9, h10, h11, h12, h13⟩ :=
    create_ok d w h.pools
  have hnot : a ∉ nodes := fun hmem => by
    rcases h.issued a hmem with hi | hi
    · exact h8 hi
    · exact h9 hi
  refine ⟨a, { dC with mem := dC.mem.write a
                                { dC.mem.cell a with key := k, value := v, children := none,
                                                     lastChild := none, isNode := false } },
    by simp [CreateKVPair, h1], ?_, hnot, h10, h3, h7, h4, ?_, ?_⟩
  · refine shape_adopt d _ nodes kids isOpen a h
      (poolsOK_mem dC _ h2 rfl rfl rfl rfl rfl rfl) h3 h6 h12 h13 h8 h9 h10 h11 ?_ ?_ ?_ ?_
    · intro x hx
      show (dC.mem.write a _).cell x = _
      rw [write_cell_other _ _ _ _ hx, h5]
    · show ((dC.mem.write a _).cell a).children = none
      rw [write_cell_same]
    · show ((dC.mem.write a _).cell a).lastChild = none
      rw [write_cell_same]
    · intro hn
      have : ((dC.mem.write a
        { dC.mem.cell a with key := k, value := v, children := none, lastChild := none,
                             isNode := false }).cell a).isNode = true := hn
      rw [write_cell_same] at this
      cases this
  · intro x hx
    show (dC.mem.write a _).cell x = _
    rw [write_cell_other _ _ _ _ hx, h5]
  · show (dC.mem.write a _).cell a = _
    rw [write_cell_same, h5]

/-- The object `Create()` returns becomes, with the assignments of lines 582-584, a new
interior node without children. -/
theorem shape_createNode (d : Document) (nodes : List Nat) (kids : Nat → List Nat)
    (isOpen : Nat → Prop) (w : Bool) (h : d.Shape nodes kids isOpen) :
    ∃ pair d1, d.Create w = some (pair, d1)
      ∧ ({ d1 with mem := d1.mem.write pair
                            { d1.mem.cell pair with isNode := true, children := none,
                                                    lastChild := none, childCount := 0 } } :
          Document).Shape (pair :: nodes) kids isOpen
      ∧ pair ∉ nodes ∧ d.root < pair ∧ d1.root = d.root
      ∧ d1.writePoolStrings = d.writePoolStrings ∧ d1.bufferSize = d.bufferSize
      ∧ d1.mem.cell = d.mem.cell := by
  obtain ⟨a, dC, h1, h2, h3, h4, h5, h6, h7, h8, h9, h10, h11, h12, h13⟩ :=
    create_ok d w h.pools
  have hnot : a ∉ nodes := fun hmem => by
    rcases h.issued a hmem with hi | hi
    · exact h8 hi
    · exact h9 hi
  refine ⟨a, dC, h1, ?_, hnot, h10, h3, h7, h4, h5⟩
  refine shape_adopt d _ nodes kids isOpen a h
    (poolsOK_mem dC _ h2 rfl rfl rfl rfl rfl rfl) h3 h6 h12 h13 h8 h9 h10 h11 ?_ ?_ ?_ ?_
  · intro x hx
    show (dC.mem.write a _).cell x = _
    rw [write_cell_other _ _ _ _ hx, h5]
  · show ((dC.mem.write a _).cell a).children = none
    rw [write_cell_same]
  · show ((dC.mem.write a _).cell a).lastChild = none
    rw [write_cell_same]
  · intro _
    show ((dC.mem.write a _).cell a).childCount = 0
    rw [write_cell_same]

/-- The link of a new object behind the children of `this`, and the rest of the loop. -/
theorem parse_link (fuel : Nat) (ih : ParseSpec fuel) (str : List Nat) (isRoot : Bool)
    (this pair : Nat) (d dL : Document) (nodes : List Nat) (kids : Nat → List Nat)
    (isOpen : Nat → Prop) (rest : List Nat) (d2 : Document)
    (h : d.Shape nodes kids isOpen) (hthis : this = d.root ∨ this ∈ nodes)
    (hnode : (d.mem.cell this).isNode = true) (hopen : isOpen this) (hp : pair ∈ nodes)
    (hpt : pair ≠ this) (horph : ∀ y, pair ∉ kids y)
    (hL1 : dL.mem = linkChild d.mem this (kids this).getLast? pair) (hL2 : dL.root = d.root)
    (hL3 : dL.readPool = d.readPool) (hL4 : dL.writePool = d.writePool)
    (hL5 : dL.writePoolStrings = d.writePoolStrings)
    (hrun : KeyValue.ParseMem fuel str isRoot this (some pair) dL
      = some (KeyValueErrorCode.NONE, rest, d2)) :
    ∃ nodes2 kids2, nodes2.length + rest.length ≤ nodes.length + str.length
      ∧ d2.Shape nodes2 kids2 (fun x => isOpen x ∧ x ≠ this)
      ∧ Growth d d2 nodes nodes2 kids kids2 this (fun c => c = pair) := by
  have hs := shape_linkChild d nodes kids isOpen this pair h hthis hnode hopen hp hpt horph
  have hsL : dL.Shape nodes (Function.update kids this (kids this ++ [pair])) isOpen :=
    shape_of_eq _ dL _ _ _ hs hL1 hL2 hL3 hL4 hL5
  have hnodeL : (dL.mem.cell this).isNode = true := by
    rw [hL1, linkChild_isNode]
    exact hnode
  obtain ⟨nodes2, kids2, hlen, hs2, g1, g2, g3, g4, g5⟩ :=
    ih str isRoot this (some pair) dL nodes _ isOpen rest d2 hsL (by rw [hL2]; exact hthis)
      hnodeL hopen (by simp) hrun
  refine ⟨nodes2, kids2, hlen, hs2, by rw [g1, hL2], g2, ?_, ?_, ?_⟩
  · intro x hx hxn
    rw [g3 x hx (by rw [hL2]; exact hxn), Function.update_noteq hx]
  · intro y c hc hcn
    rcases g4 y c hc hcn with hc2 | hc2
    · by_cases hy : y = this
      · subst hy
        rw [Function.update_same] at hc2
        rcases List.mem_append.1 hc2 with hc3 | hc3
        · exact Or.inl hc3
        · exact Or.inr (List.mem_singleton.1 hc3)
      · rw [Function.update_noteq hy] at hc2
        exact Or.inl hc2
    · exact absurd hc2 id
  · intro x hx
    rw [g5 x (by rw [hL2]; exact hx), hL1, linkChild_isNode]

/-- The loop of `Parse` after `CreateKVPair` has returned the leaf `pair`. -/
theorem parse_leaf (fuel : Nat) (ih : ParseSpec fuel) (str : List Nat) (isRoot : Bool)
    (this pair : Nat) (d d1 dL : Document) (nodes : List Nat) (kids : Nat → List Nat)
    (isOpen : Nat → Prop) (rest : List Nat) (d2 : Document)
    (hs : d.Shape nodes kids isOpen) (hthis : this = d.root ∨ this ∈ nodes)
    (hnode : (d.mem.cell this).isNode = true) (hopen : isOpen this)
    (hs1 : d1.Shape (pair :: nodes) kids isOpen) (hnot : pair ∉ nodes) (hgt : d.root < pair)
    (hroot : d1.root = d.root) (hcell : ∀ x, x ≠ pair → d1.mem.cell x = d.mem.cell x)
    (hrun : KeyValue.ParseMem fuel str isRoot this (some pair) dL
      = some (KeyValueErrorCode.NONE, rest, d2))
    (hL1 : dL.mem = linkChild d1.mem this (kids this).getLast? pair) (hL2 : dL.root = d1.root)
    (hL3 : dL.readPool = d1.readPool) (hL4 : dL.writePool = d1.writePool)
    (hL5 : dL.writePoolStrings = d1.writePoolStrings) :
    ∃ nodes2 kids2, nodes2.length + rest.length ≤ nodes.length + 1 + str.length
      ∧ d2.Shape nodes2 kids2 (fun x => isOpen x ∧ x ≠ this)
      ∧ Growth d d2 nodes nodes2 kids kids2 this (fun _ => False) := by
  have hpt : pair ≠ this := by
    rcases hthis with ht | ht
    · omega
    · exact fun heq => hnot (heq ▸ ht)
  have hne : ∀ x, (x = d.root ∨ x ∈ nodes) → x ≠ pair := by
    intro x hx heq
    rcases hx with hx | hx
    · omega
    · exact hnot (heq ▸ hx)
  have hin : ∀ x, (x = d.root ∨ x ∈ nodes) → (x = d1.root ∨ x ∈ pair :: nodes) :=
    fun x hx => hx.imp (fun hx => by rw [hroot]; exact hx) (List.mem_cons_of_mem _)
  obtain ⟨nodes2, kids2, hlen, hs2, g1, g2, g3, g4, g5⟩ :=
    parse_link fuel ih str isRoot this pair d1 dL (pair :: nodes) kids isOpen rest d2 hs1
      (hin this hthis) (by rw [hcell this (Ne.symm hpt)]; exact hnode) hopen
      (List.mem_cons_self _ _) hpt (fun y hy => hnot (hs.kidsNodes y pair hy))
      hL1 hL2 hL3 hL4 hL5 hrun
  simp only [List.length_cons] at hlen
  refine ⟨nodes2, kids2, hlen, hs2, by rw [g1, hroot],
    fun x hx => g2 x (List.mem_cons_of_mem _ hx),
    fun x hx hxn => g3 x hx (hin x hxn), ?_, ?_⟩
  · intro y c hc hcn
    rcases g4 y c hc (List.mem_cons_of_mem _ hcn) with h4 | h4
    · exact Or.inl h4
    · exact absurd (h4 ▸ hcn) hnot
  · intro x hx
    rw [g5 x (hin x hx), hcell x (hne x hx)]

/-- The loop of `Parse` after `Create()` has returned the object `pair` for a block. -/
theorem parse_block (fuel : Nat) (ih : ParseSpec fuel) (str3 : List Nat) (isRoot : Bool)
    (this pair : Nat) (d dA d3 dL : Document) (nodes : List Nat) (kids : Nat → List Nat)
    (isOpen : Nat → Prop) (rest : List Nat) (rest3 : List Nat) (d2 : Document)
    (pairkey : List Nat)
    (hs : d.Shape nodes kids isOpen) (hthis : this = d.root ∨ this ∈ nodes)
    (hnode : (d.mem.cell this).isNode = true) (hopen : isOpen this)
    (hsA : dA.Shape (pair :: nodes) kids isOpen) (hnot : pair ∉ nodes) (hgt : d.root < pair)
    (hroot : dA.root = d.root) (hcell : ∀ x, x ≠ pair → dA.mem.cell x = d.mem.cell x)
    (hpn : (dA.mem.cell pair).isNode = true)
    (hnested : KeyValue.ParseMem fuel str3 false pair none dA
      = some (KeyValueErrorCode.NONE, rest3, d3))
    (hrun : KeyValue.ParseMem fuel rest3 isRoot this (some pair) dL
      = some (KeyValueErrorCode.NONE, rest, d2))
    (hL1 : dL.mem = linkChild (d3.mem.write pair { d3.mem.cell pair with key := pairkey })
      this (kids this).getLast? pair)
    (hL2 : dL.root = d3.root)
    (hL3 : dL.readPool = d3.readPool) (hL4 : dL.writePool = d3.writePool)
    (hL5 : dL.writePoolStrings = d3.writePoolStrings) :
    ∃ nodes2 kids2, nodes2.length + rest.length ≤ nodes.length + 1 + str3.length
      ∧ d2.Shape nodes2 kids2 (fun x => isOpen x ∧ x ≠ this)
      ∧ Growth d d2 nodes nodes2 kids kids2 this (fun _ => False) := by
  have hpt : pair ≠ this := by
    rcases hthis with ht | ht
    · omega
    · exact fun heq => hnot (heq ▸ ht)
  have hne : ∀ x, (x = d.root ∨ x ∈ nodes) → x ≠ pair := by
    intro x hx heq
    rcases hx with hx | hx
    · omega
    · exact hnot (heq ▸ hx)
  have hin : ∀ x, (x = d.root ∨ x ∈ nodes) → (x = dA.root ∨ x ∈ pair :: nodes) :=
    fun x hx => hx.imp (fun hx => by rw [hroot]; exact hx) (List.mem_cons_of_mem _)
  have hkp : kids pair = [] := by
    rcases hs.kidsOwn pair with (hx | hx) | hx
    · omega
    · exact absurd hx hnot
    · exact hx
  -- the nested call
  have hsA2 : dA.Shape (pair :: nodes) kids (fun x => isOpen x ∨ x = pair) :=
    shape_open dA _ kids isOpen _ hsA (fun x hx => Or.inl hx)
  obtain ⟨nodes3, kids3, hlen3, hs3, f1, f2, f3, f4, f5⟩ :=
    ih str3 false pair none dA (pair :: nodes) kids (fun x => isOpen x ∨ x = pair) rest3 d3 hsA2
      (Or.inr (List.mem_cons_self _ _)) hpn (Or.inr rfl) (by rw [hkp]; rfl) hnested
  have hs3b : d3.Shape nodes3 kids3 isOpen :=
    shape_open d3 nodes3 kids3 _ isOpen hs3 (fun x hx => hx.1.resolve_right hx.2)
  have hinv0 : INVALID ≠ pair := by unfold INVALID; omega
  -- the assignment of the key
  have hs4 : ({ d3 with mem := d3.mem.write pair { d3.mem.cell pair with key := pairkey } } :
      Document).Shape nodes3 kids3 isOpen := by
    refine shape_congr d3 _ nodes3 kids3 isOpen hs3b
      (poolsOK_mem d3 _ hs3b.pools rfl rfl rfl rfl rfl rfl) rfl rfl (fun x hx => hx)
      (fun x hx => hx) ?_ ?_
    · show (d3.mem.write pair _).cell INVALID = _
      rw [write_cell_other _ _ _ _ hinv0]
    · intro x
      show ((d3.mem.write pair _).cell x).next = _ ∧ _
      by_cases hx : x = pair
      · subst hx
        rw [write_cell_same]
        exact ⟨rfl, rfl, rfl, rfl, rfl⟩
      · rw [write_cell_other _ _ _ _ hx]
        exact ⟨rfl, rfl, rfl, rfl, rfl⟩
  have hk3 : kids3 this = kids this := f3 this (Ne.symm hpt) (hin this hthis)
  have hin3 : ∀ x, (x = d.root ∨ x ∈ nodes) → (x = d3.root ∨ x ∈ nodes3) :=
    fun x hx => (hin x hx).imp (fun hx => by rw [f1]; exact hx) (f2 x)
  have horph : ∀ y, pair ∉ kids3 y := by
    intro y hy
    rcases f4 y pair hy (List.mem_cons_self _ _) with h4 | h4
    · exact hnot (hs.kidsNodes y pair h4)
    · exact h4
  obtain ⟨nodes2, kids2, hlen2, hs2, g1, g2, g3, g4, g5⟩ :=
    parse_link fuel ih rest3 isRoot this pair _ dL nodes3 kids3 isOpen rest d2 hs4
      (hin3 this hthis)
      (by
        show ((d3.mem.write pair _).cell this).isNode = true
        rw [write_cell_other _ _ _ _ (Ne.symm hpt), f5 this (hin this hthis),
          hcell this (Ne.symm hpt)]
        exact hnode)
      hopen (f2 pair (List.mem_cons_self _ _)) hpt horph (by rw [hk3]; exact hL1) hL2 hL3 hL4
      hL5 hrun
  simp only [List.length_cons] at hlen3
  refine ⟨nodes2, kids2, by omega, hs2, ?_, fun x hx => g2 x (f2 x (List.mem_cons_of_mem _ hx)),
    ?_, ?_, ?_⟩
  · rw [g1]
    show d3.root = d.root
    rw [f1, hroot]
  · intro x hx hxn
    rw [g3 x hx (hin3 x hxn), f3 x (hne x hxn) (hin x hxn)]
  · intro y c hc hcn
    rcases g4 y c hc (f2 c (List.mem_cons_of_mem _ hcn)) with h4 | h4
    · rcases f4 y c h4 (List.mem_cons_of_mem _ hcn) with h5 | h5
      · exact Or.inl h5
      · exact absurd h5 id
    · exact absurd (h4 ▸ hcn) hnot
  · intro x hx
    rw [g5 x (hin3 x hx)]
    show ((d3.mem.write pair _).cell x).isNode = _
    rw [write_cell_other _ _ _ _ (hne x hx), f5 x (hin x hx), hcell x (hne x hx)]

/-- Every successful call of `KeyValue::Parse` keeps the shape of the document. -/
theorem ParseMem_spec : ∀ fuel, ParseSpec fuel := by
  intro fuel
  induction fuel with
  | zero =>
    intro str isRoot this lastKV d nodes kids isOpen rest d2 _ _ _ _ _ h
    simp [KeyValue.ParseMem] at h
  | succ fuel ih =>
    intro str isRoot this lastKV d nodes kids isOpen rest d2 hs hthis hnode hopen hlast h
    rw [KeyValue.ParseMem] at h
    have hkl := parseKey_length str isRoot
    cases hk : parseKey (SkipWhitespace str) isRoot with
    | ret e s =>
      rw [hk] at h
      simp only at h
      injection h with h
      injection h with he _
      exact absurd he (parseKey_ret_ne _ _ _ _ hk)
    | done s =>
      rw [hk] at h
      simp only at h
      injection h with h
      injection h with _ h
      injection h with hrest hd
      subst hd
      subst hlast
      subst hrest
      rw [hk] at hkl
      refine ⟨nodes, kids, by simp only at hkl; omega,
        shape_parseEnd d nodes kids isOpen this hs hthis hnode, rfl,
        fun x hx => hx, fun x _ _ => rfl, fun y c hc _ => Or.inl hc, fun x _ => ?_⟩
      exact parseEnd_isNode _ _ _ _
    | key s pairkey =>
      rw [hk] at h hkl
      simp only at h hkl
      have hsw := (SkipWhitespace_spec s).1
      subst hlast
      have hs0 : ({ d with bufferSize := d.bufferSize + (pairkey.length + 1) } :
          Document).Shape nodes kids isOpen := shape_of_eq d _ _ _ _ hs rfl rfl rfl rfl rfl
      split_ifs at h with c1 c2 c3 c4
      · split at h
        · rename_i e3 str3 stringValue heq
          obtain ⟨pair, d1, hK, hs1, hnot, hgt, hroot, _, _, hcell, _⟩ :=
            shape_createKVPair _ nodes kids isOpen pairkey stringValue false hs0
          rw [hK] at h
          simp only at h
          have hq := ReadQuotedString_length (SkipWhitespace s)
          rw [heq] at hq
          simp only at hq
          obtain ⟨nodes2, kids2, hlen, hrest⟩ :=
            parse_leaf fuel ih _ isRoot this pair d d1 _ nodes kids isOpen rest d2 hs hthis
              hnode hopen hs1 hnot hgt hroot hcell h rfl rfl rfl rfl rfl
          exact ⟨nodes2, kids2, by omega, hrest⟩
        · rename_i e3 str3 v3 hne heq
          injection h with h
          injection h with he _
          subst he
          exact (hne rfl).elim
      · obtain ⟨pair, dC, hK, hsA, hnot, hgt, hroot, _, _, hcell⟩ :=
          shape_createNode _ nodes kids isOpen false hs0
        rw [hK] at h
        simp only at h
        split at h
        · cases h
        · rename_i error str3 d3 hnested
          split_ifs at h with he
          · subst he
            obtain ⟨nodes2, kids2, hlen, hrest⟩ :=
              parse_block fuel ih _ isRoot this pair d _ d3 _ nodes kids isOpen rest str3
                d2 pairkey hs hthis hnode hopen hsA hnot hgt hroot
                (fun x hx => by
                  show (dC.mem.write pair _).cell x = _
                  rw [write_cell_other _ _ _ _ hx, hcell])
                (by
                  show ((dC.mem.write pair _).cell pair).isNode = true
                  rw [write_cell_same])
                hnested h rfl rfl rfl rfl rfl
            simp only [List.length_tail] at hlen
            exact ⟨nodes2, kids2, by omega, hrest⟩
          · injection h with h
            injection h with he2 _
            exact absurd he2 he
      · cases h
      · cases h
      · obtain ⟨pair, d1, hK, hs1, hnot, hgt, hroot, _, _, hcell, _⟩ :=
          shape_createKVPair _ nodes kids isOpen pairkey
            (ReadQuotelessString (SkipWhitespace s)).1 false hs0
        rw [hK] at h
        simp only at h
        have hq := ReadQuotelessString_length (SkipWhitespace s)
        obtain ⟨nodes2, kids2, hlen, hrest⟩ :=
          parse_leaf fuel ih _ isRoot this pair d d1 _ nodes kids isOpen rest d2 hs hthis
            hnode hopen hs1 hnot hgt hroot hcell h rfl rfl rfl rfl rfl
        exact ⟨nodes2, kids2, by omega, hrest⟩

theorem allSlots_new (top : Nat) : allSlots (KeyValuePool.new top).1.chunks = [] := by
  simp [KeyValuePool.new, PoolChunk.new, allSlots, PoolChunk.slots, POOL_STARTING_LENGTH]

theorem new_top (top : Nat) : (KeyValuePool.new top).2 = top := by
  simp [KeyValuePool.new, PoolChunk.new, POOL_STARTING_LENGTH]

/-- The document the constructor `KeyValueRoot::KeyValueRoot()` builds has the shape of a
document whose root has no children; the call of `Parse` on the root is about to run. -/
theorem shape_new (m : Memory) (root : Nat) (h0 : m.cell INVALID = invalidCell)
    (h1 : root ≠ INVALID) (h2 : root < m.top) (h3 : (m.cell root).next ≠ some root) :
    (Document.new m root).Shape [] (fun _ => []) (fun x => x = root) := by
  have hc : (Document.new m root).mem.cell root
      = { m.cell root with key := [], isNode := true, children := none, lastChild := none,
                           childCount := 0 } := by
    simp [Document.new]
  refine
    { pools := ?_
      unsolid := rfl
      invalid := ?_
      rootValid := h1
      rootNode := ?_
      rootNext := ?_
      issued := fun a ha => absurd ha (List.not_mem_nil _)
      kidsNodup := fun _ => List.nodup_nil
      kidsNodes := fun _ c hc => absurd hc (List.not_mem_nil _)
      kidsOwn := fun _ => Or.inr rfl
      kidsSelf := fun _ => List.not_mem_nil _
      kidsApart := fun _ _ _ c hc => absurd hc (List.not_mem_nil _)
      leaf := fun x hx => absurd hx (List.not_mem_nil _)
      node := ?_ }
  · have e1 := new_top m.top
    have i1 : (KeyValuePool.new m.top).1.Inv m.top := by
      have := new_inv m.top
      rw [e1] at this
      exact this
    have hr : (Document.new m root).readPool = (KeyValuePool.new m.top).1 := rfl
    have hw : (Document.new m root).writePool = (KeyValuePool.new m.top).1 := by
      show (KeyValuePool.new (KeyValuePool.new m.top).2).1 = _
      rw [e1]
    have hws : (Document.new m root).writePoolStrings = (KeyValuePool.new m.top).1 := by
      show (KeyValuePool.new (KeyValuePool.new (KeyValuePool.new m.top).2).2).1 = _
      rw [e1, e1]
    have ht : (Document.new m root).mem.top = m.top := by
      show (KeyValuePool.new (KeyValuePool.new (KeyValuePool.new m.top).2).2).2 = m.top
      rw [e1, e1, e1]
    unfold Document.PoolsOK
    rw [hr, hw, hws, ht]
    refine ⟨i1, i1, i1, ?_, ?_, h2, ?_⟩
    · intro a ha
      rw [allSlots_new] at ha
      exact absurd ha (List.not_mem_nil _)
    · intro a ha
      rw [allSlots_new] at ha
      rcases ha with ha | ha <;> exact absurd ha (List.not_mem_nil _)
    · intro a ha
      have : false = true := ha
      cases this
  · have : (Document.new m root).mem.cell INVALID = m.cell INVALID := by
      simp [Document.new, Memory.write, Ne.symm h1]
    rw [this]
    exact h0
  · show ((Document.new m root).mem.cell root).isNode = true
    rw [hc]
  · show ((Document.new m root).mem.cell root).next ≠ some root
    rw [hc]
    exact h3
  · intro x hx _
    have hxr : x = root := by
      rcases hx with hx | hx
      · exact hx
      · exact absurd hx (List.not_mem_nil _)
    subst hxr
    refine ⟨⟨?_, ⟨none, ?_⟩, fun _ => ⟨?_, ?_⟩⟩, fun hno => absurd rfl hno⟩
    · rw [hc]
      rfl
    · show ((Document.new m x).mem.cell x).children = none
      rw [hc]
    · rw [hc]
    · rw [hc]

/-- A successful `KeyValueRoot::Parse` on a fresh document leaves a document in linked form. -/
theorem shape_parse (m : Memory) (root : Nat) (str : List Nat) (d : Document)
    (h0 : m.cell INVALID = invalidCell) (h1 : root ≠ INVALID) (h2 : root < m.top)
    (h3 : (m.cell root).next ≠ some root)
    (h : KeyValueRoot.ParseMem (Document.new m root) (some str)
      = some (KeyValueErrorCode.NONE, d)) :
    ∃ nodes kids, d.Shape nodes kids (fun _ => False) := by
  have hs := shape_new m root h0 h1 h2 h3
  simp only [KeyValueRoot.ParseMem] at h
  split at h
  · cases h
  · rename_i err rest d1 hrun
    split_ifs at h with he hb
    · subst he
      split at h
      · cases h
      · injection h with h
        injection h with _ hd
        subst hd
        obtain ⟨nodes, kids, _, hs2, _⟩ :=
          ParseMem_spec _ str true root none _ [] (fun _ => []) (fun x => x = root) rest d1 hs
            (Or.inl rfl) hs.rootNode rfl rfl hrun
        exact ⟨nodes, kids, shape_open _ _ _ _ _ hs2 (fun x hx => hx.2 hx.1)⟩
    · subst he
      injection h with h
      injection h with _ hd
      subst hd
      obtain ⟨nodes, kids, _, hs2, _⟩ :=
        ParseMem_spec _ str true root none _ [] (fun _ => []) (fun x => x = root) rest d1 hs
          (Or.inl rfl) hs.rootNode rfl rfl hrun
      exact ⟨nodes, kids, shape_open _ _ _ _ _ hs2 (fun x hx => hx.2 hx.1)⟩
    · injection h with h
      injection h with he2 _
      exact absurd he2 he

/-- The links of `Add` and `AddNode` keep the shape of the document: the new object, which
no object points to yet, becomes the last child of the interior node at `this`. -/
theorem shape_append (d d3 : Document) (nodes : List Nat) (kids : Nat → List Nat)
    (this newKV : Nat) (h : d.Shape nodes kids (fun _ => False))
    (hthis : this = d.root ∨ this ∈ nodes) (hnode : (d.mem.cell this).isNode = true)
    (hp : newKV ∈ nodes) (hpt : newKV ≠ this) (horph : ∀ y, newKV ∉ kids y)
    (hpools : d3.PoolsOK) (hroot : d3.root = d.root)
    (hsol : d3.mem.solidified = d.mem.solidified)
    (hir : ∀ x ∈ d.readPool.issued, x ∈ d3.readPool.issued)
    (hiw : ∀ x ∈ d.writePool.issued, x ∈ d3.writePool.issued)
    (hnew : (d3.mem.cell newKV).next = none
      ∧ (d3.mem.cell newKV).isNode = (d.mem.cell newKV).isNode
      ∧ (d3.mem.cell newKV).children = (d.mem.cell newKV).children
      ∧ (d3.mem.cell newKV).lastChild = (d.mem.cell newKV).lastChild
      ∧ (d3.mem.cell newKV).childCount = (d.mem.cell newKV).childCount)
    (hcell : d3.mem.cell this
      = { d.mem.cell this with
          children := if kids this = [] then some newKV else (d.mem.cell this).children
          lastChild := some newKV
          childCount := (d.mem.cell this).childCount + 1 })
    (hlast : ∀ l, (kids this).getLast? = some l →
      d3.mem.cell l = { d.mem.cell l with next := some newKV })
    (hother : ∀ x, x ≠ this → x ≠ newKV → (kids this).getLast? ≠ some x →
      d3.mem.cell x = d.mem.cell x) :
    d3.Shape nodes (Function.update kids this (kids this ++ [newKV])) (fun _ => False) := by
  have hgt := shape_node_gt d nodes kids _ h newKV hp
  have hnl : (kids this).getLast? ≠ some newKV :=
    fun hx => horph this (List.mem_of_mem_getLast? hx)
  have hok0 : NodeOK d.mem this (kids this) := (h.node this hthis hnode).2 (fun hx => hx)
  have hok : NodeOK d3.mem this (kids this ++ [newKV]) := by
    obtain ⟨k1, k2, k3⟩ := hok0
    refine ⟨?_, ?_, ?_⟩
    · rw [hcell]
      simp [k1]
    · by_cases hk : kids this = []
      · rw [hcell, hk]
        simp only [if_true, List.nil_append]
        exact ⟨rfl, hnew.1⟩
      · obtain ⟨init, l, hil⟩ := eq_snoc_of_ne_nil (kids this) hk
        have hnd := h.kidsNodup this
        have hself := h.kidsSelf this
        rw [hil] at k2 hnd hself
        have hl : (kids this).getLast? = some l := by rw [hil]; exact getLast_snoc init l
        rw [hcell, if_neg hk]
        show ChainFrom d3.mem (d.mem.cell this).children (kids this ++ [newKV]) none
        rw [hil]
        have hc1 := chainFrom_setNext d.mem init l _ none (some newKV) hnd k2
        have hc2 : ChainFrom d3.mem (d.mem.cell this).children (init ++ [l]) (some newKV) := by
          refine chainFrom_frame _ _ _ _ _ (fun a ha => ?_) hc1
          by_cases hal : a = l
          · subst hal
            rw [hlast a hl, write_cell_same]
          · have hat : a ≠ this := fun heq => hself (heq ▸ ha)
            have han : a ≠ newKV := fun heq => horph this (by rw [hil, ← heq]; exact ha)
            rw [hother a hat han (by rw [hl]; exact fun hx => hal (Option.some.inj hx).symm),
              write_cell_other _ _ _ _ hal]
        have hc3 := chainFrom_snoc d3.mem newKV _ _ hc2
        rw [hnew.1] at hc3
        exact hc3
    · rw [hcell]
      simp
  refine shape_update_gen d d3 nodes kids _ _ this (kids this ++ [newKV]) h hthis ?_ ?_ ?_ ?_
    hpools hroot hsol hir hiw ?_ ?_ ?_ ?_ (nodeOK_open _ _ _ hok) (fun _ => hok)
    (fun x _ hx => hx)
  · exact List.Nodup.append (h.kidsNodup this) (List.nodup_singleton _)
      (by simpa using horph this)
  · intro c hc
    rcases List.mem_append.1 hc with hc | hc
    · exact h.kidsNodes this c hc
    · rw [List.mem_singleton.1 hc]; exact hp
  · intro hc
    rcases List.mem_append.1 hc with hc | hc
    · exact h.kidsSelf this hc
    · exact hpt (List.mem_singleton.1 hc).symm
  · intro y hy c hc
    rcases List.mem_append.1 hc with hc | hc
    · exact h.kidsApart this y (Ne.symm hy) c hc
    · rw [List.mem_singleton.1 hc]; exact horph y
  · have h0 := shape_valid_ne d nodes kids _ h this hthis
    refine hother INVALID (Ne.symm h0) (by unfold INVALID; omega) ?_
    intro hx
    have := shape_kid_ne_root d nodes kids _ h this INVALID (List.mem_of_mem_getLast? hx)
    unfold INVALID at this
    omega
  · intro x hx
    by_cases hxn : x = newKV
    · subst hxn
      exact hnew.2
    · by_cases hxl : (kids this).getLast? = some x
      · rw [hlast x hxl]
        exact ⟨rfl, rfl, rfl, rfl⟩
      · rw [hother x hx hxn hxl]
        exact ⟨rfl, rfl, rfl, rfl⟩
  · rw [hcell]
    exact hnode
  · intro x hx
    by_cases hxt : x = this
    · subst hxt
      rw [hcell]
    · have hxl : (kids this).getLast? ≠ some x := by
        intro hlx
        have hmem : x ∈ kids this := List.mem_of_mem_getLast? hlx
        rcases hx with hx | ⟨y, hy, hxy⟩
        · have := shape_kid_ne_root d nodes kids _ h this x hmem
          omega
        · exact h.kidsApart y this hy x hxy hmem
      have hxn : x ≠ newKV := by
        intro heq
        rcases hx with hx | ⟨y, _, hxy⟩
        · omega
        · exact horph y (heq ▸ hxy)
      rw [hother x hxt hxn hxl]

/-- `Create()` on the pool of the strings: it returns, and the pools stay as constructed. -/
theorem poolsOK_strings (d : Document) (h : d.PoolsOK) :
    ∃ a s1 t1, d.writePoolStrings.Create d.mem.top = some (a, s1, t1) ∧ d.mem.top ≤ t1
      ∧ ∀ d2 : Document, d2.readPool = d.readPool → d2.writePool = d.writePool →
          d2.writePoolStrings = s1 → d2.root = d.root → d2.mem.top = t1 →
          d2.mem.pooled = d.mem.pooled → d2.PoolsOK := by
  obtain ⟨hr, hw, hs, hdis, hroot, htop, hpooled⟩ := h
  obtain ⟨a, s1, t1, h1, h2, h3, _⟩ := Create_slots d.writePoolStrings d.mem.top hs
  refine ⟨a, s1, t1, h1, h3, ?_⟩
  intro d2 e1 e2 e3 e4 e5 e6
  unfold Document.PoolsOK
  rw [e1, e2, e3, e4, e5, e6]
  refine ⟨inv_mono _ _ _ hr h3, inv_mono _ _ _ hw h3, h2, hdis, hroot, by omega, ?_⟩
  intro x hx
  have := hpooled x hx
  omega

theorem nodeOK_children (m : Memory) (this : Nat) (ks : List Nat) (h : NodeOK m this ks) :
    ((m.cell this).children = none ↔ ks = []) ∧ ((m.cell this).childCount = 0 ↔ ks = []) := by
  obtain ⟨h1, h2, _⟩ := h
  cases ks with
  | nil =>
    have : (m.cell this).children = none := h2
    simp [this, h1]
  | cons a rest =>
    have : (m.cell this).children = some a := h2.1
    simp [this, h1]

/-- The cells after the links of `Add` and `AddNode`: `m1` is the memory after the link
behind the last child, or as first child, and `m2` the memory after `lastChild` and
`childCount` are set. -/
theorem append_cells (m m1 m2 : Memory) (this newKV : Nat) (ks : List Nat)
    (hself : this ∉ ks)
    (h1 : (ks = [] ∧ m1 = m.write this { m.cell this with children := some newKV })
      ∨ (∃ l, ks.getLast? = some l ∧ m1 = m.write l { m.cell l with next := some newKV }))
    (h2 : m2 = m1.write this
      { m1.cell this with lastChild := some newKV,
                          childCount := (m1.cell this).childCount + 1 }) :
    m2.top = m.top ∧ m2.pooled = m.pooled ∧ m2.solidified = m.solidified
      ∧ m2.cell this
          = { m.cell this with
              children := if ks = [] then some newKV else (m.cell this).children
              lastChild := some newKV
              childCount := (m.cell this).childCount + 1 }
      ∧ (∀ l, ks.getLast? = some l → m2.cell l = { m.cell l with next := some newKV })
      ∧ (∀ x, x ≠ this → ks.getLast? ≠ some x → m2.cell x = m.cell x) := by
  subst h2
  rcases h1 with ⟨hk, h1⟩ | ⟨l, hl, h1⟩
  · subst h1
    refine ⟨rfl, rfl, rfl, ?_, ?_, ?_⟩
    · rw [write_cell_same, write_cell_same, if_pos hk]
    · intro l hl
      rw [hk] at hl
      cases hl
    · intro x hx _
      rw [write_cell_other _ _ _ _ hx, write_cell_other _ _ _ _ hx]
  · subst h1
    have hlt : this ≠ l := fun heq => hself (heq ▸ List.mem_of_mem_getLast? hl)
    have hk : ks ≠ [] := fun hk => by
      rw [hk] at hl
      cases hl
    refine ⟨rfl, rfl, rfl, ?_, ?_, ?_⟩
    · rw [write_cell_same, write_cell_other _ _ _ _ hlt, if_neg hk]
    · intro l2 hl2
      rw [hl] at hl2
      cases hl2
      rw [write_cell_other _ _ _ _ (Ne.symm hlt), write_cell_same]
    · intro x hxt hx
      rw [hl] at hx
      rw [write_cell_other _ _ _ _ hxt,
        write_cell_other _ _ _ _ (fun heq => hx (by rw [heq]))]

theorem Add_spec (d : Document) (nodes : List Nat) (kids : Nat → List Nat) (this : Nat)
    (keyName value : List Nat) (hs : d.Shape nodes kids (fun _ => False))
    (hthis : this = d.root ∨ this ∈ nodes) (hnode : (d.mem.cell this).isNode = true) :
    ∃ newKV d2, KeyValue.Add d this keyName value = some (some newKV, d2)
      ∧ d2.Shape (newKV :: nodes) (Function.update kids this (kids this ++ [newKV]))
          (fun _ => False)
      ∧ newKV ∉ nodes ∧ d.root < newKV ∧ d2.root = d.root
      ∧ d2.mem.cell newKV
          = { d.mem.cell newKV with key := cstr keyName, value := cstr value, children := none,
                                    lastChild := none, isNode := false, next := none }
      ∧ d2.mem.cell this
          = { d.mem.cell this with
              children := if kids this = [] then some newKV else (d.mem.cell this).children
              lastChild := some newKV
              childCount := (d.mem.cell this).childCount + 1 }
      ∧ (∀ l, (kids this).getLast? = some l →
          d2.mem.cell l = { d.mem.cell l with next := some newKV })
      ∧ (∀ x, x ≠ this → x ≠ newKV → (kids this).getLast? ≠ some x →
          d2.mem.cell x = d.mem.cell x) := by
  have hsol := hs.unsolid
  obtain ⟨a1, s1, t1, hC1, ht1, hP1⟩ := poolsOK_strings d hs.pools
  have hp1 := hP1 { d with writePoolStrings := s1, mem := { d.mem with top := t1 } }
    rfl rfl rfl rfl rfl rfl
  obtain ⟨a2, s2, t2, hC2, ht2, hP2⟩ := poolsOK_strings _ hp1
  have hp2 := hP2 { d with writePoolStrings := s2, mem := { d.mem with top := t2 } }
    rfl rfl rfl rfl rfl rfl
  have hs1 : ({ d with writePoolStrings := s2, mem := { d.mem with top := t2 } } :
      Document).Shape nodes kids (fun _ => False) :=
    shape_congr d _ nodes kids _ hs hp2 rfl rfl (fun x hx => hx) (fun x hx => hx) rfl
      (fun x => ⟨rfl, rfl, rfl, rfl, rfl⟩)
  obtain ⟨newKV, dK, hK, hsK, hnot, hgt, hrootK, _, _, hcellK, hnewK⟩ :=
    shape_createKVPair _ nodes kids _ (cstr keyName) (cstr value) true hs1
  have hpt : newKV ≠ this := by
    rcases hthis with ht | ht
    · have : d.root < newKV := hgt
      omega
    · exact fun heq => hnot (heq ▸ ht)
  have hok0 : NodeOK d.mem this (kids this) := (hs.node this hthis hnode).2 (fun hx => hx)
  obtain ⟨hch, _⟩ := nodeOK_children _ _ _ hok0
  have hlc : (d.mem.cell this).lastChild = (kids this).getLast? := hok0.2.2
  have hthisK : dK.mem.cell this = d.mem.cell this := hcellK this (Ne.symm hpt)
  have key : ∃ d2, KeyValue.Add d this keyName value = some (some newKV, d2)
      ∧ d2.root = dK.root ∧ d2.readPool = dK.readPool ∧ d2.writePool = dK.writePool
      ∧ d2.writePoolStrings = dK.writePoolStrings ∧ d2.mem.top = dK.mem.top
      ∧ d2.mem.pooled = dK.mem.pooled ∧ d2.mem.solidified = dK.mem.solidified
      ∧ d2.mem.cell newKV = { dK.mem.cell newKV with next := none }
      ∧ d2.mem.cell this
          = { dK.mem.cell this with
              children := if kids this = [] then some newKV else (dK.mem.cell this).children
              lastChild := some newKV
              childCount := (dK.mem.cell this).childCount + 1 }
      ∧ (∀ l, (kids this).getLast? = some l →
          d2.mem.cell l = { dK.mem.cell l with next := some newKV })
      ∧ (∀ x, x ≠ this → x ≠ newKV → (kids this).getLast? ≠ some x →
          d2.mem.cell x = dK.mem.cell x) := by
    have hm : ∀ x, x ≠ newKV →
        (dK.mem.write newKV { dK.mem.cell newKV with next := none }).cell x = d.mem.cell x :=
      fun x hx => by rw [write_cell_other _ _ _ _ hx, hcellK x hx]
    have hkn : ∀ c ∈ kids this, c ≠ newKV :=
      fun c hc heq => hnot (heq ▸ hs.kidsNodes this c hc)
    have hmt := hm this (Ne.symm hpt)
    have key1 : ∃ m1 m2,
        ((kids this = [] ∧ m1 = (dK.mem.write newKV { dK.mem.cell newKV with next := none }).write
            this { (dK.mem.write newKV { dK.mem.cell newKV with next := none }).cell this with
                   children := some newKV })
          ∨ (∃ l, (kids this).getLast? = some l
              ∧ m1 = (dK.mem.write newKV { dK.mem.cell newKV with next := none }).write l
                  { (dK.mem.write newKV { dK.mem.cell newKV with next := none }).cell l with
                    next := some newKV }))
        ∧ m2 = m1.write this
            { m1.cell this with lastChild := some newKV,
                                childCount := (m1.cell this).childCount + 1 }
        ∧ KeyValue.Add d this keyName value = some (some newKV, { dK with mem := m2 }) := by
      unfold KeyValue.Add
      rw [if_neg (by rw [hsol]; simp)]
      simp only [hC1, hC2, hK]
      by_cases hk : kids this = []
      · have e1 : ((dK.mem.write newKV { dK.mem.cell newKV with next := none }).cell
            this).children = none := by rw [hmt]; exact hch.2 hk
        simp only at e1
        simp only [e1, ne_eq, not_true_eq_false, if_false]
        exact ⟨_, _, Or.inl ⟨hk, rfl⟩, rfl, rfl⟩
      · obtain ⟨init, l, hil⟩ := eq_snoc_of_ne_nil (kids this) hk
        have hl : (kids this).getLast? = some l := by rw [hil]; exact getLast_snoc init l
        have e1 : ((dK.mem.write newKV { dK.mem.cell newKV with next := none }).cell
            this).children ≠ none := by rw [hmt]; exact fun hx => hk (hch.1 hx)
        have e2 : ((dK.mem.write newKV { dK.mem.cell newKV with next := none }).cell
            this).lastChild = some l := by rw [hmt, hlc, hl]
        simp only at e1 e2
        simp only [e1, e2, ne_eq, not_false_eq_true, if_true]
        exact ⟨_, _, Or.inr ⟨l, hl, rfl⟩, rfl, rfl⟩
    obtain ⟨m1, m2, hm1, hm2, hAdd⟩ := key1
    obtain ⟨l1, l2, l3, l4, l5, l6⟩ :=
      append_cells _ m1 m2 this newKV (kids this) (hs.kidsSelf this) hm1 hm2
    refine ⟨_, hAdd, rfl, rfl, rfl, rfl, l1, l2, l3, ?_, ?_, ?_, ?_⟩
    · show m2.cell newKV = _
      rw [l6 newKV hpt (fun hx => hkn newKV (List.mem_of_mem_getLast? hx) rfl),
        write_cell_same]
    · show m2.cell this = _
      rw [l4, write_cell_other _ _ _ _ (Ne.symm hpt)]
    · intro l hl
      show m2.cell l = _
      rw [l5 l hl, write_cell_other _ _ _ _ (hkn l (List.mem_of_mem_getLast? hl))]
    · intro x hxt hxn hxl
      show m2.cell x = _
      rw [l6 x hxt hxl, write_cell_other _ _ _ _ hxn]
  obtain ⟨d2, hAdd, r1, r2, r3, r4, r5, r6, r7, c1, c2, c3, c4⟩ := key
  refine ⟨newKV, d2, hAdd, ?_, hnot, hgt, by rw [r1, hrootK], by rw [c1, hnewK], ?_, ?_, ?_⟩
  · refine shape_append dK d2 (newKV :: nodes) kids this newKV hsK
      (hthis.imp (fun hx => by rw [hrootK]; exact hx) (List.mem_cons_of_mem _))
      (by rw [hthisK]; exact hnode) (List.mem_cons_self _ _) hpt
      (fun y hy => hnot (hs.kidsNodes y newKV hy))
      (poolsOK_mem dK d2 hsK.pools r2 r3 r4 r1 r5 r6) r1 r7 (by rw [r2]; exact fun x hx => hx)
      (by rw [r3]; exact fun x hx => hx) ?_ c2 c3 c4
    rw [c1]
    exact ⟨rfl, rfl, rfl, rfl, rfl⟩
  · rw [c2, hthisK]
  · intro l hl
    rw [c3 l hl, hcellK l (fun heq => hnot (heq ▸ hs.kidsNodes this l (List.mem_of_mem_getLast? hl)))]
  · intro x hxt hxn hxl
    rw [c4 x hxt hxn hxl, hcellK x hxn]

theorem AddNode_spec (d : Document) (nodes : List Nat) (kids : Nat → List Nat) (this : Nat)
    (keyName : List Nat) (hs : d.Shape nodes kids (fun _ => False))
    (hthis : this = d.root ∨ this ∈ nodes) (hnode : (d.mem.cell this).isNode = true) :
    ∃ newKV d2, KeyValue.AddNode d this keyName = some (some newKV, d2)
      ∧ d2.Shape (newKV :: nodes) (Function.update kids this (kids this ++ [newKV]))
          (fun _ => False)
      ∧ newKV ∉ nodes ∧ d.root < newKV ∧ d2.root = d.root
      ∧ d2.mem.cell newKV
          = { d.mem.cell newKV with key := cstr keyName, isNode := true, children := none,
                                    lastChild := none, childCount := 0, next := none }
      ∧ d2.mem.cell this
          = { d.mem.cell this with
              children := if kids this = [] then some newKV else (d.mem.cell this).children
              lastChild := some newKV
              childCount := (d.mem.cell this).childCount + 1 }
      ∧ (∀ l, (kids this).getLast? = some l →
          d2.mem.cell l = { d.mem.cell l with next := some newKV })
      ∧ (∀ x, x ≠ this → x ≠ newKV → (kids this).getLast? ≠ some x →
          d2.mem.cell x = d.mem.cell x) := by
  have hsol := hs.unsolid
  obtain ⟨newKV, dC, hC, hsN, hnot, hgt, hrootC, hstrC, _, hcellC⟩ :=
    shape_createNode d nodes kids _ true hs
  have hpC : dC.PoolsOK := poolsOK_mem _ dC hsN.pools rfl rfl rfl rfl rfl rfl
  obtain ⟨a1, s1, t1, hC1, ht1, hP1⟩ := poolsOK_strings dC hpC
  have hpt : newKV ≠ this := by
    rcases hthis with ht | ht
    · omega
    · exact fun heq => hnot (heq ▸ ht)
  have hok0 : NodeOK d.mem this (kids this) := (hs.node this hthis hnode).2 (fun hx => hx)
  obtain ⟨_, hcc⟩ := nodeOK_children _ _ _ hok0
  have hlc : (d.mem.cell this).lastChild = (kids this).getLast? := hok0.2.2
  have hkn : ∀ c ∈ kids this, c ≠ newKV :=
    fun c hc heq => hnot (heq ▸ hs.kidsNodes this c hc)
  have key1 : ∃ m m1 m2,
      m = ({ dC.mem with top := t1 } : Memory).write newKV
          { dC.mem.cell newKV with key := cstr keyName, isNode := true, children := none,
                                   lastChild := none, childCount := 0, next := none }
      ∧ ((kids this = [] ∧ m1 = m.write this { m.cell this with children := some newKV })
          ∨ (∃ l, (kids this).getLast? = some l
              ∧ m1 = m.write l { m.cell l with next := some newKV }))
      ∧ m2 = m1.write this
          { m1.cell this with lastChild := some newKV,
                              childCount := (m1.cell this).childCount + 1 }
      ∧ KeyValue.AddNode d this keyName
          = some (some newKV, { dC with writePoolStrings := s1, mem := m2 }) := by
    unfold KeyValue.AddNode
    rw [if_neg (by rw [hsol]; simp)]
    simp only [hC, hC1]
    have hmt : ((({ dC.mem with top := t1 } : Memory).write newKV
        { dC.mem.cell newKV with key := cstr keyName, isNode := true, children := none,
                                 lastChild := none, childCount := 0, next := none }).cell this)
        = d.mem.cell this := by
      rw [write_cell_other _ _ _ _ (Ne.symm hpt)]
      show dC.mem.cell this = _
      rw [hcellC]
    by_cases hk : kids this = []
    · have e1 : ((({ dC.mem with top := t1 } : Memory).write newKV
          { dC.mem.cell newKV with key := cstr keyName, isNode := true, children := none,
                                   lastChild := none, childCount := 0, next := none }).cell
          this).childCount = 0 := by rw [hmt]; exact hcc.2 hk
      simp only at e1
      rw [if_pos e1]
      exact ⟨_, _, _, rfl, Or.inl ⟨hk, rfl⟩, rfl, rfl⟩
    · obtain ⟨init, l, hil⟩ := eq_snoc_of_ne_nil (kids this) hk
      have hl : (kids this).getLast? = some l := by rw [hil]; exact getLast_snoc init l
      have e1 : ((({ dC.mem with top := t1 } : Memory).write newKV
          { dC.mem.cell newKV with key := cstr keyName, isNode := true, children := none,
                                   lastChild := none, childCount := 0, next := none }).cell
          this).childCount ≠ 0 := by rw [hmt]; exact fun hx => hk (hcc.1 hx)
      have e2 : ((({ dC.mem with top := t1 } : Memory).write newKV
          { dC.mem.cell newKV with key := cstr keyName, isNode := true, children := none,
                                   lastChild := none, childCount := 0, next := none }).cell
          this).lastChild = some l := by rw [hmt, hlc, hl]
      simp only at e1 e2
      rw [if_neg e1]
      simp only [e2]
      exact ⟨_, _, _, rfl, Or.inr ⟨l, hl, rfl⟩, rfl, rfl⟩
  obtain ⟨m, m1, m2, hm, hm1, hm2, hAdd⟩ := key1
  obtain ⟨l1, l2, l3, l4, l5, l6⟩ :=
    append_cells m m1 m2 this newKV (kids this) (hs.kidsSelf this) hm1 hm2
  have hmx : ∀ x, x ≠ newKV → m.cell x = d.mem.cell x := by
    intro x hx
    rw [hm, write_cell_other _ _ _ _ hx]
    show dC.mem.cell x = _
    rw [hcellC]
  have hmn : m.cell newKV
      = { d.mem.cell newKV with key := cstr keyName, isNode := true, children := none,
                                lastChild := none, childCount := 0, next := none } := by
    rw [hm, write_cell_same, hcellC]
  have c1 : m2.cell newKV = m.cell newKV :=
    l6 newKV hpt (fun hx => hkn newKV (List.mem_of_mem_getLast? hx) rfl)
  have hN : ∀ x, x ≠ newKV →
      (dC.mem.write newKV
        { dC.mem.cell newKV with isNode := true, children := none, lastChild := none,
                                 childCount := 0 }).cell x = d.mem.cell x := by
    intro x hx
    rw [write_cell_other _ _ _ _ hx, hcellC]
  have hsN2 : ∃ dN : Document, dN.Shape (newKV :: nodes) kids (fun _ => False)
      ∧ dN.root = dC.root ∧ dN.readPool = dC.readPool ∧ dN.writePool = dC.writePool
      ∧ dN.mem.solidified = dC.mem.solidified
      ∧ (∀ x, x ≠ newKV → dN.mem.cell x = d.mem.cell x)
      ∧ (dN.mem.cell newKV).isNode = true ∧ (dN.mem.cell newKV).children = none
      ∧ (dN.mem.cell newKV).lastChild = none ∧ (dN.mem.cell newKV).childCount = 0 := by
    refine ⟨_, hsN, rfl, rfl, rfl, rfl, hN, ?_, ?_, ?_, ?_⟩
    · show ((dC.mem.write newKV _).cell newKV).isNode = true
      rw [write_cell_same]
    · show ((dC.mem.write newKV _).cell newKV).children = none
      rw [write_cell_same]
    · show ((dC.mem.write newKV _).cell newKV).lastChild = none
      rw [write_cell_same]
    · show ((dC.mem.write newKV _).cell newKV).childCount = 0
      rw [write_cell_same]
  obtain ⟨dN, hsN3, n1, n2, n3, n4, n5, n6, n7, n8, n9⟩ := hsN2
  refine ⟨newKV, _, hAdd, ?_, hnot, hgt, hrootC, by rw [← hmn]; exact c1, ?_, ?_, ?_⟩
  · refine shape_append dN _ (newKV :: nodes) kids this newKV hsN3
      (hthis.imp (fun hx => by rw [hx, n1, hrootC]) (List.mem_cons_of_mem _))
      (by rw [n5 this (Ne.symm hpt)]; exact hnode)
      (List.mem_cons_self _ _) hpt (fun y hy => hnot (hs.kidsNodes y newKV hy))
      (hP1 _ rfl rfl rfl rfl (by rw [l1, hm]; rfl) (by rw [l2, hm]; rfl)) n1.symm
      (by
        show m2.solidified = dN.mem.solidified
        rw [l3, hm, n4]
        rfl)
      (by rw [n2]; exact fun x hx => hx) (by rw [n3]; exact fun x hx => hx) ?_ ?_ ?_ ?_
    · show (m2.cell newKV).next = none ∧ _
      rw [c1, hmn, n6, n7, n8, n9]
      exact ⟨rfl, rfl, rfl, rfl, rfl⟩
    · show m2.cell this = _
      rw [l4, hmx this (Ne.symm hpt), n5 this (Ne.symm hpt)]
    · intro l hl
      have hln := hkn l (List.mem_of_mem_getLast? hl)
      show m2.cell l = _
      rw [l5 l hl, hmx l hln, n5 l hln]
    · intro x hxt hxn hxl
      show m2.cell x = _
      rw [l6 x hxt hxl, hmx x hxn, n5 x hxn]
  · show m2.cell this = _
    rw [l4, hmx this (Ne.symm hpt)]
  · intro l hl
    show m2.cell l = _
    rw [l5 l hl, hmx l (hkn l (List.mem_of_mem_getLast? hl))]
  · intro x hxt hxn hxl
    show m2.cell x = _
    rw [l6 x hxt hxl, hmx x hxn]

theorem chainFrom_next_ne (m : Memory) : ∀ (l : List Nat) (p : Option Nat) (x : Nat),
    ChainFrom m p l none → l.Nodup → x ∈ l → (m.cell x).next ≠ some x
  | [], _, _, _, _, hx => absurd hx (List.not_mem_nil _)
  | a :: rest, p, x, h, hn, hx => by
    obtain ⟨_, h2⟩ := h
    have hn2 := List.nodup_cons.1 hn
    rcases List.mem_cons.1 hx with hxa | hxr
    · subst hxa
      cases rest with
      | nil =>
        have : (m.cell x).next = none := h2
        rw [this]
        simp
      | cons b rest2 =>
        have : (m.cell x).next = some b := h2.1
        rw [this]
        intro hb
        exact hn2.1 (by rw [Option.some.inj hb]; exact List.mem_cons_self _ _)
    · exact chainFrom_next_ne m rest _ x h2 hn2.2 hxr

theorem chainFrom_head (m : Memory) (l : List Nat) (p : Option Nat) (h : ChainFrom m p l none) :
    p = l.head? := by
  cases l with
  | nil => exact h
  | cons a rest => exact h.1

/-- An object of a document in linked form is the root or an object the pools handed out,
and the parent of an object is an interior node. -/
theorem object_node (d : Document) (nodes : List Nat) (kids : Nat → List Nat)
    (isOpen : Nat → Prop) (h : d.Shape nodes kids isOpen) (x : Nat) (hx : d.Object kids x) :
    x = d.root ∨ x ∈ nodes := by
  rcases hx with hx | ⟨y, hy⟩
  · exact Or.inl hx
  · exact Or.inr (h.kidsNodes y x hy)

theorem kids_parent (d : Document) (nodes : List Nat) (kids : Nat → List Nat)
    (isOpen : Nat → Prop) (h : d.Shape nodes kids isOpen) (x y : Nat) (hy : x ∈ kids y) :
    (y = d.root ∨ y ∈ nodes) ∧ (d.mem.cell y).isNode = true := by
  have hne : kids y ≠ [] := fun he => by
    rw [he] at hy
    exact absurd hy (List.not_mem_nil _)
  have hyn : y = d.root ∨ y ∈ nodes := by
    rcases h.kidsOwn y with hy2 | hy2
    · exact hy2
    · exact absurd hy2 hne
  refine ⟨hyn, ?_⟩
  rcases hyn with hr | hn
  · rw [hr]
    exact h.rootNode
  · cases hb : (d.mem.cell y).isNode with
    | true => rfl
    | false => exact absurd (h.leaf y hn hb).1 hne

/-- Every object of a document in linked form is valid (`IsValid()`). -/
theorem object_valid (d : Document) (nodes : List Nat) (kids : Nat → List Nat)
    (h : d.Shape nodes kids (fun _ => False)) (x : Nat) (hx : d.Object kids x) :
    IsValid d.mem x = true := by
  have hxn := object_node d nodes kids _ h x hx
  have h1 : x ≠ INVALID := shape_valid_ne d nodes kids _ h x hxn
  have h2 : (d.mem.cell x).next ≠ some x := by
    rcases hx with hx | ⟨y, hy⟩
    · rw [hx]
      exact h.rootNext
    · obtain ⟨hyn, hyb⟩ := kids_parent d nodes kids _ h x y hy
      have hok := (h.node y hyn hyb).2 (fun hf => hf)
      exact chainFrom_next_ne d.mem (kids y) _ x hok.2.1 (h.kidsNodup y) hy
  have h34 : (d.mem.cell x).children ≠ some x ∧ (d.mem.cell x).lastChild ≠ some x := by
    cases hb : (d.mem.cell x).isNode with
    | true =>
      have hok := (h.node x hxn hb).2 (fun hf => hf)
      constructor
      · rw [chainFrom_head _ _ _ hok.2.1]
        exact fun hh => h.kidsSelf x (List.mem_of_mem_head? hh)
      · rw [hok.2.2]
        exact fun hh => h.kidsSelf x (List.mem_of_mem_getLast? hh)
    | false =>
      rcases hxn with hr | hn
      · rw [hr, h.rootNode] at hb
        cases hb
      · obtain ⟨_, k2, k3⟩ := h.leaf x hn hb
        rw [k2, k3]
        simp
  simp [IsValid, h1, h2, h34.1, h34.2]

/-- `At(i)` on an object of a document in linked form: the `i`-th child, the invalid object
when there is none. -/
theorem InternalAt_shape (d : Document) (nodes : List Nat) (kids : Nat → List Nat)
    (h : d.Shape nodes kids (fun _ => False)) (x : Nat) (hx : d.Object kids x) (i : Nat) :
    InternalAt d.mem x i = some ((kids x)[i]?.getD INVALID) := by
  have hxn := object_node d nodes kids _ h x hx
  have hv := object_valid d nodes kids h x hx
  cases hb : (d.mem.cell x).isNode with
  | false =>
    rcases hxn with hr | hn
    · rw [hr, h.rootNode] at hb
      cases hb
    · rw [(h.leaf x hn hb).1]
      simp [InternalAt, hb]
  | true =>
    obtain ⟨k1, k2, _⟩ := (h.node x hxn hb).2 (fun hf => hf)
    by_cases hi : i < (kids x).length
    · have hat := chainFrom_atLinked d.mem (kids x) _ none i k2 hi
      have hcond : (!(d.mem.cell x).isNode || decide ((d.mem.cell x).childCount ≤ 0)
          || decide (i ≥ (d.mem.cell x).childCount) || !IsValid d.mem x) = false := by
        have a1 : decide ((kids x).length ≤ 0) = false := decide_eq_false (by omega)
        have a2 : decide (i ≥ (kids x).length) = false := decide_eq_false (by omega)
        rw [hb, hv, k1, a1, a2]
        rfl
      unfold InternalAt
      rw [hcond, h.unsolid]
      simp only [Bool.false_eq_true, if_false]
      rw [hat, List.getElem?_eq_getElem hi]
      rfl
    · have hnone : (kids x)[i]? = none := List.getElem?_eq_none (by omega)
      rw [hnone]
      unfold InternalAt
      rw [k1]
      have : decide (i ≥ (kids x).length) = true := by simp; omega
      simp [this]

/-- What `At` reaches from the root of a document in linked form is an object of the
document or the invalid object. -/
theorem atPath_object (d : Document) (nodes : List Nat) (kids : Nat → List Nat)
    (h : d.Shape nodes kids (fun _ => False)) :
    ∀ (path : List Nat) (x a : Nat), (x = INVALID ∨ d.Object kids x) →
      atPath d.mem x path = some a → a = INVALID ∨ d.Object kids a
  | [], x, a, hx, hp => by
    have : x = a := Option.some.inj hp
    rw [← this]
    exact hx
  | i :: path, x, a, hx, hp => by
    have hat : InternalAt d.mem x i = some INVALID ∨
        ∃ c, InternalAt d.mem x i = some c ∧ d.Object kids c := by
      rcases hx with hx | hx
      · left
        rw [hx]
        simp [InternalAt, h.invalid, invalidCell]
      · rw [InternalAt_shape d nodes kids h x hx i]
        cases hg : (kids x)[i]? with
        | none => exact Or.inl rfl
        | some c => exact Or.inr ⟨c, rfl, Or.inr ⟨x, List.getElem?_mem hg⟩⟩
    rcases hat with hat | ⟨c, hat, hc⟩
    · simp only [atPath, hat] at hp
      exact atPath_object d nodes kids h path INVALID a (Or.inl rfl) hp
    · simp only [atPath, hat] at hp
      exact atPath_object d nodes kids h path c a (Or.inr hc) hp

/-- Every document that `Parse`, `Add` and `AddNode` build is in linked form. -/
theorem built_shape (d : Document) (h : Built d) :
    ∃ nodes kids, d.Shape nodes kids (fun _ => False) := by
  induction h with
  | parse m root str d h0 h1 h2 h3 hp => exact shape_parse m root str d h0 h1 h2 h3 hp
  | add d path this keyName value newKV d2 _ hpath hv hn hadd ih =>
    obtain ⟨nodes, kids, hs⟩ := ih
    have hobj : d.Object kids this := by
      rcases atPath_object d nodes kids hs path d.root this (Or.inr (Or.inl rfl)) hpath with
        hx | hx
      · exact absurd hx hv
      · exact hx
    obtain ⟨newKV2, d3, hA, hs3, _⟩ :=
      Add_spec d nodes kids this keyName value hs (object_node d nodes kids _ hs this hobj) hn
    rw [hA] at hadd
    injection hadd with hadd
    injection hadd with e1 e2
    injection e1 with e1
    subst e1 e2
    exact ⟨_, _, hs3⟩
  | addNode d path this keyName newKV d2 _ hpath hv hn hadd ih =>
    obtain ⟨nodes, kids, hs⟩ := ih
    have hobj : d.Object kids this := by
      rcases atPath_object d nodes kids hs path d.root this (Or.inr (Or.inl rfl)) hpath with
        hx | hx
      · exact absurd hx hv
      · exact hx
    obtain ⟨newKV2, d3, hA, hs3, _⟩ :=
      AddNode_spec d nodes kids this keyName hs (object_node d nodes kids _ hs this hobj) hn
    rw [hA] at hadd
    injection hadd with hadd
    injection hadd with e1 e2
    injection e1 with e1
    subst e1 e2
    exact ⟨_, _, hs3⟩

theorem getLinked_chainFrom (m : Memory) (keyName : List Nat) (a : Nat) (post : List Nat)
    (e : Option Nat) (h0 : strcasecmp (m.cell a).key keyName = 0) :
    ∀ (pre : List Nat) (p : Option Nat) (fuel : Nat),
      ChainFrom m p (pre ++ a :: post) e →
      (∀ c ∈ pre, strcasecmp (m.cell c).key keyName ≠ 0) → pre.length < fuel →
      getLinked m keyName fuel p = some a
  | [], p, fuel, h, _, hf => by
    obtain ⟨h1, _⟩ := h
    obtain ⟨f, rfl⟩ : ∃ f, fuel = f + 1 := ⟨fuel - 1, by simp at hf; omega⟩
    rw [h1]
    simp [getLinked, h0]
  | b :: pre, p, fuel, h, hne, hf => by
    obtain ⟨h1, h2⟩ := h
    obtain ⟨f, rfl⟩ : ∃ f, fuel = f + 1 := ⟨fuel - 1, by simp at hf; omega⟩
    rw [h1]
    simp only [getLinked]
    rw [if_neg (hne b (List.mem_cons_self _ _))]
    exact getLinked_chainFrom m keyName a post e h0 pre _ f h2
      (fun c hc => hne c (List.mem_cons_of_mem _ hc)) (by simp at hf; omega)

theorem InternalAt_invalid (m : Memory) (h : m.cell INVALID = invalidCell) (i : Nat) :
    InternalAt m INVALID i = some INVALID := by
  simp [InternalAt, h, invalidCell]

/-- The cells that `Add_spec` and `AddNode_spec` describe make an appended document. -/
theorem appended_of_spec (d d2 : Document) (nodes : List Nat) (kids : Nat → List Nat)
    (this newKV : Nat) (hs : d.Shape nodes kids (fun _ => False))
    (hs2 : d2.Shape (newKV :: nodes) (Function.update kids this (kids this ++ [newKV]))
      (fun _ => False))
    (hobj : d.Object kids this) (hnode : (d.mem.cell this).isNode = true)
    (hnot : newKV ∉ nodes) (hgt : d.root < newKV) (hroot : d2.root = d.root)
    (hcell : d2.mem.cell this
      = { d.mem.cell this with
          children := if kids this = [] then some newKV else (d.mem.cell this).children
          lastChild := some newKV
          childCount := (d.mem.cell this).childCount + 1 })
    (hlast : ∀ l, (kids this).getLast? = some l →
      d2.mem.cell l = { d.mem.cell l with next := some newKV })
    (hother : ∀ x, x ≠ this → x ≠ newKV → (kids this).getLast? ≠ some x →
      d2.mem.cell x = d.mem.cell x) :
    Appended d d2 this newKV := by
  have hthis := object_node d nodes kids _ hs this hobj
  have hok := (hs.node this hthis hnode).2 (fun hf => hf)
  have hcc : ChildCount d.mem this = (kids this).length := by
    simp [ChildCount, hnode, hok.1]
  have hpt : newKV ≠ this := by
    rcases hthis with ht | ht
    · omega
    · exact fun heq => hnot (heq ▸ ht)
  have hnode2 : (d2.mem.cell this).isNode = true := by rw [hcell]; exact hnode
  have hupd : ∀ x, x ≠ this → Function.update kids this (kids this ++ [newKV]) x = kids x :=
    fun x hx => Function.update_noteq hx _ _
  have hupdt : Function.update kids this (kids this ++ [newKV]) this = kids this ++ [newKV] :=
    Function.update_same _ _ _
  have hobj2 : ∀ x, d.Object kids x →
      d2.Object (Function.update kids this (kids this ++ [newKV])) x := by
    intro x hx
    rcases hx with hx | ⟨y, hy⟩
    · exact Or.inl (by rw [hroot]; exact hx)
    · by_cases hyt : y = this
      · exact Or.inr ⟨this, by rw [hupdt]; exact List.mem_append_left _ (hyt ▸ hy)⟩
      · exact Or.inr ⟨y, by rw [hupd y hyt]; exact hy⟩
  have hfresh : ∀ x, (x = INVALID ∨ d.Object kids x) → x ≠ newKV := by
    intro x hx heq
    rcases hx with hx | hx
    · rw [hx] at heq
      unfold INVALID at heq
      omega
    · rcases object_node d nodes kids _ hs x hx with hr | hn
      · omega
      · exact hnot (heq ▸ hn)
  have hreach : ∀ p x, atPath d.mem d.root p = some x → x = INVALID ∨ d.Object kids x :=
    fun p x hp => atPath_object d nodes kids hs p d.root x (Or.inr (Or.inl rfl)) hp
  have hkey : ∀ x, x ≠ this → x ≠ newKV →
      d2.mem.cell x = d.mem.cell x ∨ ((kids this).getLast? = some x
        ∧ d2.mem.cell x = { d.mem.cell x with next := some newKV }) := by
    intro x hxt hxn
    by_cases hl : (kids this).getLast? = some x
    · exact Or.inr ⟨hl, hlast x hl⟩
    · exact Or.inl (hother x hxt hxn hl)
  have hat2 := InternalAt_shape d2 _ _ hs2 this (hobj2 this hobj)
  have hat := InternalAt_shape d nodes kids hs this hobj
  rw [hupdt] at hat2
  refine ⟨?_, ?_, ?_, ?_, ?_, ?_, ?_, ?_⟩
  · intro p hp
    exact hfresh newKV (hreach p newKV hp) rfl
  · rw [hcc]
    simp [ChildCount, hnode2, hcell, hok.1, hnode]
  · rw [hat2, hcc]
    simp
  · intro i hi
    rw [hcc] at hi
    rw [hat2, hat, List.getElem?_append_left hi]
  · intro keyName fuel hf hne h0
    rw [hcc] at hf hne
    have hok2 := (hs2.node this ((hobj2 this hobj).elim Or.inl
      (fun ⟨y, hy⟩ => Or.inr (hs2.kidsNodes y this hy))) hnode2).2 (fun hf => hf)
    rw [hupdt] at hok2
    have hv2 := object_valid d2 _ _ hs2 this (hobj2 this hobj)
    have hcond : (!(d2.mem.cell this).isNode || decide ((d2.mem.cell this).childCount ≤ 0)
        || !IsValid d2.mem this) = false := by
      have a1 : decide ((d2.mem.cell this).childCount ≤ 0) = false :=
        decide_eq_false (by rw [hok2.1]; simp)
      rw [hnode2, hv2, a1]
      rfl
    unfold InternalGet
    rw [hcond, hs2.unsolid]
    simp only [Bool.false_eq_true, if_false]
    refine getLinked_chainFrom d2.mem keyName newKV [] none h0 (kids this) _ fuel hok2.2.1 ?_ hf
    intro c hc
    obtain ⟨i, hi, hci⟩ := List.mem_iff_getElem.1 hc
    have hcn : c ≠ newKV := fun heq => hnot (heq ▸ hs.kidsNodes this c hc)
    have hct : c ≠ this := fun heq => hs.kidsSelf this (heq ▸ hc)
    have hk : (d2.mem.cell c).key = (d.mem.cell c).key := by
      rcases hkey c hct hcn with h1 | ⟨_, h1⟩ <;> rw [h1]
    rw [hk]
    refine hne i c hi ?_
    rw [hat, List.getElem?_eq_getElem hi, hci]
    rfl
  · exact ⟨by simp [Key, hcell], by simp [HasChildren, hnode2]⟩
  · intro p x hp hxt
    have hx := hreach p x hp
    have hxn := hfresh x hx
    constructor
    · rcases hkey x hxt hxn with h1 | ⟨_, h1⟩ <;>
        simp [observe, Key, HasChildren, ChildCount, Value, h1]
    · intro i
      rcases hx with hx | hx
      · rw [hx, InternalAt_invalid _ hs.invalid, InternalAt_invalid _ hs2.invalid]
      · rw [InternalAt_shape d2 _ _ hs2 x (hobj2 x hx), InternalAt_shape d nodes kids hs x hx,
          hupd x hxt]
  · intro x hxt hxn
    rcases hkey x hxt hxn with h1 | ⟨hl, h1⟩
    · exact Or.inl h1
    · right
      have hne : kids this ≠ [] := fun he => by
        rw [he] at hl
        cases hl
      have hpos : 0 < (kids this).length := List.length_pos.2 hne
      refine ⟨by rw [hcc]; exact hpos, ?_, h1⟩
      rw [hat, hcc, ← List.getLast?_eq_getElem?, hl]
      rfl

theorem radDocument_built : Built radDocument :=
  Built.parse emptyMemory 1 radText radDocument rfl (by decide) (by decide) (by decide) rfl

theorem radDocument2_built : Built radDocument2 :=
  Built.addNode radDocument [] 1 _ 6 radDocument2 radDocument_built rfl (by decide) rfl rfl

theorem radDocument3_built : Built radDocument3 :=
  Built.add radDocument2 [1] 6 _ _ 7 radDocument3 radDocument2_built rfl (by decide) rfl rfl

theorem radDocument4_built : Built radDocument4 :=
  Built.add radDocument3 [] 1 _ _ 8 radDocument4 radDocument3_built rfl (by decide) rfl rfl

/-- C19. Linked-form well-formedness is an invariant: in every document that a successful
parse of a fresh document and any sequence of calls of `Add` and `AddNode` on interior
nodes build, the chain of every interior node `a` that `At` reaches from the root is well
formed: following `next` from the first child reaches the null pointer after exactly
`childCount` objects, which are pairwise different, `children` is null when `childCount`
is 0, and otherwise `lastChild` is the last object of the chain. -/
theorem C19_linked_chain_invariant (d : Document) (path : List Nat) (a : Nat) (hb : Built d)
    (hp : atPath d.mem d.root path = some a) (hv : a ≠ INVALID)
    (hn : HasChildren d.mem a = true) : ChainWellFormed d.mem a := by
  obtain ⟨nodes, kids, hs⟩ := built_shape d hb
  have hobj : d.Object kids a := by
    rcases atPath_object d nodes kids hs path d.root a (Or.inr (Or.inl rfl)) hp with hx | hx
    · exact absurd hx hv
    · exact hx
  have hok := (hs.node a (object_node d nodes kids _ hs a hobj) hn).2 (fun hf => hf)
  exact nodeOK_wellFormed d.mem a (kids a) (hs.kidsNodup a) hok

/-- C19 on the document of the usage documentation after `AddNode("AwesomeNode")`,
`Add("Taco", "Time!")` on the new node and `Add("CoolKey", "CoolValue")`: the chains of the
root and of the node `AwesomeNode` (`kv[1]`) are well formed. -/
theorem C19_linked_chain_invariant_witness :
    ChainWellFormed radDocument4.mem 1 ∧ ChainWellFormed radDocument4.mem 6 :=
  ⟨C19_linked_chain_invariant radDocument4 [] 1 radDocument4_built rfl (by decide) rfl,
    C19_linked_chain_invariant radDocument4 [1] 6 radDocument4_built rfl (by decide) rfl⟩

/-- C14. Appending to an unsolidified document.  In a document that a successful parse of
a fresh document and calls of `Add` and `AddNode` have built, for every interior node
`this` that `At` reaches from the root, with `c` children: `Add(k, v)` returns a new leaf
with key `k` and value `v`, and `AddNode(k)` returns a new interior node with key `k` and
no children; afterwards (`Appended`) `ChildCount()` of the node is `c + 1`, `At(c)` and
`Get` of a key that matches the new object and no earlier child return the new object,
`At(i)` for `i < c` returns the same child as before, and no other object of the document
changes: its accessors and `At` answer as before, and its cell is the same, but for the
pointer `next` of the former last child, which now leads to the new object. -/
theorem C14_append_unsolidified (d : Document) (path : List Nat) (this : Nat) (k v : List Nat)
    (hb : Built d) (hp : atPath d.mem d.root path = some this) (hv : this ≠ INVALID)
    (hn : HasChildren d.mem this = true) :
    (∃ newKV d2, KeyValue.Add d this k v = some (some newKV, d2)
        ∧ observe d2.mem newKV = (cstr k, false, 0, cstr v) ∧ Appended d d2 this newKV)
    ∧ (∃ newKV d2, KeyValue.AddNode d this k = some (some newKV, d2)
        ∧ observe d2.mem newKV = (cstr k, true, 0, []) ∧ Appended d d2 this newKV) := by
  obtain ⟨nodes, kids, hs⟩ := built_shape d hb
  have hobj : d.Object kids this := by
    rcases atPath_object d nodes kids hs path d.root this (Or.inr (Or.inl rfl)) hp with hx | hx
    · exact absurd hx hv
    · exact hx
  have hthis := object_node d nodes kids _ hs this hobj
  constructor
  · obtain ⟨newKV, d2, hA, hs2, hnot, hgt, hroot, hnew, hcell, hlast, hother⟩ :=
      Add_spec d nodes kids this k v hs hthis hn
    refine ⟨newKV, d2, hA, ?_, appended_of_spec d d2 nodes kids this newKV hs hs2 hobj hn hnot
      hgt hroot hcell hlast hother⟩
    simp [observe, Key, HasChildren, ChildCount, Value, hnew]
  · obtain ⟨newKV, d2, hA, hs2, hnot, hgt, hroot, hnew, hcell, hlast, hother⟩ :=
      AddNode_spec d nodes kids this k hs hthis hn
    refine ⟨newKV, d2, hA, ?_, appended_of_spec d d2 nodes kids this newKV hs hs2 hobj hn hnot
      hgt hroot hcell hlast hother⟩
    simp [observe, Key, HasChildren, ChildCount, Value, hnew]

/-- C14 on the example of the usage documentation: on the document of `My RadKv` after
`AddNode("AwesomeNode")->Add("Taco", "Time!")`, the call `Add("CoolKey", "CoolValue")` on
the root appends; and afterwards the value of `kv["AwesomeNode"]["Taco"]` is `Time!` and
the value of `kv[2]` is `CoolValue`. -/
theorem C14_append_unsolidified_witness :
    ((∃ newKV d2, KeyValue.Add radDocument3 1 [67, 111, 111, 108, 75, 101, 121, 0]
          [67, 111, 111, 108, 86, 97, 108, 117, 101, 0] = some (some newKV, d2)
        ∧ observe d2.mem newKV
            = (cstr [67, 111, 111, 108, 75, 101, 121, 0], false, 0,
                cstr [67, 111, 111, 108, 86, 97, 108, 117, 101, 0])
        ∧ Appended radDocument3 d2 1 newKV)
      ∧ (∃ newKV d2, KeyValue.AddNode radDocument3 1 [67, 111, 111, 108, 75, 101, 121, 0]
          = some (some newKV, d2)
        ∧ observe d2.mem newKV = (cstr [67, 111, 111, 108, 75, 101, 121, 0], true, 0, [])
        ∧ Appended radDocument3 d2 1 newKV))
    ∧ ((InternalGet 4 radDocument4.mem 1 [65, 119, 101, 115, 111, 109, 101, 78, 111, 100, 101, 0]).bind
          (fun a => (InternalGet 4 radDocument4.mem a [84, 97, 99, 111, 0]).map
            (Value radDocument4.mem))
        = some [84, 105, 109, 101, 33])
    ∧ (InternalAt radDocument4.mem 1 2).map (Value radDocument4.mem)
        = some [67, 111, 111, 108, 86, 97, 108, 117, 101] :=
  ⟨C14_append_unsolidified radDocument3 [] 1 [67, 111, 111, 108, 75, 101, 121, 0]
      [67, 111, 111, 108, 86, 97, 108, 117, 101, 0] radDocument3_built rfl (by decide) rfl,
    by decide, by decide⟩

theorem solidifyLoop_solidified (solidify : Memory → Nat → Option Memory) (newArray : Nat)
    (hsub : ∀ m a m2, solidify m a = some m2 → m2.solidified = m.solidified) :
    ∀ (remaining i : Nat) (m : Memory) (current : Option Nat) (m2 : Memory),
      solidifyLoop solidify newArray remaining i m current = some m2 →
      m2.solidified = m.solidified
  | 0, _, m, _, m2, h => by
    simp only [solidifyLoop] at h
    injection h with h
    rw [← h]
  | _ + 1, _, _, none, _, h => by simp [solidifyLoop] at h
  | remaining + 1, i, m, some cur, m2, h => by
    simp only [solidifyLoop] at h
    split at h
    · cases h
    · rename_i m3 hm3
      have h3 : m3.solidified = m.solidified := by
        split_ifs at hm3
        · have h4 := hsub _ _ _ hm3
          exact h4
        · injection hm3 with hm3
          rw [← hm3]
          rfl
      have := solidifyLoop_solidified solidify newArray hsub remaining (i + 1) _ _ m2 h
      rw [this]
      exact h3

theorem Solidify_solidified : ∀ (fuel : Nat) (m : Memory) (this : Nat) (m2 : Memory),
    KeyValue.Solidify fuel m this = some m2 → m2.solidified = m.solidified
  | 0, _, _, _, h => by simp [KeyValue.Solidify] at h
  | fuel + 1, m, this, m2, h => by
    simp only [KeyValue.Solidify] at h
    split_ifs at h
    split at h
    · cases h
    · rename_i m3 hm3
      injection h with h
      rw [← h]
      have h4 := solidifyLoop_solidified _ _ (Solidify_solidified fuel) _ _ _ _ _ hm3
      exact h4

/-- After `KeyValueRoot::Solidify()` the flag `solidified` of the root is set. -/
theorem Document_Solidify_solidified (fuel : Nat) (d0 d : Document) (junk : Nat → Cell)
    (h : Document.Solidify fuel d0 junk = some d) : d.mem.solidified = true := by
  unfold Document.Solidify at h
  split_ifs at h with h0
  · injection h with h
    rw [← h]
    exact h0
  · split at h
    · cases h
    · rename_i m hm
      injection h with h
      rw [← h]
      show m.solidified = true
      unfold KeyValueRoot.Solidify at hm
      rw [if_neg h0] at hm
      simp only at hm
      split_ifs at hm
      · split at hm
        · cases hm
        · rename_i m2 hm2
          injection hm with hm
          rw [← hm]
          exact Solidify_solidified _ _ _ _ hm2
      · injection hm with hm
        rw [← hm]
        rfl

/-- C12, as the code has it.  After `Solidify()`, `Add(key, value)` and `AddNode(key)`
called on a leaf (an object whose `HasChildren()` is false) return the null pointer and
leave the document as it is. -/
theorem C12_add_on_solid_leaf_returns_null (fuel : Nat) (d0 d : Document) (junk : Nat → Cell)
    (this : Nat) (k v : List Nat) (hsol : Document.Solidify fuel d0 junk = some d)
    (hleaf : HasChildren d.mem this = false) :
    KeyValue.Add d this k v = some (none, d) ∧ KeyValue.AddNode d this k = some (none, d) := by
  have h1 := Document_Solidify_solidified fuel d0 d junk hsol
  have h2 : (d.mem.cell this).isNode = false := hleaf
  constructor
  · unfold KeyValue.Add
    rw [if_pos (by rw [h1, h2]; rfl)]
  · unfold KeyValue.AddNode
    rw [if_pos (by rw [h1, h2]; rfl)]

/-- C12 on the document of `A 1` after `Solidify()`: `Add("B", "C")` and `AddNode("B")` on
the leaf `A` (`kv[0]`, at address 6) return the null pointer. -/
theorem C12_add_on_solid_leaf_returns_null_witness :
    InternalAt solidPairDocument.mem 1 0 = some 6
      ∧ KeyValue.Add solidPairDocument 6 [66, 0] [67, 0] = some (none, solidPairDocument)
      ∧ KeyValue.AddNode solidPairDocument 6 [66, 0] = some (none, solidPairDocument) :=
  ⟨by decide,
    C12_add_on_solid_leaf_returns_null 3 pairDocument solidPairDocument
      (fun _ => invalidCell) 6 [66, 0] [67, 0] rfl rfl⟩

/-- C12 fails on an interior node without children.  In the document of `"A" {}` after
`Solidify()`, the object `kv[0]` (at address 6) is an interior node with `ChildCount()`
0; `AddNode("B")` and `Add("B", "C")` on it do not return the null pointer: the guard of
lines 378 and 414 lets the call pass, and `Create()` then dereferences the null pointer
`currentPool` of the drained `writePool`. -/
theorem C12_solid_empty_node_is_not_refused :
    solidEmptyNodeDocument.mem.solidified = true
      ∧ InternalAt solidEmptyNodeDocument.mem 1 0 = some 6
      ∧ HasChildren solidEmptyNodeDocument.mem 6 = true
      ∧ ChildCount solidEmptyNodeDocument.mem 6 = 0
      ∧ KeyValue.AddNode solidEmptyNodeDocument 6 [66, 0] = none
      ∧ KeyValue.Add solidEmptyNodeDocument 6 [66, 0] [67, 0] = none
      ∧ ¬ (∃ d2, KeyValue.AddNode solidEmptyNodeDocument 6 [66, 0] = some (none, d2))
      ∧ ¬ (∃ d2, KeyValue.Add solidEmptyNodeDocument 6 [66, 0] [67, 0] = some (none, d2)) := by
  have h1 : KeyValue.AddNode solidEmptyNodeDocument 6 [66, 0] = none := rfl
  have h2 : KeyValue.Add solidEmptyNodeDocument 6 [66, 0] [67, 0] = none := rfl
  refine ⟨rfl, by decide, rfl, by decide, h1, h2, ?_, ?_⟩
  · rintro ⟨d2, hd⟩
    rw [h1] at hd
    cases hd
  · rintro ⟨d2, hd⟩
    rw [h2] at hd
    cases hd

/-- C13 on the code.  In the document of `A 1` after `Solidify()`, the root is an interior
node with one child, `writePool` is drained (`currentPool` is null), and `Add("B", "2")`
and `AddNode("B")` on the root do not return: `Create()` dereferences the null pointer
`currentPool`.  Also `lastChild` of the root still points to the freed pool object at
address 2, not to the last element of the array at address 6. -/
theorem C13_add_after_solidify_dereferences_null :
    solidPairDocument.mem.solidified = true
      ∧ HasChildren solidPairDocument.mem 1 = true
      ∧ ChildCount solidPairDocument.mem 1 = 1
      ∧ solidPairDocument.writePool.chunks = []
      ∧ solidPairDocument.writePool.IsFull = none
      ∧ KeyValue.Add solidPairDocument 1 [66, 0] [50, 0] = none
      ∧ KeyValue.AddNode solidPairDocument 1 [66, 0] = none
      ∧ InternalAt solidPairDocument.mem 1 0 = some 6
      ∧ (solidPairDocument.mem.cell 1).lastChild = some 2 :=
  ⟨rfl, rfl, by decide, rfl, rfl, rfl, rfl, by decide, rfl⟩

theorem poolsOK_createKVPair (d : Document) (k v : List Nat) (w : Bool) (h : d.PoolsOK) :
    ∃ pair d1, CreateKVPair d k v w = some (pair, d1) ∧ d1.PoolsOK := by
  obtain ⟨a, dC, h1, h2, _⟩ := create_ok d w h
  have hK : CreateKVPair d k v w
      = some (a, { dC with mem := dC.mem.write a
                                { dC.mem.cell a with key := k, value := v, children := none,
                                                     lastChild := none, isNode := false } }) := by
    simp only [CreateKVPair, h1]
  exact ⟨a, _, hK, poolsOK_mem dC _ h2 rfl rfl rfl rfl rfl rfl⟩

/-- `KeyValue::Parse` returns on every input: with more fuel than the input has bytes, and
pools that were never drained, the call gives a code, a position not before the one it
started from, and a document whose pools are as constructed. -/
theorem ParseMem_total : ∀ (f : Nat) (str : List Nat) (isRoot : Bool) (this : Nat)
    (lastKV : Option Nat) (d : Document), d.PoolsOK → str.length < f →
    ∃ code rest d2, KeyValue.ParseMem f str isRoot this lastKV d = some (code, rest, d2)
      ∧ d2.PoolsOK ∧ rest.length ≤ str.length := by
  intro f
  induction f with
  | zero => intro str _ _ _ _ _ h; exact absurd h (Nat.not_lt_zero _)
  | succ f ih =>
    intro str isRoot this lastKV d hp hf
    rw [KeyValue.ParseMem]
    have hk := parseKey_length str isRoot
    cases hkey : parseKey (SkipWhitespace str) isRoot with
    | ret e s => rw [hkey] at hk; exact ⟨_, _, _, rfl, hp, hk⟩
    | done s =>
      rw [hkey] at hk
      obtain ⟨t1, t2, _⟩ := parseEnd_top d.mem this lastKV
      exact ⟨_, _, _, rfl, poolsOK_mem d _ hp rfl rfl rfl rfl t1 t2, hk⟩
    | key s pairkey =>
      rw [hkey] at hk
      simp only at hk ⊢
      have hs := (SkipWhitespace_spec s).1
      have hp0 : ({ d with bufferSize := d.bufferSize + (pairkey.length + 1) } :
          Document).PoolsOK := poolsOK_mem d _ hp rfl rfl rfl rfl rfl rfl
      split
      · have hq := ReadQuotedString_length (SkipWhitespace s)
        rcases hr : ReadQuotedString (SkipWhitespace s) with ⟨e1, s1, v1⟩
        rw [hr] at hq
        simp only at hq
        cases e1
        case NONE =>
          obtain ⟨pair, d1, hK, hp1⟩ := poolsOK_createKVPair _ pairkey v1 false hp0
          simp only [hK]
          obtain ⟨t1, t2, _⟩ := linkChild_top d1.mem this lastKV pair
          obtain ⟨code, rest, d2, hr1, hr2, hr3⟩ := ih s1 isRoot this (some pair)
            { mem := linkChild d1.mem this lastKV pair, root := d1.root,
              bufferSize := d1.bufferSize + (v1.length + 1), readPool := d1.readPool,
              writePool := d1.writePool, writePoolStrings := d1.writePoolStrings }
            (poolsOK_mem d1 _ hp1 rfl rfl rfl rfl t1 t2) (by omega)
          exact ⟨code, rest, d2, hr1, hr2, by omega⟩
        all_goals exact ⟨_, _, _, rfl, hp0, by omega⟩
      · split
        · obtain ⟨pair, dC, hC, hpC, _⟩ := create_ok _ false hp0
          simp only [hC]
          obtain ⟨c3, s3, d3, hsub1, hsub2, hsub3⟩ := ih (SkipWhitespace s).tail false pair none
            { mem := dC.mem.write pair
                { next := (dC.mem.cell pair).next, key := (dC.mem.cell pair).key, isNode := true,
                  children := none, lastChild := none, childCount := 0,
                  value := (dC.mem.cell pair).value },
              root := dC.root, bufferSize := dC.bufferSize, readPool := dC.readPool,
              writePool := dC.writePool, writePoolStrings := dC.writePoolStrings }
            (poolsOK_mem dC _ hpC rfl rfl rfl rfl rfl rfl)
            (by simp only [List.length_tail]; omega)
          simp only [List.length_tail] at hsub3
          simp only [hsub1]
          split
          · obtain ⟨t1, t2, _⟩ := linkChild_top
              (d3.mem.write pair
                { next := (d3.mem.cell pair).next, key := pairkey,
                  isNode := (d3.mem.cell pair).isNode, children := (d3.mem.cell pair).children,
                  lastChild := (d3.mem.cell pair).lastChild,
                  childCount := (d3.mem.cell pair).childCount,
                  value := (d3.mem.cell pair).value }) this lastKV pair
            obtain ⟨code, rest, d2, hr1, hr2, hr3⟩ := ih s3 isRoot this (some pair)
              { mem := linkChild
                  (d3.mem.write pair
                    { next := (d3.mem.cell pair).next, key := pairkey,
                      isNode := (d3.mem.cell pair).isNode,
                      children := (d3.mem.cell pair).children,
                      lastChild := (d3.mem.cell pair).lastChild,
                      childCount := (d3.mem.cell pair).childCount,
                      value := (d3.mem.cell pair).value }) this lastKV pair,
                root := d3.root, bufferSize := d3.bufferSize, readPool := d3.readPool,
                writePool := d3.writePool, writePoolStrings := d3.writePoolStrings }
              (poolsOK_mem d3 _ hsub2 rfl rfl rfl rfl t1 t2) (by omega)
            exact ⟨code, rest, d2, hr1, hr2, by omega⟩
          · exact ⟨_, _, _, rfl, hsub2, by omega⟩
        · split
          · exact ⟨_, _, _, rfl, hp0, by omega⟩
          · split
            · exact ⟨_, _, _, rfl, hp0, by omega⟩
            · have hq := ReadQuotelessString_length (SkipWhitespace s)
              obtain ⟨pair, d1, hK, hp1⟩ := poolsOK_createKVPair _ pairkey
                (ReadQuotelessString (SkipWhitespace s)).1 false hp0
              simp only [hK]
              obtain ⟨t1, t2, _⟩ := linkChild_top d1.mem this lastKV pair
              obtain ⟨code, rest, d2, hr1, hr2, hr3⟩ :=
                ih (ReadQuotelessString (SkipWhitespace s)).2 isRoot this (some pair)
                  { mem := linkChild d1.mem this lastKV pair, root := d1.root,
                    bufferSize :=
                      d1.bufferSize + ((ReadQuotelessString (SkipWhitespace s)).1.length + 1),
                    readPool := d1.readPool, writePool := d1.writePool,
                    writePoolStrings := d1.writePoolStrings }
                  (poolsOK_mem d1 _ hp1 rfl rfl rfl rfl t1 t2) (by omega)
              exact ⟨code, rest, d2, hr1, hr2, by omega⟩

theorem buildDataLoop_chain (build : Nat → Option Unit) (m : Memory) :
    ∀ (l : List Nat) (p e : Option Nat), ChainFrom m p l e →
      (∀ c ∈ l, (m.cell c).isNode = true → build c = some ()) →
      buildDataLoop build m l.length p = some ()
  | [], _, _, _, _ => rfl
  | a :: rest, p, e, h, hb => by
    obtain ⟨h1, h2⟩ := h
    rw [h1]
    simp only [List.length_cons, buildDataLoop]
    have hcond : (if ((m.cell a).isNode && decide ((m.cell a).childCount > 0)) = true
        then build a else some ()) = some () := by
      split_ifs with hc
      · simp only [Bool.and_eq_true] at hc
        exact hb a (List.mem_cons_self _ _) hc.1
      · rfl
    rw [hcond]
    exact buildDataLoop_chain build m rest _ e h2
      (fun c hc => hb c (List.mem_cons_of_mem _ hc))

/-- The walk of `BuildData` over a document in linked form returns: no object lies below
itself, so the nesting is no deeper than the number of objects. -/
theorem BuildDataMem_total (d : Document) (nodes : List Nat) (kids : Nat → List Nat)
    (hs : d.Shape nodes kids (fun _ => False)) :
    ∀ (f : Nat) (anc : List Nat) (this : Nat),
      (this = d.root ∨ ∃ y ∈ anc, this ∈ kids y) →
      (∀ a ∈ anc, a = d.root ∨ ∃ y ∈ anc, a ∈ kids y) → (this :: anc).Nodup →
      (d.mem.cell this).isNode = true → nodes.length + 1 ≤ f + anc.length →
      BuildDataMem f d.mem this = some () := by
  intro f
  induction f with
  | zero =>
    intro anc this h1 h2 hn _ hf
    have hsub : (this :: anc) ⊆ (d.root :: nodes) := by
      intro a ha
      have hx : a = d.root ∨ ∃ y ∈ anc, a ∈ kids y := by
        rcases List.mem_cons.1 ha with ha | ha
        · rw [ha]; exact h1
        · exact h2 a ha
      rcases hx with hx | ⟨y, _, hy⟩
      · rw [hx]; exact List.mem_cons_self _ _
      · exact List.mem_cons_of_mem _ (hs.kidsNodes y a hy)
    have hlen := (List.subperm_of_subset hn hsub).length_le
    simp only [List.length_cons] at hlen
    omega
  | succ f ih =>
    intro anc this h1 h2 hn hnode hf
    have hthis : this = d.root ∨ this ∈ nodes := by
      rcases h1 with h1 | ⟨y, _, hy⟩
      · exact Or.inl h1
      · exact Or.inr (hs.kidsNodes y this hy)
    obtain ⟨k1, k2, _⟩ := (hs.node this hthis hnode).2 (fun hx => hx)
    simp only [BuildDataMem]
    rw [k1]
    refine buildDataLoop_chain _ _ (kids this) _ none k2 ?_
    intro c hc hcn
    have hcanc : c ∉ this :: anc := by
      intro hmem
      rcases List.mem_cons.1 hmem with hct | hca
      · exact hs.kidsSelf this (hct ▸ hc)
      · rcases h2 c hca with hr | ⟨y, hy, hcy⟩
        · have := shape_kid_ne_root d nodes kids _ hs this c hc
          omega
        · have hyt : y ≠ this := fun heq => (List.nodup_cons.1 hn).1 (heq ▸ hy)
          exact hs.kidsApart y this hyt c hcy hc
    refine ih (this :: anc) c (Or.inr ⟨this, List.mem_cons_self _ _, hc⟩) ?_
      (List.nodup_cons.2 ⟨hcanc, hn⟩) hcn (by simp only [List.length_cons]; omega)
    intro a ha
    rcases List.mem_cons.1 ha with ha | ha
    · rw [ha]
      exact h1.imp id (fun ⟨y, hy, hty⟩ => ⟨y, List.mem_cons_of_mem _ hy, hty⟩)
    · exact (h2 a ha).imp id (fun ⟨y, hy, hty⟩ => ⟨y, List.mem_cons_of_mem _ hy, hty⟩)

/-- `KeyValueRoot::Parse` on a fresh document returns on every input: the fuel of the model
never runs out and `Create()` never meets a null pointer. -/
theorem KeyValueRoot_ParseMem_total (m : Memory) (root : Nat) (str : List Nat)
    (h0 : m.cell INVALID = invalidCell) (h1 : root ≠ INVALID) (h2 : root < m.top)
    (h3 : (m.cell root).next ≠ some root) :
    ∃ code d, KeyValueRoot.ParseMem (Document.new m root) (some str) = some (code, d) := by
  have hs := shape_new m root h0 h1 h2 h3
  obtain ⟨code, rest, d1, hrun, _, _⟩ :=
    ParseMem_total (str.length + 1) str true root none (Document.new m root) hs.pools
      (Nat.lt_succ_self _)
  have hroot : (Document.new m root).root = root := rfl
  simp only [KeyValueRoot.ParseMem, hroot, hrun]
  split_ifs with he hb
  · subst he
    obtain ⟨nodes, kids, hlen, hs2, g1, _⟩ :=
      ParseMem_spec _ str true root none _ [] (fun _ => []) (fun x => x = root) rest d1 hs
        (Or.inl rfl) hs.rootNode rfl rfl hrun
    have hs3 : d1.Shape nodes kids (fun _ => False) :=
      shape_open _ _ _ _ _ hs2 (fun x hx => hx.2 hx.1)
    have hb := BuildDataMem_total d1 nodes kids hs3 (str.length + 1) [] d1.root (Or.inl rfl)
      (fun a ha => absurd ha (List.not_mem_nil _)) (List.nodup_singleton _) hs3.rootNode
      (by simp only [List.length_nil] at hlen ⊢; omega)
    rw [hb]
    exact ⟨_, _, rfl⟩
  · exact ⟨_, _, rfl⟩
  · exact ⟨_, _, rfl⟩

theorem endsBare_cons (c : Nat) (rest : List Nat) :
    endsBare (c :: rest) = (IsWhitespace c || IsSpecialCharacter c (peek rest)) := by
  have hw := IsWhitespace_iff c
  cases h : IsWhitespace c with
  | true =>
    have := hw.1 h
    simp only [endsBare, peek, List.headD_cons, Bool.true_or]
    rcases this with h1 | h1
    · simp [h1]
    · simp [h1]
  | false =>
    have hn : ¬ (c ≤ 32 ∨ c = 127) := fun hx => by
      rw [hw.2 hx] at h
      cases h
    have h1 : decide (c ≤ 32) = false := decide_eq_false (fun hx => hn (Or.inl hx))
    have h2 : (c == 127) = false := by
      simp only [beq_eq_false_iff_ne, ne_eq]
      exact fun hx => hn (Or.inr hx)
    simp only [endsBare, peek, List.headD_cons, List.tail_cons, IsSpecialCharacter, h1, h2,
      Bool.false_or]

theorem ReadQuotelessString_cons (c : Nat) (rest : List Nat) :
    ReadQuotelessString (c :: rest)
      = if endsBare (c :: rest) then ([], c :: rest)
        else (c :: (ReadQuotelessString rest).1, (ReadQuotelessString rest).2) := by
  rw [endsBare_cons]
  conv_lhs => unfold ReadQuotelessString
  cases h1 : IsWhitespace c <;> cases h2 : IsSpecialCharacter c (peek rest) <;> simp

/-- No position inside the slice `ReadQuotelessString` returns ends a bare token. -/
theorem ReadQuotelessString_inside : ∀ (str : List Nat) (i : Nat),
    i < (ReadQuotelessString str).1.length → endsBare (str.drop i) = false
  | [], i, h => by simp [ReadQuotelessString] at h
  | c :: rest, i, h => by
    rw [ReadQuotelessString_cons] at h
    cases he : endsBare (c :: rest) with
    | true =>
      rw [he] at h
      simp at h
    | false =>
      rw [he] at h
      simp only [Bool.false_eq_true, if_false, List.length_cons] at h
      cases i with
      | zero => exact he
      | succ i =>
        rw [List.drop_succ_cons]
        exact ReadQuotelessString_inside rest i (by omega)

/-- C21. `ReadQuotelessString` returns the maximal run.  For every input `str` (the bytes
from the position `p` on; beyond them the terminating NUL), with `run` the slice returned
and `rest` the position afterwards: `str` is `run` followed by `rest`, so the slice starts
at `p`, its bytes are those of the input unchanged (bytes of 128 and above among them) and
the position is left at `q = p + run.length`; the text at `q` ends a bare token (`endsBare`:
the byte at `q` is a whitespace byte 0..32 or 127, the terminating NUL included, a quote,
`{`, `}`, or a `/` directly followed by `/`), and the text at no position from `p` up to
`q` does, so `q` is the first such position; a byte of 128 or above never ends the run;
and the slice has length 0 exactly when the text at `p` itself ends a bare token.  The
function is total: it returns on every input. -/
theorem C21_quoteless_maximal_run (str : List Nat) :
    str = (ReadQuotelessString str).1 ++ (ReadQuotelessString str).2
      ∧ (ReadQuotelessString str).2 = str.drop (ReadQuotelessString str).1.length
      ∧ endsBare (ReadQuotelessString str).2 = true
      ∧ (∀ i, i < (ReadQuotelessString str).1.length → endsBare (str.drop i) = false)
      ∧ (∀ c rest, 128 ≤ c → endsBare (c :: rest) = false
          ∧ ReadQuotelessString (c :: rest)
              = (c :: (ReadQuotelessString rest).1, (ReadQuotelessString rest).2))
      ∧ ((ReadQuotelessString str).1.length = 0 ↔ endsBare str = true) := by
  obtain ⟨h1, _, _, h4⟩ := ReadQuotelessString_decomp str
  refine ⟨h1, ?_, h4, ReadQuotelessString_inside str, ?_, ?_⟩
  · conv_lhs => rw [← List.drop_left (ReadQuotelessString str).1 (ReadQuotelessString str).2]
    rw [← h1]
  · intro c rest hc
    have he : endsBare (c :: rest) = false := by
      simp only [endsBare, peek, List.headD_cons, List.tail_cons, STRING_CONTAINER, BLOCK_BEGIN,
        BLOCK_END, SLASH, Bool.or_eq_false_iff, decide_eq_false_iff_not, beq_eq_false_iff_ne,
        Bool.and_eq_false_imp, beq_iff_eq, ne_eq]
      omega
    refine ⟨he, ?_⟩
    rw [ReadQuotelessString_cons, he]
    rfl
  · constructor
    · intro h0
      have hnil : (ReadQuotelessString str).1 = [] := List.length_eq_zero.1 h0
      have hs : str = (ReadQuotelessString str).2 := by
        conv_lhs => rw [h1, hnil]
        rfl
      rw [hs]
      exact h4
    · intro he
      rw [endsBare_stop str he]
      rfl

/-- `ReadQuotelessString` on `ab/c//x`, on a text that starts with the byte 200, and at a
space: the run ends before `//`, the byte 200 is content, and the slice at a space is
empty. -/
theorem ReadQuotelessString_examples :
    ReadQuotelessString [97, 98, 47, 99, 47, 47, 120] = ([97, 98, 47, 99], [47, 47, 120])
      ∧ ReadQuotelessString [200, 65, 123, 66] = ([200, 65], [123, 66])
      ∧ ReadQuotelessString [32, 65] = ([], [32, 65])
      ∧ ReadQuotelessString [] = ([], []) := by
  decide

theorem cstr_append_zero (a x : List Nat) : cstr (a ++ 0 :: x) = cstr a := by
  induction a with
  | nil => simp [cstr]
  | cons c a ih =>
    simp only [cstr] at ih ⊢
    rw [List.cons_append, List.takeWhile_cons, List.takeWhile_cons, ih]

/-- The buffer `char* KeyValue::ToString()` returns: `ToStringLength(0) + 1` bytes that
start with the reference text of the chain at depth 0 and a NUL byte directly after it. -/
theorem ToStringOwned_layout (kvs : List KeyValue) (junk : Nat → Nat) :
    ∃ out tail, ToStringOwned kvs junk = some out
      ∧ out.length = ToStringLength kvs 0 + 1
      ∧ out = referenceText kvs 0 ++ 0 :: tail := by
  have hlen := referenceText_length kvs 0
  have hspec := ToStringBuffer_spec kvs (alloc junk (ToStringLength kvs 0 + 1)) 0
    (ToStringLength kvs 0 + 1) (by rw [alloc_length]; omega)
  rw [if_pos (by omega)] at hspec
  have hl : (overwrite (alloc junk (ToStringLength kvs 0 + 1)) 0
      (referenceText kvs 0 ++ [0])).length = ToStringLength kvs 0 + 1 := by
    rw [overwrite_length _ _ _ (by rw [alloc_length]; simp; omega), alloc_length]
  have hov : overwrite (alloc junk (ToStringLength kvs 0 + 1)) 0 (referenceText kvs 0 ++ [0])
      = referenceText kvs 0 ++ 0 :: (alloc junk (ToStringLength kvs 0 + 1)).drop
          (0 + (referenceText kvs 0 ++ [0]).length) := by
    simp [overwrite]
  unfold ToStringOwned
  simp only [hspec, Nat.add_sub_cancel]
  unfold store
  rw [if_pos (by rw [hl]; omega)]
  obtain ⟨y, hy⟩ := set_zero_head ((alloc junk (ToStringLength kvs 0 + 1)).drop
    (0 + (referenceText kvs 0 ++ [0]).length))
    (ToStringLength kvs 0 - (referenceText kvs 0).length)
  refine ⟨_, y, rfl, by rw [List.length_set, hl], ?_⟩
  rw [hov, List.set_append_right _ _ hlen, hy]

/-- C23. The owned-string serializer never truncates.  For every chain of trees (the
children of the root): the reference text `R`, which is what the fill pass writes at depth
0, is no longer than `ToStringLength(0)` (and the fill pass moves the cursor by `R.length`
bytes when the capacity allows, never by more than `ToStringLength(0)`); the buffer of
`ToStringLength(0) + 1` bytes that `ToString()` returns holds all of `R` and a NUL byte
directly after its last byte; and read as a C string it equals what `ToString(buffer,
capacity)` leaves at the offset of a buffer when the capacity is larger than the length of
`R`.  When no key and no value holds a NUL byte this C string is `R` itself. -/
theorem C23_owned_serializer_never_truncates (kvs : List KeyValue) (junk : Nat → Nat)
    (buf : List Nat) (off c : Nat) (h : off + c ≤ buf.length)
    (hc : (referenceText kvs 0).length < c) :
    (referenceText kvs 0).length ≤ ToStringLength kvs 0
      ∧ (∃ w1, ToString kvs ⟨buf, off, c⟩ 0 = some w1
          ∧ w1.str = off + (referenceText kvs 0).length
          ∧ w1.str - off ≤ ToStringLength kvs 0)
      ∧ (∃ out tail out2, ToStringOwned kvs junk = some out
          ∧ out.length = ToStringLength kvs 0 + 1
          ∧ out = referenceText kvs 0 ++ 0 :: tail
          ∧ ToStringBuffer kvs ⟨buf, off, c⟩ = some out2
          ∧ cstr (out2.drop off) = cstr out
          ∧ (NulFreeList kvs → cstr out = referenceText kvs 0)) := by
  have hlen := referenceText_length kvs 0
  refine ⟨hlen, ?_, ?_⟩
  · have hin : (⟨buf, off, c⟩ : Writer).InBounds := h
    refine ⟨_, ToString_emit kvs _ 0 hin, ?_, ?_⟩
    · simp only [Writer.emit]
      rw [Nat.min_eq_right (by omega)]
    · simp only [Writer.emit]
      rw [Nat.min_eq_right (by omega)]
      omega
  · obtain ⟨out, tail, h1, h2, h3⟩ := ToStringOwned_layout kvs junk
    have hspec := ToStringBuffer_spec kvs buf off c h
    rw [if_pos hc] at hspec
    refine ⟨out, tail, _, h1, h2, h3, hspec, ?_, ?_⟩
    · have hd : (overwrite buf off (referenceText kvs 0 ++ [0])).drop off
          = referenceText kvs 0 ++ 0 :: buf.drop (off + (referenceText kvs 0 ++ [0]).length) := by
        have h1 : (List.take off buf).length = off := by
          rw [List.length_take]; omega
        simp only [overwrite, List.append_assoc]
        rw [List.drop_append_eq_append_drop, h1, Nat.sub_self, List.drop_zero,
          List.drop_of_length_le (by omega)]
        simp
      rw [hd, h3, cstr_append_zero, cstr_append_zero]
    · intro hn
      rw [h3]
      exact cstr_terminated _ _ (referenceText_nulFree kvs 0 hn)

/-- C23 on the tree of `A { B 1 }`: `ToString()` returns a buffer of 23 bytes that holds
the 21 bytes of the text, a NUL byte directly after them, and a NUL byte at its end; read
as a C string it is what `ToString(buffer, 64)` leaves in a buffer of 64 bytes. -/
theorem C23_owned_serializer_never_truncates_witness :
    ((referenceText [KeyValue.node [65] [KeyValue.leaf [66] [49]] 1] 0).length
        ≤ ToStringLength [KeyValue.node [65] [KeyValue.leaf [66] [49]] 1] 0
      ∧ (∃ w1, ToString [KeyValue.node [65] [KeyValue.leaf [66] [49]] 1]
            ⟨List.replicate 64 7, 0, 64⟩ 0 = some w1
          ∧ w1.str = 0 + (referenceText [KeyValue.node [65] [KeyValue.leaf [66] [49]] 1] 0).length
          ∧ w1.str - 0 ≤ ToStringLength [KeyValue.node [65] [KeyValue.leaf [66] [49]] 1] 0)
      ∧ (∃ out tail out2,
          ToStringOwned [KeyValue.node [65] [KeyValue.leaf [66] [49]] 1] (fun _ => 7) = some out
          ∧ out.length = ToStringLength [KeyValue.node [65] [KeyValue.leaf [66] [49]] 1] 0 + 1
          ∧ out = referenceText [KeyValue.node [65] [KeyValue.leaf [66] [49]] 1] 0 ++ 0 :: tail
          ∧ ToStringBuffer [KeyValue.node [65] [KeyValue.leaf [66] [49]] 1]
              ⟨List.replicate 64 7, 0, 64⟩ = some out2
          ∧ cstr (out2.drop 0) = cstr out
          ∧ (NulFreeList [KeyValue.node [65] [KeyValue.leaf [66] [49]] 1] →
              cstr out = referenceText [KeyValue.node [65] [KeyValue.leaf [66] [49]] 1] 0)))
    ∧ ToStringOwned [KeyValue.node [65] [KeyValue.leaf [66] [49]] 1] (fun _ => 7)
        = some [34, 65, 34, 32, 10, 123, 10, 32, 32, 32, 32, 34, 66, 34, 32, 34, 49, 34, 10,
            125, 10, 0, 0] :=
  ⟨C23_owned_serializer_never_truncates [KeyValue.node [65] [KeyValue.leaf [66] [49]] 1]
      (fun _ => 7) (List.replicate 64 7) 0 64 (by decide) (by decide),
    by decide⟩

theorem within_refl (str : List Nat) : Within str str := ⟨[], rfl, by simp⟩

theorem within_trans (a b c : List Nat) (h1 : Within a b) (h2 : Within b c) : Within a c := by
  obtain ⟨p1, e1, n1⟩ := h1
  obtain ⟨p2, e2, n2⟩ := h2
  refine ⟨p1 ++ p2, by rw [e1, e2, List.append_assoc], ?_⟩
  intro x hx
  rcases List.mem_append.1 hx with hx | hx
  · exact n1 x hx
  · exact n2 x hx

theorem within_length (a b : List Nat) (h : Within a b) : b.length ≤ a.length := by
  obtain ⟨p, e, _⟩ := h
  rw [e, List.length_append]
  omega

theorem within_cons (c : Nat) (rest : List Nat) (hc : c ≠ 0) : Within (c :: rest) rest :=
  ⟨[c], rfl, by simpa using hc⟩

theorem isGap_nulFree (g : List Nat) (h : IsGap g) : ∀ c ∈ g, c ≠ 0 := by
  induction h with
  | nil => simp
  | space c g hc _ ih =>
    intro x hx
    rcases List.mem_cons.1 hx with hx | hx
    · rw [hx]; omega
    · exact ih x hx
  | comment body eol g hb he _ ih =>
    intro x hx
    simp only [List.mem_cons, List.mem_append] at hx
    rcases hx with hx | hx | hx | hx | hx
    · rw [hx]; decide
    · rw [hx]; decide
    · exact (hb x hx).1
    · rw [hx]; omega
    · exact ih x hx

theorem isEnding_nulFree (g : List Nat) (h : IsEnding g) : ∀ c ∈ g, c ≠ 0 := by
  cases h with
  | gap g hg => exact isGap_nulFree g hg
  | comment g body hg hb =>
    intro x hx
    simp only [List.mem_cons, List.mem_append] at hx
    rcases hx with hx | hx | hx | hx
    · exact isGap_nulFree g hg x hx
    · rw [hx]; decide
    · rw [hx]; decide
    · exact (hb x hx).1

/-- `SkipWhitespace` only moves forward and stays inside the input. -/
theorem SkipWhitespace_within (str : List Nat) : Within str (SkipWhitespace str) := by
  obtain ⟨g, h1, h2, _⟩ := SkipWhitespace_decomp str
  exact ⟨g, h1, isEnding_nulFree g h2⟩

/-- `ReadQuotelessString` only moves forward and stays inside the input. -/
theorem ReadQuotelessString_within (str : List Nat) :
    Within str (ReadQuotelessString str).2 := by
  obtain ⟨h1, h2, _, _⟩ := ReadQuotelessString_decomp str
  refine ⟨_, h1, ?_⟩
  intro c hc h0
  have := (isBareByte_iff c).1 (h2 c hc)
  rw [h0] at this
  exact this.1 (Or.inl (Nat.zero_le _))

/-- `ReadQuotedString`, called at a quote, only moves forward and stays inside the input:
on `INCOMPLETE_STRING` the position is left on the terminator. -/
theorem ReadQuotedString_within (str : List Nat) (hq : peek str = STRING_CONTAINER) :
    Within str (ReadQuotedString str).2.1
      ∧ ((ReadQuotedString str).1 = KeyValueErrorCode.INCOMPLETE_STRING →
          peek (ReadQuotedString str).2.1 = 0)
      ∧ (ReadQuotedString str).2.1.length < str.length := by
  cases str with
  | nil => simp [peek, STRING_CONTAINER] at hq
  | cons q tl =>
    simp only [peek, List.headD_cons] at hq
    subst hq
    obtain ⟨h1, h2, h3⟩ := scanQuoted_decomp tl
    have hlen : ((scanQuoted tl).2).length ≤ tl.length := by
      conv_rhs => rw [h1]
      rw [List.length_append]
      omega
    unfold ReadQuotedString
    simp only [List.tail_cons]
    split
    · rename_i hz
      simp only [beq_iff_eq] at hz
      refine ⟨⟨STRING_CONTAINER :: (scanQuoted tl).1, ?_, ?_⟩, fun _ => hz, ?_⟩
      · simp only [List.cons_append]
        rw [← h1]
      · intro c hc
        rcases List.mem_cons.1 hc with hc | hc
        · rw [hc]; decide
        · exact (h2 c hc).1
      · simp only [List.length_cons]
        omega
    · rename_i hz
      simp only [beq_iff_eq] at hz
      rcases h3 with h3 | ⟨rest, h3⟩
      · exact absurd h3 hz
      · refine ⟨⟨STRING_CONTAINER :: ((scanQuoted tl).1 ++ [STRING_CONTAINER]), ?_, ?_⟩,
          (fun hx => KeyValueErrorCode.noConfusion hx), ?_⟩
        · simp only [h3, List.tail_cons, List.cons_append, List.append_assoc,
            List.singleton_append]
          conv_lhs => rw [h1, h3]
          simp
        · intro c hc
          simp only [List.mem_cons, List.mem_append, List.mem_singleton, List.not_mem_nil,
            or_false] at hc
          rcases hc with hc | hc | hc
          · rw [hc]; decide
          · exact (h2 c hc).1
          · rw [hc]; decide
        · rw [List.length_tail, List.length_cons]
          omega

/-- The first `switch` of the parser loop only moves forward and stays inside the input. -/
theorem parseKey_within (s0 : List Nat) (isRoot : Bool) :
    match parseKey s0 isRoot with
    | KeyStep.ret _ s => Within s0 s
    | KeyStep.done s => Within s0 s
    | KeyStep.key s _ => Within s0 s := by
  unfold parseKey
  simp only
  by_cases hq : peek s0 = STRING_CONTAINER
  · rw [if_pos hq]
    have hw := (ReadQuotedString_within s0 hq).1
    rcases hr : ReadQuotedString s0 with ⟨e, s, v⟩
    rw [hr] at hw
    cases e <;> exact hw
  · rw [if_neg hq]
    by_cases he : peek s0 = BLOCK_END
    · rw [if_pos he]
      have hs : s0 = BLOCK_END :: s0.tail := by
        have := peek_cons_of_ne_zero s0 (by rw [he]; decide)
        rw [he] at this
        exact this
      have hw : Within s0 s0.tail := by
        conv_lhs => rw [hs]
        exact within_cons _ _ (by decide)
      cases isRoot <;> exact hw
    · rw [if_neg he]
      by_cases h0 : peek s0 = 0
      · rw [if_pos h0]
        cases isRoot <;> exact within_refl s0
      · rw [if_neg h0]
        by_cases hb : peek s0 = BLOCK_BEGIN
        · rw [if_pos hb]
          exact within_refl s0
        · rw [if_neg hb]
          exact ReadQuotelessString_within s0

/-- The depth model follows `KeyValue.Parse`: the same code and the same position. -/
theorem ParseDepth_agree : ∀ (fuel : Nat) (str : List Nat) (isRoot : Bool)
    (cs : List KeyValue) (lk : Bool) (n b level deepest : Nat),
    (KeyValue.Parse fuel str isRoot cs lk n b).map (fun r => (r.error, r.str))
      = (KeyValue.ParseDepth fuel str isRoot level deepest).map (fun r => (r.1, r.2.1)) := by
  intro fuel
  induction fuel with
  | zero => intro str isRoot cs lk n b level deepest; rfl
  | succ fuel ih =>
    intro str isRoot cs lk n b level deepest
    rw [KeyValue.Parse, KeyValue.ParseDepth]
    cases hk : parseKey (SkipWhitespace str) isRoot with
    | ret e s => rfl
    | done s => rfl
    | key s pairkey =>
      simp only
      split
      · rcases hr : ReadQuotedString (SkipWhitespace s) with ⟨e1, s1, v1⟩
        cases e1
        case NONE => exact ih _ _ _ _ _ _ _ _
        all_goals rfl
      · split
        · have h1 := ih (SkipWhitespace s).tail false [] false 0 (b + (pairkey.length + 1))
            (level + 1) (max deepest (level + 1))
          cases hp : KeyValue.Parse fuel (SkipWhitespace s).tail false [] false 0
              (b + (pairkey.length + 1)) with
          | none =>
            rw [hp] at h1
            cases hd : KeyValue.ParseDepth fuel (SkipWhitespace s).tail false (level + 1)
                (max deepest (level + 1)) with
            | none => rfl
            | some r => rw [hd] at h1; cases h1
          | some sub =>
            rw [hp] at h1
            cases hd : KeyValue.ParseDepth fuel (SkipWhitespace s).tail false (level + 1)
                (max deepest (level + 1)) with
            | none => rw [hd] at h1; cases h1
            | some r =>
              rw [hd] at h1
              obtain ⟨e2, s2, d2⟩ := r
              simp only [Option.map_some', Option.some.injEq, Prod.mk.injEq] at h1
              obtain ⟨h1e, h1s⟩ := h1
              simp only
              rw [h1e, h1s]
              split
              · exact ih _ _ _ _ _ _ _ _
              · rfl
        · split
          · rfl
          · split
            · rfl
            · exact ih _ _ _ _ _ _ _ _

/-- Every call of `Parse` stays inside its input, and the calls nest no deeper than the
number of `{` bytes they have passed. -/
theorem ParseDepth_spec : ∀ (fuel : Nat) (str : List Nat) (isRoot : Bool)
    (level deepest : Nat) (e : KeyValueErrorCode) (rest : List Nat) (dp : Nat),
    KeyValue.ParseDepth fuel str isRoot level deepest = some (e, rest, dp) →
    ∃ passed, str = passed ++ rest ∧ (∀ c ∈ passed, c ≠ 0) ∧ deepest ≤ dp
      ∧ (dp ≤ deepest ∨ dp ≤ level + passed.count BLOCK_BEGIN) := by
  intro fuel
  induction fuel with
  | zero => intro str isRoot level deepest e rest dp h; simp [KeyValue.ParseDepth] at h
  | succ fuel ih =>
    intro str isRoot level deepest e rest dp h
    rw [KeyValue.ParseDepth] at h
    obtain ⟨p0, hp0, hn0⟩ := SkipWhitespace_within str
    have hkw := parseKey_within (SkipWhitespace str) isRoot
    have step : ∀ (mid : List Nat) (pm : List Nat), str = pm ++ mid → (∀ c ∈ pm, c ≠ 0) →
        ∀ lv dd, deepest ≤ dd → (dd ≤ deepest ∨ dd ≤ level + pm.count BLOCK_BEGIN) →
        lv ≤ level + pm.count BLOCK_BEGIN →
        KeyValue.ParseDepth fuel mid isRoot lv dd = some (e, rest, dp) → lv = level →
        ∃ passed, str = passed ++ rest ∧ (∀ c ∈ passed, c ≠ 0) ∧ deepest ≤ dp
          ∧ (dp ≤ deepest ∨ dp ≤ level + passed.count BLOCK_BEGIN) := by
      intro mid pm hpm hnm lv dd hd1 hd2 _ hrun hlv
      subst hlv
      obtain ⟨p2, hp2, hn2, hd3, hd4⟩ := ih mid isRoot lv dd e rest dp hrun
      refine ⟨pm ++ p2, by rw [hpm, hp2, List.append_assoc], ?_, by omega, ?_⟩
      · intro c hc
        rcases List.mem_append.1 hc with hc | hc
        · exact hnm c hc
        · exact hn2 c hc
      · rw [List.count_append]
        omega
    have stop : ∀ (pos : List Nat), Within str pos → e = e → rest = pos → dp = deepest →
        ∃ passed, str = passed ++ rest ∧ (∀ c ∈ passed, c ≠ 0) ∧ deepest ≤ dp
          ∧ (dp ≤ deepest ∨ dp ≤ level + passed.count BLOCK_BEGIN) := by
      intro pos hw _ hr hd
      obtain ⟨p, hp, hn⟩ := hw
      exact ⟨p, by rw [hr]; exact hp, hn, by omega, Or.inl (by omega)⟩
    have hsk : Within str (SkipWhitespace str) := ⟨p0, hp0, hn0⟩
    cases hk : parseKey (SkipWhitespace str) isRoot with
    | ret e1 s =>
      rw [hk] at h hkw
      simp only [Option.some.injEq, Prod.mk.injEq] at h
      exact stop s (within_trans _ _ _ hsk hkw) rfl h.2.1.symm h.2.2.symm
    | done s =>
      rw [hk] at h hkw
      simp only [Option.some.injEq, Prod.mk.injEq] at h
      exact stop s (within_trans _ _ _ hsk hkw) rfl h.2.1.symm h.2.2.symm
    | key s pairkey =>
      rw [hk] at h hkw
      simp only at h hkw
      have hv : Within str (SkipWhitespace s) :=
        within_trans _ _ _ (within_trans _ _ _ hsk hkw) (SkipWhitespace_within s)
      split_ifs at h with c1 c2 c3 c4
      · obtain ⟨hq, _, _⟩ := ReadQuotedString_within (SkipWhitespace s) c1
        rcases hr : ReadQuotedString (SkipWhitespace s) with ⟨e1, s1, v1⟩
        rw [hr] at h hq
        obtain ⟨pm, hpm, hnm⟩ := within_trans _ _ _ hv hq
        cases e1 with
        | NONE =>
          exact step s1 pm hpm hnm level deepest (Nat.le_refl _) (Or.inl (Nat.le_refl _))
            (by omega) h rfl
        | _ =>
          simp only [Option.some.injEq, Prod.mk.injEq] at h
          exact stop s1 ⟨pm, hpm, hnm⟩ rfl h.2.1.symm h.2.2.symm
      · have hs : SkipWhitespace s = BLOCK_BEGIN :: (SkipWhitespace s).tail := by
          have := peek_cons_of_ne_zero (SkipWhitespace s) (by rw [c2]; decide)
          rw [c2] at this
          exact this
        obtain ⟨pv, hpv, hnv⟩ := hv
        have hpm : str = (pv ++ [BLOCK_BEGIN]) ++ (SkipWhitespace s).tail := by
          rw [List.append_assoc, List.singleton_append, ← hs]
          exact hpv
        have hnm : ∀ c ∈ pv ++ [BLOCK_BEGIN], c ≠ 0 := by
          intro c hc
          rcases List.mem_append.1 hc with hc | hc
          · exact hnv c hc
          · rw [List.mem_singleton.1 hc]; decide
        have hcount : (pv ++ [BLOCK_BEGIN]).count BLOCK_BEGIN = pv.count BLOCK_BEGIN + 1 := by
          simp [List.count_append]
        cases hd : KeyValue.ParseDepth fuel (SkipWhitespace s).tail false (level + 1)
            (max deepest (level + 1)) with
        | none => rw [hd] at h; cases h
        | some r =>
          obtain ⟨e2, s2, d2⟩ := r
          rw [hd] at h
          simp only at h
          obtain ⟨p2, hp2, hn2, hd3, hd4⟩ := ih _ false (level + 1) _ e2 s2 d2 hd
          have hpm2 : str = (pv ++ [BLOCK_BEGIN] ++ p2) ++ s2 := by
            rw [List.append_assoc, ← hp2]
            exact hpm
          have hnm2 : ∀ c ∈ pv ++ [BLOCK_BEGIN] ++ p2, c ≠ 0 := by
            intro c hc
            rcases List.mem_append.1 hc with hc | hc
            · exact hnm c hc
            · exact hn2 c hc
          have hcount2 : (pv ++ [BLOCK_BEGIN] ++ p2).count BLOCK_BEGIN
              = pv.count BLOCK_BEGIN + 1 + p2.count BLOCK_BEGIN := by
            rw [List.count_append, hcount]
          have hmax : deepest ≤ max deepest (level + 1) := Nat.le_max_left _ _
          have hmax2 : max deepest (level + 1) ≤ deepest
              ∨ max deepest (level + 1) = level + 1 := by
            rcases Nat.le_total deepest (level + 1) with hx | hx
            · exact Or.inr (Nat.max_eq_right hx)
            · exact Or.inl (by rw [Nat.max_eq_left hx])
          split_ifs at h with he
          · refine step s2 _ hpm2 hnm2 level d2 (by omega) ?_ (by omega) h rfl
            rw [hcount2]
            rcases hd4 with hd4 | hd4
            · rcases hmax2 with hm | hm
              · exact Or.inl (by omega)
              · exact Or.inr (by omega)
            · exact Or.inr (by omega)
          · simp only [Option.some.injEq, Prod.mk.injEq] at h
            obtain ⟨_, hr, hdp⟩ := h
            refine ⟨_, by rw [← hr]; exact hpm2, hnm2, by omega, ?_⟩
            rw [hcount2]
            rcases hd4 with hd4 | hd4
            · rcases hmax2 with hm | hm
              · exact Or.inl (by omega)
              · exact Or.inr (by omega)
            · exact Or.inr (by omega)
      · simp only [Option.some.injEq, Prod.mk.injEq] at h
        exact stop _ hv rfl h.2.1.symm h.2.2.symm
      · simp only [Option.some.injEq, Prod.mk.injEq] at h
        exact stop _ hv rfl h.2.1.symm h.2.2.symm
      · obtain ⟨pm, hpm, hnm⟩ :=
          within_trans _ _ _ hv (ReadQuotelessString_within (SkipWhitespace s))
        exact step _ pm hpm hnm level deepest (Nat.le_refl _) (Or.inl (Nat.le_refl _))
          (by omega) h rfl

/-- The key of an iteration that goes on: the position has moved, and a key read without
quotes is not empty. -/
theorem parseKey_progress (str : List Nat) (isRoot : Bool) (s pairkey : List Nat)
    (hk : parseKey (SkipWhitespace str) isRoot = KeyStep.key s pairkey) :
    s.length < str.length ∧ Within str s
      ∧ (peek (SkipWhitespace str) ≠ STRING_CONTAINER → pairkey ≠ []) := by
  have hl := parseKey_length str isRoot
  have hw := parseKey_within (SkipWhitespace str) isRoot
  rw [hk] at hl hw
  refine ⟨hl, within_trans _ _ _ (SkipWhitespace_within str) hw, ?_⟩
  intro hq
  obtain ⟨_, h1, h2⟩ := SkipWhitespace_spec str
  unfold parseKey at hk
  simp only [if_neg hq] at hk
  split_ifs at hk with c1 c2 c3 c4 c5
  injection hk with _ hkey
  rw [← hkey]
  exact (ReadQuotelessString_progress _ h1 h2 c3 hq c5 c1).2

/-- The value of an iteration read without quotes is not empty. -/
theorem value_progress (s : List Nat) (hq : peek (SkipWhitespace s) ≠ STRING_CONTAINER)
    (hb : peek (SkipWhitespace s) ≠ BLOCK_BEGIN) (h0 : peek (SkipWhitespace s) ≠ 0)
    (he : peek (SkipWhitespace s) ≠ BLOCK_END) :
    (ReadQuotelessString (SkipWhitespace s)).2.length < (SkipWhitespace s).length
      ∧ (ReadQuotelessString (SkipWhitespace s)).1 ≠ [] := by
  obtain ⟨_, h1, h2⟩ := SkipWhitespace_spec s
  exact ReadQuotelessString_progress _ h1 h2 h0 hq hb he

theorem count_le_of_append (passed rest : List Nat) (c : Nat) :
    passed.count c ≤ (passed ++ rest).count c := by
  rw [List.count_append]
  omega

/-- C22. `Parse` always terminates and stays inside the input.  For every input `str`
(the bytes from the position of the call on; beyond them the terminating NUL):
`SkipWhitespace`, `ReadQuotedString` (called at a quote, as the parser calls it) and
`ReadQuotelessString` leave a position that is reached by moving forward over bytes other
than NUL (`Within`); an iteration of the parser loop that has read its key has moved the
position by one byte at least, a key read without quotes is not empty, and neither is a
value read without quotes; and `KeyValue::Parse` returns a code and a position: with the
fuel `str.length + 1`, and with any larger fuel the same, the position it leaves is inside
the input, and the calls of `Parse` nest no deeper than the number of `{` bytes of the
input. -/
theorem C22_parse_terminates_in_bounds (str : List Nat) (isRoot : Bool)
    (children : List KeyValue) (lastKV : Bool) (childCount bufferSize : Nat) :
    Within str (SkipWhitespace str)
      ∧ (peek str = STRING_CONTAINER →
          Within str (ReadQuotedString str).2.1
            ∧ (ReadQuotedString str).2.1.length < str.length)
      ∧ Within str (ReadQuotelessString str).2
      ∧ (∀ s pairkey, parseKey (SkipWhitespace str) isRoot = KeyStep.key s pairkey →
          s.length < str.length ∧ Within str s
            ∧ (peek (SkipWhitespace str) ≠ STRING_CONTAINER → pairkey ≠ [])
            ∧ (peek (SkipWhitespace s) ≠ STRING_CONTAINER →
                peek (SkipWhitespace s) ≠ BLOCK_BEGIN → peek (SkipWhitespace s) ≠ 0 →
                peek (SkipWhitespace s) ≠ BLOCK_END →
                (ReadQuotelessString (SkipWhitespace s)).2.length < (SkipWhitespace s).length
                  ∧ (ReadQuotelessString (SkipWhitespace s)).1 ≠ []))
      ∧ (∃ r depth,
          KeyValue.Parse (str.length + 1) str isRoot children lastKV childCount bufferSize
              = some r
            ∧ (∀ fuel, str.length < fuel →
                KeyValue.Parse fuel str isRoot children lastKV childCount bufferSize = some r)
            ∧ KeyValue.ParseDepth (str.length + 1) str isRoot 0 0
                = some (r.error, r.str, depth)
            ∧ Within str r.str
            ∧ depth ≤ str.count BLOCK_BEGIN) := by
  refine ⟨SkipWhitespace_within str, ?_, ReadQuotelessString_within str, ?_, ?_⟩
  · intro hq
    obtain ⟨h1, _, h3⟩ := ReadQuotedString_within str hq
    exact ⟨h1, h3⟩
  · intro s pairkey hk
    obtain ⟨h1, h2, h3⟩ := parseKey_progress str isRoot s pairkey hk
    exact ⟨h1, h2, h3, value_progress s⟩
  · obtain ⟨r, hr, _⟩ := Parse_total (str.length + 1) str isRoot children lastKV childCount
      bufferSize (Nat.lt_succ_self _)
    have hag := ParseDepth_agree (str.length + 1) str isRoot children lastKV childCount
      bufferSize 0 0
    rw [hr] at hag
    cases hd : KeyValue.ParseDepth (str.length + 1) str isRoot 0 0 with
    | none => rw [hd] at hag; cases hag
    | some x =>
      obtain ⟨e, rest, depth⟩ := x
      rw [hd] at hag
      simp only [Option.map_some', Option.some.injEq, Prod.mk.injEq] at hag
      obtain ⟨he, hrest⟩ := hag
      obtain ⟨passed, hp, hn, _, hdp⟩ := ParseDepth_spec _ str isRoot 0 0 e rest depth hd
      refine ⟨r, depth, hr, ?_, by rw [he, hrest], ⟨passed, by rw [hrest]; exact hp, hn⟩, ?_⟩
      · intro fuel hf
        exact Parse_mono _ fuel (by omega) _ _ _ _ _ _ _ hr
      · have hc := count_le_of_append passed rest BLOCK_BEGIN
        rw [← hp] at hc
        omega

/-- The parser on `A { B { C 1 } }`, on `A {` and on `A "1`: the codes, the positions
left (the end of the input) and the depth of the calls. -/
theorem ParseDepth_examples :
    KeyValue.ParseDepth 16 [65, 32, 123, 32, 66, 32, 123, 32, 67, 32, 49, 32, 125, 32, 125] true
        0 0 = some (KeyValueErrorCode.NONE, [], 2)
      ∧ KeyValue.ParseDepth 4 [65, 32, 123] true 0 0
        = some (KeyValueErrorCode.INCOMPLETE_BLOCK, [], 1)
      ∧ KeyValue.ParseDepth 5 [65, 32, 34, 49] true 0 0
        = some (KeyValueErrorCode.INCOMPLETE_STRING, [], 0) := by
  decide

end SpeedyKeyV
